import Mathlib

/-!
# 6502 netlist simulator: the recalc engine of `src/cpu/cpu.go`

A shallow embedding of the CPU type of `cpu.go` and of the functions that settle the
transistor network (`getNodeValue`, `addSubNodesToGroup`, `recalcNode`,
`turnTransistorOn`, `turnTransistorOff`, `recalcNodeList`, `setLow`, `setHigh`, `Reset`,
`readAddressBus`, `readDataBus`, `handleBusRead`, `handleBusWrite`, `HalfStep`).

Conventions of the embedding.

* A `*Node` is represented by its index in `c.nodes`; `setupNodes` and
  `connectTransistors` create every node with `ID` equal to that index, so `node.ID`
  in the source is the index here. A `*Transistor` is represented by its key in
  `c.transistors`.
* `c.nodes` is a Go array of `NodeDefCount` pointers: `getNode` returns `none` for an
  index outside the array and for a nil entry. Every function returns `none` where
  the Go code panics (index out of range, nil dereference).
* Go ranges over a `map` in an unspecified order. The worklists of `recalcNodeList`
  are lists of keys without duplicates, and every function that runs the engine
  takes an `order : List Nat → List Nat` that picks the order of the visit.
* `recalcNodeList` has no round limit in the source; here it takes the number of
  rounds it may run and returns `none` when they are used up. The recursion of
  `addSubNodesToGroup` is bounded by `groupFuel`.
* The host callbacks are modelled by a call log: `readFromBus` gives the byte the
  host returns, as a function of the calls made so far and the address.
* The memories of `memory.go`, the bus handlers of `motherboard.go` and the ROM
  initialisation of `main.go` follow the definitions of the engine: a memory is the
  list of its bytes, and `Read` and `Write` return `none` where the index expression
  of the source panics.
-/

namespace Netsim

/-! ## `types.go` -/

def NodeGND : Nat := 558
def NodePWR : Nat := 657
def NodeCLK0 : Nat := 1171
def NodeRDY : Nat := 89
def NodeSO : Nat := 1672
def NodeNMI : Nat := 1297
def NodeIRQ : Nat := 103
def NodeRES : Nat := 159
def NodeRW : Nat := 1156
def NodeDefCount : Nat := 1725

/-- Transistor of `types.go` (its `ID` is its key in `CPU.transistors`). -/
structure Transistor where
  GateNodeID : Nat
  C1NodeID : Nat
  C2NodeID : Nat
  On : Bool
deriving DecidableEq

/-- Node of `types.go` (its `ID` is its index in `CPU.nodes`); the two transistor
slices hold transistor keys. -/
structure Node where
  State : Bool
  PullUp : Bool
  PullDown : Int
  GateTransistors : List Int
  C1C2Transistors : List Int
  InNodeGroup : Bool
deriving DecidableEq

/-- Data lines D0..D7 of `types.go`, as (bit, node id). -/
def DataLineVals : List (Nat × Nat) :=
  [(0, 1005), (1, 82), (2, 945), (3, 650), (4, 1393), (5, 175), (6, 1591), (7, 1349)]

/-- Address lines A0..A15 of `types.go`, as (bit, node id). -/
def AddressLineVals : List (Nat × Nat) :=
  [(0, 268), (1, 451), (2, 1340), (3, 211), (4, 435), (5, 736), (6, 887), (7, 1493),
   (8, 230), (9, 148), (10, 1443), (11, 399), (12, 1237), (13, 349), (14, 672), (15, 195)]

/-- One invocation of a host callback. -/
inductive BusCall where
  | read (address : Nat)
  | write (address : Nat) (data : Nat)
deriving DecidableEq

/-- The CPU struct of `cpu.go`. `busLog` records the callback invocations and
`readFromBus` is the host's answer to a read, given the calls made before it. -/
structure CPU where
  transistors : Int → Option Transistor
  nodes : Nat → Option Node
  gndNode : Option Nat
  pwrNode : Option Nat
  recalcNodeGroup : List Nat
  readFromBus : List BusCall → Nat → Nat
  busLog : List BusCall
  addressBits : Nat
  dataBits : Nat

/-- The expression `c.nodes[i]` followed by a dereference. -/
def CPU.getNode (c : CPU) (i : Nat) : Option Node :=
  if i < NodeDefCount then c.nodes i else none

/-- Write through the pointer `c.nodes[i]`. -/
def CPU.setNode (c : CPU) (i : Nat) (n : Node) : CPU :=
  { c with nodes := fun j => if j = i then some n else c.nodes j }

/-- Write through a transistor pointer. -/
def CPU.setTransistor (c : CPU) (k : Int) (t : Transistor) : CPU :=
  { c with transistors := fun j => if j = k then some t else c.transistors j }

/-- The assignment `recalcList[id] = c.nodes[id]`: indexing the array panics outside
its bounds, and a key that is present is not added again. -/
def enqueue (recalcList : List Nat) (id : Nat) : Option (List Nat) :=
  if id < NodeDefCount then
    some (if id ∈ recalcList then recalcList else recalcList ++ [id])
  else none

/-- Bound on the recursion depth of `addSubNodesToGroup`: every nested call that
does not return at once marks a node that was not marked. -/
def groupFuel : Nat := NodeDefCount + 1

/-! ## The group resolver -/

/-- The loop of `getNodeValue` over `c.recalcNodeGroup`. -/
def getNodeValueLoop (c : CPU) : List Nat → Option Bool
  | [] => some false
  | id :: rest =>
    match c.getNode id with
    | none => none
    | some node =>
      if node.PullUp then some true
      else if node.PullDown = 1 then some false
      else if node.State then some true
      else getNodeValueLoop c rest

/-- Function `getNodeValue` of `cpu.go`. -/
def getNodeValue (c : CPU) : Option Bool :=
  match c.gndNode.bind c.getNode with
  | none => none
  | some gnd =>
    if gnd.InNodeGroup then some false
    else
      match c.pwrNode.bind c.getNode with
      | none => none
      | some pwr =>
        if pwr.InNodeGroup then some true
        else getNodeValueLoop c c.recalcNodeGroup

/-- Function `addSubNodesToGroup` of `cpu.go`; the first argument bounds the depth of
the recursion. -/
def addSubNodesToGroup : Nat → CPU → Nat → Option CPU
  | 0, _, _ => none
  | fuel + 1, c, id =>
    match c.getNode id with
    | none => none
    | some node =>
      if node.InNodeGroup then some c
      else
        let c1 : CPU :=
          { (c.setNode id { node with InNodeGroup := true }) with
            recalcNodeGroup := c.recalcNodeGroup ++ [id] }
        if id = NodeGND ∨ id = NodePWR then some c1
        else
          node.C1C2Transistors.foldlM
            (fun (acc : CPU) (k : Int) =>
              match acc.transistors k with
              | none => none
              | some tr =>
                if tr.On = false then some acc
                else
                  addSubNodesToGroup fuel acc
                    (if tr.C1NodeID = id then tr.C2NodeID else tr.C1NodeID))
            c1

/-! ## The recalc engine -/

/-- Function `turnTransistorOn` of `cpu.go`. -/
def turnTransistorOn (c : CPU) (k : Int) (recalcList : List Nat) : Option (CPU × List Nat) :=
  match c.transistors k with
  | none => none
  | some tr =>
    if tr.On then some (c, recalcList)
    else
      let c1 := c.setTransistor k { tr with On := true }
      if tr.C1NodeID ≠ NodeGND ∧ tr.C1NodeID ≠ NodePWR then
        (enqueue recalcList tr.C1NodeID).map (fun l => (c1, l))
      else some (c1, recalcList)

/-- Function `turnTransistorOff` of `cpu.go`. -/
def turnTransistorOff (c : CPU) (k : Int) (recalcList : List Nat) : Option (CPU × List Nat) :=
  match c.transistors k with
  | none => none
  | some tr =>
    if tr.On = false then some (c, recalcList)
    else
      let c1 := c.setTransistor k { tr with On := false }
      match
        (if tr.C1NodeID ≠ NodeGND ∧ tr.C1NodeID ≠ NodePWR then
          enqueue recalcList tr.C1NodeID
        else some recalcList) with
      | none => none
      | some l1 =>
        if tr.C2NodeID ≠ NodeGND ∧ tr.C2NodeID ≠ NodePWR then
          (enqueue l1 tr.C2NodeID).map (fun l => (c1, l))
        else some (c1, l1)

/-- The inner loop of `recalcNode` over `n.GateTransistors`. -/
def toggleGates (newState : Bool) (st : CPU × List Nat) (gates : List Int) :
    Option (CPU × List Nat) :=
  gates.foldlM
    (fun (acc : CPU × List Nat) (k : Int) =>
      if newState then turnTransistorOn acc.1 k acc.2 else turnTransistorOff acc.1 k acc.2)
    st

/-- One iteration of the loop of `recalcNode` over `c.recalcNodeGroup`. -/
def writeBack (newState : Bool) (st : CPU × List Nat) (id : Nat) : Option (CPU × List Nat) :=
  match st.1.getNode id with
  | none => none
  | some n =>
    let c1 := st.1.setNode id { n with InNodeGroup := false }
    if n.State = newState then some (c1, st.2)
    else
      toggleGates newState
        (st.1.setNode id { n with InNodeGroup := false, State := newState }, st.2)
        n.GateTransistors

/-- Function `recalcNode` of `cpu.go`: the state and the worklist `recalcList` it
leaves. -/
def recalcNode (c : CPU) (id : Nat) (recalcList : List Nat) : Option (CPU × List Nat) :=
  match c.getNode id with
  | none => none
  | some _ =>
    if id = NodeGND ∨ id = NodePWR then some (c, recalcList)
    else
      match addSubNodesToGroup groupFuel { c with recalcNodeGroup := [] } id with
      | none => none
      | some c1 =>
        match getNodeValue c1 with
        | none => none
        | some newState => c1.recalcNodeGroup.foldlM (writeBack newState) (c1, recalcList)

/-- One round of the loop of `recalcNodeList`: `nextList` is emptied and the nodes of
the current list are recalculated in the order `visit`. -/
def recalcRound (c : CPU) (visit : List Nat) : Option (CPU × List Nat) :=
  visit.foldlM (fun (acc : CPU × List Nat) (id : Nat) => recalcNode acc.1 id acc.2) (c, [])

/-- Function `recalcNodeList` of `cpu.go`, run for at most `rounds` rounds. -/
def recalcNodeList (order : List Nat → List Nat) : Nat → CPU → List Nat → Option CPU
  | _, c, [] => some c
  | 0, _, _ :: _ => none
  | rounds + 1, c, id :: rest =>
    match recalcRound c (order (id :: rest)) with
    | none => none
    | some (c1, next) => recalcNodeList order rounds c1 next

/-- State and worklist after `k` rounds of the loop of `recalcNodeList`; the loop has
exited when the worklist is empty, and the state then stays as it is. -/
def recalcRounds (order : List Nat → List Nat) : Nat → CPU → List Nat → Option (CPU × List Nat)
  | 0, c, l => some (c, l)
  | _ + 1, c, [] => some (c, [])
  | k + 1, c, id :: rest =>
    match recalcRound c (order (id :: rest)) with
    | none => none
    | some (c1, next) => recalcRounds order k c1 next

/-- Function `setLow` of `cpu.go`. -/
def setLow (order : List Nat → List Nat) (rounds : Nat) (c : CPU) (id : Nat) : Option CPU :=
  match c.getNode id with
  | none => none
  | some node =>
    recalcNodeList order rounds (c.setNode id { node with PullUp := false, PullDown := 1 }) [id]

/-- Function `setHigh` of `cpu.go`. -/
def setHigh (order : List Nat → List Nat) (rounds : Nat) (c : CPU) (id : Nat) : Option CPU :=
  match c.getNode id with
  | none => none
  | some node =>
    recalcNodeList order rounds (c.setNode id { node with PullUp := true, PullDown := 0 }) [id]


/-! ## Clock, reset and bus -/

/-- The first loop of `Reset`, the assignments to `gndNode` and `pwrNode` and the loop
over the transistors (the statements before `clk0 := c.nodes[NodeCLK0]`). -/
def resetInit (c : CPU) : Option CPU :=
  let c1 : CPU :=
    { c with
      nodes := fun i =>
        if i < NodeDefCount then
          (c.nodes i).map (fun n => { n with State := false, InNodeGroup := false })
        else c.nodes i }
  match c1.getNode NodeGND with
  | none => none
  | some gnd =>
    let c2 : CPU := { (c1.setNode NodeGND { gnd with State := false }) with gndNode := some NodeGND }
    match c2.getNode NodePWR with
    | none => none
    | some pwr =>
      let c3 : CPU :=
        { (c2.setNode NodePWR { pwr with State := true }) with pwrNode := some NodePWR }
      some
        { c3 with
          transistors := fun k => (c3.transistors k).map (fun t => { t with On := false }) }

/-- The keys of the map `allNodes` built by `Reset`. -/
def allNodes (c : CPU) : List Nat :=
  (List.range NodeDefCount).filter (fun i => (c.nodes i).isSome)

/-- The loops `for i := 0; i < n; i++ { c.setHigh(clk0); c.setLow(clk0) }` of `Reset`. -/
def clockCycles (order : List Nat → List Nat) (rounds : Nat) : Nat → CPU → Option CPU
  | 0, c => some c
  | n + 1, c =>
    (setHigh order rounds c NodeCLK0).bind fun c1 =>
    (setLow order rounds c1 NodeCLK0).bind fun c2 =>
    clockCycles order rounds n c2

/-- Function `Reset` of `cpu.go`. -/
def Reset (order : List Nat → List Nat) (rounds : Nat) (c : CPU) : Option CPU :=
  (resetInit c).bind fun c0 =>
  (setLow order rounds c0 NodeRES).bind fun c1 =>
  (setLow order rounds c1 NodeCLK0).bind fun c2 =>
  (setHigh order rounds c2 NodeRDY).bind fun c3 =>
  (setLow order rounds c3 NodeSO).bind fun c4 =>
  (setHigh order rounds c4 NodeIRQ).bind fun c5 =>
  (setHigh order rounds c5 NodeNMI).bind fun c6 =>
  (recalcNodeList order rounds c6 (allNodes c6)).bind fun c7 =>
  (clockCycles order rounds 8 c7).bind fun c8 =>
  (setHigh order rounds c8 NodeRES).bind fun c9 =>
  clockCycles order rounds 6 c9

/-- The loops of `readAddressBus` and `readDataBus`: the bits of the lines whose node
has `State` true, combined with `|=`. -/
def readLines (c : CPU) : List (Nat × Nat) → Option Nat
  | [] => some 0
  | (bit, nodeID) :: rest =>
    match c.getNode nodeID with
    | none => none
    | some node =>
      (readLines c rest).map (fun v => if node.State then v ||| (1 <<< bit) else v)

/-- Function `readAddressBus` of `cpu.go`: the new state and the address. -/
def readAddressBus (c : CPU) : Option (CPU × Nat) :=
  (readLines c AddressLineVals).map (fun a => ({ c with addressBits := a }, a))

/-- Function `readDataBus` of `cpu.go`: the new state and the byte. -/
def readDataBus (c : CPU) : Option (CPU × Nat) :=
  (readLines c DataLineVals).map (fun d => ({ c with dataBits := d }, d))

/-- The loop of `handleBusRead` over `DataLineVals`: the pulls of the data nodes are
set from the bits of `data`. -/
def driveData (data : Nat) (c : CPU) : List (Nat × Nat) → Option CPU
  | [] => some c
  | (bit, nodeID) :: rest =>
    match c.getNode nodeID with
    | none => none
    | some node =>
      driveData data
        (c.setNode nodeID
          (if data &&& (1 <<< bit) ≠ 0 then { node with PullDown := 0, PullUp := true }
           else { node with PullDown := 1, PullUp := false }))
        rest

/-- Function `handleBusRead` of `cpu.go`. -/
def handleBusRead (order : List Nat → List Nat) (rounds : Nat) (c : CPU) : Option CPU :=
  match c.getNode NodeRW with
  | none => none
  | some rw =>
    if rw.State then
      (readAddressBus c).bind fun (c1, address) =>
      let data := c1.readFromBus c1.busLog address
      let c2 : CPU := { c1 with busLog := c1.busLog ++ [BusCall.read address] }
      (driveData data c2 DataLineVals).bind fun c3 =>
      recalcNodeList order rounds c3 (DataLineVals.map Prod.snd)
    else some c

/-- Function `handleBusWrite` of `cpu.go`. -/
def handleBusWrite (c : CPU) : Option CPU :=
  match c.getNode NodeRW with
  | none => none
  | some rw =>
    if rw.State = false then
      (readAddressBus c).bind fun (c1, address) =>
      (readDataBus c1).bind fun (c2, data) =>
      some { c2 with busLog := c2.busLog ++ [BusCall.write address data] }
    else some c

/-- Function `HalfStep` of `cpu.go`. -/
def HalfStep (order : List Nat → List Nat) (rounds : Nat) (c : CPU) : Option CPU :=
  match c.getNode NodeCLK0 with
  | none => none
  | some clk0 =>
    if clk0.State then
      (setLow order rounds c NodeCLK0).bind (handleBusRead order rounds)
    else
      (setHigh order rounds c NodeCLK0).bind handleBusWrite

/-! ## Loading the netlist (`New`) -/

/-- A transistor as `setupTransistors` stores it: the fields of a line of the
transistor file, the channel ids canonicalised. -/
structure TransDef where
  ID : Int
  GateNodeID : Int
  C1NodeID : Int
  C2NodeID : Int
deriving DecidableEq

/-- The two `if` statements of `setupTransistors` that move a supply from `c1` to
`c2`. -/
def canonicalise (c1 c2 : Int) : Int × Int :=
  let p : Int × Int := if c1 = (NodeGND : Int) then (c2, (NodeGND : Int)) else (c1, c2)
  if p.1 = (NodePWR : Int) then (p.2, (NodePWR : Int)) else p

/-- Function `setupTransistors` of `cpu.go` on the lines of the file, each given by
the values `strconv.Atoi` returns for its fields (comment and blank lines left out).
The result lists the entries of the map `c.transistors`. -/
def setupTransistors : List (List Int) → List TransDef → List TransDef
  | [], m => m
  | (id :: gate :: c1 :: c2 :: _) :: rest, m =>
    setupTransistors rest
      (m.filter (fun t => t.ID ≠ id) ++
        [{ ID := id, GateNodeID := gate,
           C1NodeID := (canonicalise c1 c2).1, C2NodeID := (canonicalise c1 c2).2 }])
  | _ :: rest, m => setupTransistors rest m

/-- The node literal of `setupNodes` and `connectTransistors`. -/
def newNode (pullUp : Bool) : Node :=
  { State := false, PullUp := pullUp, PullDown := -1, GateTransistors := [],
    C1C2Transistors := [], InNodeGroup := false }

/-- Function `setupNodes` of `cpu.go` on the lines of the segment file. -/
def setupNodes : List (List Int) → (Nat → Option Node) → Option (Nat → Option Node)
  | [], ns => some ns
  | (id :: pullup :: _) :: rest, ns =>
    if 0 ≤ id ∧ id < (NodeDefCount : Int) then
      setupNodes rest
        (if (ns id.toNat).isSome then ns
         else fun j => if j = id.toNat then some (newNode (pullup = 1)) else ns j)
    else none
  | _ :: rest, ns => setupNodes rest ns

/-- The statements of the loop of `connectTransistors` that create a missing node. -/
def ensureNode (ns : Nat → Option Node) (id : Int) : Option (Nat → Option Node) :=
  if 0 ≤ id ∧ id < (NodeDefCount : Int) then
    some (if (ns id.toNat).isSome then ns
          else fun j => if j = id.toNat then some (newNode false) else ns j)
  else none

/-- Body of the loop of `connectTransistors` for one transistor. -/
def connectOne (ns : Nat → Option Node) (t : TransDef) : Option (Nat → Option Node) :=
  (ensureNode ns t.GateNodeID).bind fun ns1 =>
  (ensureNode ns1 t.C1NodeID).bind fun ns2 =>
  (ensureNode ns2 t.C2NodeID).bind fun ns3 =>
  let ns4 : Nat → Option Node := fun j =>
    if j = t.GateNodeID.toNat then
      (ns3 j).map (fun n => { n with GateTransistors := n.GateTransistors ++ [t.ID] })
    else ns3 j
  let ns5 : Nat → Option Node := fun j =>
    if j = t.C1NodeID.toNat then
      (ns4 j).map (fun n => { n with C1C2Transistors := n.C1C2Transistors ++ [t.ID] })
    else ns4 j
  some fun j =>
    if j = t.C2NodeID.toNat then
      (ns5 j).map (fun n => { n with C1C2Transistors := n.C1C2Transistors ++ [t.ID] })
    else ns5 j

/-- Function `connectTransistors` of `cpu.go`, the transistors visited in the order
of the list. -/
def connectTransistors (ns : Nat → Option Node) : List TransDef → Option (Nat → Option Node)
  | [] => some ns
  | t :: rest => (connectOne ns t).bind fun ns1 => connectTransistors ns1 rest

/-- Function `New` of `cpu.go` on the contents of the two files; `visit` is the order
in which `connectTransistors` ranges over the map of transistors. -/
def New (readFromBus : List BusCall → Nat → Nat) (transDefs segDefs : List (List Int))
    (visit : List TransDef → List TransDef) : Option CPU :=
  let ts := setupTransistors transDefs []
  (setupNodes segDefs (fun _ => none)).bind fun ns =>
  (connectTransistors ns (visit ts)).map fun ns1 =>
    { transistors := fun k =>
        (ts.find? (fun t => t.ID = k)).map fun t =>
          { GateNodeID := t.GateNodeID.toNat, C1NodeID := t.C1NodeID.toNat,
            C2NodeID := t.C2NodeID.toNat, On := false }
      nodes := ns1
      gndNode := none
      pwrNode := none
      recalcNodeGroup := []
      readFromBus := readFromBus
      busLog := []
      addressBits := 0
      dataBits := 0 }

/-! ## Predicates and states used in the statements -/

/-- The state in which the nodes of `added` have been marked and appended to
`recalcNodeGroup`. -/
def markAll (c : CPU) (added : List Nat) : CPU :=
  { c with
    nodes := fun i =>
      (c.nodes i).map (fun n => { n with InNodeGroup := n.InNodeGroup || decide (i ∈ added) })
    recalcNodeGroup := c.recalcNodeGroup ++ added }

/-- What `addSubNodesToGroup` promises about the nodes it adds: each was an existing
node without the mark, and each is the seed or a channel terminal of a transistor. -/
def Added (c : CPU) (id : Nat) (added : List Nat) : Prop :=
  added.Nodup ∧ ∀ i ∈ added,
    (∃ n, c.getNode i = some n ∧ n.InNodeGroup = false) ∧
    (i = id ∨ ∃ k t, c.transistors k = some t ∧ (i = t.C1NodeID ∨ i = t.C2NodeID))

/-- The node `x` is a channel terminal of some transistor. -/
def Chan (c : CPU) (x : Nat) : Prop :=
  ∃ k t, c.transistors k = some t ∧ (x = t.C1NodeID ∨ x = t.C2NodeID)

/-- The worklist `l2` is `l1` with channel terminals added, none of them a supply. -/
def Enq (c : CPU) (l1 l2 : List Nat) : Prop :=
  (∀ x ∈ l1, x ∈ l2) ∧
  ∀ x ∈ l2, x ∈ l1 ∨ (Chan c x ∧ x < NodeDefCount ∧ x ≠ NodeGND ∧ x ≠ NodePWR)

/-- The state in which the transistors selected by `tog` have `On` equal to `v` and
the nodes of `grp` have `State` equal to `v` and no mark. -/
def written (c : CPU) (grp : List Nat) (v : Bool) (tog : Int → Bool) : CPU :=
  { c with
    nodes := fun i =>
      (c.nodes i).map (fun n =>
        if i ∈ grp then { n with State := v, InNodeGroup := false } else n)
    transistors := fun k =>
      (c.transistors k).map (fun t => if tog k then { t with On := v } else t) }

/-- The transistor `k` is on the gate list of a node of `grp` whose `State` is not `v`. -/
def chg (c : CPU) (grp : List Nat) (v : Bool) (k : Int) : Bool :=
  grp.any (fun i =>
    match c.nodes i with
    | some n => (n.State != v) && n.GateTransistors.contains k
    | none => false)

/-- The state `recalcNode` leaves when the group it built is `added` and resolves to
`v`. -/
def settled (c : CPU) (added : List Nat) (v : Bool) : CPU :=
  written { c with recalcNodeGroup := added } added v (chg c added v)

/-- The state in which `recalcNode` calls `getNodeValue`: the nodes of the group
`added` are marked. -/
def grouped (c : CPU) (added : List Nat) : CPU :=
  markAll { c with recalcNodeGroup := [] } added

/-- A property of the engine: kept by `recalcNode`, by a change of the pulls of a node
and by a change of the bus registers and of the call log. -/
structure EngineInv (P : CPU → Prop) : Prop where
  step : ∀ c id l c' l', P c → recalcNode c id l = some (c', l') → P c'
  pulls : ∀ c i n pu pd, P c → c.getNode i = some n →
    P (c.setNode i { n with PullUp := pu, PullDown := pd })
  regs : ∀ c a d lg, P c → P { c with addressBits := a, dataBits := d, busLog := lg }

/-- No node carries the mark `InNodeGroup`. -/
def NoMarks (c : CPU) : Prop :=
  ∀ i n, c.getNode i = some n → n.InNodeGroup = false

/-- The `State` of node `i` is `b` (and the node exists). -/
def StateIs (c : CPU) (i : Nat) (b : Bool) : Prop :=
  ∃ n, c.getNode i = some n ∧ n.State = b

/-- The pointers `gndNode` and `pwrNode` are the ones `Reset` stores. -/
def Supplied (c : CPU) : Prop :=
  c.gndNode = some NodeGND ∧ c.pwrNode = some NodePWR

/-- The group `recalcNode` builds for `id` contains both GND and VCC. -/
def shortGroup (c : CPU) (id : Nat) : Bool :=
  if id = NodeGND ∨ id = NodePWR then false
  else
    match addSubNodesToGroup groupFuel { c with recalcNodeGroup := [] } id with
    | some g => decide (NodeGND ∈ g.recalcNodeGroup) && decide (NodePWR ∈ g.recalcNodeGroup)
    | none => false

/-- No call of `recalcNode` in the round that visits `visit` builds a group with both
supplies. -/
def roundShortFree (c : CPU) (next : List Nat) : List Nat → Bool
  | [] => true
  | id :: rest =>
    !shortGroup c id &&
      (match recalcNode c id next with
       | none => true
       | some r => roundShortFree r.1 r.2 rest)

/-- No call of `recalcNode` in the first `rounds` rounds of `recalcNodeList` builds a
group with both supplies. -/
def runShortFree (order : List Nat → List Nat) : Nat → CPU → List Nat → Bool
  | _, _, [] => true
  | 0, _, _ :: _ => true
  | rounds + 1, c, id :: rest =>
    roundShortFree c [] (order (id :: rest)) &&
      (match recalcRound c (order (id :: rest)) with
       | none => true
       | some r => runShortFree order rounds r.1 r.2)

/-- The invariant behind C5: the supplies are linked, no node is marked and
`VCC.State` is true. -/
def PwrHigh (c : CPU) : Prop :=
  Supplied c ∧ NoMarks c ∧ ∀ n, c.getNode NodePWR = some n → n.State = true

/-- Function `HalfStep` called `n` times in succession. -/
def halfSteps (order : List Nat → List Nat) (rounds : Nat) : Nat → CPU → Option CPU
  | 0, c => some c
  | n + 1, c => (HalfStep order rounds c).bind (halfSteps order rounds n)

/-- The gate lists are the ones `connectTransistors` builds: every transistor is on
the `GateTransistors` list of its gate node, and that list only holds transistors
gated by the node. -/
def GateLists (c : CPU) : Prop :=
  (∀ k t, c.transistors k = some t →
    ∃ n, c.getNode t.GateNodeID = some n ∧ k ∈ n.GateTransistors) ∧
  (∀ i n, c.getNode i = some n → ∀ k ∈ n.GateTransistors,
    ∃ t, c.transistors k = some t ∧ t.GateNodeID = i)

/-- Every transistor whose gate is not VCC conducts exactly when its gate node is
high. -/
def GateInv (c : CPU) : Prop :=
  ∀ k t, c.transistors k = some t → t.GateNodeID ≠ NodePWR →
    ∀ n, c.getNode t.GateNodeID = some n → t.On = n.State

/-- The `GateTransistors` list of node `i`, empty when the node does not exist. -/
def gatesAt (ns : Nat → Option Node) (i : Nat) : List Int :=
  ((ns i).map Node.GateTransistors).getD []

/-- The channel lists only hold transistors that have the node as a channel terminal,
as `connectTransistors` builds them. -/
def ChanLists (c : CPU) : Prop :=
  ∀ i n, c.getNode i = some n → ∀ k ∈ n.C1C2Transistors,
    ∃ t, c.transistors k = some t ∧ (t.C1NodeID = i ∨ t.C2NodeID = i)

/-- The state is one the engine leaves between two calls: the supplies are linked, no
node is marked, and the channel lists are sound. -/
def Between (c : CPU) : Prop :=
  Supplied c ∧ NoMarks c ∧ ChanLists c

/-- The value a node resolves to when its group is the node alone. -/
def aloneValue (n : Node) : Bool :=
  if n.PullUp then true else if n.PullDown = 1 then false else n.State

/-- The invariant of C7: a state between two calls in which CLK0 is no channel
terminal of a transistor. -/
def ClockFree (c : CPU) : Prop :=
  Between c ∧ ¬ Chan c NodeCLK0

/-- The `C1C2Transistors` list of node `i`, empty when the node does not exist. -/
def chansAt (ns : Nat → Option Node) (i : Nat) : List Int :=
  ((ns i).map Node.C1C2Transistors).getD []

/-- The dominance order of the specification (section 4.2), on the members `grp` of a
group: GND, then VCC, then a pull-up on any member, then a pull-down on any member,
then stored charge on any member. -/
def dominanceValue (c : CPU) (grp : List Nat) : Bool :=
  if NodeGND ∈ grp then false
  else if NodePWR ∈ grp then true
  else if grp.any (fun i => (c.getNode i).any (fun n => n.PullUp)) then true
  else if grp.any (fun i => (c.getNode i).any (fun n => decide (n.PullDown = 1))) then false
  else if grp.any (fun i => (c.getNode i).any (fun n => n.State)) then true
  else false

/-- The node has a pull-up, a pull-down or stored charge. -/
def decides (c : CPU) (i : Nat) : Bool :=
  (c.getNode i).any (fun n => n.PullUp || decide (n.PullDown = 1) || n.State)

/-- The value read from the first member of `grp`, in the order of the list, that has
a pull-up, a pull-down or stored charge: true for a pull-up, else false for a
pull-down, else true; false when no member has any. -/
def firstDecided (c : CPU) (grp : List Nat) : Bool :=
  match grp.find? (decides c) with
  | none => false
  | some i => (c.getNode i).any (fun n => n.PullUp || !decide (n.PullDown = 1))

/-- The value of a group `grp` in its order of visit: false with GND in it, else true
with VCC in it, else the value of the first member that decides. -/
def firstMatchValue (c : CPU) (grp : List Nat) : Bool :=
  if NodeGND ∈ grp then false
  else if NodePWR ∈ grp then true
  else firstDecided c grp

/-- The fields of the state that a recalculation can only rewrite, never create: a
missing node or transistor stays missing, and the other fields stay as they are. -/
def SameFrame (c d : CPU) : Prop :=
  (∀ i, c.nodes i = none → d.nodes i = none) ∧
  (∀ k, c.transistors k = none → d.transistors k = none) ∧
  d.gndNode = c.gndNode ∧ d.pwrNode = c.pwrNode ∧ d.readFromBus = c.readFromBus ∧
  d.busLog = c.busLog ∧ d.addressBits = c.addressBits ∧ d.dataBits = c.dataBits

/-- A CPU without nodes or transistors, the value of `&CPU{}` before the loaders
run. -/
def blank : CPU :=
  { transistors := fun _ => none, nodes := fun _ => none, gndNode := none, pwrNode := none,
    recalcNodeGroup := [], readFromBus := fun _ _ => 0, busLog := [], addressBits := 0,
    dataBits := 0 }

/-- The host that answers every read with 0. -/
def zeroHost : List BusCall → Nat → Nat := fun _ _ => 0

/-- A segment file that declares the nodes of the list without pull-up. -/
def plainSegs (ids : List Nat) : List (List Int) :=
  ids.map (fun i => [(i : Int), 0])

/-- Ring oscillator: node 1 has a pull-up and gates transistor 0, which joins node 1
to GND. Loaded by `New`, then the first statements of `Reset`. -/
def oscLoaded : Option CPU :=
  (New zeroHost [[0, 1, 1, 558]] [[1, 1], [558, 0], [657, 0]] id).bind resetInit

def oscState : CPU := oscLoaded.getD blank

/-- The oscillator after one round on the worklist {1}. -/
def oscOn : CPU := ((recalcRounds id 1 oscState [1]).getD (blank, [])).1

/-- The oscillator after two more rounds. -/
def oscBack : CPU := ((recalcRounds id 2 oscOn [1]).getD (blank, [])).1

/-- The supplies and the six control nodes that `Reset` drives. -/
def ctlNodes : List Nat :=
  [NodeGND, NodePWR, NodeRES, NodeCLK0, NodeRDY, NodeSO, NodeIRQ, NodeNMI]

/-- One transistor, gated by IRQ, joins CLK0 and RDY. -/
def conflictNet : Option CPU :=
  New zeroHost [[0, 103, 1171, 89]] (plainSegs ctlNodes) id

/-- The netlist `conflictNet` after the first statements of `Reset` and after CLK0
has been driven low, RDY high and IRQ high: the transistor conducts, CLK0 has a
pull-down and RDY a pull-up. -/
def conflictRun : Option CPU :=
  ((((conflictNet.bind resetInit).bind fun c => setLow id 100 c NodeCLK0).bind
    fun c => setHigh id 100 c NodeRDY).bind fun c => setHigh id 100 c NodeIRQ)

def conflictState : CPU := conflictRun.getD blank

/-- The netlist `conflictNet` after `Reset`. -/
def conflictReset : CPU := (conflictNet.bind (Reset id 100)).getD blank

/-- The group `addSubNodesToGroup` builds in `conflictState` from the seed CLK0. -/
def conflictGroup : CPU :=
  (addSubNodesToGroup groupFuel { conflictState with recalcNodeGroup := [] } NodeCLK0).getD blank

/-- One transistor, gated by VCC, joins the nodes 1 and 2. -/
def vccGateNet : Option CPU :=
  New zeroHost [[0, 657, 1, 2]] (plainSegs ctlNodes) id

def vccGateReset : CPU := (vccGateNet.bind (Reset id 100)).getD blank

/-- Two transistors gated by IRQ join node 1 to GND and to VCC. -/
def shortNet : Option CPU :=
  New zeroHost [[0, 103, 1, 558], [1, 103, 1, 657]] (plainSegs ctlNodes) id

/-- The netlist `shortNet` after the first statements of `Reset`, IRQ driven high and
one round of the engine: both transistors conduct and node 1 is on the worklist. -/
def shortRun : Option (CPU × List Nat) :=
  ((shortNet.bind resetInit).bind fun c =>
    (c.getNode NodeIRQ).map fun n =>
      c.setNode NodeIRQ { n with PullUp := true, PullDown := 0 }).bind
    fun c => recalcRounds id 1 c [NodeIRQ]

def shortState : CPU := (shortRun.getD (blank, [])).1

/-- The host that answers every read with 1. -/
def oneHost : List BusCall → Nat → Nat := fun _ _ => 1

/-- A segment file with the supplies, the control nodes, the address and data nodes,
and the R/W node with a pull-up. -/
def busSegs : List (List Int) :=
  [(1156 : Int), 1] ::
    plainSegs (ctlNodes ++ AddressLineVals.map Prod.snd ++ DataLineVals.map Prod.snd)

/-- One transistor, gated by the data node D0, joins CLK0 to VCC; the host answers
every read with 1. -/
def clkLatchNet : Option CPU :=
  New oneHost [[0, 1005, 1171, 657]] busSegs id

def clkLatchReset : Option CPU := clkLatchNet.bind (Reset id 100)

/-- One transistor, gated by CLK0, joins the data node D0 to GND. -/
def clkGateNet : Option CPU :=
  New zeroHost [[0, 1171, 1005, 558]] busSegs id

def clkGateLoaded : CPU := clkGateNet.getD blank

/-- The netlist `clkGateNet` after the first statements of `Reset`. -/
def clkGateStart : CPU := (resetInit clkGateLoaded).getD blank

/-- The state after one `HalfStep` from `clkGateStart`. -/
def clkGateStep : CPU := (HalfStep id 100 clkGateStart).getD blank

/-- Three transistors: transistor 0, gated by RDY, joins node 1 to IRQ; transistor 1,
gated by RDY, joins node 2 to VCC; transistor 2, gated by node 2, joins RDY to GND.
No node has a pull-up in the segment file. -/
def latchNet : Option CPU :=
  New zeroHost [[0, 89, 1, 103], [1, 89, 2, 657], [2, 2, 89, 558]] (plainSegs ctlNodes) id

/-- Whether node `i` exists and does not carry the mark `InNodeGroup`. -/
def isFree (c : CPU) (i : Nat) : Bool :=
  match c.getNode i with
  | some n => !n.InNodeGroup
  | none => false

/-- Number of existing nodes without the mark `InNodeGroup`. -/
def freeCount (c : CPU) : Nat :=
  ((Finset.range NodeDefCount).filter (fun i => isFree c i = true)).card

/-! ## `memory.go`, `motherboard.go` and the ROM initialisation of `main.go` -/

/-- Memory of `memory.go`; the slice `memory` holds the bytes. -/
structure Memory where
  size : Int
  isReadOnly : Bool
  memory : List Nat
deriving DecidableEq

/-- Function `New` of `memory.go`; `make` panics on a negative length. -/
def Memory.New (size : Int) (isReadOnly : Bool) : Option Memory :=
  if 0 ≤ size then
    some { size := size, isReadOnly := isReadOnly, memory := List.replicate size.toNat 0 }
  else none

/-- Method `Write` of `memory.go`: the index expression panics outside the slice; a
read-only memory evaluates no index expression. -/
def Memory.Write (m : Memory) (address : Int) (data : Nat) : Option Memory :=
  if m.isReadOnly = false then
    if 0 ≤ address ∧ address.toNat < m.memory.length then
      some { m with memory := m.memory.set address.toNat data }
    else none
  else some m

/-- Method `Read` of `memory.go`. -/
def Memory.Read (m : Memory) (address : Int) : Option Nat :=
  if 0 ≤ address then m.memory[address.toNat]? else none

def RamSize : Int := 8 * 1024
def RomSize : Int := 8 * 1024
def RamBaseAddr : Int := 0x0000
def RomBaseAddr : Int := 0xE000

/-- The memories of the Motherboard struct of `motherboard.go`. The field `cpu` is
left out: the bus handlers and `GetROM` do not read it. -/
structure Motherboard where
  ram : Memory
  rom : Memory
deriving DecidableEq

/-- The memories of the board that `New` of `motherboard.go` returns: `cpu.New` and
`Reset` run no bus handler, so the memories are the ones the struct literal holds. -/
def Motherboard.New : Option Motherboard :=
  (Memory.New RamSize false).bind fun ram =>
  (Memory.New RomSize true).map fun rom => { ram := ram, rom := rom }

/-- Method `readFromBus` of `motherboard.go`. -/
def Motherboard.readFromBus (m : Motherboard) (addr : Int) : Option Nat :=
  if addr < RamBaseAddr + RamSize then m.ram.Read addr
  else if addr ≥ RomBaseAddr then m.rom.Read (addr - RomBaseAddr)
  else some 0x00

/-- Method `writeToBus` of `motherboard.go`. -/
def Motherboard.writeToBus (m : Motherboard) (addr : Int) (val : Nat) : Option Motherboard :=
  if addr < RamBaseAddr + RamSize then
    (m.ram.Write addr val).map fun ram => { m with ram := ram }
  else some m

/-- The test program `appCode` of `main.go`. -/
def appCode : List Nat :=
  [0xA9, 0x50, 0x8D, 0x00, 0x10, 0xCE, 0x00, 0x10, 0x4C, 0x05, 0xE0]

/-- The loop `for i, v := range appCode { rom.Write(i, v) }` of `main`, from index
`i` on. -/
def writeAll (m : Memory) : Nat → List Nat → Option Memory
  | _, [] => some m
  | i, v :: rest => (m.Write (i : Int) v).bind fun m1 => writeAll m1 (i + 1) rest

/-- The statements of `main` that initialise the ROM of the board: the loop over
`appCode` and the two writes of the reset vector. -/
def initRom (mb : Motherboard) : Option Motherboard :=
  (writeAll mb.rom 0 appCode).bind fun r1 =>
  (r1.Write 0x1FFC 0x00).bind fun r2 =>
  (r2.Write 0x1FFD 0xE0).map fun r3 => { mb with rom := r3 }

/-- The slice of a memory has the length `New` gave it. -/
def Memory.Valid (m : Memory) : Prop :=
  (m.memory.length : Int) = m.size

/-- The board has the memories `New` gives it: a writable RAM of `RamSize` bytes and
a ROM of `RomSize` bytes. -/
def Motherboard.Valid (m : Motherboard) : Prop :=
  m.ram.Valid ∧ m.ram.size = RamSize ∧ m.ram.isReadOnly = false ∧
  m.rom.Valid ∧ m.rom.size = RomSize

/-- A memory of four cells, writable or read-only, with the cells 1, 2, 3, 4. -/
def smallMemory (ro : Bool) : Memory :=
  { size := 4, isReadOnly := ro, memory := [1, 2, 3, 4] }

/-- The board `New` returns. -/
def freshBoard : Motherboard :=
  Motherboard.New.getD { ram := smallMemory false, rom := smallMemory true }

/-- The board after `New` and the ROM initialisation of `main`. -/
def mainBoard : Option Motherboard := Motherboard.New.bind initRom

/-! ## Supplies in the group, the bus registers, the mark and the loader's swap -/

/-- The `State` of node `id`, false when the node does not exist. -/
def stateOf (c : CPU) (id : Nat) : Bool :=
  (c.getNode id).any (fun n => n.State)

/-- Whether a channel id of a transistor line is GND or VCC. -/
def isSupply (x : Int) : Prop :=
  x = (NodeGND : Int) ∨ x = (NodePWR : Int)

/-- The state `shortState` with a pull-up on node 1, and the group built from node 1:
it holds node 1, GND and VCC. -/
def shortGrouped : CPU :=
  ((shortState.getNode 1).bind fun n =>
    addSubNodesToGroup groupFuel
      { (shortState.setNode 1 { n with PullUp := true, PullDown := 0 }) with
        recalcNodeGroup := [] } 1).getD blank

/-! ## The lists that `connectTransistors` builds -/

/-- The ids of a stored transistor are indices of the array `c.nodes`. -/
@[reducible] def InRange (t : TransDef) : Prop :=
  (0 ≤ t.GateNodeID ∧ t.GateNodeID < (NodeDefCount : Int)) ∧
  (0 ≤ t.C1NodeID ∧ t.C1NodeID < (NodeDefCount : Int)) ∧
  (0 ≤ t.C2NodeID ∧ t.C2NodeID < (NodeDefCount : Int))

/-- What the loop body of `connectTransistors` appends to the channel list of node
`i` for the transistor `t`: its key once for `C1NodeID`, once for `C2NodeID`. -/
def chanEntries (i : Nat) (t : TransDef) : List Int :=
  (if t.C1NodeID.toNat = i then [t.ID] else []) ++ (if t.C2NodeID.toNat = i then [t.ID] else [])

/-- One transistor, gated by node 1, with both channel terminals on node 7. -/
def selfLoopNet : Option CPU :=
  New zeroHost [[0, 1, 7, 7]] [] id

/-- Two transistors: transistor 0, gated by node 1, joins the nodes 7 and 8;
transistor 1, gated by node 1, has both channel terminals on node 7. -/
def twoChanNet : Option CPU :=
  New zeroHost [[0, 1, 7, 8], [1, 1, 7, 7]] [] id

/-! ## The group that `addSubNodesToGroup` builds -/

/-- The node `x` carries the mark `InNodeGroup`. -/
def Marked (c : CPU) (x : Nat) : Prop :=
  ∃ n, c.getNode x = some n ∧ n.InNodeGroup = true

/-- One step of the traversal of `addSubNodesToGroup`: `x` is no supply, and `y` is
the target the loop computes for a conducting transistor on the channel list of
`x`. -/
def Walks (c : CPU) (x y : Nat) : Prop :=
  ¬ (x = NodeGND ∨ x = NodePWR) ∧
  ∃ n k t, c.getNode x = some n ∧ k ∈ n.C1C2Transistors ∧ c.transistors k = some t ∧
    t.On = true ∧ y = (if t.C1NodeID = x then t.C2NodeID else t.C1NodeID)

/-- A conducting transistor joins `x` and `y` through its channel terminals, in
either direction, and `x` is not a supply. -/
def Conducts (c : CPU) (x y : Nat) : Prop :=
  ¬ (x = NodeGND ∨ x = NodePWR) ∧
  ∃ k t, c.transistors k = some t ∧ t.On = true ∧
    ((t.C1NodeID = x ∧ t.C2NodeID = y) ∨ (t.C2NodeID = x ∧ t.C1NodeID = y))

/-- The node `x` is reachable from `seed` along conducting transistors; the path may
end at a supply and does not continue through one. -/
def Reachable (c : CPU) (seed x : Nat) : Prop :=
  Relation.ReflTransGen (Conducts c) seed x

/-- Every transistor is on the channel lists of its two channel nodes, as
`connectTransistors` leaves them. -/
def ChanComplete (c : CPU) : Prop :=
  ∀ k t, c.transistors k = some t →
    (∃ n, c.getNode t.C1NodeID = some n ∧ k ∈ n.C1C2Transistors) ∧
    (∃ n, c.getNode t.C2NodeID = some n ∧ k ∈ n.C1C2Transistors)

/-- The state `conflictState` as `recalcNode` passes it to `addSubNodesToGroup`. -/
def conflictSeed : CPU := { conflictState with recalcNodeGroup := [] }

/-! ## Conducting transistors join equal levels -/

/-- A conducting transistor whose two channel nodes are no supplies and differ in
`State`. -/
def Uneven (c : CPU) (t : Transistor) : Prop :=
  t.On = true ∧ ¬ (t.C1NodeID = NodeGND ∨ t.C1NodeID = NodePWR) ∧
  ¬ (t.C2NodeID = NodeGND ∨ t.C2NodeID = NodePWR) ∧
  stateOf c t.C1NodeID ≠ stateOf c t.C2NodeID

/-- The state `recalcNodeList` leaves from `conflictState` on the worklist of all
nodes. -/
def conflictSettledAll : CPU :=
  (recalcNodeList id 100 conflictState (allNodes conflictState)).getD blank

/-! ## Every parsed line is stored canonicalised -/

/-- Whether a line of the transistor file has four fields or more and the id `id`:
such a line makes `setupTransistors` assign `c.transistors[id]`. -/
def definesId (id : Int) : List Int → Bool
  | i :: _ :: _ :: _ :: _ => decide (i = id)
  | _ => false

/-- Lines one, two and three: a supply first, a supply second, and a second line for
the id 0. -/
def overwriteLines : List (List Int) :=
  [[0, 5, 558, 7], [1, 5, 7, 657], [0, 6, 657, 9]]

/-! ## Transistors and their gate nodes -/

/-- A conducting transistor has a gate node whose `State` is true. -/
def OnHigh (c : CPU) : Prop :=
  ∀ k t, c.transistors k = some t → t.On = true →
    ∀ n, c.getNode t.GateNodeID = some n → n.State = true

/-- The relation between a transistor and its gate node between two calls: the gate
node exists; a transistor whose gate is not VCC conducts exactly when the gate node is
high; a transistor gated by VCC conducts only when `VCC.State` is true. -/
def FollowsGate (c : CPU) : Prop :=
  ∀ k t, c.transistors k = some t →
    ∃ g, c.getNode t.GateNodeID = some g ∧
      (t.GateNodeID ≠ NodePWR → t.On = g.State) ∧ (t.On = true → g.State = true)

/-- Three transistors: transistor 0, gated by CLK0, joins node 1 to GND; transistor 1,
gated by RDY, joins node 1 to VCC; transistor 2, gated by VCC, joins the nodes 2 and
3. -/
def vccOnNet : Option CPU :=
  New zeroHost [[0, 1171, 1, 558], [1, 89, 1, 657], [2, 657, 2, 3]] busSegs id

def vccOnLoaded : CPU := vccOnNet.getD blank

/-- The netlist `vccOnNet` after `Reset`. -/
def vccOnReset : CPU := (Reset id 100 vccOnLoaded).getD blank

/-- The netlist `vccOnNet` after `Reset` and one `HalfStep`. -/
def vccOnStep : CPU := (halfSteps id 100 1 vccOnReset).getD blank

/-! ## The nodes that the write-back loop of `recalcNode` enqueues -/

/-- Every node that `l2` adds to `l1` is a channel terminal, no supply, of a
transistor selected by `G`. -/
def EnqBy (c : CPU) (G : Int → Prop) (l1 l2 : List Nat) : Prop :=
  ∀ x ∈ l2, x ∈ l1 ∨ ∃ k t, G k ∧ c.transistors k = some t ∧
    (x = t.C1NodeID ∨ x = t.C2NodeID) ∧ ¬ (x = NodeGND ∨ x = NodePWR)

/-! ## `recalcNode` returns -/

/-- The state is wired as `New` and the first statements of `Reset` leave it: the
supplies are linked and exist, no node is marked, the channel lists hold the
transistors of each node and the gate lists the transistors each node gates. -/
def Wired (c : CPU) : Prop :=
  Between c ∧ ChanComplete c ∧ GateLists c ∧
  (c.getNode NodeGND).isSome = true ∧ (c.getNode NodePWR).isSome = true

/-- Every transistor on the list exists and has channel ids inside the node array. -/
def GatesSound (c : CPU) (gates : List Int) : Prop :=
  ∀ k ∈ gates, ∃ t, c.transistors k = some t ∧
    t.C1NodeID < NodeDefCount ∧ t.C2NodeID < NodeDefCount

/-! ## Termination of `recalcNodeList` on levelled netlists -/

/-- A levelling of the netlist: no transistor is gated by a supply; every channel
node that is no supply has a level below `N` and above the level of the gate node;
and two channel nodes of one transistor that are no supplies have the same level. -/
def Levelled (c : CPU) (r : Nat → Nat) (N : Nat) : Prop :=
  ∀ k t, c.transistors k = some t →
    ¬ (t.GateNodeID = NodeGND ∨ t.GateNodeID = NodePWR) ∧
    (¬ (t.C1NodeID = NodeGND ∨ t.C1NodeID = NodePWR) →
      r t.GateNodeID < r t.C1NodeID ∧ r t.C1NodeID < N) ∧
    (¬ (t.C2NodeID = NodeGND ∨ t.C2NodeID = NodePWR) →
      r t.GateNodeID < r t.C2NodeID ∧ r t.C2NodeID < N) ∧
    (¬ (t.C1NodeID = NodeGND ∨ t.C1NodeID = NodePWR) →
      ¬ (t.C2NodeID = NodeGND ∨ t.C2NodeID = NodePWR) → r t.C1NodeID = r t.C2NodeID)

/-- The condition of `Levelled` on a transistor as `setupTransistors` stores it. -/
def levelledDef (r : Nat → Nat) (N : Nat) (t : TransDef) : Bool :=
  decide (¬ (t.GateNodeID.toNat = NodeGND ∨ t.GateNodeID.toNat = NodePWR)) &&
  decide (¬ (t.C1NodeID.toNat = NodeGND ∨ t.C1NodeID.toNat = NodePWR) →
    r t.GateNodeID.toNat < r t.C1NodeID.toNat ∧ r t.C1NodeID.toNat < N) &&
  decide (¬ (t.C2NodeID.toNat = NodeGND ∨ t.C2NodeID.toNat = NodePWR) →
    r t.GateNodeID.toNat < r t.C2NodeID.toNat ∧ r t.C2NodeID.toNat < N) &&
  decide (¬ (t.C1NodeID.toNat = NodeGND ∨ t.C1NodeID.toNat = NodePWR) →
    ¬ (t.C2NodeID.toNat = NodeGND ∨ t.C2NodeID.toNat = NodePWR) →
    r t.C1NodeID.toNat = r t.C2NodeID.toNat)

/-- A chain of three inverters: transistor 0, gated by CLK0, joins node 1 to GND;
transistor 1, gated by node 1, joins node 2 to GND; transistor 2, gated by node 1,
joins the nodes 2 and 3; transistor 3, gated by node 2, joins node 4 to GND. The
nodes 1, 2 and 4 have a pull-up. -/
def chainNet : Option CPU :=
  New zeroHost [[0, 1171, 1, 558], [1, 1, 2, 558], [2, 1, 2, 3], [3, 2, 4, 558]]
    ([[1, 1], [2, 1], [4, 1]] ++ plainSegs ctlNodes) id

def chainLoaded : CPU := chainNet.getD blank

/-- The netlist `chainNet` after the first statements of `Reset`. -/
def chainState : CPU := (resetInit chainLoaded).getD blank

/-- The levels of `chainNet`: CLK0 below node 1, node 1 below the nodes 2 and 3, and
these below node 4. -/
def chainLevel (x : Nat) : Nat :=
  if x = 1 then 1 else if x = 2 then 2 else if x = 3 then 2 else if x = 4 then 3 else 0

/-- The state `recalcNodeList` leaves from `chainState` on the worklist of the nodes
CLK0, 4, 3, 2 and 1. -/
def chainSettled : CPU :=
  (recalcNodeList id 5 chainState [NodeCLK0, 4, 3, 2, 1]).getD blank

/-! ## Pull-down netlists -/

/-- Pull-down netlist: every transistor joins a node that is no supply, its
`C1NodeID`, to GND, its `C2NodeID`. -/
def PullDownNet (c : CPU) : Prop :=
  ∀ k t, c.transistors k = some t →
    t.C2NodeID = NodeGND ∧ ¬ (t.C1NodeID = NodeGND ∨ t.C1NodeID = NodePWR)

/-- The `State` of GND is false. -/
def GndLow (c : CPU) : Prop :=
  ∀ n, c.getNode NodeGND = some n → n.State = false

/-- A wired state of a pull-down netlist in which GND is low. -/
def PullDownState (c : CPU) : Prop :=
  Wired c ∧ GndLow c ∧ PullDownNet c

/-- A conducting transistor joins the node `x` to its other channel node. -/
def Linked (c : CPU) (x : Nat) : Prop :=
  ∃ k t, c.transistors k = some t ∧ t.On = true ∧ t.C1NodeID = x

/-- The `State` of the node `x` is the value its group resolves to in a pull-down
netlist: false when a conducting transistor joins it to GND, else the value its own
pulls and charge give. -/
def Stable (c : CPU) (x : Nat) : Prop :=
  ∀ n, c.getNode x = some n →
    (Linked c x → n.State = false) ∧ (¬ Linked c x → n.State = aloneValue n)

/-- Every node that is no supply is stable. -/
def AllStable (c : CPU) : Prop :=
  ∀ x, ¬ (x = NodeGND ∨ x = NodePWR) → Stable c x

/-- The condition of `PullDownNet` on a transistor as `setupTransistors` stores it. -/
def pullDownDef (t : TransDef) : Bool :=
  decide (t.C2NodeID.toNat = NodeGND) &&
  decide (¬ (t.C1NodeID.toNat = NodeGND ∨ t.C1NodeID.toNat = NodePWR))

/-- Three inverters on a bus: transistor 0, gated by CLK0, joins the data node D0 to
GND; transistor 1, gated by D0, joins node 1 to GND; transistor 2, gated by node 1,
joins node 2 to GND. The nodes 1 and 2 have a pull-up, and the host answers every
read with 1. -/
def pullNet : Option CPU :=
  New oneHost [[0, 1171, 1005, 558], [1, 1005, 1, 558], [2, 1, 2, 558]]
    ([[1, 1], [2, 1]] ++ busSegs) id

def pullLoaded : CPU := pullNet.getD blank

/-- The netlist `pullNet` after `Reset`. -/
def pullReset : CPU := (Reset id 100 pullLoaded).getD blank

/-- The netlist `pullNet` after `Reset` and two calls of `HalfStep`. -/
def pullStep : CPU := (halfSteps id 100 2 pullReset).getD blank

/-- The state is one of a pull-down netlist in which every node is stable. -/
def Settled (c : CPU) : Prop :=
  PullDownState c ∧ AllStable c

/-! ## A settled state is a fixed point -/

/-- Recalculating changes nothing: `recalcNode` on any existing node returns, leaves
every node and every transistor as it is (so no `State` and no `On` flag changes) and
enqueues no node; and `recalcNodeList` on the set of all nodes, in any order of
visit and with one round or more allowed, returns and leaves every node and every
transistor as it is. -/
def FixedPoint (c : CPU) : Prop :=
  (∀ id l, (c.getNode id).isSome = true →
    ∃ r, recalcNode c id l = some r ∧ (∀ x, r.1.getNode x = c.getNode x) ∧
      (∀ k, r.1.transistors k = c.transistors k) ∧ ∀ x ∈ r.2, x ∈ l) ∧
  (∀ order rounds, (∀ w : List Nat, (order w).Perm w) → 0 < rounds →
    ∃ c', recalcNodeList order rounds c (allNodes c) = some c' ∧
      (∀ x, c'.getNode x = c.getNode x) ∧ (∀ k, c'.transistors k = c.transistors k))

/-! ## The order of the visits on levelled pull-down netlists -/

/-- Every channel node has a pull-up or a pull-down. -/
def Driven (c : CPU) : Prop :=
  ∀ k t, c.transistors k = some t → ∀ n, c.getNode t.C1NodeID = some n →
    n.PullUp = true ∨ n.PullDown = 1

/-- The gate node of every transistor lies below its channel node in the levelling
`r`. -/
def GateBelow (c : CPU) (r : Nat → Nat) : Prop :=
  ∀ k t, c.transistors k = some t → r t.GateNodeID < r t.C1NodeID

/-- What the engine keeps of the state `c` it starts from, on a pull-down netlist:
the pulls of the nodes, the gate and channel ids of the transistors, the node VCC,
the transistors gated by VCC, and the `State` of every node without pulls that is no
channel node. -/
def Frame (c d : CPU) : Prop :=
  (∀ x, (d.getNode x).map (fun n => (n.PullUp, n.PullDown)) =
    (c.getNode x).map (fun n => (n.PullUp, n.PullDown))) ∧
  (∀ k, (d.transistors k).map (fun t => (t.GateNodeID, t.C1NodeID)) =
    (c.transistors k).map (fun t => (t.GateNodeID, t.C1NodeID))) ∧
  d.getNode NodePWR = c.getNode NodePWR ∧
  (∀ k t, c.transistors k = some t → t.GateNodeID = NodePWR → d.transistors k = some t) ∧
  (∀ x n, c.getNode x = some n → (∀ k t, c.transistors k = some t → t.C1NodeID ≠ x) →
    n.PullUp = false → n.PullDown ≠ 1 → (d.getNode x).map Node.State = some n.State)

/-- The condition of `GateBelow` on a transistor as `setupTransistors` stores it. -/
def gateBelowDef (r : Nat → Nat) (t : TransDef) : Bool :=
  decide (r t.GateNodeID.toNat < r t.C1NodeID.toNat)

/-- The condition of `Driven` on a transistor as `setupTransistors` stores it, in the
state `c`. -/
def drivenDef (c : CPU) (t : TransDef) : Bool :=
  (c.getNode t.C1NodeID.toNat).all (fun n => n.PullUp || decide (n.PullDown = 1))

/-- Two inverters with a common input: transistor 0, gated by CLK0, joins node 1 to
GND; transistor 1, gated by node 1, joins node 2 to GND; transistor 2, gated by
CLK0, joins node 2 to GND. CLK0 and the nodes 1 and 2 have a pull-up. -/
def forkNet : Option CPU :=
  New zeroHost [[0, 1171, 1, 558], [1, 1, 2, 558], [2, 1171, 2, 558]]
    ([[1171, 1], [1, 1], [2, 1]] ++ plainSegs ctlNodes) id

def forkLoaded : CPU := forkNet.getD blank

/-- The netlist `forkNet` after the first statements of `Reset`. -/
def forkState : CPU := (resetInit forkLoaded).getD blank

/-- The levels of `forkNet`: CLK0 below node 1, node 1 below node 2. -/
def forkLevel (x : Nat) : Nat :=
  if x = 1 then 1 else if x = 2 then 2 else 0

/-- The states `recalcNodeList` leaves from `forkState` on the worklist of all nodes,
visited in the order of the list and in the reverse order. -/
def forkFirst : CPU := (recalcNodeList id 10 forkState (allNodes forkState)).getD blank

def forkSecond : CPU :=
  (recalcNodeList List.reverse 10 forkState (allNodes forkState)).getD blank

/-- The `State` of the nodes CLK0, 1 and 2 and the `On` flags of the transistors 0, 1
and 2. -/
def forkView (c : CPU) : List Bool × List (Option Bool) :=
  ([stateOf c NodeCLK0, stateOf c 1, stateOf c 2],
   [(c.transistors 0).map Transistor.On, (c.transistors 1).map Transistor.On,
    (c.transistors 2).map Transistor.On])

/-! # Theorems -/

/-! ## Basic facts about the accessors -/

@[simp] theorem setNode_transistors (c : CPU) (i : Nat) (n : Node) :
    (c.setNode i n).transistors = c.transistors := rfl
@[simp] theorem setNode_gndNode (c : CPU) (i : Nat) (n : Node) :
    (c.setNode i n).gndNode = c.gndNode := rfl
@[simp] theorem setNode_pwrNode (c : CPU) (i : Nat) (n : Node) :
    (c.setNode i n).pwrNode = c.pwrNode := rfl
@[simp] theorem setNode_recalcNodeGroup (c : CPU) (i : Nat) (n : Node) :
    (c.setNode i n).recalcNodeGroup = c.recalcNodeGroup := rfl
@[simp] theorem setNode_busLog (c : CPU) (i : Nat) (n : Node) :
    (c.setNode i n).busLog = c.busLog := rfl
@[simp] theorem setNode_readFromBus (c : CPU) (i : Nat) (n : Node) :
    (c.setNode i n).readFromBus = c.readFromBus := rfl
@[simp] theorem setNode_nodes (c : CPU) (i : Nat) (n : Node) (j : Nat) :
    (c.setNode i n).nodes j = if j = i then some n else c.nodes j := rfl

@[simp] theorem setTransistor_nodes (c : CPU) (k : Int) (t : Transistor) :
    (c.setTransistor k t).nodes = c.nodes := rfl
@[simp] theorem setTransistor_gndNode (c : CPU) (k : Int) (t : Transistor) :
    (c.setTransistor k t).gndNode = c.gndNode := rfl
@[simp] theorem setTransistor_pwrNode (c : CPU) (k : Int) (t : Transistor) :
    (c.setTransistor k t).pwrNode = c.pwrNode := rfl
@[simp] theorem setTransistor_recalcNodeGroup (c : CPU) (k : Int) (t : Transistor) :
    (c.setTransistor k t).recalcNodeGroup = c.recalcNodeGroup := rfl
@[simp] theorem setTransistor_busLog (c : CPU) (k : Int) (t : Transistor) :
    (c.setTransistor k t).busLog = c.busLog := rfl
@[simp] theorem setTransistor_readFromBus (c : CPU) (k : Int) (t : Transistor) :
    (c.setTransistor k t).readFromBus = c.readFromBus := rfl
@[simp] theorem setTransistor_transistors (c : CPU) (k : Int) (t : Transistor) (j : Int) :
    (c.setTransistor k t).transistors j = if j = k then some t else c.transistors j := rfl

theorem getNode_eq_some {c : CPU} {i : Nat} {n : Node} :
    c.getNode i = some n ↔ i < NodeDefCount ∧ c.nodes i = some n := by
  unfold CPU.getNode
  by_cases h : i < NodeDefCount <;> simp [h]

theorem getNode_of_nodes (c c' : CPU) (i : Nat) (h : c'.nodes i = c.nodes i) :
    c'.getNode i = c.getNode i := by
  unfold CPU.getNode; rw [h]

/-- Extensionality for the CPU record. -/
theorem CPU.ext_fields {c d : CPU} (h1 : c.transistors = d.transistors) (h2 : c.nodes = d.nodes)
    (h3 : c.gndNode = d.gndNode) (h4 : c.pwrNode = d.pwrNode)
    (h5 : c.recalcNodeGroup = d.recalcNodeGroup) (h6 : c.readFromBus = d.readFromBus)
    (h7 : c.busLog = d.busLog) (h8 : c.addressBits = d.addressBits)
    (h9 : c.dataBits = d.dataBits) : c = d := by
  cases c; cases d; simp_all

/-! ## The group built by `addSubNodesToGroup` -/

theorem markAll_nil (c : CPU) : markAll c [] = c := by
  apply CPU.ext_fields <;> try rfl
  · funext i
    simp only [markAll]
    cases h : c.nodes i <;> simp
  · simp [markAll]

theorem markAll_append (c : CPU) (a b : List Nat) :
    markAll (markAll c a) b = markAll c (a ++ b) := by
  apply CPU.ext_fields <;> try rfl
  · funext i
    simp only [markAll]
    cases h : c.nodes i <;> simp [Bool.or_assoc]
  · simp [markAll]

theorem markAll_one (c : CPU) (id : Nat) (node : Node) (h : c.nodes id = some node) :
    ({ (c.setNode id { node with InNodeGroup := true }) with
        recalcNodeGroup := c.recalcNodeGroup ++ [id] } : CPU) = markAll c [id] := by
  apply CPU.ext_fields <;> try rfl
  funext i
  simp only [markAll, CPU.setNode]
  by_cases hi : i = id
  · subst hi; simp [h]
  · cases h' : c.nodes i <;> simp [hi]

@[simp] theorem markAll_transistors (c : CPU) (a : List Nat) :
    (markAll c a).transistors = c.transistors := rfl
@[simp] theorem markAll_gndNode (c : CPU) (a : List Nat) :
    (markAll c a).gndNode = c.gndNode := rfl
@[simp] theorem markAll_pwrNode (c : CPU) (a : List Nat) :
    (markAll c a).pwrNode = c.pwrNode := rfl
@[simp] theorem markAll_busLog (c : CPU) (a : List Nat) :
    (markAll c a).busLog = c.busLog := rfl
@[simp] theorem markAll_readFromBus (c : CPU) (a : List Nat) :
    (markAll c a).readFromBus = c.readFromBus := rfl
@[simp] theorem markAll_recalcNodeGroup (c : CPU) (a : List Nat) :
    (markAll c a).recalcNodeGroup = c.recalcNodeGroup ++ a := rfl

theorem markAll_getNode (c : CPU) (a : List Nat) (i : Nat) :
    (markAll c a).getNode i =
      (c.getNode i).map (fun n => { n with InNodeGroup := n.InNodeGroup || decide (i ∈ a) }) := by
  unfold CPU.getNode
  by_cases h : i < NodeDefCount <;> simp [h, markAll]

/-- A node that is not marked after marking `a` was not marked before and is not in `a`. -/
theorem unmarked_of_markAll {c : CPU} {a : List Nat} {i : Nat}
    (h : ∃ n, (markAll c a).getNode i = some n ∧ n.InNodeGroup = false) :
    (∃ n, c.getNode i = some n ∧ n.InNodeGroup = false) ∧ i ∉ a := by
  obtain ⟨n, hn, hm⟩ := h
  rw [markAll_getNode] at hn
  cases h0 : c.getNode i with
  | none => simp [h0] at hn
  | some n0 =>
    simp only [h0, Option.map_some', Option.some.injEq] at hn
    subst hn
    simp only [Bool.or_eq_false_iff, decide_eq_false_iff_not] at hm
    exact ⟨⟨n0, rfl, hm.1⟩, hm.2⟩

theorem Added.nil (c : CPU) (id : Nat) : Added c id [] := by
  refine ⟨List.nodup_nil, ?_⟩
  intro i hi; simp at hi

/-- Two successive additions make one. -/
theorem Added.append {c : CPU} {id id2 : Nat} {a b : List Nat} (ha : Added c id a)
    (hb : Added (markAll c a) id2 b)
    (hid2 : id2 = id ∨ ∃ k t, c.transistors k = some t ∧ (id2 = t.C1NodeID ∨ id2 = t.C2NodeID)) :
    Added c id (a ++ b) := by
  obtain ⟨han, ha⟩ := ha
  obtain ⟨hbn, hb⟩ := hb
  refine ⟨?_, ?_⟩
  · rw [List.nodup_append]
    refine ⟨han, hbn, ?_⟩
    intro x hxa hxb
    exact (unmarked_of_markAll (hb x hxb).1).2 hxa
  · intro i hi
    rcases List.mem_append.1 hi with hi | hi
    · exact ha i hi
    · obtain ⟨h1, h2⟩ := hb i hi
      refine ⟨(unmarked_of_markAll h1).1, ?_⟩
      rcases h2 with h2 | h2
      · rw [h2]; exact hid2
      · exact Or.inr h2

theorem addSub_spec : ∀ (fuel : Nat) (c : CPU) (id : Nat) (c' : CPU),
    addSubNodesToGroup fuel c id = some c' →
    ∃ added, c' = markAll c added ∧ Added c id added := by
  intro fuel
  induction fuel with
  | zero => intro c id c' h; simp [addSubNodesToGroup] at h
  | succ fuel ih =>
    intro c id c' h
    rw [addSubNodesToGroup] at h
    cases hn : c.getNode id with
    | none => simp [hn] at h
    | some node =>
      simp only [hn] at h
      by_cases hm : node.InNodeGroup = true
      · simp only [hm, if_true, Option.some.injEq] at h
        exact ⟨[], by rw [markAll_nil]; exact h.symm, Added.nil c id⟩
      · have hm' : node.InNodeGroup = false := by simpa using hm
        have hnodes : c.nodes id = some node := (getNode_eq_some.1 hn).2
        simp only [hm', Bool.false_eq_true, if_false] at h
        rw [markAll_one c id node hnodes] at h
        have hone : Added c id [id] := by
          refine ⟨List.nodup_singleton id, ?_⟩
          intro i hi
          rw [List.mem_singleton] at hi
          subst hi
          exact ⟨⟨node, hn, hm'⟩, Or.inl rfl⟩
        by_cases hs : id = NodeGND ∨ id = NodePWR
        · simp only [hs, if_true, Option.some.injEq] at h
          exact ⟨[id], h.symm, hone⟩
        · simp only [hs, if_false] at h
          -- the loop over the channel transistors
          have loop : ∀ (ks : List Int) (a : List Nat) (d : CPU), Added c id a →
              ks.foldlM
                (fun (acc : CPU) (k : Int) =>
                  match acc.transistors k with
                  | none => none
                  | some tr =>
                    if tr.On = false then some acc
                    else
                      addSubNodesToGroup fuel acc
                        (if tr.C1NodeID = id then tr.C2NodeID else tr.C1NodeID))
                (markAll c a) = some d →
              ∃ added, d = markAll c added ∧ Added c id added := by
            intro ks
            induction ks with
            | nil =>
              intro a d ha hd
              simp only [List.foldlM_nil, pure, Option.some.injEq] at hd
              exact ⟨a, hd.symm, ha⟩
            | cons k ks ihk =>
              intro a d ha hd
              simp only [List.foldlM_cons, bind, Option.bind_eq_some] at hd
              obtain ⟨e, he, hd⟩ := hd
              cases ht : c.transistors k with
              | none => simp [ht] at he
              | some tr =>
                simp only [markAll_transistors, ht] at he
                by_cases hon : tr.On = false
                · simp only [hon, if_true, Option.some.injEq] at he
                  subst he
                  exact ihk a d ha hd
                · simp only [hon, if_false] at he
                  obtain ⟨b, hb, hab⟩ := ih _ _ _ he
                  rw [hb, markAll_append] at hd
                  refine ihk (a ++ b) d (Added.append ha hab ?_) hd
                  right
                  refine ⟨k, tr, ht, ?_⟩
                  by_cases h1 : tr.C1NodeID = id <;> simp [h1]
          exact loop node.C1C2Transistors [id] c' hone h

/-! ## What the write-back loop of `recalcNode` leaves -/

theorem enq_refl (c : CPU) (l : List Nat) : Enq c l l :=
  ⟨fun _ h => h, fun _ h => Or.inl h⟩

theorem enq_trans {c d : CPU} {l1 l2 l3 : List Nat} (hcd : ∀ x, Chan d x → Chan c x)
    (h1 : Enq c l1 l2) (h2 : Enq d l2 l3) : Enq c l1 l3 := by
  refine ⟨fun x hx => h2.1 x (h1.1 x hx), ?_⟩
  intro x hx
  rcases h2.2 x hx with h | ⟨h, hr⟩
  · exact h1.2 x h
  · exact Or.inr ⟨hcd x h, hr⟩

theorem enqueue_spec {c : CPU} {l l2 : List Nat} {x : Nat} (h : enqueue l x = some l2)
    (hx : Chan c x) (h1 : x ≠ NodeGND) (h2 : x ≠ NodePWR) : Enq c l l2 := by
  unfold enqueue at h
  by_cases hb : x < NodeDefCount
  · simp only [hb, if_true, Option.some.injEq] at h
    subst h
    by_cases hm : x ∈ l
    · simp only [hm, if_true]; exact enq_refl c l
    · simp only [hm, if_false]
      refine ⟨fun y hy => List.mem_append_left _ hy, ?_⟩
      intro y hy
      rcases List.mem_append.1 hy with hy | hy
      · exact Or.inl hy
      · rw [List.mem_singleton] at hy
        subst hy
        exact Or.inr ⟨hx, hb, h1, h2⟩
  · simp [hb] at h

@[simp] theorem written_gndNode (c : CPU) (g : List Nat) (v : Bool) (t : Int → Bool) :
    (written c g v t).gndNode = c.gndNode := rfl
@[simp] theorem written_pwrNode (c : CPU) (g : List Nat) (v : Bool) (t : Int → Bool) :
    (written c g v t).pwrNode = c.pwrNode := rfl
@[simp] theorem written_busLog (c : CPU) (g : List Nat) (v : Bool) (t : Int → Bool) :
    (written c g v t).busLog = c.busLog := rfl
@[simp] theorem written_readFromBus (c : CPU) (g : List Nat) (v : Bool) (t : Int → Bool) :
    (written c g v t).readFromBus = c.readFromBus := rfl
@[simp] theorem written_recalcNodeGroup (c : CPU) (g : List Nat) (v : Bool) (t : Int → Bool) :
    (written c g v t).recalcNodeGroup = c.recalcNodeGroup := rfl
@[simp] theorem written_addressBits (c : CPU) (g : List Nat) (v : Bool) (t : Int → Bool) :
    (written c g v t).addressBits = c.addressBits := rfl
@[simp] theorem written_dataBits (c : CPU) (g : List Nat) (v : Bool) (t : Int → Bool) :
    (written c g v t).dataBits = c.dataBits := rfl

theorem written_nodes (c : CPU) (g : List Nat) (v : Bool) (t : Int → Bool) (i : Nat) :
    (written c g v t).nodes i =
      (c.nodes i).map (fun n =>
        if i ∈ g then { n with State := v, InNodeGroup := false } else n) := rfl

theorem written_transistors (c : CPU) (g : List Nat) (v : Bool) (t : Int → Bool) (k : Int) :
    (written c g v t).transistors k =
      (c.transistors k).map (fun tr => if t k then { tr with On := v } else tr) := rfl

theorem chan_written {c : CPU} {g : List Nat} {v : Bool} {t : Int → Bool} {x : Nat}
    (h : Chan (written c g v t) x) : Chan c x := by
  obtain ⟨k, tr, hk, hx⟩ := h
  rw [written_transistors] at hk
  cases h0 : c.transistors k with
  | none => simp [h0] at hk
  | some t0 =>
    simp only [h0, Option.map_some', Option.some.injEq] at hk
    refine ⟨k, t0, h0, ?_⟩
    subst hk
    by_cases htk : t k = true <;> simpa [htk] using hx

/-- Writing twice with the same value is writing once. -/
theorem written_written (c : CPU) (g1 g2 : List Nat) (v : Bool) (t1 t2 t3 : Int → Bool)
    (h : ∀ k, t3 k = (t1 k || t2 k)) :
    written (written c g1 v t1) g2 v t2 = written c (g1 ++ g2) v t3 := by
  apply CPU.ext_fields <;> try rfl
  · funext k
    simp only [written_transistors, h]
    cases h0 : c.transistors k with
    | none => rfl
    | some t0 =>
      simp only [Option.map_some', Option.some.injEq]
      by_cases a : t1 k = true <;> by_cases b : t2 k = true <;> simp [a, b]
  · funext i
    simp only [written_nodes]
    cases h0 : c.nodes i with
    | none => rfl
    | some n0 =>
      simp only [Option.map_some', Option.some.injEq, List.mem_append]
      by_cases a : i ∈ g1 <;> by_cases b : i ∈ g2 <;> simp [a, b]

theorem written_nil (c : CPU) (v : Bool) (t : Int → Bool) (h : ∀ k, t k = false) :
    written c [] v t = c := by
  apply CPU.ext_fields <;> try rfl
  · funext k
    simp only [written_transistors, h]
    cases c.transistors k <;> simp
  · funext i
    simp only [written_nodes]
    cases c.nodes i <;> simp

theorem turnOn_spec {c c' : CPU} {k : Int} {l l' : List Nat}
    (h : turnTransistorOn c k l = some (c', l')) :
    c' = written c [] true (fun j => decide (j = k)) ∧ Enq c l l' := by
  unfold turnTransistorOn at h
  cases ht : c.transistors k with
  | none => simp [ht] at h
  | some tr =>
    simp only [ht] at h
    have hw : ∀ d : CPU, d = c.setTransistor k { tr with On := true } →
        d = written c [] true (fun j => decide (j = k)) := by
      intro d hd
      subst hd
      apply CPU.ext_fields <;> try rfl
      · funext j
        simp only [written_transistors, setTransistor_transistors]
        by_cases hj : j = k
        · subst hj; simp [ht]
        · cases c.transistors j <;> simp [hj]
      · funext i
        simp only [written_nodes, setTransistor_nodes]
        cases c.nodes i <;> simp
    by_cases hon : tr.On = true
    · simp only [hon, if_true, Option.some.injEq, Prod.mk.injEq] at h
      obtain ⟨h1, h2⟩ := h
      subst h1; subst h2
      refine ⟨?_, enq_refl _ _⟩
      apply hw
      apply CPU.ext_fields <;> try rfl
      funext j
      simp only [setTransistor_transistors]
      by_cases hj : j = k
      · subst hj
        rw [ht]
        cases tr
        simp_all
      · simp [hj]
    · have hon' : tr.On = false := by simpa using hon
      simp only [hon', Bool.false_eq_true, if_false] at h
      by_cases hs : tr.C1NodeID ≠ NodeGND ∧ tr.C1NodeID ≠ NodePWR
      · rw [if_pos hs] at h
        simp only [Option.map_eq_some', Prod.mk.injEq] at h
        obtain ⟨l2, hl2, h1, h2⟩ := h
        subst h1; subst h2
        exact ⟨hw _ rfl, enqueue_spec hl2 ⟨k, tr, ht, Or.inl rfl⟩ hs.1 hs.2⟩
      · rw [if_neg hs] at h
        simp only [Option.some.injEq, Prod.mk.injEq] at h
        obtain ⟨h1, h2⟩ := h
        subst h1; subst h2
        exact ⟨hw _ rfl, enq_refl _ _⟩

theorem turnOff_spec {c c' : CPU} {k : Int} {l l' : List Nat}
    (h : turnTransistorOff c k l = some (c', l')) :
    c' = written c [] false (fun j => decide (j = k)) ∧ Enq c l l' := by
  unfold turnTransistorOff at h
  cases ht : c.transistors k with
  | none => simp [ht] at h
  | some tr =>
    simp only [ht] at h
    have hw : ∀ d : CPU, d = c.setTransistor k { tr with On := false } →
        d = written c [] false (fun j => decide (j = k)) := by
      intro d hd
      subst hd
      apply CPU.ext_fields <;> try rfl
      · funext j
        simp only [written_transistors, setTransistor_transistors]
        by_cases hj : j = k
        · subst hj; simp [ht]
        · cases c.transistors j <;> simp [hj]
      · funext i
        simp only [written_nodes, setTransistor_nodes]
        cases c.nodes i <;> simp
    by_cases hon : tr.On = false
    · simp only [hon, if_true, Option.some.injEq, Prod.mk.injEq] at h
      obtain ⟨h1, h2⟩ := h
      subst h1; subst h2
      refine ⟨?_, enq_refl _ _⟩
      apply hw
      apply CPU.ext_fields <;> try rfl
      funext j
      simp only [setTransistor_transistors]
      by_cases hj : j = k
      · subst hj
        rw [ht]
        cases tr
        simp_all
      · simp [hj]
    · have hon' : tr.On = true := by simpa using hon
      simp only [hon', Bool.true_eq_false, if_false] at h
      have e1 : ∀ l1, (if tr.C1NodeID ≠ NodeGND ∧ tr.C1NodeID ≠ NodePWR then
            enqueue l tr.C1NodeID else some l) = some l1 → Enq c l l1 := by
        intro l1 hl1
        by_cases hs : tr.C1NodeID ≠ NodeGND ∧ tr.C1NodeID ≠ NodePWR
        · rw [if_pos hs] at hl1
          exact enqueue_spec hl1 ⟨k, tr, ht, Or.inl rfl⟩ hs.1 hs.2
        · rw [if_neg hs] at hl1
          simp only [Option.some.injEq] at hl1
          subst hl1
          exact enq_refl _ _
      cases hl1 : (if tr.C1NodeID ≠ NodeGND ∧ tr.C1NodeID ≠ NodePWR then
            enqueue l tr.C1NodeID else some l) with
      | none => rw [hl1] at h; simp at h
      | some l1 =>
        rw [hl1] at h
        simp only at h
        have hq1 := e1 l1 hl1
        by_cases hs : tr.C2NodeID ≠ NodeGND ∧ tr.C2NodeID ≠ NodePWR
        · rw [if_pos hs] at h
          simp only [Option.map_eq_some', Prod.mk.injEq] at h
          obtain ⟨l2, hl2, h1, h2⟩ := h
          subst h1; subst h2
          exact ⟨hw _ rfl, enq_trans (fun _ hx => hx) hq1
            (enqueue_spec hl2 ⟨k, tr, ht, Or.inr rfl⟩ hs.1 hs.2)⟩
        · rw [if_neg hs] at h
          simp only [Option.some.injEq, Prod.mk.injEq] at h
          obtain ⟨h1, h2⟩ := h
          subst h1; subst h2
          exact ⟨hw _ rfl, hq1⟩

theorem toggleGates_spec (v : Bool) : ∀ (gates : List Int) (c c' : CPU) (l l' : List Nat),
    toggleGates v (c, l) gates = some (c', l') →
    c' = written c [] v (fun j => gates.contains j) ∧ Enq c l l' := by
  intro gates
  induction gates with
  | nil =>
    intro c c' l l' h
    simp only [toggleGates, List.foldlM_nil, pure, Option.some.injEq, Prod.mk.injEq] at h
    obtain ⟨h1, h2⟩ := h
    subst h1; subst h2
    exact ⟨(written_nil c v _ (by intro k; simp)).symm, enq_refl _ _⟩
  | cons k ks ih =>
    intro c c' l l' h
    simp only [toggleGates, List.foldlM_cons, bind, Option.bind_eq_some] at h
    obtain ⟨⟨c1, l1⟩, h1, h2⟩ := h
    have hstep : c1 = written c [] v (fun j => decide (j = k)) ∧ Enq c l l1 := by
      cases v with
      | true => simp only [if_true] at h1; exact turnOn_spec h1
      | false => simp only [Bool.false_eq_true, if_false] at h1; exact turnOff_spec h1
    obtain ⟨hc1, hq1⟩ := hstep
    obtain ⟨hc', hq2⟩ := ih c1 c' l1 l' h2
    refine ⟨?_, enq_trans (fun x hx => ?_) hq1 hq2⟩
    · rw [hc', hc1, written_written c [] [] v _ _ (fun j => (k :: ks).contains j)]
      · rfl
      · intro j
        simp only [List.contains_cons]
        by_cases hj : j = k <;> simp [hj]
    · rw [hc1] at hx; exact chan_written hx

theorem writeBack_spec {v : Bool} {c c' : CPU} {l l' : List Nat} {id : Nat}
    (h : writeBack v (c, l) id = some (c', l')) :
    ∃ n, c.getNode id = some n ∧
      c' = written c [id] v (fun k => (n.State != v) && n.GateTransistors.contains k) ∧
      Enq c l l' := by
  unfold writeBack at h
  cases hn : c.getNode id with
  | none => simp [hn] at h
  | some n =>
    have hnodes : c.nodes id = some n := (getNode_eq_some.1 hn).2
    refine ⟨n, rfl, ?_⟩
    simp only [hn] at h
    by_cases hs : n.State = v
    · rw [if_pos hs] at h
      simp only [Option.some.injEq, Prod.mk.injEq] at h
      obtain ⟨h1, h2⟩ := h
      subst h1; subst h2
      refine ⟨?_, enq_refl _ _⟩
      apply CPU.ext_fields <;> try rfl
      · funext k
        simp only [written_transistors, setNode_transistors, hs]
        cases c.transistors k <;> simp
      · funext i
        simp only [written_nodes, setNode_nodes, List.mem_singleton]
        by_cases hi : i = id
        · subst hi; simp [hnodes, hs]
        · cases c.nodes i <;> simp [hi]
    · rw [if_neg hs] at h
      obtain ⟨hc', hq⟩ := toggleGates_spec v _ _ _ _ _ h
      refine ⟨?_, ⟨hq.1, fun x hx => ?_⟩⟩
      · rw [hc']
        apply CPU.ext_fields <;> try rfl
        · funext k
          simp only [written_transistors, setNode_transistors]
          have : (n.State != v) = true := by simpa using hs
          simp [this]
        · funext i
          simp only [written_nodes, setNode_nodes, List.mem_singleton]
          by_cases hi : i = id
          · subst hi; simp [hnodes]
          · cases c.nodes i <;> simp [hi]
      · rcases hq.2 x hx with h1 | ⟨⟨k, t, hk, hx2⟩, hr⟩
        · exact Or.inl h1
        · exact Or.inr ⟨⟨k, t, hk, hx2⟩, hr⟩

theorem chg_cons (c : CPU) (x : Nat) (xs : List Nat) (v : Bool) (k : Int) :
    chg c (x :: xs) v k =
      ((match c.nodes x with
        | some n => (n.State != v) && n.GateTransistors.contains k
        | none => false) || chg c xs v k) := by
  simp [chg]

theorem chg_written_one (c : CPU) (x : Nat) (n : Node) (hn : c.nodes x = some n) (v : Bool)
    (t : Int → Bool) (k : Int) : ∀ xs : List Nat,
    (((n.State != v) && n.GateTransistors.contains k) || chg (written c [x] v t) xs v k) =
      (((n.State != v) && n.GateTransistors.contains k) || chg c xs v k) := by
  intro xs
  induction xs with
  | nil => simp [chg]
  | cons y ys ih =>
    rw [chg_cons, chg_cons, written_nodes]
    by_cases hy : y = x
    · subst hy
      simp only [hn, Option.map_some', List.mem_singleton, if_true]
      rw [← Bool.or_assoc, ← Bool.or_assoc, Bool.or_self]
      simp only [bne_self_eq_false, Bool.false_and, Bool.or_false]
      exact ih
    · have : ¬ y ∈ [x] := by simpa using hy
      cases hc : c.nodes y with
      | none =>
        simp only [Option.map_none', Bool.false_or]
        exact ih
      | some m =>
        simp only [Option.map_some', this, if_false]
        rw [Bool.or_left_comm, ih, Bool.or_left_comm]

theorem writeBackAll_spec (v : Bool) : ∀ (xs : List Nat) (c c' : CPU) (l l' : List Nat),
    xs.foldlM (writeBack v) (c, l) = some (c', l') →
    c' = written c xs v (chg c xs v) ∧ Enq c l l' ∧ ∀ i ∈ xs, i < NodeDefCount := by
  intro xs
  induction xs with
  | nil =>
    intro c c' l l' h
    simp only [List.foldlM_nil, pure, Option.some.injEq, Prod.mk.injEq] at h
    obtain ⟨h1, h2⟩ := h
    subst h1; subst h2
    exact ⟨(written_nil c v _ (by intro k; simp [chg])).symm, enq_refl _ _, by simp⟩
  | cons x xs ih =>
    intro c c' l l' h
    simp only [List.foldlM_cons, bind, Option.bind_eq_some] at h
    obtain ⟨⟨c1, l1⟩, h1, h2⟩ := h
    obtain ⟨n, hn, hc1, hq1⟩ := writeBack_spec h1
    have hnodes : c.nodes x = some n := (getNode_eq_some.1 hn).2
    obtain ⟨hc', hq2, hb⟩ := ih c1 c' l1 l' h2
    refine ⟨?_, enq_trans (fun y hy => ?_) hq1 hq2, ?_⟩
    · rw [hc', hc1, written_written c [x] xs v _ _ (chg c (x :: xs) v)]
      · rfl
      · intro k
        rw [chg_cons, hnodes]
        exact (chg_written_one c x n hnodes v _ k xs).symm
    · rw [hc1] at hy; exact chan_written hy
    · intro i hi
      rcases List.mem_cons.1 hi with hi | hi
      · subst hi; exact (getNode_eq_some.1 hn).1
      · exact hb i hi

theorem chg_markAll (c : CPU) (a : List Nat) (v : Bool) (k : Int) : ∀ xs : List Nat,
    chg (markAll { c with recalcNodeGroup := [] } a) xs v k = chg c xs v k := by
  intro xs
  induction xs with
  | nil => simp [chg]
  | cons y ys ih =>
    rw [chg_cons, chg_cons, ih]
    congr 1
    simp only [markAll]
    cases c.nodes y <;> simp

theorem written_grouped (c : CPU) (a : List Nat) (v : Bool) :
    written (grouped c a) a v (chg (grouped c a) a v) = settled c a v := by
  apply CPU.ext_fields <;> try rfl
  · funext k
    simp only [written_transistors, settled, grouped, chg_markAll, markAll_transistors]
  · funext i
    simp only [written_nodes, settled, grouped, markAll]
    cases c.nodes i with
    | none => rfl
    | some n => by_cases hi : i ∈ a <;> simp [hi]

/-- Function `recalcNode` in closed form. -/
theorem recalcNode_spec {c c' : CPU} {id : Nat} {l l' : List Nat}
    (h : recalcNode c id l = some (c', l')) :
    ((id = NodeGND ∨ id = NodePWR) ∧ c' = c ∧ l' = l) ∨
    (¬ (id = NodeGND ∨ id = NodePWR) ∧ ∃ added v,
      addSubNodesToGroup groupFuel { c with recalcNodeGroup := [] } id = some (grouped c added) ∧
      Added { c with recalcNodeGroup := [] } id added ∧
      getNodeValue (grouped c added) = some v ∧
      c' = settled c added v ∧ Enq c l l' ∧ ∀ i ∈ added, i < NodeDefCount) := by
  unfold recalcNode at h
  cases hn : c.getNode id with
  | none => simp [hn] at h
  | some n =>
    simp only [hn] at h
    by_cases hs : id = NodeGND ∨ id = NodePWR
    · rw [if_pos hs] at h
      simp only [Option.some.injEq, Prod.mk.injEq] at h
      exact Or.inl ⟨hs, h.1.symm, h.2.symm⟩
    · rw [if_neg hs] at h
      right
      refine ⟨hs, ?_⟩
      cases hg : addSubNodesToGroup groupFuel { c with recalcNodeGroup := [] } id with
      | none => simp [hg] at h
      | some c1 =>
        simp only [hg] at h
        obtain ⟨added, hc1, hadd⟩ := addSub_spec _ _ _ _ hg
        cases hv : getNodeValue c1 with
        | none => simp [hv] at h
        | some v =>
          simp only [hv] at h
          have hrg : c1.recalcNodeGroup = added := by rw [hc1]; simp
          rw [hrg] at h
          obtain ⟨hc', hq, hb⟩ := writeBackAll_spec v added c1 c' l l' h
          refine ⟨added, v, ?_, hadd, ?_, ?_, ?_, hb⟩
          · rw [hc1]; rfl
          · rw [← hv, hc1]; rfl
          · rw [hc', hc1]; exact written_grouped c added v
          · refine ⟨hq.1, fun x hx => ?_⟩
            rcases hq.2 x hx with h1 | ⟨⟨k, t, hk, hx2⟩, hr⟩
            · exact Or.inl h1
            · rw [hc1] at hk
              exact Or.inr ⟨⟨k, t, hk, hx2⟩, hr⟩

theorem settled_nodes (c : CPU) (a : List Nat) (v : Bool) (i : Nat) :
    (settled c a v).nodes i =
      (c.nodes i).map (fun n =>
        if i ∈ a then { n with State := v, InNodeGroup := false } else n) := rfl

theorem settled_transistors (c : CPU) (a : List Nat) (v : Bool) (k : Int) :
    (settled c a v).transistors k =
      (c.transistors k).map (fun t => if chg c a v k then { t with On := v } else t) := rfl

theorem settled_getNode (c : CPU) (a : List Nat) (v : Bool) (i : Nat) :
    (settled c a v).getNode i =
      (c.getNode i).map (fun n =>
        if i ∈ a then { n with State := v, InNodeGroup := false } else n) := by
  unfold CPU.getNode
  by_cases h : i < NodeDefCount <;> simp [h, settled_nodes]

@[simp] theorem settled_gndNode (c : CPU) (a : List Nat) (v : Bool) :
    (settled c a v).gndNode = c.gndNode := rfl
@[simp] theorem settled_pwrNode (c : CPU) (a : List Nat) (v : Bool) :
    (settled c a v).pwrNode = c.pwrNode := rfl
@[simp] theorem settled_busLog (c : CPU) (a : List Nat) (v : Bool) :
    (settled c a v).busLog = c.busLog := rfl
@[simp] theorem settled_readFromBus (c : CPU) (a : List Nat) (v : Bool) :
    (settled c a v).readFromBus = c.readFromBus := rfl
@[simp] theorem settled_addressBits (c : CPU) (a : List Nat) (v : Bool) :
    (settled c a v).addressBits = c.addressBits := rfl
@[simp] theorem settled_dataBits (c : CPU) (a : List Nat) (v : Bool) :
    (settled c a v).dataBits = c.dataBits := rfl

theorem grouped_getNode (c : CPU) (a : List Nat) (i : Nat) :
    (grouped c a).getNode i =
      (c.getNode i).map (fun n => { n with InNodeGroup := n.InNodeGroup || decide (i ∈ a) }) := by
  unfold grouped
  rw [markAll_getNode]
  rfl

/-! ## Invariants of the engine -/

/-- A property that a round of visits keeps, given that `recalcNode` keeps it for
seeds in `S` and only enqueues nodes in `S`. -/
theorem recalcRound_keeps (P : CPU → Prop) (S : Nat → Prop)
    (hstep : ∀ c id l c' l', P c → S id → (∀ x ∈ l, S x) →
      recalcNode c id l = some (c', l') → P c' ∧ ∀ x ∈ l', S x) :
    ∀ (visit : List Nat) (c : CPU) (l : List Nat) (c' : CPU) (l' : List Nat),
      P c → (∀ x ∈ visit, S x) → (∀ x ∈ l, S x) →
      visit.foldlM (fun (acc : CPU × List Nat) (id : Nat) => recalcNode acc.1 id acc.2) (c, l)
        = some (c', l') →
      P c' ∧ ∀ x ∈ l', S x := by
  intro visit
  induction visit with
  | nil =>
    intro c l c' l' hP _ hl h
    simp only [List.foldlM_nil, pure, Option.some.injEq, Prod.mk.injEq] at h
    obtain ⟨h1, h2⟩ := h
    subst h1; subst h2
    exact ⟨hP, hl⟩
  | cons id visit ih =>
    intro c l c' l' hP hv hl h
    simp only [List.foldlM_cons, bind, Option.bind_eq_some] at h
    obtain ⟨⟨c1, l1⟩, h1, h2⟩ := h
    obtain ⟨hP1, hl1⟩ := hstep c id l c1 l1 hP (hv id (List.mem_cons_self _ _)) hl h1
    exact ih c1 l1 c' l' hP1 (fun x hx => hv x (List.mem_cons_of_mem _ hx)) hl1 h2

/-- The same for the whole loop of `recalcNodeList`, when the order of the visit only
names nodes of the worklist. -/
theorem recalcNodeList_keeps (P : CPU → Prop) (S : Nat → Prop) (order : List Nat → List Nat)
    (hord : ∀ l x, x ∈ order l → x ∈ l)
    (hstep : ∀ c id l c' l', P c → S id → (∀ x ∈ l, S x) →
      recalcNode c id l = some (c', l') → P c' ∧ ∀ x ∈ l', S x) :
    ∀ (rounds : Nat) (c : CPU) (l : List Nat) (c' : CPU),
      P c → (∀ x ∈ l, S x) → recalcNodeList order rounds c l = some c' → P c' := by
  intro rounds
  induction rounds with
  | zero =>
    intro c l c' hP _ h
    cases l with
    | nil => simp only [recalcNodeList, Option.some.injEq] at h; subst h; exact hP
    | cons a l => simp [recalcNodeList] at h
  | succ rounds ih =>
    intro c l c' hP hl h
    cases l with
    | nil => simp only [recalcNodeList, Option.some.injEq] at h; subst h; exact hP
    | cons a l =>
      simp only [recalcNodeList] at h
      cases hr : recalcRound c (order (a :: l)) with
      | none => simp [hr] at h
      | some r =>
        obtain ⟨c1, next⟩ := r
        simp only [hr] at h
        obtain ⟨hP1, hl1⟩ := recalcRound_keeps P S hstep (order (a :: l)) c [] c1 next hP
          (fun x hx => hl x (hord _ x hx)) (by simp) hr
        exact ih c1 next c' hP1 hl1 h

/-- A property that `recalcNode` keeps for every seed is kept by `recalcNodeList`,
whatever the order of the visits. -/
theorem recalcNodeList_keeps_all (P : CPU → Prop) (order : List Nat → List Nat)
    (hstep : ∀ c id l c' l', P c → recalcNode c id l = some (c', l') → P c') :
    ∀ (rounds : Nat) (c : CPU) (l : List Nat) (c' : CPU),
      P c → recalcNodeList order rounds c l = some c' → P c' := by
  intro rounds
  induction rounds with
  | zero =>
    intro c l c' hP h
    cases l with
    | nil => simp only [recalcNodeList, Option.some.injEq] at h; subst h; exact hP
    | cons a l => simp [recalcNodeList] at h
  | succ rounds ih =>
    intro c l c' hP h
    cases l with
    | nil => simp only [recalcNodeList, Option.some.injEq] at h; subst h; exact hP
    | cons a l =>
      simp only [recalcNodeList] at h
      cases hr : recalcRound c (order (a :: l)) with
      | none => simp [hr] at h
      | some r =>
        obtain ⟨c1, next⟩ := r
        simp only [hr] at h
        have hP1 := (recalcRound_keeps P (fun _ => True)
          (fun c id l c' l' hp _ _ hh => ⟨hstep c id l c' l' hp hh, fun _ _ => trivial⟩)
          (order (a :: l)) c [] c1 next hP (fun _ _ => trivial) (fun _ _ => trivial) hr).1
        exact ih c1 next c' hP1 h

theorem EngineInv.setLow {P : CPU → Prop} (hP : EngineInv P) {order : List Nat → List Nat}
    {rounds : Nat} {c c' : CPU} {id : Nat} (h0 : P c) (h : setLow order rounds c id = some c') :
    P c' := by
  unfold Netsim.setLow at h
  cases hn : c.getNode id with
  | none => simp [hn] at h
  | some n =>
    simp only [hn] at h
    exact recalcNodeList_keeps_all P order hP.step rounds _ _ c' (hP.pulls c id n _ _ h0 hn) h

theorem EngineInv.setHigh {P : CPU → Prop} (hP : EngineInv P) {order : List Nat → List Nat}
    {rounds : Nat} {c c' : CPU} {id : Nat} (h0 : P c) (h : setHigh order rounds c id = some c') :
    P c' := by
  unfold Netsim.setHigh at h
  cases hn : c.getNode id with
  | none => simp [hn] at h
  | some n =>
    simp only [hn] at h
    exact recalcNodeList_keeps_all P order hP.step rounds _ _ c' (hP.pulls c id n _ _ h0 hn) h

theorem EngineInv.clockCycles {P : CPU → Prop} (hP : EngineInv P) {order : List Nat → List Nat}
    {rounds : Nat} : ∀ (n : Nat) (c c' : CPU), P c → clockCycles order rounds n c = some c' →
    P c' := by
  intro n
  induction n with
  | zero =>
    intro c c' h0 h
    simp only [Netsim.clockCycles, Option.some.injEq] at h
    subst h; exact h0
  | succ n ih =>
    intro c c' h0 h
    simp only [Netsim.clockCycles, Option.bind_eq_some] at h
    obtain ⟨c1, h1, c2, h2, h3⟩ := h
    exact ih c2 c' (hP.setLow (hP.setHigh h0 h1) h2) h3

theorem EngineInv.driveData {P : CPU → Prop} (hP : EngineInv P) (data : Nat) :
    ∀ (lines : List (Nat × Nat)) (c c' : CPU), P c → driveData data c lines = some c' → P c' := by
  intro lines
  induction lines with
  | nil =>
    intro c c' h0 h
    simp only [Netsim.driveData, Option.some.injEq] at h
    subst h; exact h0
  | cons ln lines ih =>
    intro c c' h0 h
    obtain ⟨bit, nodeID⟩ := ln
    simp only [Netsim.driveData] at h
    cases hn : c.getNode nodeID with
    | none => simp [hn] at h
    | some n =>
      simp only [hn] at h
      refine ih _ c' ?_ h
      by_cases hb : data &&& (1 <<< bit) ≠ 0
      · rw [if_pos hb]; exact hP.pulls c nodeID n true 0 h0 hn
      · rw [if_neg hb]; exact hP.pulls c nodeID n false 1 h0 hn

theorem EngineInv.handleBusRead {P : CPU → Prop} (hP : EngineInv P)
    {order : List Nat → List Nat} {rounds : Nat} {c c' : CPU} (h0 : P c)
    (h : handleBusRead order rounds c = some c') : P c' := by
  unfold Netsim.handleBusRead at h
  cases hn : c.getNode NodeRW with
  | none => simp [hn] at h
  | some rw =>
    simp only [hn] at h
    by_cases hs : rw.State = true
    · rw [if_pos hs] at h
      simp only [readAddressBus, Option.bind_eq_some, Option.map_eq_some'] at h
      obtain ⟨⟨c1, address⟩, ⟨a, _, ha⟩, c3, h3, h4⟩ := h
      simp only [Prod.mk.injEq] at ha
      obtain ⟨hc1, haddr⟩ := ha
      subst hc1
      refine recalcNodeList_keeps_all P order hP.step rounds _ _ c' ?_ h4
      refine hP.driveData _ _ _ c3 ?_ h3
      exact hP.regs c a c.dataBits _ h0
    · rw [if_neg hs] at h
      simp only [Option.some.injEq] at h
      subst h; exact h0

theorem EngineInv.handleBusWrite {P : CPU → Prop} (hP : EngineInv P) {c c' : CPU} (h0 : P c)
    (h : handleBusWrite c = some c') : P c' := by
  unfold Netsim.handleBusWrite at h
  cases hn : c.getNode NodeRW with
  | none => simp [hn] at h
  | some rw =>
    simp only [hn] at h
    by_cases hs : rw.State = false
    · rw [if_pos hs] at h
      simp only [readAddressBus, readDataBus, Option.bind_eq_some, Option.map_eq_some'] at h
      obtain ⟨⟨c1, address⟩, ⟨a, _, ha⟩, ⟨c2, data⟩, ⟨d, _, hd⟩, h4⟩ := h
      simp only [Prod.mk.injEq] at ha hd
      obtain ⟨hc1, haddr⟩ := ha
      obtain ⟨hc2, hdata⟩ := hd
      subst hc1; subst hc2
      simp only [Option.some.injEq] at h4
      subst h4
      exact hP.regs c a d _ h0
    · rw [if_neg hs] at h
      simp only [Option.some.injEq] at h
      subst h; exact h0

theorem EngineInv.halfStep {P : CPU → Prop} (hP : EngineInv P) {order : List Nat → List Nat}
    {rounds : Nat} {c c' : CPU} (h0 : P c) (h : HalfStep order rounds c = some c') : P c' := by
  unfold HalfStep at h
  cases hn : c.getNode NodeCLK0 with
  | none => simp [hn] at h
  | some clk0 =>
    simp only [hn] at h
    by_cases hs : clk0.State = true
    · rw [if_pos hs] at h
      simp only [Option.bind_eq_some] at h
      obtain ⟨c1, h1, h2⟩ := h
      exact hP.handleBusRead (hP.setLow h0 h1) h2
    · rw [if_neg hs] at h
      simp only [Option.bind_eq_some] at h
      obtain ⟨c1, h1, h2⟩ := h
      exact hP.handleBusWrite (hP.setHigh h0 h1) h2

/-- A property of the engine that holds after the first statements of `Reset` holds
when `Reset` returns. -/
theorem EngineInv.reset {P : CPU → Prop} (hP : EngineInv P) {order : List Nat → List Nat}
    {rounds : Nat} {c c' : CPU} (h0 : ∀ c0, resetInit c = some c0 → P c0)
    (h : Reset order rounds c = some c') : P c' := by
  unfold Reset at h
  simp only [Option.bind_eq_some] at h
  obtain ⟨c0, e0, c1, e1, c2, e2, c3, e3, c4, e4, c5, e5, c6, e6, c7, e7, c8, e8, c9, e9, e10⟩ := h
  have p6 : P c6 :=
    hP.setHigh (hP.setHigh (hP.setLow (hP.setHigh (hP.setLow (hP.setLow (h0 c0 e0) e1) e2) e3) e4)
      e5) e6
  have p7 : P c7 := recalcNodeList_keeps_all P order hP.step rounds _ _ c7 p6 e7
  exact hP.clockCycles 6 c9 c' (hP.setHigh (hP.clockCycles 8 c7 c8 p7 e8) e9) e10

theorem getNodeValue_gnd {c : CPU} {a : List Nat} {v : Bool} (hg : c.gndNode = some NodeGND)
    (hv : getNodeValue (grouped c a) = some v) (hmem : NodeGND ∈ a) : v = false := by
  unfold getNodeValue at hv
  have h1 : (grouped c a).gndNode = some NodeGND := hg
  rw [h1] at hv
  simp only [Option.some_bind, grouped_getNode] at hv
  cases h0 : c.getNode NodeGND with
  | none => simp [h0] at hv
  | some n0 =>
    simp only [h0, Option.map_some', hmem, decide_True, Bool.or_true, if_true,
      Option.some.injEq] at hv
    exact hv.symm

theorem getNodeValue_pwr {c : CPU} {a : List Nat} {v : Bool} (hs : Supplied c)
    (hv : getNodeValue (grouped c a) = some v) (hmem : NodePWR ∈ a) (hg : NodeGND ∉ a)
    (hm : ∀ n, c.getNode NodeGND = some n → n.InNodeGroup = false) : v = true := by
  unfold getNodeValue at hv
  have h1 : (grouped c a).gndNode = some NodeGND := hs.1
  have h2 : (grouped c a).pwrNode = some NodePWR := hs.2
  rw [h1, h2] at hv
  simp only [Option.some_bind, grouped_getNode] at hv
  cases h0 : c.getNode NodeGND with
  | none => simp [h0] at hv
  | some n0 =>
    simp only [h0, Option.map_some', hg, decide_False, Bool.or_false, hm n0 h0,
      Bool.false_eq_true, if_false] at hv
    cases h3 : c.getNode NodePWR with
    | none => simp [h3] at hv
    | some n3 =>
      simp only [h3, Option.map_some', hmem, decide_True, Bool.or_true, if_true,
        Option.some.injEq] at hv
      exact hv.symm

theorem recalcNode_noMarks {c c' : CPU} {id : Nat} {l l' : List Nat} (h0 : NoMarks c)
    (h : recalcNode c id l = some (c', l')) : NoMarks c' := by
  rcases recalcNode_spec h with ⟨_, hc, _⟩ | ⟨_, a, v, _, _, _, hc, _⟩
  · rw [hc]; exact h0
  · intro i n hn
    rw [hc, settled_getNode] at hn
    cases hi : c.getNode i with
    | none => simp [hi] at hn
    | some n0 =>
      simp only [hi, Option.map_some', Option.some.injEq] at hn
      subst hn
      by_cases hia : i ∈ a
      · simp [hia]
      · simp only [hia, if_false]; exact h0 i n0 hi

theorem recalcNode_supplied {c c' : CPU} {id : Nat} {l l' : List Nat} (h0 : Supplied c)
    (h : recalcNode c id l = some (c', l')) : Supplied c' := by
  rcases recalcNode_spec h with ⟨_, hc, _⟩ | ⟨_, a, v, _, _, _, hc, _⟩
  · rw [hc]; exact h0
  · rw [hc]; exact h0

theorem recalcNode_gndLow {c c' : CPU} {id : Nat} {l l' : List Nat}
    (hg : c.gndNode = some NodeGND) (h0 : ∀ n, c.getNode NodeGND = some n → n.State = false)
    (h : recalcNode c id l = some (c', l')) :
    c'.gndNode = some NodeGND ∧ ∀ n, c'.getNode NodeGND = some n → n.State = false := by
  rcases recalcNode_spec h with ⟨_, hc, _⟩ | ⟨_, a, v, _, _, hv, hc, _⟩
  · rw [hc]; exact ⟨hg, h0⟩
  · refine ⟨by rw [hc]; exact hg, ?_⟩
    intro n hn
    rw [hc, settled_getNode] at hn
    cases hi : c.getNode NodeGND with
    | none => simp [hi] at hn
    | some n0 =>
      simp only [hi, Option.map_some', Option.some.injEq] at hn
      subst hn
      by_cases hia : NodeGND ∈ a
      · simp only [hia, if_true]
        exact getNodeValue_gnd hg hv hia
      · simp only [hia, if_false]; exact h0 n0 hi

/-- C6. `GND.State` stays false: in every state in which `gndNode` points to the GND
node and `GND.State` is false (marked nodes or not), `GND.State` is false after
`recalcNode` on any node and after `recalcNodeList` on any worklist, in any order of
visit, because `recalcNode` writes to GND only the value of a group that contains
GND, which `getNodeValue` resolves to false. -/
theorem gnd_state_stays_false (c : CPU) (hg : c.gndNode = some NodeGND)
    (h0 : ∀ n, c.getNode NodeGND = some n → n.State = false) :
    (∀ id l r, recalcNode c id l = some r →
      ∀ n, r.1.getNode NodeGND = some n → n.State = false) ∧
    (∀ order rounds l c', recalcNodeList order rounds c l = some c' →
      ∀ n, c'.getNode NodeGND = some n → n.State = false) := by
  constructor
  · intro id l r h
    obtain ⟨c1, l1⟩ := r
    exact (recalcNode_gndLow hg h0 h).2
  · intro order rounds l c' h
    exact (recalcNodeList_keeps_all
      (fun d => d.gndNode = some NodeGND ∧ ∀ n, d.getNode NodeGND = some n → n.State = false)
      order (fun d id l d' l' hd hh => recalcNode_gndLow hd.1 hd.2 hh) rounds c l c'
      ⟨hg, h0⟩ h).2

theorem shortGroup_eq {c : CPU} {id : Nat} {a : List Nat} (hs : ¬ (id = NodeGND ∨ id = NodePWR))
    (h : addSubNodesToGroup groupFuel { c with recalcNodeGroup := [] } id = some (grouped c a)) :
    shortGroup c id = (decide (NodeGND ∈ a) && decide (NodePWR ∈ a)) := by
  unfold shortGroup
  rw [if_neg hs, h]
  simp [grouped]

theorem recalcNode_pwr {c c' : CPU} {id : Nat} {l l' : List Nat} (h0 : PwrHigh c)
    (h : recalcNode c id l = some (c', l')) :
    ∀ n, c'.getNode NodePWR = some n → n.State = !shortGroup c id := by
  obtain ⟨hs, hm, hp⟩ := h0
  rcases recalcNode_spec h with ⟨hsup, hc, _⟩ | ⟨hsup, a, v, hadd, _, hv, hc, _⟩
  · intro n hn
    rw [hc] at hn
    simp only [shortGroup, if_pos hsup, Bool.not_false]
    exact hp n hn
  · intro n hn
    rw [shortGroup_eq hsup hadd]
    rw [hc, settled_getNode] at hn
    cases hi : c.getNode NodePWR with
    | none => simp [hi] at hn
    | some n0 =>
      simp only [hi, Option.map_some', Option.some.injEq] at hn
      subst hn
      by_cases hpa : NodePWR ∈ a
      · simp only [hpa, if_true, decide_True, Bool.and_true]
        by_cases hga : NodeGND ∈ a
        · simp only [hga, decide_True, Bool.not_true]
          exact getNodeValue_gnd hs.1 hv hga
        · simp only [hga, decide_False, Bool.not_false]
          exact getNodeValue_pwr hs hv hpa hga (fun m hm' => hm _ m hm')
      · simp only [hpa, if_false, decide_False, Bool.and_false, Bool.not_false]
        exact hp n0 hi

theorem recalcNode_pwrHigh {c c' : CPU} {id : Nat} {l l' : List Nat} (h0 : PwrHigh c)
    (hf : shortGroup c id = false) (h : recalcNode c id l = some (c', l')) : PwrHigh c' := by
  refine ⟨recalcNode_supplied h0.1 h, recalcNode_noMarks h0.2.1 h, ?_⟩
  intro n hn
  have := recalcNode_pwr h0 h n hn
  rw [hf] at this
  simpa using this

theorem recalcRound_pwrHigh : ∀ (visit : List Nat) (c : CPU) (l : List Nat) (c' : CPU)
    (l' : List Nat), PwrHigh c → roundShortFree c l visit = true →
    visit.foldlM (fun (acc : CPU × List Nat) (id : Nat) => recalcNode acc.1 id acc.2) (c, l)
      = some (c', l') → PwrHigh c' := by
  intro visit
  induction visit with
  | nil =>
    intro c l c' l' hP _ h
    simp only [List.foldlM_nil, pure, Option.some.injEq, Prod.mk.injEq] at h
    obtain ⟨h1, _⟩ := h
    subst h1
    exact hP
  | cons id visit ih =>
    intro c l c' l' hP hf h
    simp only [List.foldlM_cons, bind, Option.bind_eq_some] at h
    obtain ⟨⟨c1, l1⟩, h1, h2⟩ := h
    simp only [roundShortFree, h1, Bool.and_eq_true, Bool.not_eq_true'] at hf
    exact ih c1 l1 c' l' (recalcNode_pwrHigh hP hf.1 h1) hf.2 h2

theorem recalcNodeList_pwrHigh (order : List Nat → List Nat) : ∀ (rounds : Nat) (c : CPU)
    (l : List Nat) (c' : CPU), PwrHigh c → runShortFree order rounds c l = true →
    recalcNodeList order rounds c l = some c' → PwrHigh c' := by
  intro rounds
  induction rounds with
  | zero =>
    intro c l c' hP _ h
    cases l with
    | nil => simp only [recalcNodeList, Option.some.injEq] at h; subst h; exact hP
    | cons a l => simp [recalcNodeList] at h
  | succ rounds ih =>
    intro c l c' hP hf h
    cases l with
    | nil => simp only [recalcNodeList, Option.some.injEq] at h; subst h; exact hP
    | cons a l =>
      simp only [recalcNodeList] at h
      cases hr : recalcRound c (order (a :: l)) with
      | none => simp [hr] at h
      | some r =>
        obtain ⟨c1, next⟩ := r
        simp only [hr] at h
        simp only [runShortFree, hr, Bool.and_eq_true] at hf
        exact ih c1 next c' (recalcRound_pwrHigh _ c [] c1 next hP hf.1 hr) hf.2 h

/-- C5, amended. In a state in which `gndNode` and `pwrNode` point to the supplies,
no node is marked and `VCC.State` is true: after `recalcNode` on a node, `VCC.State`
is true unless the group built for the node contains both GND and VCC, and then it is
false; after `recalcNodeList` on a worklist, `VCC.State` is true when none of the
`recalcNode` calls of the run built such a group. -/
theorem vcc_state_unless_short (c : CPU) (hs : Supplied c) (hm : NoMarks c)
    (hv : ∀ n, c.getNode NodePWR = some n → n.State = true) :
    (∀ id l r, recalcNode c id l = some r →
      ∀ n, r.1.getNode NodePWR = some n → n.State = !shortGroup c id) ∧
    (∀ order rounds l c', runShortFree order rounds c l = true →
      recalcNodeList order rounds c l = some c' →
      ∀ n, c'.getNode NodePWR = some n → n.State = true) := by
  constructor
  · intro id l r h
    obtain ⟨c1, l1⟩ := r
    exact recalcNode_pwr ⟨hs, hm, hv⟩ h
  · intro order rounds l c' hf h
    exact (recalcNodeList_pwrHigh order rounds c l c' ⟨hs, hm, hv⟩ hf h).2.2

theorem chg_eq_true {c : CPU} {a : List Nat} {v : Bool} {k : Int} :
    chg c a v k = true ↔
      ∃ i ∈ a, ∃ n, c.nodes i = some n ∧ n.State ≠ v ∧ k ∈ n.GateTransistors := by
  unfold chg
  rw [List.any_eq_true]
  constructor
  · rintro ⟨i, hi, h⟩
    cases hn : c.nodes i with
    | none => simp [hn] at h
    | some n =>
      simp only [hn, Bool.and_eq_true, bne_iff_ne, ne_eq, List.contains_eq_any_beq, List.any_eq_true, beq_iff_eq] at h
      obtain ⟨h1, x, hx, hxk⟩ := h
      exact ⟨i, hi, n, hn, h1, hxk ▸ hx⟩
  · rintro ⟨i, hi, n, hn, h1, h2⟩
    refine ⟨i, hi, ?_⟩
    simp only [hn, Bool.and_eq_true, bne_iff_ne, ne_eq, List.contains_eq_any_beq,
      List.any_eq_true, beq_iff_eq]
    exact ⟨h1, k, h2, rfl⟩

theorem settled_transistor_some {c : CPU} {a : List Nat} {v : Bool} {k : Int} {t' : Transistor}
    (h : (settled c a v).transistors k = some t') :
    ∃ t, c.transistors k = some t ∧ t' = (if chg c a v k then { t with On := v } else t) := by
  rw [settled_transistors] at h
  cases h0 : c.transistors k with
  | none => simp [h0] at h
  | some t0 =>
    simp only [h0, Option.map_some', Option.some.injEq] at h
    exact ⟨t0, rfl, h.symm⟩

theorem settled_getNode_some {c : CPU} {a : List Nat} {v : Bool} {i : Nat} {n' : Node}
    (h : (settled c a v).getNode i = some n') :
    ∃ n, c.getNode i = some n ∧
      n' = (if i ∈ a then { n with State := v, InNodeGroup := false } else n) := by
  rw [settled_getNode] at h
  cases h0 : c.getNode i with
  | none => simp [h0] at h
  | some n0 =>
    simp only [h0, Option.map_some', Option.some.injEq] at h
    exact ⟨n0, rfl, h.symm⟩

theorem settled_gateLists {c : CPU} {a : List Nat} {v : Bool} (h : GateLists c) :
    GateLists (settled c a v) := by
  constructor
  · intro k t' ht'
    obtain ⟨t, ht, rfl⟩ := settled_transistor_some ht'
    obtain ⟨n, hn, hk⟩ := h.1 k t ht
    have hg : (if chg c a v k then { t with On := v } else t).GateNodeID = t.GateNodeID := by
      by_cases hc : chg c a v k = true <;> simp [hc]
    rw [hg, settled_getNode, hn]
    refine ⟨_, rfl, ?_⟩
    by_cases hi : t.GateNodeID ∈ a <;> simpa [hi] using hk
  · intro i n' hn' k hk
    obtain ⟨n, hn, rfl⟩ := settled_getNode_some hn'
    have hk' : k ∈ n.GateTransistors := by
      by_cases hi : i ∈ a <;> simpa [hi] using hk
    obtain ⟨t, ht, hg⟩ := h.2 i n hn k hk'
    rw [settled_transistors, ht]
    refine ⟨_, rfl, ?_⟩
    by_cases hc : chg c a v k = true <;> simpa [hc] using hg

theorem settled_gateInv {c : CPU} {a : List Nat} {v : Bool} (hl : GateLists c) (h : GateInv c)
    (hb : ∀ i ∈ a, i < NodeDefCount) : GateInv (settled c a v) := by
  intro k t' ht' hne n' hn'
  obtain ⟨t, ht, rfl⟩ := settled_transistor_some ht'
  have hg : (if chg c a v k then { t with On := v } else t).GateNodeID = t.GateNodeID := by
    by_cases hc : chg c a v k = true <;> simp [hc]
  rw [hg] at hn' hne
  obtain ⟨n, hn, rfl⟩ := settled_getNode_some hn'
  by_cases hc : chg c a v k = true
  · obtain ⟨i, hi, ni, hni, _, hki⟩ := chg_eq_true.1 hc
    have hgi : c.getNode i = some ni := getNode_eq_some.2 ⟨hb i hi, hni⟩
    obtain ⟨t2, ht2, hg2⟩ := hl.2 i ni hgi k hki
    rw [ht] at ht2
    simp only [Option.some.injEq] at ht2
    subst ht2
    rw [hg2]
    simp [hc, hi]
  · simp only [hc, Bool.false_eq_true, if_false]
    by_cases hi : t.GateNodeID ∈ a
    · simp only [hi, if_true]
      rw [h k t ht hne n hn]
      by_contra hsv
      apply hc
      obtain ⟨n2, hn2, hk2⟩ := hl.1 k t ht
      rw [hn] at hn2
      simp only [Option.some.injEq] at hn2
      subst hn2
      exact chg_eq_true.2 ⟨_, hi, n, (getNode_eq_some.1 hn).2, hsv, hk2⟩
    · simp only [hi, if_false]
      exact h k t ht hne n hn

theorem getNode_setNode (c : CPU) (i : Nat) (m : Node) (j : Nat) (hi : i < NodeDefCount) :
    (c.setNode i m).getNode j = if j = i then some m else c.getNode j := by
  unfold CPU.getNode
  by_cases hj : j = i
  · subst hj; simp [hi]
  · simp [hj]

/-- The gate invariant is a property of the engine. -/
theorem gate_engineInv : EngineInv (fun c => GateLists c ∧ GateInv c) := by
  refine ⟨?_, ?_, ?_⟩
  · intro c id l c' l' h0 h
    rcases recalcNode_spec h with ⟨_, hc, _⟩ | ⟨_, a, v, _, _, _, hc, _, hb⟩
    · rw [hc]; exact h0
    · rw [hc]; exact ⟨settled_gateLists h0.1, settled_gateInv h0.1 h0.2 hb⟩
  · intro c i n pu pd h0 hn
    have hi : i < NodeDefCount := (getNode_eq_some.1 hn).1
    constructor
    · constructor
      · intro k t ht
        obtain ⟨m, hm, hk⟩ := h0.1.1 k t ht
        rw [getNode_setNode _ _ _ _ hi]
        by_cases hj : t.GateNodeID = i
        · rw [if_pos hj]
          rw [hj, hn] at hm
          simp only [Option.some.injEq] at hm
          subst hm
          exact ⟨_, rfl, hk⟩
        · rw [if_neg hj]; exact ⟨m, hm, hk⟩
      · intro j m hm k hk
        rw [getNode_setNode _ _ _ _ hi] at hm
        by_cases hj : j = i
        · rw [if_pos hj] at hm
          simp only [Option.some.injEq] at hm
          subst hm
          subst hj
          exact h0.1.2 j n hn k hk
        · rw [if_neg hj] at hm
          exact h0.1.2 j m hm k hk
    · intro k t ht hne m hm
      rw [getNode_setNode _ _ _ _ hi] at hm
      by_cases hj : t.GateNodeID = i
      · rw [if_pos hj] at hm
        simp only [Option.some.injEq] at hm
        subst hm
        rw [hj] at hne
        have := h0.2 k t ht (by rw [hj]; exact hne) n (by rw [hj]; exact hn)
        simpa using this
      · rw [if_neg hj] at hm
        exact h0.2 k t ht hne m hm
  · intro c a d lg h0
    exact h0

/-- What the first statements of `Reset` leave. -/
theorem resetInit_spec {c c0 : CPU} (h : resetInit c = some c0) :
    (∀ i, c0.getNode i =
      (c.getNode i).map (fun n =>
        { n with State := decide (i = NodePWR), InNodeGroup := false })) ∧
    (∀ k, c0.transistors k = (c.transistors k).map (fun t => { t with On := false })) ∧
    Supplied c0 ∧ c0.busLog = c.busLog ∧ c0.readFromBus = c.readFromBus ∧
    (∃ n, c.getNode NodeGND = some n) ∧ (∃ n, c.getNode NodePWR = some n) := by
  unfold resetInit at h
  simp only at h
  split at h
  · simp at h
  · rename_i gnd hgnd
    split at h
    · simp at h
    · rename_i pwr hpwr
      simp only [Option.some.injEq] at h
      subst h
      have hG : NodeGND < NodeDefCount := by decide
      have hP : NodePWR < NodeDefCount := by decide
      have hGP : NodeGND ≠ NodePWR := by decide
      have hgnd' : (c.nodes NodeGND).map
          (fun n => ({ n with State := false, InNodeGroup := false } : Node)) = some gnd := by
        simpa [CPU.getNode, hG] using hgnd
      have hpwr' : (c.nodes NodePWR).map
          (fun n => ({ n with State := false, InNodeGroup := false } : Node)) = some pwr := by
        simpa [CPU.getNode, hP, CPU.setNode, hGP.symm] using hpwr
      refine ⟨?_, fun k => rfl, ⟨rfl, rfl⟩, rfl, rfl, ?_, ?_⟩
      · intro i
        unfold CPU.getNode
        by_cases hi : i < NodeDefCount
        · simp only [hi, if_true, CPU.setNode]
          by_cases h1 : i = NodePWR
          · subst h1
            simp only [if_true, decide_True]
            cases hc : c.nodes NodePWR with
            | none => simp [hc] at hpwr'
            | some n0 =>
              simp only [hc, Option.map_some', Option.some.injEq] at hpwr' ⊢
              subst hpwr'
              rfl
          · simp only [h1, if_false, decide_False]
            by_cases h2 : i = NodeGND
            · subst h2
              simp only [if_true]
              cases hc : c.nodes NodeGND with
              | none => simp [hc] at hgnd'
              | some n0 =>
                simp only [hc, Option.map_some', Option.some.injEq] at hgnd' ⊢
                subst hgnd'
                rfl
            · simp only [h2, if_false]
        · simp [hi]
      · cases hc : c.nodes NodeGND with
        | none => simp [hc] at hgnd'
        | some n0 => exact ⟨n0, by simp [CPU.getNode, hG, hc]⟩
      · cases hc : c.nodes NodePWR with
        | none => simp [hc] at hpwr'
        | some n0 => exact ⟨n0, by simp [CPU.getNode, hP, hc]⟩

theorem resetInit_gate {c c0 : CPU} (hl : GateLists c) (h : resetInit c = some c0) :
    GateLists c0 ∧ GateInv c0 := by
  obtain ⟨hn, ht, _⟩ := resetInit_spec h
  refine ⟨⟨?_, ?_⟩, ?_⟩
  · intro k t' ht'
    rw [ht] at ht'
    cases h0 : c.transistors k with
    | none => simp [h0] at ht'
    | some t =>
      simp only [h0, Option.map_some', Option.some.injEq] at ht'
      subst ht'
      obtain ⟨n, hgn, hk⟩ := hl.1 k t h0
      refine ⟨{ n with State := decide (t.GateNodeID = NodePWR), InNodeGroup := false }, ?_, hk⟩
      rw [hn, hgn]; rfl
  · intro i n' hn' k hk
    rw [hn] at hn'
    cases h0 : c.getNode i with
    | none => simp [h0] at hn'
    | some n =>
      simp only [h0, Option.map_some', Option.some.injEq] at hn'
      subst hn'
      obtain ⟨t, ht0, hg⟩ := hl.2 i n h0 k hk
      refine ⟨{ t with On := false }, ?_, hg⟩
      rw [ht, ht0]; rfl
  · intro k t' ht' hne n' hn'
    rw [ht] at ht'
    cases h0 : c.transistors k with
    | none => simp [h0] at ht'
    | some t =>
      simp only [h0, Option.map_some', Option.some.injEq] at ht'
      subst ht'
      rw [hn] at hn'
      cases h1 : c.getNode t.GateNodeID with
      | none => simp [h1] at hn'
      | some n =>
        simp only [h1, Option.map_some', Option.some.injEq] at hn'
        subst hn'
        simp only at hne
        simp [hne]

theorem halfSteps_keeps {P : CPU → Prop} (hP : EngineInv P) {order : List Nat → List Nat}
    {rounds : Nat} : ∀ (n : Nat) (c c' : CPU), P c → halfSteps order rounds n c = some c' →
    P c' := by
  intro n
  induction n with
  | zero =>
    intro c c' h0 h
    simp only [halfSteps, Option.some.injEq] at h
    subst h; exact h0
  | succ n ih =>
    intro c c' h0 h
    simp only [halfSteps, Option.bind_eq_some] at h
    obtain ⟨c1, h1, h2⟩ := h
    exact ih c1 c' (hP.halfStep h0 h1) h2

/-! ## The gate lists built by `New` -/

theorem setupTransistors_nodup : ∀ (lines : List (List Int)) (m : List TransDef),
    (m.map TransDef.ID).Nodup → ((setupTransistors lines m).map TransDef.ID).Nodup := by
  intro lines
  induction lines with
  | nil => intro m hm; simpa [setupTransistors] using hm
  | cons line rest ih =>
    intro m hm
    have hskip : ((setupTransistors rest m).map TransDef.ID).Nodup := ih m hm
    match line with
    | [] => simpa [setupTransistors] using hskip
    | [_] => simpa [setupTransistors] using hskip
    | [_, _] => simpa [setupTransistors] using hskip
    | [_, _, _] => simpa [setupTransistors] using hskip
    | id :: gate :: c1 :: c2 :: more =>
      simp only [setupTransistors]
      apply ih
      rw [List.map_append, List.nodup_append]
      refine ⟨(hm.sublist ((List.filter_sublist m).map TransDef.ID)), by simp, ?_⟩
      intro x hx1 hx2
      simp only [List.map_cons, List.map_nil, List.mem_singleton] at hx2
      subst hx2
      simp only [List.mem_map, List.mem_filter, decide_eq_true_eq] at hx1
      obtain ⟨t, ⟨_, ht⟩, hid⟩ := hx1
      exact ht hid

theorem setupNodes_spec : ∀ (lines : List (List Int)) (ns ns' : Nat → Option Node),
    (∀ i n, ns i = some n → i < NodeDefCount ∧ n.GateTransistors = []) →
    setupNodes lines ns = some ns' →
    ∀ i n, ns' i = some n → i < NodeDefCount ∧ n.GateTransistors = [] := by
  intro lines
  induction lines with
  | nil =>
    intro ns ns' h0 h
    simp only [setupNodes, Option.some.injEq] at h
    subst h; exact h0
  | cons line rest ih =>
    intro ns ns' h0 h
    match line with
    | [] => exact ih ns ns' h0 (by simpa [setupNodes] using h)
    | [_] => exact ih ns ns' h0 (by simpa [setupNodes] using h)
    | id :: pullup :: more =>
      simp only [setupNodes] at h
      by_cases hr : 0 ≤ id ∧ id < (NodeDefCount : Int)
      · rw [if_pos hr] at h
        refine ih _ ns' ?_ h
        intro i n hn
        by_cases hs : (ns id.toNat).isSome = true
        · rw [if_pos hs] at hn; exact h0 i n hn
        · rw [if_neg hs] at hn
          by_cases hi : i = id.toNat
          · simp only [hi, if_true, Option.some.injEq] at hn
            subst hn
            refine ⟨?_, rfl⟩
            rw [hi]; omega
          · simp only [hi, if_false] at hn
            exact h0 i n hn
      · rw [if_neg hr] at h
        simp at h

theorem ensureNode_spec {ns ns' : Nat → Option Node} {id : Int} (h : ensureNode ns id = some ns') :
    (0 ≤ id ∧ id < (NodeDefCount : Int)) ∧ (ns' id.toNat).isSome = true ∧
    (∀ i, gatesAt ns' i = gatesAt ns i) ∧ (∀ i, (ns i).isSome = true → (ns' i).isSome = true) ∧
    (∀ i, (ns' i).isSome = true → i < NodeDefCount ∨ (ns i).isSome = true) := by
  unfold ensureNode at h
  by_cases hr : 0 ≤ id ∧ id < (NodeDefCount : Int)
  · rw [if_pos hr] at h
    simp only [Option.some.injEq] at h
    subst h
    refine ⟨hr, ?_, ?_, ?_, ?_⟩
    · by_cases hs : (ns id.toNat).isSome = true
      · rw [if_pos hs]; exact hs
      · rw [if_neg hs]; simp
    · intro i
      by_cases hs : (ns id.toNat).isSome = true
      · rw [if_pos hs]
      · rw [if_neg hs]
        unfold gatesAt
        by_cases hi : i = id.toNat
        · subst hi
          have : ns id.toNat = none := by simpa using hs
          simp [this, newNode]
        · simp [hi]
    · intro i hi
      by_cases hs : (ns id.toNat).isSome = true
      · rw [if_pos hs]; exact hi
      · rw [if_neg hs]
        by_cases hii : i = id.toNat
        · simp [hii]
        · simpa [hii] using hi
    · intro i hi
      by_cases hs : (ns id.toNat).isSome = true
      · rw [if_pos hs] at hi; exact Or.inr hi
      · rw [if_neg hs] at hi
        by_cases hii : i = id.toNat
        · left; rw [hii]; omega
        · right; simpa [hii] using hi
  · rw [if_neg hr] at h
    simp at h

theorem connectOne_spec {ns ns' : Nat → Option Node} {t : TransDef}
    (h : connectOne ns t = some ns') :
    (0 ≤ t.GateNodeID ∧ t.GateNodeID < (NodeDefCount : Int)) ∧
    (ns' t.GateNodeID.toNat).isSome = true ∧
    (∀ i, gatesAt ns' i = gatesAt ns i ++ (if t.GateNodeID.toNat = i then [t.ID] else [])) ∧
    (∀ i, (ns i).isSome = true → (ns' i).isSome = true) ∧
    (∀ i, (ns' i).isSome = true → i < NodeDefCount ∨ (ns i).isSome = true) := by
  unfold connectOne at h
  simp only [Option.bind_eq_some] at h
  obtain ⟨ns1, h1, ns2, h2, ns3, h3, h4⟩ := h
  simp only [Option.some.injEq] at h4
  obtain ⟨r1, s1, g1, k1, b1⟩ := ensureNode_spec h1
  obtain ⟨_, _, g2, k2, b2⟩ := ensureNode_spec h2
  obtain ⟨_, _, g3, k3, b3⟩ := ensureNode_spec h3
  have hsome : ∀ i, (ns' i).isSome = (ns3 i).isSome := by
    intro i
    rw [← h4]
    dsimp only
    split_ifs <;> simp
  have hgate : ∀ i, gatesAt ns' i =
      gatesAt ns3 i ++ (if t.GateNodeID.toNat = i then [t.ID] else []) := by
    intro i
    rw [← h4]
    unfold gatesAt
    dsimp only
    have s3 : (ns3 t.GateNodeID.toNat).isSome = true := k3 _ (k2 _ s1)
    by_cases d : i = t.GateNodeID.toNat
    · have d' : t.GateNodeID.toNat = i := d.symm
      rw [if_pos d']
      cases hn : ns3 i with
      | none => rw [← d, hn] at s3; simp at s3
      | some n => split_ifs <;> simp
    · have d' : ¬ t.GateNodeID.toNat = i := fun e => d e.symm
      rw [if_neg d']
      cases hn : ns3 i with
      | none => split_ifs <;> simp
      | some n => split_ifs <;> simp
  refine ⟨r1, ?_, ?_, ?_, ?_⟩
  · rw [hsome]; exact k3 _ (k2 _ s1)
  · intro i; rw [hgate, g3, g2, g1]
  · intro i hi; rw [hsome]; exact k3 _ (k2 _ (k1 _ hi))
  · intro i hi
    rw [hsome] at hi
    rcases b3 i hi with h | h
    · exact Or.inl h
    · rcases b2 i h with h | h
      · exact Or.inl h
      · exact b1 i h

theorem connectTransistors_spec : ∀ (ts : List TransDef) (ns ns' : Nat → Option Node),
    connectTransistors ns ts = some ns' →
    (∀ t ∈ ts, (0 ≤ t.GateNodeID ∧ t.GateNodeID < (NodeDefCount : Int)) ∧
      (ns' t.GateNodeID.toNat).isSome = true) ∧
    (∀ i, gatesAt ns' i =
      gatesAt ns i ++ (ts.filter (fun t => t.GateNodeID.toNat = i)).map TransDef.ID) ∧
    (∀ i, (ns i).isSome = true → (ns' i).isSome = true) ∧
    (∀ i, (ns' i).isSome = true → i < NodeDefCount ∨ (ns i).isSome = true) := by
  intro ts
  induction ts with
  | nil =>
    intro ns ns' h
    simp only [connectTransistors, Option.some.injEq] at h
    subst h
    exact ⟨by simp, by simp, fun _ h => h, fun _ h => Or.inr h⟩
  | cons t ts ih =>
    intro ns ns' h
    simp only [connectTransistors, Option.bind_eq_some] at h
    obtain ⟨ns1, h1, h2⟩ := h
    obtain ⟨r1, s1, g1, k1, b1⟩ := connectOne_spec h1
    obtain ⟨a2, g2, k2, b2⟩ := ih ns1 ns' h2
    refine ⟨?_, ?_, ?_, ?_⟩
    · intro x hx
      rcases List.mem_cons.1 hx with hx | hx
      · subst hx; exact ⟨r1, k2 _ s1⟩
      · exact a2 x hx
    · intro i
      rw [g2, g1, List.append_assoc]
      congr 1
      by_cases hi : t.GateNodeID.toNat = i <;> simp [List.filter_cons, hi]
    · intro i hi; exact k2 _ (k1 _ hi)
    · intro i hi
      rcases b2 i hi with h | h
      · exact Or.inl h
      · exact b1 i h

/-- A netlist loaded by `New` has the gate lists `GateLists` asks for, when
`connectTransistors` visits every transistor of the map. -/
theorem New_gateLists {rd : List BusCall → Nat → Nat} {transDefs segDefs : List (List Int)}
    {visit : List TransDef → List TransDef} {c : CPU}
    (hvisit : ∀ l t, t ∈ visit l ↔ t ∈ l)
    (h : New rd transDefs segDefs visit = some c) : GateLists c := by
  unfold New at h
  simp only [Option.bind_eq_some, Option.map_eq_some'] at h
  obtain ⟨ns, hns, ns1, hns1, hc⟩ := h
  have hnodup := setupTransistors_nodup transDefs [] (by simp)
  have h0 := setupNodes_spec segDefs _ ns (by intro i n hn; simp at hn) hns
  obtain ⟨a1, g1, k1, b1⟩ := connectTransistors_spec _ ns ns1 hns1
  have hg0 : ∀ i, gatesAt ns i = [] := by
    intro i
    unfold gatesAt
    cases hn : ns i with
    | none => rfl
    | some n => simp [(h0 i n hn).2]
  have hrange : ∀ i, (ns1 i).isSome = true → i < NodeDefCount := by
    intro i hi
    rcases b1 i hi with h | h
    · exact h
    · cases hn : ns i with
      | none => simp [hn] at h
      | some n => exact (h0 i n hn).1
  subst hc
  constructor
  · intro k t ht
    simp only [Option.map_eq_some'] at ht
    obtain ⟨td, hfind, rfl⟩ := ht
    have hmem : td ∈ setupTransistors transDefs [] := List.mem_of_find?_eq_some hfind
    have hid : td.ID = k := by simpa using List.find?_some hfind
    obtain ⟨_, hs⟩ := a1 td ((hvisit _ td).2 hmem)
    cases hn : ns1 td.GateNodeID.toNat with
    | none => simp [hn] at hs
    | some n =>
      refine ⟨n, getNode_eq_some.2 ⟨hrange _ (by simp [hn]), hn⟩, ?_⟩
      have hga := g1 td.GateNodeID.toNat
      rw [hg0] at hga
      simp only [gatesAt, hn, Option.map_some', Option.getD_some, List.nil_append] at hga
      rw [hga, List.mem_map]
      exact ⟨td, List.mem_filter.2 ⟨(hvisit _ td).2 hmem, by simp⟩, hid⟩
  · intro i n hn k hk
    have hni : ns1 i = some n := (getNode_eq_some.1 hn).2
    have hga := g1 i
    rw [hg0] at hga
    simp only [gatesAt, hni, Option.map_some', Option.getD_some, List.nil_append] at hga
    rw [hga, List.mem_map] at hk
    obtain ⟨td, htd, hid⟩ := hk
    obtain ⟨htd1, htd2⟩ := List.mem_filter.1 htd
    have hmem : td ∈ setupTransistors transDefs [] := (hvisit _ td).1 htd1
    have hex : ∃ td', (setupTransistors transDefs []).find? (fun t => decide (t.ID = k)) = some td' := by
      cases hf : (setupTransistors transDefs []).find? (fun t => decide (t.ID = k)) with
      | none =>
        rw [List.find?_eq_none] at hf
        exact absurd (by simpa using hid) (hf td hmem)
      | some td' => exact ⟨td', rfl⟩
    obtain ⟨td', hfind⟩ := hex
    have hmem' : td' ∈ setupTransistors transDefs [] := List.mem_of_find?_eq_some hfind
    have hid' : td'.ID = k := by simpa using List.find?_some hfind
    have heq : td' = td :=
      List.inj_on_of_nodup_map hnodup hmem' hmem (by rw [hid', hid])
    subst heq
    refine ⟨{ GateNodeID := td'.GateNodeID.toNat, C1NodeID := td'.C1NodeID.toNat,
              C2NodeID := td'.C2NodeID.toNat, On := false }, ?_, ?_⟩
    · show Option.map _ (List.find? _ _) = _
      rw [hfind]; rfl
    · simpa using htd2

/-! ## CLK0 and the half step -/

theorem chan_settled {c : CPU} {a : List Nat} {v : Bool} {x : Nat} :
    Chan (settled c a v) x ↔ Chan c x := by
  constructor
  · rintro ⟨k, t', hk, hx⟩
    obtain ⟨t, ht, rfl⟩ := settled_transistor_some hk
    refine ⟨k, t, ht, ?_⟩
    by_cases hc : chg c a v k = true <;> simpa [hc] using hx
  · rintro ⟨k, t, hk, hx⟩
    refine ⟨k, if chg c a v k then { t with On := v } else t, ?_, ?_⟩
    · rw [settled_transistors, hk]; rfl
    · by_cases hc : chg c a v k = true <;> simpa [hc] using hx

theorem settled_chanLists {c : CPU} {a : List Nat} {v : Bool} (h : ChanLists c) :
    ChanLists (settled c a v) := by
  intro i n' hn' k hk
  obtain ⟨n, hn, rfl⟩ := settled_getNode_some hn'
  have hk' : k ∈ n.C1C2Transistors := by
    by_cases hi : i ∈ a <;> simpa [hi] using hk
  obtain ⟨t, ht, hg⟩ := h i n hn k hk'
  refine ⟨if chg c a v k then { t with On := v } else t, ?_, ?_⟩
  · rw [settled_transistors, ht]; rfl
  · by_cases hc : chg c a v k = true <;> simpa [hc] using hg

theorem EngineInv.and {P Q : CPU → Prop} (hP : EngineInv P) (hQ : EngineInv Q) :
    EngineInv (fun c => P c ∧ Q c) :=
  ⟨fun c id l c' l' h0 h => ⟨hP.step c id l c' l' h0.1 h, hQ.step c id l c' l' h0.2 h⟩,
   fun c i n pu pd h0 hn => ⟨hP.pulls c i n pu pd h0.1 hn, hQ.pulls c i n pu pd h0.2 hn⟩,
   fun c a d lg h0 => ⟨hP.regs c a d lg h0.1, hQ.regs c a d lg h0.2⟩⟩

/-- The predicate `Between` is a property of the engine. -/
theorem between_only : EngineInv Between := by
  refine ⟨?_, ?_, ?_⟩
  · intro c id l c' l' h0 h
    refine ⟨recalcNode_supplied h0.1 h, recalcNode_noMarks h0.2.1 h, ?_⟩
    rcases recalcNode_spec h with ⟨_, hc, _⟩ | ⟨_, a, v, _, _, _, hc, _⟩
    · rw [hc]; exact h0.2.2
    · rw [hc]; exact settled_chanLists h0.2.2
  · intro c i n pu pd h0 hn
    have hi : i < NodeDefCount := (getNode_eq_some.1 hn).1
    refine ⟨h0.1, ?_, ?_⟩
    · intro j m hm
      rw [getNode_setNode _ _ _ _ hi] at hm
      by_cases hj : j = i
      · rw [if_pos hj] at hm
        simp only [Option.some.injEq] at hm
        subst hm
        exact h0.2.1 i n hn
      · rw [if_neg hj] at hm
        exact h0.2.1 j m hm
    · intro j m hm k hk
      rw [getNode_setNode _ _ _ _ hi] at hm
      by_cases hj : j = i
      · rw [if_pos hj] at hm
        simp only [Option.some.injEq] at hm
        subst hm
        subst hj
        exact h0.2.2 j n hn k hk
      · rw [if_neg hj] at hm
        exact h0.2.2 j m hm k hk
  · intro c a d lg h0
    exact h0

/-- That the node `x` is no channel terminal is a property of the engine. -/
theorem chanFree_engineInv (x : Nat) : EngineInv (fun c => ¬ Chan c x) := by
  refine ⟨?_, ?_, ?_⟩
  · intro c id l c' l' h0 h
    rcases recalcNode_spec h with ⟨_, hc, _⟩ | ⟨_, a, v, _, _, _, hc, _⟩
    · rw [hc]; exact h0
    · rw [hc, chan_settled]; exact h0
  · intro c i n pu pd h0 _
    exact h0
  · intro c a d lg h0
    exact h0

/-- The predicate `Between` together with `x` being no channel terminal is a property
of the engine. -/
theorem between_engineInv (x : Nat) : EngineInv (fun c => Between c ∧ ¬ Chan c x) :=
  between_only.and (chanFree_engineInv x)

/-- A recalculation from a seed other than `x` leaves the node `x` alone and does
not enqueue it, when `x` is no channel terminal. -/
theorem recalcNode_other {c c' : CPU} {id x : Nat} {l l' : List Nat} (hx : ¬ Chan c x)
    (hid : id ≠ x) (hl : ∀ y ∈ l, y ≠ x) (h : recalcNode c id l = some (c', l')) :
    c'.getNode x = c.getNode x ∧ ∀ y ∈ l', y ≠ x := by
  rcases recalcNode_spec h with ⟨_, hc, hl'⟩ | ⟨_, a, v, _, hadd, _, hc, hq, _⟩
  · rw [hc, hl']; exact ⟨rfl, hl⟩
  · have hxa : x ∉ a := by
      intro hxa
      rcases (hadd.2 x hxa).2 with h1 | h1
      · exact hid h1.symm
      · exact hx h1
    constructor
    · rw [hc, settled_getNode]
      cases c.getNode x <;> simp [hxa]
    · intro y hy
      rcases hq.2 y hy with h1 | h1
      · exact hl y h1
      · intro hyx
        rw [hyx] at h1
        exact hx h1.1

/-- The engine run on a worklist that does not hold `x` leaves the node `x` alone,
when `x` is no channel terminal. -/
theorem recalcNodeList_other {order : List Nat → List Nat} (hord : ∀ l, (order l).Perm l)
    {rounds : Nat} {c c' : CPU} {x : Nat} {l : List Nat} (h0 : Between c ∧ ¬ Chan c x)
    (hl : ∀ y ∈ l, y ≠ x) (h : recalcNodeList order rounds c l = some c') :
    (Between c' ∧ ¬ Chan c' x) ∧ c'.getNode x = c.getNode x := by
  have := recalcNodeList_keeps
    (fun d => (Between d ∧ ¬ Chan d x) ∧ d.getNode x = c.getNode x) (fun y => y ≠ x) order
    (fun l y hy => (hord l).mem_iff.1 hy)
    (fun d id l' d' l'' hd hid hl' hh => by
      obtain ⟨e1, e2⟩ := recalcNode_other hd.1.2 hid hl' hh
      exact ⟨⟨(between_engineInv x).step d id l' d' l'' hd.1 hh, by rw [e1]; exact hd.2⟩, e2⟩)
    rounds c l c' ⟨h0, rfl⟩ hl h
  exact this

theorem recalcNode_alone {c c' : CPU} {x : Nat} {n : Node} {l' : List Nat}
    (h0 : Between c ∧ ¬ Chan c x) (hx : ¬ (x = NodeGND ∨ x = NodePWR))
    (hn : c.getNode x = some n) (h : recalcNode c x [] = some (c', l')) :
    c' = settled c [x] (aloneValue n) ∧ ∀ y ∈ l', y ≠ x := by
  obtain ⟨⟨hs, hm, hl⟩, hch⟩ := h0
  have hnil : n.C1C2Transistors = [] := by
    rw [List.eq_nil_iff_forall_not_mem]
    intro k hk
    obtain ⟨t, ht, hg⟩ := hl x n hn k hk
    exact hch ⟨k, t, ht, by rcases hg with hg | hg <;> simp [hg]⟩
  have hgrp : addSubNodesToGroup groupFuel { c with recalcNodeGroup := [] } x =
      some (grouped c [x]) := by
    show addSubNodesToGroup (NodeDefCount + 1) { c with recalcNodeGroup := [] } x = _
    rw [addSubNodesToGroup]
    have hn' : ({ c with recalcNodeGroup := [] } : CPU).getNode x = some n := hn
    simp only [hn', hm x n hn, Bool.false_eq_true, if_false, if_neg hx]
    rw [markAll_one _ x n (getNode_eq_some.1 hn').2, hnil]
    rfl
  rcases recalcNode_spec h with ⟨hsup, _, _⟩ | ⟨_, a, v, hadd, _, hv, hc, hq, _⟩
  · exact absurd hsup hx
  · have ha : a = [x] := by
      rw [hgrp] at hadd
      simp only [Option.some.injEq] at hadd
      have := congrArg CPU.recalcNodeGroup hadd
      simpa [grouped] using this.symm
    subst ha
    have hxg : NodeGND ≠ x := fun e => hx (Or.inl e.symm)
    have hxp : NodePWR ≠ x := fun e => hx (Or.inr e.symm)
    have hval : v = aloneValue n := by
      unfold getNodeValue at hv
      have h1 : (grouped c [x]).gndNode = some NodeGND := hs.1
      have h2 : (grouped c [x]).pwrNode = some NodePWR := hs.2
      have h3 : (grouped c [x]).recalcNodeGroup = [x] := by simp [grouped]
      rw [h1, h2, h3] at hv
      simp only [Option.some_bind, grouped_getNode] at hv
      cases hg : c.getNode NodeGND with
      | none => simp [hg] at hv
      | some g =>
        simp only [hg, Option.map_some', hm _ g hg, List.mem_singleton, hxg, decide_False,
          Bool.or_false, Bool.false_eq_true, if_false] at hv
        cases hp : c.getNode NodePWR with
        | none => simp [hp] at hv
        | some p =>
          simp only [hp, Option.map_some', hm _ p hp, hxp, decide_False,
            Bool.or_false, Bool.false_eq_true, if_false, getNodeValueLoop, grouped_getNode, hn]
            at hv
          unfold aloneValue
          split_ifs at hv ⊢ <;> simp_all
    subst hval
    refine ⟨hc, ?_⟩
    intro y hy
    rcases hq.2 y hy with h1 | h1
    · simp at h1
    · intro hyx
      rw [hyx] at h1
      exact hch h1.1

/-- Driving a node that is no channel terminal: after the engine has run on the
worklist that holds the node alone, its `State` is the value its pulls give. -/
theorem recalcNodeList_alone {order : List Nat → List Nat} (hord : ∀ l, (order l).Perm l)
    {rounds : Nat} {c c' : CPU} {x : Nat} {n : Node} (h0 : Between c ∧ ¬ Chan c x)
    (hx : ¬ (x = NodeGND ∨ x = NodePWR)) (hn : c.getNode x = some n)
    (h : recalcNodeList order rounds c [x] = some c') :
    (Between c' ∧ ¬ Chan c' x) ∧
      c'.getNode x = some { n with State := aloneValue n, InNodeGroup := false } := by
  cases rounds with
  | zero => simp [recalcNodeList] at h
  | succ rounds =>
    simp only [recalcNodeList] at h
    have ho : order [x] = [x] := List.perm_singleton.1 (hord [x])
    rw [ho] at h
    cases hr : recalcRound c [x] with
    | none => simp [hr] at h
    | some r =>
      obtain ⟨c1, next⟩ := r
      simp only [hr] at h
      have hr' : recalcNode c x [] = some (c1, next) := by
        simpa [recalcRound, List.foldlM] using hr
      obtain ⟨hc1, hnext⟩ := recalcNode_alone h0 hx hn hr'
      have h1 : Between c1 ∧ ¬ Chan c1 x := (between_engineInv x).step c x [] c1 next h0 hr'
      obtain ⟨h2, h3⟩ := recalcNodeList_other hord h1 hnext h
      refine ⟨h2, ?_⟩
      rw [h3, hc1, settled_getNode, hn]
      simp

theorem setLow_alone {order : List Nat → List Nat} (hord : ∀ l, (order l).Perm l)
    {rounds : Nat} {c c' : CPU} {x : Nat} (h0 : Between c ∧ ¬ Chan c x)
    (hx : ¬ (x = NodeGND ∨ x = NodePWR)) (h : setLow order rounds c x = some c') :
    (Between c' ∧ ¬ Chan c' x) ∧ StateIs c' x false := by
  unfold setLow at h
  cases hn : c.getNode x with
  | none => simp [hn] at h
  | some n =>
    simp only [hn] at h
    have hi : x < NodeDefCount := (getNode_eq_some.1 hn).1
    obtain ⟨h1, h2⟩ := recalcNodeList_alone hord
      ((between_engineInv x).pulls c x n false 1 h0 hn) hx
      (by rw [getNode_setNode _ _ _ _ hi, if_pos rfl]) h
    exact ⟨h1, _, h2, by simp [aloneValue]⟩

theorem setHigh_alone {order : List Nat → List Nat} (hord : ∀ l, (order l).Perm l)
    {rounds : Nat} {c c' : CPU} {x : Nat} (h0 : Between c ∧ ¬ Chan c x)
    (hx : ¬ (x = NodeGND ∨ x = NodePWR)) (h : setHigh order rounds c x = some c') :
    (Between c' ∧ ¬ Chan c' x) ∧ StateIs c' x true := by
  unfold setHigh at h
  cases hn : c.getNode x with
  | none => simp [hn] at h
  | some n =>
    simp only [hn] at h
    have hi : x < NodeDefCount := (getNode_eq_some.1 hn).1
    obtain ⟨h1, h2⟩ := recalcNodeList_alone hord
      ((between_engineInv x).pulls c x n true 0 h0 hn) hx
      (by rw [getNode_setNode _ _ _ _ hi, if_pos rfl]) h
    exact ⟨h1, _, h2, by simp [aloneValue]⟩

theorem driveData_other (data : Nat) (x : Nat) : ∀ (lines : List (Nat × Nat)) (c c' : CPU),
    (∀ p ∈ lines, p.2 ≠ x) → driveData data c lines = some c' →
    c'.getNode x = c.getNode x := by
  intro lines
  induction lines with
  | nil =>
    intro c c' _ h
    simp only [driveData, Option.some.injEq] at h
    subst h; rfl
  | cons ln lines ih =>
    intro c c' hl h
    obtain ⟨bit, nodeID⟩ := ln
    simp only [driveData] at h
    cases hn : c.getNode nodeID with
    | none => simp [hn] at h
    | some n =>
      simp only [hn] at h
      have hi : nodeID < NodeDefCount := (getNode_eq_some.1 hn).1
      have hne : x ≠ nodeID := fun e => hl (bit, nodeID) (List.mem_cons_self _ _) e.symm
      rw [ih _ c' (fun p hp => hl p (List.mem_cons_of_mem _ hp)) h,
        getNode_setNode _ _ _ _ hi, if_neg hne]

theorem handleBusRead_other {order : List Nat → List Nat} (hord : ∀ l, (order l).Perm l)
    {rounds : Nat} {c c' : CPU} {x : Nat} (h0 : Between c ∧ ¬ Chan c x)
    (hx : ∀ p ∈ DataLineVals, p.2 ≠ x) (h : handleBusRead order rounds c = some c') :
    c'.getNode x = c.getNode x := by
  unfold handleBusRead at h
  cases hn : c.getNode NodeRW with
  | none => simp [hn] at h
  | some rw =>
    simp only [hn] at h
    by_cases hs : rw.State = true
    · rw [if_pos hs] at h
      simp only [readAddressBus, Option.bind_eq_some, Option.map_eq_some'] at h
      obtain ⟨⟨c1, address⟩, ⟨a, _, ha⟩, c3, h3, h4⟩ := h
      simp only [Prod.mk.injEq] at ha
      obtain ⟨hc1, _⟩ := ha
      subst hc1
      have hP : Between c3 ∧ ¬ Chan c3 x :=
        (between_engineInv x).driveData _ _ _ c3
          ((between_engineInv x).regs c a c.dataBits _ h0) h3
      have e3 := driveData_other _ x _ _ c3 hx h3
      obtain ⟨_, e4⟩ := recalcNodeList_other hord hP
        (by
          intro y hy
          obtain ⟨p, hp, rfl⟩ := List.mem_map.1 hy
          exact hx p hp) h4
      rw [e4, e3]
      rfl
    · rw [if_neg hs] at h
      simp only [Option.some.injEq] at h
      subst h; rfl

theorem handleBusWrite_nodes {c c' : CPU} (h : handleBusWrite c = some c') :
    c'.nodes = c.nodes := by
  unfold handleBusWrite at h
  cases hn : c.getNode NodeRW with
  | none => simp [hn] at h
  | some rw =>
    simp only [hn] at h
    by_cases hs : rw.State = false
    · rw [if_pos hs] at h
      simp only [readAddressBus, readDataBus, Option.bind_eq_some, Option.map_eq_some'] at h
      obtain ⟨⟨c1, address⟩, ⟨a, _, ha⟩, ⟨c2, data⟩, ⟨d, _, hd⟩, h4⟩ := h
      simp only [Prod.mk.injEq] at ha hd
      obtain ⟨hc1, _⟩ := ha
      obtain ⟨hc2, _⟩ := hd
      subst hc1; subst hc2
      simp only [Option.some.injEq] at h4
      subst h4
      rfl
    · rw [if_neg hs] at h
      simp only [Option.some.injEq] at h
      subst h; rfl

theorem halfStep_clk0 {order : List Nat → List Nat} (hord : ∀ l, (order l).Perm l)
    {rounds : Nat} {c c' : CPU} (h0 : ClockFree c) (h : HalfStep order rounds c = some c') :
    ClockFree c' ∧ ∀ b, StateIs c NodeCLK0 b → StateIs c' NodeCLK0 (!b) := by
  refine ⟨(between_engineInv NodeCLK0).halfStep h0 h, ?_⟩
  have hx : ¬ (NodeCLK0 = NodeGND ∨ NodeCLK0 = NodePWR) := by decide
  have hd : ∀ p ∈ DataLineVals, p.2 ≠ NodeCLK0 := by decide
  unfold HalfStep at h
  cases hn : c.getNode NodeCLK0 with
  | none => simp [hn] at h
  | some clk0 =>
    simp only [hn] at h
    intro b hb
    obtain ⟨n, hn2, hnb⟩ := hb
    rw [hn] at hn2
    simp only [Option.some.injEq] at hn2
    subst hn2
    by_cases hs : clk0.State = true
    · rw [if_pos hs] at h
      simp only [Option.bind_eq_some] at h
      obtain ⟨c1, h1, h2⟩ := h
      obtain ⟨hP1, m, hm, hms⟩ := setLow_alone hord h0 hx h1
      have e := handleBusRead_other hord hP1 hd h2
      refine ⟨m, by rw [e]; exact hm, ?_⟩
      rw [hms, ← hnb, hs]; rfl
    · rw [if_neg hs] at h
      simp only [Option.bind_eq_some] at h
      obtain ⟨c1, h1, h2⟩ := h
      obtain ⟨hP1, m, hm, hms⟩ := setHigh_alone hord h0 hx h1
      have e := handleBusWrite_nodes h2
      refine ⟨m, by rw [getNode_of_nodes c1 c' _ (by rw [e])]; exact hm, ?_⟩
      have : clk0.State = false := by simpa using hs
      rw [hms, ← hnb, this]; rfl

theorem halfSteps_even_clk0 {order : List Nat → List Nat} (hord : ∀ l, (order l).Perm l)
    {rounds : Nat} : ∀ (n : Nat) (c c' : CPU), ClockFree c →
    halfSteps order rounds (2 * n) c = some c' →
    ∀ b, StateIs c NodeCLK0 b → StateIs c' NodeCLK0 b := by
  intro n
  induction n with
  | zero =>
    intro c c' _ h b hb
    simp only [Nat.mul_zero, halfSteps, Option.some.injEq] at h
    subst h; exact hb
  | succ n ih =>
    intro c c' h0 h b hb
    have e : 2 * (n + 1) = (2 * n + 1) + 1 := by ring
    rw [e] at h
    simp only [halfSteps, Option.bind_eq_some] at h
    obtain ⟨c1, h1, c2, h2, h3⟩ := h
    obtain ⟨p1, s1⟩ := halfStep_clk0 hord h0 h1
    obtain ⟨p2, s2⟩ := halfStep_clk0 hord p1 h2
    have := s2 _ (s1 b hb)
    rw [Bool.not_not] at this
    exact ih c2 c' p2 h3 b this

/-- C7, amended. In a state between half-steps (supplies linked, no node marked,
channel lists as `connectTransistors` builds them) of a netlist in which CLK0 is not
a channel terminal of any transistor, and for an order of visit that permutes each
worklist: every `HalfStep` that returns leaves `CLK0.State` equal to the negation of
its value at entry, and an even number of `HalfStep` calls returns `CLK0.State` to
the value it had. -/
theorem clk0_toggles (order : List Nat → List Nat) (rounds : Nat) (c : CPU)
    (hord : ∀ l, (order l).Perm l) (hb : Between c) (hch : ¬ Chan c NodeCLK0) :
    (∀ c', HalfStep order rounds c = some c' →
      ∀ b, StateIs c NodeCLK0 b → StateIs c' NodeCLK0 (!b)) ∧
    (∀ n c', halfSteps order rounds (2 * n) c = some c' →
      ∀ b, StateIs c NodeCLK0 b → StateIs c' NodeCLK0 b) :=
  ⟨fun _ h => (halfStep_clk0 hord ⟨hb, hch⟩ h).2,
   fun n c' h => halfSteps_even_clk0 hord n c c' ⟨hb, hch⟩ h⟩

theorem setupNodes_chans : ∀ (lines : List (List Int)) (ns ns' : Nat → Option Node),
    (∀ i, chansAt ns i = []) → setupNodes lines ns = some ns' → ∀ i, chansAt ns' i = [] := by
  intro lines
  induction lines with
  | nil =>
    intro ns ns' h0 h
    simp only [setupNodes, Option.some.injEq] at h
    subst h; exact h0
  | cons line rest ih =>
    intro ns ns' h0 h
    match line with
    | [] => exact ih ns ns' h0 (by simpa [setupNodes] using h)
    | [_] => exact ih ns ns' h0 (by simpa [setupNodes] using h)
    | id :: pullup :: more =>
      simp only [setupNodes] at h
      by_cases hr : 0 ≤ id ∧ id < (NodeDefCount : Int)
      · rw [if_pos hr] at h
        refine ih _ ns' ?_ h
        intro i
        by_cases hs : (ns id.toNat).isSome = true
        · rw [if_pos hs]; exact h0 i
        · rw [if_neg hs]
          unfold chansAt
          by_cases hi : i = id.toNat
          · simp [hi, newNode]
          · simpa [hi, chansAt] using h0 i
      · rw [if_neg hr] at h
        simp at h

theorem ensureNode_chans {ns ns' : Nat → Option Node} {id : Int}
    (h : ensureNode ns id = some ns') : ∀ i, chansAt ns' i = chansAt ns i := by
  unfold ensureNode at h
  by_cases hr : 0 ≤ id ∧ id < (NodeDefCount : Int)
  · rw [if_pos hr] at h
    simp only [Option.some.injEq] at h
    subst h
    intro i
    by_cases hs : (ns id.toNat).isSome = true
    · rw [if_pos hs]
    · rw [if_neg hs]
      unfold chansAt
      by_cases hi : i = id.toNat
      · subst hi
        have : ns id.toNat = none := by simpa using hs
        simp [this, newNode]
      · simp [hi]
  · rw [if_neg hr] at h
    simp at h

theorem connectOne_chans {ns ns' : Nat → Option Node} {t : TransDef}
    (h : connectOne ns t = some ns') : ∀ i k, k ∈ chansAt ns' i →
    k ∈ chansAt ns i ∨ (k = t.ID ∧ (t.C1NodeID.toNat = i ∨ t.C2NodeID.toNat = i)) := by
  unfold connectOne at h
  simp only [Option.bind_eq_some] at h
  obtain ⟨ns1, h1, ns2, h2, ns3, h3, h4⟩ := h
  simp only [Option.some.injEq] at h4
  have g1 := ensureNode_chans h1
  have g2 := ensureNode_chans h2
  have g3 := ensureNode_chans h3
  intro i k hk
  rw [← g1, ← g2, ← g3]
  rw [← h4] at hk
  unfold chansAt at hk ⊢
  dsimp only at hk
  cases hn : ns3 i with
  | none =>
    rw [hn] at hk
    split_ifs at hk <;> simp at hk
  | some n =>
    rw [hn] at hk
    simp only [Option.map_some', Option.getD_some]
    split_ifs at hk with a b d <;>
      simp only [Option.map_some', Option.getD_some, List.mem_append, List.mem_singleton] at hk
    all_goals first
      | exact Or.inl hk
      | (rcases hk with hk | hk
         · first
           | exact Or.inl hk
           | (rcases hk with hk | hk
              · exact Or.inl hk
              · exact Or.inr ⟨hk, Or.inl (by omega)⟩)
         · first
           | exact Or.inr ⟨hk, Or.inr (by omega)⟩
           | exact Or.inr ⟨hk, Or.inl (by omega)⟩)

theorem connectTransistors_chans : ∀ (ts : List TransDef) (ns ns' : Nat → Option Node),
    connectTransistors ns ts = some ns' → ∀ i k, k ∈ chansAt ns' i →
    k ∈ chansAt ns i ∨
      ∃ t ∈ ts, k = t.ID ∧ (t.C1NodeID.toNat = i ∨ t.C2NodeID.toNat = i) := by
  intro ts
  induction ts with
  | nil =>
    intro ns ns' h i k hk
    simp only [connectTransistors, Option.some.injEq] at h
    subst h
    exact Or.inl hk
  | cons t ts ih =>
    intro ns ns' h i k hk
    simp only [connectTransistors, Option.bind_eq_some] at h
    obtain ⟨ns1, h1, h2⟩ := h
    rcases ih ns1 ns' h2 i k hk with h3 | ⟨t', ht', h3⟩
    · rcases connectOne_chans h1 i k h3 with h4 | h4
      · exact Or.inl h4
      · exact Or.inr ⟨t, List.mem_cons_self _ _, h4⟩
    · exact Or.inr ⟨t', List.mem_cons_of_mem _ ht', h3⟩

/-- The transistor stored under key `k` by `New` comes from the entry of the map with
that `ID`. -/
theorem New_transistor {rd : List BusCall → Nat → Nat} {transDefs segDefs : List (List Int)}
    {visit : List TransDef → List TransDef} {c : CPU}
    (h : New rd transDefs segDefs visit = some c) {k : Int} {t : Transistor}
    (ht : c.transistors k = some t) :
    ∃ td ∈ setupTransistors transDefs [], td.ID = k ∧ t.GateNodeID = td.GateNodeID.toNat ∧
      t.C1NodeID = td.C1NodeID.toNat ∧ t.C2NodeID = td.C2NodeID.toNat := by
  unfold New at h
  simp only [Option.bind_eq_some, Option.map_eq_some'] at h
  obtain ⟨ns, _, ns1, _, hc⟩ := h
  subst hc
  simp only [Option.map_eq_some'] at ht
  obtain ⟨td, hfind, rfl⟩ := ht
  exact ⟨td, List.mem_of_find?_eq_some hfind, by simpa using List.find?_some hfind, rfl, rfl, rfl⟩

/-- A netlist loaded by `New` has sound channel lists, when `connectTransistors`
visits only transistors of the map. -/
theorem New_chanLists {rd : List BusCall → Nat → Nat} {transDefs segDefs : List (List Int)}
    {visit : List TransDef → List TransDef} {c : CPU}
    (hvisit : ∀ l t, t ∈ visit l ↔ t ∈ l)
    (h : New rd transDefs segDefs visit = some c) : ChanLists c := by
  have hnodup := setupTransistors_nodup transDefs [] (by simp)
  unfold New at h
  simp only [Option.bind_eq_some, Option.map_eq_some'] at h
  obtain ⟨ns, hns, ns1, hns1, hc⟩ := h
  have hc0 := setupNodes_chans segDefs _ ns (by intro i; rfl) hns
  have hch := connectTransistors_chans _ ns ns1 hns1
  subst hc
  intro i n hn k hk
  have hni : ns1 i = some n := (getNode_eq_some.1 hn).2
  have hk' : k ∈ chansAt ns1 i := by simpa [chansAt, hni] using hk
  rcases hch i k hk' with h1 | ⟨td, htd, hid, hterm⟩
  · rw [hc0] at h1; simp at h1
  · have hmem : td ∈ setupTransistors transDefs [] := (hvisit _ td).1 htd
    have hex : ∃ td', (setupTransistors transDefs []).find? (fun t => decide (t.ID = k))
        = some td' := by
      cases hf : (setupTransistors transDefs []).find? (fun t => decide (t.ID = k)) with
      | none =>
        rw [List.find?_eq_none] at hf
        exact absurd (by simpa using hid.symm) (hf td hmem)
      | some td' => exact ⟨td', rfl⟩
    obtain ⟨td', hfind⟩ := hex
    have hmem' : td' ∈ setupTransistors transDefs [] := List.mem_of_find?_eq_some hfind
    have hid' : td'.ID = k := by simpa using List.find?_some hfind
    have heq : td' = td :=
      List.inj_on_of_nodup_map hnodup hmem' hmem (by rw [hid', hid])
    subst heq
    refine ⟨{ GateNodeID := td'.GateNodeID.toNat, C1NodeID := td'.C1NodeID.toNat,
              C2NodeID := td'.C2NodeID.toNat, On := false }, ?_, hterm⟩
    show Option.map _ (List.find? _ _) = _
    rw [hfind]; rfl

theorem resetInit_between {c c0 : CPU} (hl : ChanLists c)
    (h : resetInit c = some c0) : Between c0 := by
  obtain ⟨hn, ht, hs, _⟩ := resetInit_spec h
  refine ⟨hs, ?_, ?_⟩
  · intro i n' hn'
    rw [hn] at hn'
    cases h0 : c.getNode i with
    | none => simp [h0] at hn'
    | some n =>
      simp only [h0, Option.map_some', Option.some.injEq] at hn'
      subst hn'
      rfl
  · intro i n' hn' k hk
    rw [hn] at hn'
    cases h0 : c.getNode i with
    | none => simp [h0] at hn'
    | some n =>
      simp only [h0, Option.map_some', Option.some.injEq] at hn'
      subst hn'
      obtain ⟨t, ht0, hg⟩ := hl i n h0 k hk
      refine ⟨{ t with On := false }, ?_, hg⟩
      rw [ht, ht0]; rfl

theorem resetInit_chanFree {c c0 : CPU} {x : Nat} (hx : ¬ Chan c x)
    (h : resetInit c = some c0) : ¬ Chan c0 x := by
  obtain ⟨_, ht, _⟩ := resetInit_spec h
  rintro ⟨k, t', hk, hxt⟩
  rw [ht] at hk
  cases h0 : c.transistors k with
  | none => simp [h0] at hk
  | some t =>
    simp only [h0, Option.map_some', Option.some.injEq] at hk
    subst hk
    exact hx ⟨k, t, h0, hxt⟩

/-- The state `Reset` leaves is a state between calls. -/
theorem reset_between {order : List Nat → List Nat} {rounds : Nat} {c c1 : CPU}
    (hl : ChanLists c) (h : Reset order rounds c = some c1) : Between c1 :=
  between_only.reset (fun _ h0 => resetInit_between hl h0) h

theorem reset_chanFree {order : List Nat → List Nat} {rounds : Nat} {c c1 : CPU} {x : Nat}
    (hx : ¬ Chan c x) (h : Reset order rounds c = some c1) : ¬ Chan c1 x :=
  (chanFree_engineInv x).reset (fun _ h0 => resetInit_chanFree hx h0) h

/-! ## The bus callbacks of a half step -/

theorem recalcNode_busLog {c c' : CPU} {id : Nat} {l l' : List Nat}
    (h : recalcNode c id l = some (c', l')) : c'.busLog = c.busLog := by
  rcases recalcNode_spec h with ⟨_, hc, _⟩ | ⟨_, a, v, _, _, _, hc, _⟩
  · rw [hc]
  · rw [hc]; rfl

theorem recalcNodeList_busLog {order : List Nat → List Nat} {rounds : Nat} {c c' : CPU}
    {l : List Nat} (h : recalcNodeList order rounds c l = some c') : c'.busLog = c.busLog :=
  recalcNodeList_keeps_all (fun d => d.busLog = c.busLog) order
    (fun _ _ _ _ _ hd hh => (recalcNode_busLog hh).trans hd) rounds c l c' rfl h

theorem setLow_busLog {order : List Nat → List Nat} {rounds : Nat} {c c' : CPU} {id : Nat}
    (h : setLow order rounds c id = some c') : c'.busLog = c.busLog := by
  unfold setLow at h
  cases hn : c.getNode id with
  | none => simp [hn] at h
  | some n =>
    simp only [hn] at h
    rw [recalcNodeList_busLog h]; rfl

theorem setHigh_busLog {order : List Nat → List Nat} {rounds : Nat} {c c' : CPU} {id : Nat}
    (h : setHigh order rounds c id = some c') : c'.busLog = c.busLog := by
  unfold setHigh at h
  cases hn : c.getNode id with
  | none => simp [hn] at h
  | some n =>
    simp only [hn] at h
    rw [recalcNodeList_busLog h]; rfl

theorem driveData_busLog (data : Nat) : ∀ (lines : List (Nat × Nat)) (c c' : CPU),
    driveData data c lines = some c' → c'.busLog = c.busLog := by
  intro lines
  induction lines with
  | nil =>
    intro c c' h
    simp only [driveData, Option.some.injEq] at h
    subst h; rfl
  | cons ln lines ih =>
    intro c c' h
    obtain ⟨bit, nodeID⟩ := ln
    simp only [driveData] at h
    cases hn : c.getNode nodeID with
    | none => simp [hn] at h
    | some n =>
      simp only [hn] at h
      rw [ih _ c' h]; rfl

theorem readLines_congr {c d : CPU} (h : c.nodes = d.nodes) : ∀ lines : List (Nat × Nat),
    readLines c lines = readLines d lines := by
  intro lines
  induction lines with
  | nil => rfl
  | cons ln lines ih =>
    obtain ⟨bit, nodeID⟩ := ln
    simp only [readLines, ih, getNode_of_nodes d c nodeID (by rw [h])]

/-- What `handleBusRead` adds to the call log. -/
theorem handleBusRead_log {order : List Nat → List Nat} {rounds : Nat} {c c' : CPU}
    (h : handleBusRead order rounds c = some c') :
    ∃ rw, c.getNode NodeRW = some rw ∧
      (rw.State = true → ∃ a, readLines c AddressLineVals = some a ∧
        c'.busLog = c.busLog ++ [BusCall.read a]) ∧
      (rw.State = false → c'.busLog = c.busLog) := by
  unfold handleBusRead at h
  cases hn : c.getNode NodeRW with
  | none => simp [hn] at h
  | some rw =>
    simp only [hn] at h
    refine ⟨rw, rfl, ?_, ?_⟩
    · intro hs
      rw [if_pos hs] at h
      simp only [readAddressBus, Option.bind_eq_some, Option.map_eq_some'] at h
      obtain ⟨⟨c1, address⟩, ⟨a, ha0, ha⟩, c3, h3, h4⟩ := h
      simp only [Prod.mk.injEq] at ha
      obtain ⟨hc1, haddr⟩ := ha
      subst hc1; subst haddr
      refine ⟨a, ha0, ?_⟩
      rw [recalcNodeList_busLog h4, driveData_busLog _ _ _ _ h3]
    · intro hs
      simp only [hs, Bool.false_eq_true, if_false, Option.some.injEq] at h
      subst h; rfl

/-- What `handleBusWrite` adds to the call log. -/
theorem handleBusWrite_log {c c' : CPU} (h : handleBusWrite c = some c') :
    ∃ rw, c.getNode NodeRW = some rw ∧
      (rw.State = false → ∃ a d, readLines c AddressLineVals = some a ∧
        readLines c DataLineVals = some d ∧ c'.busLog = c.busLog ++ [BusCall.write a d]) ∧
      (rw.State = true → c'.busLog = c.busLog) := by
  unfold handleBusWrite at h
  cases hn : c.getNode NodeRW with
  | none => simp [hn] at h
  | some rw =>
    simp only [hn] at h
    refine ⟨rw, rfl, ?_, ?_⟩
    · intro hs
      rw [if_pos hs] at h
      simp only [readAddressBus, readDataBus, Option.bind_eq_some, Option.map_eq_some'] at h
      obtain ⟨⟨c1, address⟩, ⟨a, ha0, ha⟩, ⟨c2, data⟩, ⟨d, hd0, hd⟩, h4⟩ := h
      simp only [Prod.mk.injEq] at ha hd
      obtain ⟨hc1, haddr⟩ := ha
      obtain ⟨hc2, hdata⟩ := hd
      subst hc1; subst hc2; subst haddr; subst hdata
      simp only [Option.some.injEq] at h4
      subst h4
      refine ⟨a, d, ha0, ?_, rfl⟩
      rw [← hd0]
      exact readLines_congr rfl _
    · intro hs
      simp only [hs, Bool.true_eq_false, if_false, Option.some.injEq] at h
      subst h; rfl

/-- C8. The callbacks as a call log. A `HalfStep` that returns and was entered with
`CLK0.State` true drives CLK0 low; if then the R/W node has `State` true it adds to
the log exactly one call, `readFromBus` with the address read from the 16 address
nodes, and otherwise adds nothing, so it never calls `writeToBus`. Entered with
`CLK0.State` false it drives CLK0 high; if then the R/W node has `State` false it adds
exactly one call, `writeToBus` with the address and the byte read from the 8 data
nodes, and otherwise adds nothing, so it never calls `readFromBus`. -/
theorem halfStep_bus_calls (order : List Nat → List Nat) (rounds : Nat) (c c' : CPU)
    (h : HalfStep order rounds c = some c') :
    ∃ clk0, c.getNode NodeCLK0 = some clk0 ∧
      (clk0.State = true →
        ∃ c1 rw, setLow order rounds c NodeCLK0 = some c1 ∧ c1.getNode NodeRW = some rw ∧
          (rw.State = true → ∃ a, readLines c1 AddressLineVals = some a ∧
            c'.busLog = c.busLog ++ [BusCall.read a]) ∧
          (rw.State = false → c'.busLog = c.busLog)) ∧
      (clk0.State = false →
        ∃ c1 rw, setHigh order rounds c NodeCLK0 = some c1 ∧ c1.getNode NodeRW = some rw ∧
          (rw.State = false → ∃ a d, readLines c1 AddressLineVals = some a ∧
            readLines c1 DataLineVals = some d ∧
            c'.busLog = c.busLog ++ [BusCall.write a d]) ∧
          (rw.State = true → c'.busLog = c.busLog)) := by
  unfold HalfStep at h
  cases hn : c.getNode NodeCLK0 with
  | none => simp [hn] at h
  | some clk0 =>
    simp only [hn] at h
    refine ⟨clk0, rfl, ?_, ?_⟩
    · intro hs
      rw [if_pos hs] at h
      simp only [Option.bind_eq_some] at h
      obtain ⟨c1, h1, h2⟩ := h
      obtain ⟨rw, hrw, hr1, hr2⟩ := handleBusRead_log h2
      rw [setLow_busLog h1] at hr1 hr2
      exact ⟨c1, rw, h1, hrw, hr1, hr2⟩
    · intro hs
      simp only [hs, Bool.false_eq_true, if_false, Option.bind_eq_some] at h
      obtain ⟨c1, h1, h2⟩ := h
      obtain ⟨rw, hrw, hr1, hr2⟩ := handleBusWrite_log h2
      rw [setHigh_busLog h1] at hr1 hr2
      exact ⟨c1, rw, h1, hrw, hr1, hr2⟩

/-! ## The value of a group -/

theorem getNodeValueLoop_markAll (c : CPU) (a : List Nat) : ∀ xs : List Nat,
    (∀ i ∈ xs, ∃ n, c.getNode i = some n) →
    getNodeValueLoop (markAll c a) xs = some (firstDecided c xs) := by
  intro xs
  induction xs with
  | nil => intro _; rfl
  | cons x xs ih =>
    intro hx
    obtain ⟨n, hn⟩ := hx x (List.mem_cons_self _ _)
    have ih' := ih (fun i hi => hx i (List.mem_cons_of_mem _ hi))
    simp only [getNodeValueLoop, markAll_getNode, hn, Option.map_some', ih']
    unfold firstDecided
    rw [List.find?_cons]
    cases h1 : n.PullUp with
    | true => simp [decides, hn, h1]
    | false =>
      by_cases h2 : n.PullDown = 1
      · simp [decides, hn, h1, h2]
      · cases h3 : n.State with
        | true => simp [decides, hn, h1, h2, h3]
        | false => simp [decides, hn, h1, h2, h3]

theorem firstMatchValue_markAll (c : CPU) (a grp : List Nat) :
    firstMatchValue (markAll c a) grp = firstMatchValue c grp := by
  have hd : decides (markAll c a) = decides c := by
    funext i
    simp only [decides, markAll_getNode]
    cases c.getNode i <;> simp
  have hf : firstDecided (markAll c a) grp = firstDecided c grp := by
    unfold firstDecided
    rw [hd]
    cases List.find? (decides c) grp with
    | none => rfl
    | some i =>
      simp only [markAll_getNode]
      cases c.getNode i <;> simp
  unfold firstMatchValue
  rw [hf]

/-- C1, amended. For every group built by `addSubNodesToGroup` from a state with the
supplies linked, no node marked and an empty `recalcNodeGroup`, `getNodeValue`
returns false if GND is in the group; otherwise true if VCC is in the group;
otherwise the value of the first member, in the order the members were visited, that
has `PullUp` set, `PullDown == 1` or `State` true (true for `PullUp`, else false for
`PullDown == 1`, else true); and false if no member has any of them. -/
theorem getNodeValue_first_match (fuel : Nat) (c g : CPU) (seed : Nat) (hs : Supplied c)
    (hgnd : ∃ n, c.getNode NodeGND = some n) (hpwr : ∃ n, c.getNode NodePWR = some n)
    (hm : NoMarks c) (hg : c.recalcNodeGroup = [])
    (h : addSubNodesToGroup fuel c seed = some g) :
    getNodeValue g = some (firstMatchValue g g.recalcNodeGroup) := by
  obtain ⟨a, rfl, hadd⟩ := addSub_spec fuel c seed g h
  rw [firstMatchValue_markAll]
  obtain ⟨gn, hgn⟩ := hgnd
  obtain ⟨pn, hpn⟩ := hpwr
  have hrg : (markAll c a).recalcNodeGroup = a := by simp [hg]
  rw [hrg]
  unfold getNodeValue firstMatchValue
  have h1 : (markAll c a).gndNode = some NodeGND := hs.1
  have h2 : (markAll c a).pwrNode = some NodePWR := hs.2
  rw [h1, h2, hrg]
  simp only [Option.some_bind, markAll_getNode, hgn, hpn, Option.map_some', hm _ gn hgn,
    hm _ pn hpn, Bool.false_or, decide_eq_true_eq]
  by_cases e1 : NodeGND ∈ a
  · simp [e1]
  · by_cases e2 : NodePWR ∈ a
    · simp [e1, e2]
    · simp only [e1, e2, if_false]
      exact getNodeValueLoop_markAll c a a (fun i hi => by
        obtain ⟨n, hn, _⟩ := (hadd.2 i hi).1
        exact ⟨n, hn⟩)

/-! ## Termination of `recalcNodeList` -/

theorem recalcRounds_nil (order : List Nat → List Nat) (k : Nat) (c : CPU) :
    recalcRounds order k c [] = some (c, []) := by
  cases k <;> rfl

theorem recalcRounds_add (order : List Nat → List Nat) : ∀ (a b : Nat) (c : CPU) (l : List Nat),
    recalcRounds order (a + b) c l =
      (recalcRounds order a c l).bind (fun r => recalcRounds order b r.1 r.2) := by
  intro a
  induction a with
  | zero => intro b c l; simp [recalcRounds]
  | succ a ih =>
    intro b c l
    cases l with
    | nil => simp [recalcRounds_nil]
    | cons x l =>
      have e : a + 1 + b = (a + b) + 1 := by omega
      rw [e]
      simp only [recalcRounds]
      cases hr : recalcRound c (order (x :: l)) with
      | none => rfl
      | some r => obtain ⟨c1, next⟩ := r; exact ih b c1 next

/-- The loop of `recalcNodeList` in terms of its rounds. -/
theorem recalcNodeList_eq_some_iff (order : List Nat → List Nat) (rounds : Nat) (c : CPU)
    (l : List Nat) (c' : CPU) :
    recalcNodeList order rounds c l = some c' ↔
      ∃ k, k ≤ rounds ∧ recalcRounds order k c l = some (c', []) := by
  induction rounds generalizing c l with
  | zero =>
    cases l with
    | nil =>
      simp only [recalcNodeList, Option.some.injEq, Nat.le_zero]
      constructor
      · intro h; exact ⟨0, rfl, by simp [recalcRounds, h]⟩
      · rintro ⟨k, rfl, h⟩
        simpa [recalcRounds] using h
    | cons a l =>
      simp only [recalcNodeList, Nat.le_zero]
      constructor
      · intro h; simp at h
      · rintro ⟨k, rfl, h⟩
        simp [recalcRounds] at h
  | succ rounds ih =>
    cases l with
    | nil =>
      simp only [recalcNodeList, Option.some.injEq]
      constructor
      · intro h; exact ⟨0, Nat.zero_le _, by simp [recalcRounds, h]⟩
      · rintro ⟨k, _, h⟩
        rw [recalcRounds_nil] at h
        simpa using h
    | cons a l =>
      simp only [recalcNodeList]
      cases hr : recalcRound c (order (a :: l)) with
      | none =>
        constructor
        · intro h; simp at h
        · rintro ⟨k, _, h⟩
          cases k with
          | zero => simp [recalcRounds] at h
          | succ k => simp [recalcRounds, hr] at h
      | some r =>
        obtain ⟨c1, next⟩ := r
        simp only
        rw [ih]
        constructor
        · rintro ⟨k, hk, h⟩
          exact ⟨k + 1, Nat.succ_le_succ hk, by simp [recalcRounds, hr, h]⟩
        · rintro ⟨k, hk, h⟩
          cases k with
          | zero => simp [recalcRounds] at h
          | succ k =>
            refine ⟨k, Nat.le_of_succ_le_succ hk, ?_⟩
            simpa [recalcRounds, hr] using h

theorem sameFrame_refl (c : CPU) : SameFrame c c :=
  ⟨fun _ h => h, fun _ h => h, rfl, rfl, rfl, rfl, rfl, rfl⟩

theorem sameFrame_trans {c d e : CPU} (h1 : SameFrame c d) (h2 : SameFrame d e) :
    SameFrame c e :=
  ⟨fun i h => h2.1 i (h1.1 i h), fun k h => h2.2.1 k (h1.2.1 k h),
   h2.2.2.1.trans h1.2.2.1, h2.2.2.2.1.trans h1.2.2.2.1, h2.2.2.2.2.1.trans h1.2.2.2.2.1,
   h2.2.2.2.2.2.1.trans h1.2.2.2.2.2.1, h2.2.2.2.2.2.2.1.trans h1.2.2.2.2.2.2.1,
   h2.2.2.2.2.2.2.2.trans h1.2.2.2.2.2.2.2⟩

theorem recalcNode_sameFrame {c c' : CPU} {id : Nat} {l l' : List Nat}
    (h : recalcNode c id l = some (c', l')) : SameFrame c c' := by
  rcases recalcNode_spec h with ⟨_, hc, _⟩ | ⟨_, a, v, _, _, _, hc, _⟩
  · rw [hc]; exact sameFrame_refl c
  · rw [hc]
    refine ⟨?_, ?_, rfl, rfl, rfl, rfl, rfl, rfl⟩
    · intro i hi; rw [settled_nodes, hi]; rfl
    · intro k hk; rw [settled_transistors, hk]; rfl

theorem recalcRounds_sameFrame (order : List Nat → List Nat) : ∀ (k : Nat) (c : CPU)
    (l : List Nat) (d : CPU) (l' : List Nat),
    recalcRounds order k c l = some (d, l') → SameFrame c d := by
  intro k
  induction k with
  | zero =>
    intro c l d l' h
    simp only [recalcRounds, Option.some.injEq, Prod.mk.injEq] at h
    rw [← h.1]; exact sameFrame_refl c
  | succ k ih =>
    intro c l d l' h
    cases l with
    | nil =>
      simp only [recalcRounds, Option.some.injEq, Prod.mk.injEq] at h
      rw [← h.1]; exact sameFrame_refl c
    | cons a l =>
      simp only [recalcRounds] at h
      cases hr : recalcRound c (order (a :: l)) with
      | none => simp [hr] at h
      | some r =>
        obtain ⟨c1, next⟩ := r
        simp only [hr] at h
        have h1 : SameFrame c c1 :=
          (recalcRound_keeps (fun d => SameFrame c d) (fun _ => True)
            (fun d id l d' l' hd _ _ hh =>
              ⟨sameFrame_trans hd (recalcNode_sameFrame hh), fun _ _ => trivial⟩)
            (order (a :: l)) c [] c1 next (sameFrame_refl c) (fun _ _ => trivial)
            (fun _ _ => trivial) hr).1
        exact sameFrame_trans h1 (ih c1 next d l' h)

theorem oscState_nodes (i : Nat) (h1 : i ≠ 1) (h2 : i ≠ 558) (h3 : i ≠ 657) :
    oscState.nodes i = none := by
  simp [oscState, oscLoaded, New, setupNodes, setupTransistors, connectTransistors, connectOne,
    ensureNode, resetInit, canonicalise, NodeDefCount, newNode, CPU.getNode, CPU.setNode,
    NodeGND, NodePWR, blank, h1, h2, h3]

theorem oscState_transistors (k : Int) (h : k ≠ 0) : oscState.transistors k = none := by
  simp [oscState, oscLoaded, New, setupNodes, setupTransistors, connectTransistors, connectOne,
    ensureNode, resetInit, canonicalise, NodeDefCount, newNode, CPU.getNode, CPU.setNode,
    NodeGND, NodePWR, blank, h]
  intro h0
  exact absurd h0.symm h

set_option maxRecDepth 100000 in
theorem osc_round1 : recalcRounds id 1 oscState [1] = some (oscOn, [1]) := by
  have h : (recalcRounds id 1 oscState [1]).map Prod.snd = some [1] := by decide
  cases hr : recalcRounds id 1 oscState [1] with
  | none => simp [hr] at h
  | some r =>
    obtain ⟨d, l⟩ := r
    simp only [hr, Option.map_some', Option.some.injEq] at h
    subst h
    simp [oscOn, hr]

set_option maxRecDepth 100000 in
theorem osc_round3 : recalcRounds id 2 oscOn [1] = some (oscBack, [1]) := by
  have h : (recalcRounds id 2 oscOn [1]).map Prod.snd = some [1] := by decide
  cases hr : recalcRounds id 2 oscOn [1] with
  | none => simp [hr] at h
  | some r =>
    obtain ⟨d, l⟩ := r
    simp only [hr, Option.map_some', Option.some.injEq] at h
    subst h
    simp [oscBack, hr]

set_option maxRecDepth 100000 in
theorem oscBack_eq : oscBack = oscOn := by
  have f1 : SameFrame oscState oscOn := recalcRounds_sameFrame id 1 _ _ _ _ osc_round1
  have f2 : SameFrame oscOn oscBack := recalcRounds_sameFrame id 2 _ _ _ _ osc_round3
  apply CPU.ext_fields
  · funext k
    by_cases hk : k = 0
    · subst hk; decide
    · rw [f2.2.1 k (f1.2.1 k (oscState_transistors k hk)),
        f1.2.1 k (oscState_transistors k hk)]
  · funext i
    by_cases h1 : i = 1
    · subst h1; decide
    · by_cases h2 : i = 558
      · subst h2; decide
      · by_cases h3 : i = 657
        · subst h3; decide
        · rw [f2.1 i (f1.1 i (oscState_nodes i h1 h2 h3)), f1.1 i (oscState_nodes i h1 h2 h3)]
  · exact f2.2.2.1
  · exact f2.2.2.2.1
  · decide
  · exact f2.2.2.2.2.1
  · exact f2.2.2.2.2.2.1
  · exact f2.2.2.2.2.2.2.1
  · exact f2.2.2.2.2.2.2.2

theorem osc_even : ∀ n : Nat, recalcRounds id (2 * n) oscOn [1] = some (oscOn, [1]) := by
  intro n
  induction n with
  | zero => rfl
  | succ n ih =>
    have e : 2 * (n + 1) = 2 + 2 * n := by ring
    rw [e, recalcRounds_add, osc_round3, oscBack_eq]
    exact ih

set_option maxRecDepth 100000 in
theorem osc_odd_list : (recalcRounds id 1 oscOn [1]).map Prod.snd = some [1] := by decide

theorem osc_all : ∀ k : Nat, ∃ d, recalcRounds id k oscState [1] = some (d, [1]) := by
  have hon : ∀ k : Nat, ∃ d, recalcRounds id k oscOn [1] = some (d, [1]) := by
    intro k
    rcases Nat.even_or_odd' k with ⟨n, hn | hn⟩
    · exact ⟨oscOn, by rw [hn]; exact osc_even n⟩
    · rw [hn, recalcRounds_add, osc_even n]
      cases hr : recalcRounds id 1 oscOn [1] with
      | none => have := osc_odd_list; simp [hr] at this
      | some r =>
        obtain ⟨d, l⟩ := r
        have := osc_odd_list
        simp only [hr, Option.map_some', Option.some.injEq] at this
        subst this
        exact ⟨d, by simp [hr]⟩
  intro k
  cases k with
  | zero => exact ⟨oscState, rfl⟩
  | succ k =>
    have e : k + 1 = 1 + k := by omega
    rw [e, recalcRounds_add, osc_round1]
    exact hon k

set_option maxRecDepth 100000 in
/-- C2, counterexample. The ring oscillator (node 1 with a pull-up gates a transistor
from node 1 to GND; both supplies exist, the supply is on C2) is loaded by `New` and
initialised by the first statements of `Reset`; `recalcNodeList` on the worklist {1}
returns for no number of rounds, and after every number of rounds the worklist is
{1} again. -/
theorem oscillator_never_settles :
    oscLoaded.isSome = true ∧
    (∀ rounds, recalcNodeList id rounds oscState [1] = none) ∧
    (∀ k, ∃ d, recalcRounds id k oscState [1] = some (d, [1])) := by
  refine ⟨by decide, ?_, osc_all⟩
  intro rounds
  cases h : recalcNodeList id rounds oscState [1] with
  | none => rfl
  | some c' =>
    obtain ⟨k, _, hk⟩ := (recalcNodeList_eq_some_iff id rounds oscState [1] c').1 h
    obtain ⟨d, hd⟩ := osc_all k
    rw [hd] at hk
    simp at hk

/-! ## The number of rounds allowed -/

/-- The result of `recalcNodeList` does not depend on the number of rounds allowed. -/
theorem recalcNodeList_rounds_irrelevant (order : List Nat → List Nat) (r1 r2 : Nat) (c : CPU)
    (l : List Nat) (c1 c2 : CPU) (h1 : recalcNodeList order r1 c l = some c1)
    (h2 : recalcNodeList order r2 c l = some c2) : c1 = c2 := by
  obtain ⟨k1, _, e1⟩ := (recalcNodeList_eq_some_iff order r1 c l c1).1 h1
  obtain ⟨k2, _, e2⟩ := (recalcNodeList_eq_some_iff order r2 c l c2).1 h2
  have key : ∀ (a b : Nat) (d1 d2 : CPU), a ≤ b →
      recalcRounds order a c l = some (d1, []) → recalcRounds order b c l = some (d2, []) →
      d1 = d2 := by
    intro a b d1 d2 hab ha hb
    obtain ⟨m, rfl⟩ := Nat.exists_eq_add_of_le hab
    rw [recalcRounds_add, ha] at hb
    simp only [Option.some_bind, recalcRounds_nil, Option.some.injEq, Prod.mk.injEq,
      and_true] at hb
    exact hb
  rcases Nat.le_total k1 k2 with hle | hle
  · exact key k1 k2 c1 c2 hle e1 e2
  · exact (key k2 k1 c2 c1 hle e2 e1).symm

/-! ## Concrete netlists -/

theorem some_getD {α : Type} (o : Option α) (d : α) (h : o.isSome = true) :
    o = some (o.getD d) := by
  cases o with
  | none => simp at h
  | some a => rfl

theorem id_visits (l : List TransDef) (t : TransDef) : t ∈ id l ↔ t ∈ l := Iff.rfl

set_option maxRecDepth 1000000 in
theorem conflictRun_eq : conflictRun = some conflictState :=
  some_getD _ _ (by decide)

set_option maxRecDepth 1000000 in
theorem conflictGroup_eq :
    addSubNodesToGroup groupFuel { conflictState with recalcNodeGroup := [] } NodeCLK0 =
      some conflictGroup :=
  some_getD _ _ (by decide)

/-- The state `conflictState` is a state between calls of the engine. -/
theorem conflictState_between : Between conflictState := by
  have h := conflictRun_eq
  unfold conflictRun at h
  simp only [Option.bind_eq_some] at h
  obtain ⟨c3, ⟨c2, ⟨c1, ⟨c0, h0, h1⟩, h2⟩, h3⟩, h4⟩ := h
  have b1 : Between c1 := resetInit_between (New_chanLists id_visits h0) h1
  exact between_only.setHigh (between_only.setHigh (between_only.setLow b1 h2) h3) h4

set_option maxRecDepth 1000000 in
/-- C1, counterexample. In `conflictState` the group built from the seed CLK0 is
CLK0, RDY in this order; it contains no supply, CLK0 has `PullDown == 1` and RDY has
`PullUp` set. The dominance order of the specification resolves it to true (a pull-up
on any member beats a pull-down), `getNodeValue` returns false. -/
theorem pulldown_first_beats_pullup :
    conflictRun.isSome = true ∧
    conflictGroup.recalcNodeGroup = [NodeCLK0, NodeRDY] ∧
    (conflictGroup.getNode NodeCLK0).map Node.PullDown = some 1 ∧
    (conflictGroup.getNode NodeRDY).map Node.PullUp = some true ∧
    dominanceValue conflictGroup conflictGroup.recalcNodeGroup = true ∧
    getNodeValue conflictGroup = some false := by
  decide

set_option maxRecDepth 1000000 in
/-- Witness of `getNodeValue_first_match` at the group built in `conflictState` from
the seed CLK0. -/
theorem getNodeValue_first_match_witness :
    conflictGroup.recalcNodeGroup = [NodeCLK0, NodeRDY] ∧
    getNodeValue conflictGroup =
      some (firstMatchValue conflictGroup conflictGroup.recalcNodeGroup) :=
  ⟨by decide,
   getNodeValue_first_match groupFuel { conflictState with recalcNodeGroup := [] } conflictGroup
    NodeCLK0 conflictState_between.1
    (Option.isSome_iff_exists.1 (by decide)) (Option.isSome_iff_exists.1 (by decide))
    conflictState_between.2.1 rfl conflictGroup_eq⟩

/-! ### C3 and C10: the order of the visits -/

set_option maxRecDepth 1000000 in
/-- C3, counterexample. After `Reset` has returned on `conflictNet`, CLK0 and RDY have
`State` false; `recalcNode` on RDY then sets both to true, and so does
`recalcNodeList` on the set of all nodes when it visits them in descending order. -/
theorem reset_state_not_settled :
    (conflictNet.bind (Reset id 100)).isSome = true ∧
    (conflictReset.getNode NodeRDY).map Node.State = some false ∧
    (conflictReset.getNode NodeCLK0).map Node.State = some false ∧
    (recalcNode conflictReset NodeRDY []).bind
      (fun r => (r.1.getNode NodeRDY).map Node.State) = some true ∧
    (recalcNode conflictReset NodeRDY []).bind
      (fun r => (r.1.getNode NodeCLK0).map Node.State) = some true ∧
    (recalcNodeList List.reverse 10 conflictReset (allNodes conflictReset)).bind
      (fun c => (c.getNode NodeRDY).map Node.State) = some true := by
  decide

set_option maxRecDepth 1000000 in
/-- C10, counterexample. From `conflictState` and the worklist {CLK0, RDY}, the run
of `recalcNodeList` that visits CLK0 before RDY and the run that visits RDY before
CLK0 both terminate; the first ends with CLK0 and RDY true, the second with CLK0 and
RDY false. -/
theorem visit_order_changes_result :
    conflictRun.isSome = true ∧
    (id [NodeCLK0, NodeRDY]).Perm [NodeCLK0, NodeRDY] ∧
    (List.reverse [NodeCLK0, NodeRDY]).Perm [NodeCLK0, NodeRDY] ∧
    (recalcNodeList id 10 conflictState [NodeCLK0, NodeRDY]).bind
      (fun c => (c.getNode NodeCLK0).map Node.State) = some true ∧
    (recalcNodeList id 10 conflictState [NodeCLK0, NodeRDY]).bind
      (fun c => (c.getNode NodeRDY).map Node.State) = some true ∧
    (recalcNodeList List.reverse 10 conflictState [NodeCLK0, NodeRDY]).bind
      (fun c => (c.getNode NodeCLK0).map Node.State) = some false ∧
    (recalcNodeList List.reverse 10 conflictState [NodeCLK0, NodeRDY]).bind
      (fun c => (c.getNode NodeRDY).map Node.State) = some false := by
  refine ⟨by decide, List.Perm.refl _, List.reverse_perm _, ?_⟩
  decide

/-! ### C4: transistors gated by VCC -/

set_option maxRecDepth 1000000 in
/-- C4, counterexample. After `Reset` has returned on `vccGateNet`, the transistor
gated by VCC has `On` false and VCC has `State` true. -/
theorem vcc_gated_transistor_off :
    (vccGateNet.bind (Reset id 100)).isSome = true ∧
    (vccGateReset.transistors 0).map Transistor.GateNodeID = some NodePWR ∧
    (vccGateReset.transistors 0).map Transistor.On = some false ∧
    (vccGateReset.getNode NodePWR).map Node.State = some true := by
  decide

/-! ### C5 and C6: the supplies -/

set_option maxRecDepth 1000000 in
/-- C5, counterexample. In `shortState` VCC has `State` true and no node is marked;
the group of node 1 contains GND and VCC, and after `recalcNode` on node 1, as after
`recalcNodeList` on the worklist {1}, VCC has `State` false. `Reset` on this netlist
returns with `VCC.State` false. -/
theorem short_clears_vcc_state :
    shortRun.map Prod.snd = some [1] ∧
    (shortState.getNode NodePWR).map Node.State = some true ∧
    (allNodes shortState).all
      (fun i => (shortState.getNode i).map Node.InNodeGroup == some false) = true ∧
    shortGroup shortState 1 = true ∧
    (recalcNode shortState 1 []).bind
      (fun r => (r.1.getNode NodePWR).map Node.State) = some false ∧
    (recalcNodeList id 10 shortState [1]).bind
      (fun c => (c.getNode NodePWR).map Node.State) = some false ∧
    (shortNet.bind (Reset id 100)).bind
      (fun c => (c.getNode NodePWR).map Node.State) = some false := by
  decide

set_option maxRecDepth 1000000 in
theorem conflictState_pwr (n : Node) (h : conflictState.getNode NodePWR = some n) :
    n.State = true := by
  have h0 : (conflictState.getNode NodePWR).map Node.State = some true := by decide
  rw [h] at h0
  simpa using h0

set_option maxRecDepth 1000000 in
theorem conflictState_gnd (n : Node) (h : conflictState.getNode NodeGND = some n) :
    n.State = false := by
  have h0 : (conflictState.getNode NodeGND).map Node.State = some false := by decide
  rw [h] at h0
  simpa using h0

set_option maxRecDepth 1000000 in
/-- Witness of `vcc_state_unless_short` at `conflictState`, where the group of CLK0
holds no supply and `recalcNode` returns. -/
theorem vcc_state_unless_short_witness :
    Supplied conflictState ∧ NoMarks conflictState ∧
    (recalcNode conflictState NodeCLK0 []).isSome = true ∧
    shortGroup conflictState NodeCLK0 = false ∧
    (∀ id l r, recalcNode conflictState id l = some r →
      ∀ n, r.1.getNode NodePWR = some n → n.State = !shortGroup conflictState id) ∧
    (∀ order rounds l c', runShortFree order rounds conflictState l = true →
      recalcNodeList order rounds conflictState l = some c' →
      ∀ n, c'.getNode NodePWR = some n → n.State = true) :=
  ⟨conflictState_between.1, conflictState_between.2.1, by decide, by decide,
   vcc_state_unless_short conflictState conflictState_between.1 conflictState_between.2.1
    conflictState_pwr⟩

set_option maxRecDepth 1000000 in
/-- The state of `shortState` before the short: GND is low and `gndNode` is linked. -/
theorem shortState_gnd :
    shortState.gndNode = some NodeGND ∧
    ∀ n, shortState.getNode NodeGND = some n → n.State = false := by
  refine ⟨by decide, ?_⟩
  intro n h
  have h0 : (shortState.getNode NodeGND).map Node.State = some false := by decide
  rw [h] at h0
  simpa using h0

set_option maxRecDepth 1000000 in
/-- Witness of `gnd_state_stays_false` at `shortState`, where the group of node 1
contains GND and VCC and `recalcNode` returns. -/
theorem gnd_state_stays_false_witness :
    shortState.gndNode = some NodeGND ∧
    (recalcNode shortState 1 []).isSome = true ∧
    (∀ id l r, recalcNode shortState id l = some r →
      ∀ n, r.1.getNode NodeGND = some n → n.State = false) ∧
    (∀ order rounds l c', recalcNodeList order rounds shortState l = some c' →
      ∀ n, c'.getNode NodeGND = some n → n.State = false) :=
  ⟨shortState_gnd.1, by decide,
   gnd_state_stays_false shortState shortState_gnd.1 shortState_gnd.2⟩

/-! ### C7 and C8: the half step -/

set_option maxRecDepth 1000000 in
/-- C7, counterexample. On `clkLatchNet`, `Reset` returns with `CLK0.State` false. The
first `HalfStep` leaves it true. The second is entered with `CLK0.State` true, drives
CLK0 low and reads the byte 1 from the bus, which turns on the transistor from CLK0 to
VCC: it returns with `CLK0.State` true, not the negation of the value at entry, and
after these two calls `CLK0.State` is not the value it had. -/
theorem clk0_not_restored :
    clkLatchReset.bind (fun c => (c.getNode NodeCLK0).map Node.State) = some false ∧
    (clkLatchReset.bind (halfSteps id 100 1)).bind
      (fun c => (c.getNode NodeCLK0).map Node.State) = some true ∧
    (clkLatchReset.bind (halfSteps id 100 2)).bind
      (fun c => (c.getNode NodeCLK0).map Node.State) = some true ∧
    (clkLatchReset.bind (halfSteps id 100 2)).map CPU.busLog = some [BusCall.read 0] := by
  decide

set_option maxRecDepth 1000000 in
theorem clkGateNet_eq : clkGateNet = some clkGateLoaded :=
  some_getD _ _ (by decide)

set_option maxRecDepth 1000000 in
theorem clkGateStart_eq : resetInit clkGateLoaded = some clkGateStart :=
  some_getD _ _ (by decide)

set_option maxRecDepth 1000000 in
theorem clkGateStep_eq : HalfStep id 100 clkGateStart = some clkGateStep :=
  some_getD _ _ (by decide)

theorem clkGateStart_between : Between clkGateStart :=
  resetInit_between (New_chanLists id_visits clkGateNet_eq) clkGateStart_eq

theorem clkGateStart_chanFree : ¬ Chan clkGateStart NodeCLK0 := by
  apply resetInit_chanFree _ clkGateStart_eq
  rintro ⟨k, t, hk, hx⟩
  obtain ⟨td, htd, _, _, h1, h2⟩ := New_transistor clkGateNet_eq hk
  have hall : ∀ td ∈ setupTransistors [[0, 1171, 1005, 558]] [],
      NodeCLK0 ≠ td.C1NodeID.toNat ∧ NodeCLK0 ≠ td.C2NodeID.toNat := by decide
  rcases hx with hx | hx
  · exact (hall td htd).1 (by rw [hx, h1])
  · exact (hall td htd).2 (by rw [hx, h2])

set_option maxRecDepth 1000000 in
theorem clkGateStart_clk0 : StateIs clkGateStart NodeCLK0 false := by
  have h0 : (clkGateStart.getNode NodeCLK0).map Node.State = some false := by decide
  cases hn : clkGateStart.getNode NodeCLK0 with
  | none => rw [hn] at h0; simp at h0
  | some n =>
    rw [hn] at h0
    exact ⟨n, hn, by simpa using h0⟩

/-- Witness of `clk0_toggles` at `clkGateStart`, where CLK0 only drives a gate:
`HalfStep` returns and takes `CLK0.State` from false to true. -/
theorem clk0_toggles_witness :
    (∀ l : List Nat, (id l).Perm l) ∧ Between clkGateStart ∧ ¬ Chan clkGateStart NodeCLK0 ∧
    HalfStep id 100 clkGateStart = some clkGateStep ∧
    StateIs clkGateStart NodeCLK0 false ∧ StateIs clkGateStep NodeCLK0 (!false) :=
  ⟨fun l => List.Perm.refl l, clkGateStart_between, clkGateStart_chanFree, clkGateStep_eq,
   clkGateStart_clk0,
   (clk0_toggles id 100 clkGateStart (fun l => List.Perm.refl l) clkGateStart_between
      clkGateStart_chanFree).1 clkGateStep clkGateStep_eq false clkGateStart_clk0⟩

set_option maxRecDepth 1000000 in
/-- Witness of `halfStep_bus_calls` at `clkGateStart`: the half step is a rising edge
and R/W is low after it, so `writeToBus` is called once. -/
theorem halfStep_bus_calls_witness :
    HalfStep id 100 clkGateStart = some clkGateStep ∧
    clkGateStep.busLog = [BusCall.write 0 0] ∧
    ∃ clk0, clkGateStart.getNode NodeCLK0 = some clk0 ∧
      (clk0.State = true →
        ∃ c1 rw, setLow id 100 clkGateStart NodeCLK0 = some c1 ∧
          c1.getNode NodeRW = some rw ∧
          (rw.State = true → ∃ a, readLines c1 AddressLineVals = some a ∧
            clkGateStep.busLog = clkGateStart.busLog ++ [BusCall.read a]) ∧
          (rw.State = false → clkGateStep.busLog = clkGateStart.busLog)) ∧
      (clk0.State = false →
        ∃ c1 rw, setHigh id 100 clkGateStart NodeCLK0 = some c1 ∧
          c1.getNode NodeRW = some rw ∧
          (rw.State = false → ∃ a d, readLines c1 AddressLineVals = some a ∧
            readLines c1 DataLineVals = some d ∧
            clkGateStep.busLog = clkGateStart.busLog ++ [BusCall.write a d]) ∧
          (rw.State = true → clkGateStep.busLog = clkGateStart.busLog)) :=
  ⟨clkGateStep_eq, by decide,
   halfStep_bus_calls id 100 clkGateStart clkGateStep clkGateStep_eq⟩

set_option maxRecDepth 1000000 in
/-- C9, the code at the failing input. On `latchNet` the first `Reset` returns with
node 1 low, and a second `Reset` right after it returns with node 1 high: the second
call starts with the pull-up that the first call left on IRQ. -/
theorem reset_twice_differs :
    (latchNet.bind (Reset id 100)).bind (fun c => (c.getNode 1).map Node.State) = some false ∧
    ((latchNet.bind (Reset id 100)).bind (Reset id 100)).bind
      (fun c => (c.getNode 1).map Node.State) = some true := by
  decide

/-! ## The recursion bound of `addSubNodesToGroup` is never reached -/

theorem isFree_markAll {c : CPU} {a : List Nat} {i : Nat}
    (h : isFree (markAll c a) i = true) : isFree c i = true ∧ i ∉ a := by
  unfold isFree at h ⊢
  rw [markAll_getNode] at h
  cases hn : c.getNode i with
  | none => simp [hn] at h
  | some n =>
    simp only [hn, Option.map_some'] at h
    by_cases hi : i ∈ a
    · simp [hi] at h
    · simpa [hi] using h

theorem freeCount_markAll_le (c : CPU) (a : List Nat) :
    freeCount (markAll c a) ≤ freeCount c := by
  unfold freeCount
  apply Finset.card_le_card
  intro i hi
  rw [Finset.mem_filter] at hi ⊢
  exact ⟨hi.1, (isFree_markAll hi.2).1⟩

theorem freeCount_markAll_one_lt (c : CPU) (id : Nat) (node : Node)
    (hn : c.getNode id = some node) (hm : node.InNodeGroup = false) :
    freeCount (markAll c [id]) < freeCount c := by
  unfold freeCount
  apply Finset.card_lt_card
  rw [Finset.ssubset_iff_of_subset]
  · refine ⟨id, ?_, ?_⟩
    · rw [Finset.mem_filter, Finset.mem_range]
      refine ⟨(getNode_eq_some.1 hn).1, ?_⟩
      simp [isFree, hn, hm]
    · intro hi
      rw [Finset.mem_filter] at hi
      exact (isFree_markAll hi.2).2 (List.mem_singleton.2 rfl)
  · intro i hi
    rw [Finset.mem_filter] at hi ⊢
    exact ⟨hi.1, (isFree_markAll hi.2).1⟩

theorem freeCount_le (c : CPU) : freeCount c ≤ NodeDefCount := by
  unfold freeCount
  calc ((Finset.range NodeDefCount).filter (fun i => isFree c i = true)).card
      ≤ (Finset.range NodeDefCount).card := Finset.card_filter_le _ _
    _ = NodeDefCount := Finset.card_range _

/-- A depth bound above the number of unmarked nodes is never reached: any larger
bound gives the same result, be it a state or a nil dereference. -/
theorem addSub_fuel : ∀ (fuel : Nat) (c : CPU) (id : Nat), freeCount c < fuel →
    ∀ m, fuel ≤ m → addSubNodesToGroup m c id = addSubNodesToGroup fuel c id := by
  intro fuel
  induction fuel with
  | zero => intro c id h; exact absurd h (Nat.not_lt_zero _)
  | succ fuel ih =>
    intro c id hc m hm
    obtain ⟨m, rfl⟩ : ∃ k, m = k + 1 := ⟨m - 1, by omega⟩
    have hm' : fuel ≤ m := by omega
    rw [addSubNodesToGroup, addSubNodesToGroup]
    cases hn : c.getNode id with
    | none => rfl
    | some node =>
      dsimp only
      by_cases hmark : node.InNodeGroup = true
      · simp only [hmark, if_true]
      · have hmark' : node.InNodeGroup = false := by simpa using hmark
        simp only [hmark', Bool.false_eq_true, if_false]
        by_cases hs : id = NodeGND ∨ id = NodePWR
        · rw [if_pos hs, if_pos hs]
        · rw [if_neg hs, if_neg hs]
          rw [markAll_one c id node (getNode_eq_some.1 hn).2]
          have h1 : freeCount (markAll c [id]) < fuel := by
            have := freeCount_markAll_one_lt c id node hn hmark'
            omega
          generalize markAll c [id] = d at h1
          generalize node.C1C2Transistors = ks
          induction ks generalizing d with
          | nil => rfl
          | cons k ks ihk =>
            simp only [List.foldlM_cons]
            cases ht : d.transistors k with
            | none => rfl
            | some tr =>
              dsimp only
              by_cases hon : tr.On = false
              · simp only [hon, if_true]
                exact ihk d h1
              · simp only [hon, if_false]
                rw [ih d _ h1 m hm']
                cases hd : addSubNodesToGroup fuel d
                    (if tr.C1NodeID = id then tr.C2NodeID else tr.C1NodeID) with
                | none => rfl
                | some d1 =>
                  obtain ⟨added, hd1, _⟩ := addSub_spec fuel d _ d1 hd
                  apply ihk
                  rw [hd1]
                  exact lt_of_le_of_lt (freeCount_markAll_le d added) h1

/-- The bound `groupFuel` that `recalcNode` passes is never reached: the result is the
one of the unbounded recursion of the source. -/
theorem groupFuel_enough (c : CPU) (id m : Nat) (hm : groupFuel ≤ m) :
    addSubNodesToGroup m c id = addSubNodesToGroup groupFuel c id :=
  addSub_fuel groupFuel c id (Nat.lt_succ_of_le (freeCount_le c)) m hm

theorem memory_new_valid {size : Int} {ro : Bool} {m : Memory}
    (h : Memory.New size ro = some m) :
    m.Valid ∧ m.size = size ∧ m.isReadOnly = ro ∧ ∀ i : Nat, i < m.memory.length →
      m.memory[i]? = some 0 := by
  unfold Memory.New at h
  by_cases hs : 0 ≤ size
  · rw [if_pos hs] at h
    simp only [Option.some.injEq] at h
    subst h
    refine ⟨?_, rfl, rfl, ?_⟩
    · simp [Memory.Valid, Int.toNat_of_nonneg hs]
    · intro i hi
      simp only [List.length_replicate] at hi
      simp [List.getElem?_replicate, hi]
  · rw [if_neg hs] at h
    simp at h

theorem memory_write_valid {m m' : Memory} {a : Int} {v : Nat} (hv : m.Valid)
    (h : m.Write a v = some m') :
    m'.Valid ∧ m'.size = m.size ∧ m'.isReadOnly = m.isReadOnly := by
  unfold Memory.Write at h
  by_cases hro : m.isReadOnly = false
  · rw [if_pos hro] at h
    by_cases hr : 0 ≤ a ∧ a.toNat < m.memory.length
    · rw [if_pos hr] at h
      simp only [Option.some.injEq] at h
      subst h
      exact ⟨by simpa [Memory.Valid] using hv, rfl, rfl⟩
    · rw [if_neg hr] at h
      simp at h
  · rw [if_neg hro] at h
    simp only [Option.some.injEq] at h
    subst h
    exact ⟨hv, rfl, rfl⟩

/-- A write to a read-only memory is dropped. -/
theorem memory_write_readOnly (m : Memory) (a : Int) (v : Nat) (h : m.isReadOnly = true) :
    m.Write a v = some m := by
  unfold Memory.Write
  simp [h]

theorem writeAll_readOnly (m : Memory) (h : m.isReadOnly = true) :
    ∀ (vs : List Nat) (i : Nat), writeAll m i vs = some m := by
  intro vs
  induction vs with
  | nil => intro i; rfl
  | cons v vs ih =>
    intro i
    simp only [writeAll, memory_write_readOnly m _ v h, Option.some_bind, ih]

/-- The ROM initialisation of `main` leaves a board with a read-only ROM as it is. -/
theorem initRom_readOnly (mb : Motherboard) (h : mb.rom.isReadOnly = true) :
    initRom mb = some mb := by
  unfold initRom
  simp only [writeAll_readOnly mb.rom h, Option.some_bind, memory_write_readOnly mb.rom _ _ h,
    Option.map_some']

theorem board_new_valid {mb : Motherboard} (h : Motherboard.New = some mb) :
    mb.Valid ∧ mb.rom.isReadOnly = true ∧
    (∀ i : Nat, i < mb.rom.memory.length → mb.rom.memory[i]? = some 0) ∧
    (∀ i : Nat, i < mb.ram.memory.length → mb.ram.memory[i]? = some 0) := by
  unfold Motherboard.New at h
  simp only [Option.bind_eq_some, Option.map_eq_some'] at h
  obtain ⟨ram, hram, rom, hrom, rfl⟩ := h
  obtain ⟨a1, a2, a3, a4⟩ := memory_new_valid hram
  obtain ⟨b1, b2, b3, b4⟩ := memory_new_valid hrom
  exact ⟨⟨a1, a2, a3, b1, b2⟩, b3, b4, a4⟩

theorem board_new_isSome : ∃ mb, Motherboard.New = some mb := by
  unfold Motherboard.New Memory.New
  rw [if_pos (by decide), if_pos (by decide)]
  exact ⟨_, rfl⟩

theorem freshBoard_eq : Motherboard.New = some freshBoard := by
  obtain ⟨mb, h⟩ := board_new_isSome
  unfold freshBoard
  rw [h]; rfl

theorem mainBoard_eq : mainBoard = Motherboard.New := by
  obtain ⟨mb, h⟩ := board_new_isSome
  unfold mainBoard
  rw [h, Option.some_bind]
  exact initRom_readOnly mb (board_new_valid h).2.1

/-- A read of a valid board at a bus address: the RAM cell, the ROM cell or 0. -/
theorem readFromBus_valid (mb : Motherboard) (a : Int) (h : mb.Valid)
    (ha : 0 ≤ a ∧ a ≤ 0xFFFF) :
    (a < 0x2000 → a.toNat < mb.ram.memory.length ∧
      mb.readFromBus a = mb.ram.memory[a.toNat]?) ∧
    (0xE000 ≤ a → (a - 0xE000).toNat < mb.rom.memory.length ∧
      mb.readFromBus a = mb.rom.memory[(a - 0xE000).toNat]?) ∧
    (0x2000 ≤ a → a < 0xE000 → mb.readFromBus a = some 0) := by
  obtain ⟨h1, h2, _, h4, h5⟩ := h
  unfold Memory.Valid at h1 h4
  unfold Motherboard.readFromBus Memory.Read
  simp only [RamSize, RomSize, RamBaseAddr, RomBaseAddr] at *
  refine ⟨?_, ?_, ?_⟩
  · intro hlt
    refine ⟨by omega, ?_⟩
    rw [if_pos (by omega), if_pos ha.1]
  · intro hge
    refine ⟨by omega, ?_⟩
    rw [if_neg (by omega), if_pos (by omega), if_pos (by omega)]
  · intro hge hlt
    rw [if_neg (by omega), if_neg (by omega)]

/-- After the ROM initialisation of `main`, every address of the ROM window reads 0. -/
theorem mainBoard_read (a : Int) (h1 : 0xE000 ≤ a) (h2 : a ≤ 0xFFFF) :
    mainBoard.bind (fun mb => mb.readFromBus a) = some 0x00 := by
  obtain ⟨mb, h⟩ := board_new_isSome
  obtain ⟨hv, _, hrom, _⟩ := board_new_valid h
  rw [mainBoard_eq, h, Option.some_bind]
  obtain ⟨hb, hr⟩ := (readFromBus_valid mb a hv ⟨by omega, h2⟩).2.1 h1
  rw [hr]
  exact hrom _ hb

theorem mainBoard_isSome : mainBoard.isSome = true := by
  obtain ⟨mb, h⟩ := board_new_isSome
  rw [mainBoard_eq, h]
  rfl

/-- C11, as the code behaves. The ROM of the board is created read-only, so the loop
of `main` over `appCode` and the two writes of the reset vector are dropped: after
the ROM initialisation `readFromBus(0xFFFD)` is 0x00, not 0xE0, and every byte at
`0xE000 + i` is 0x00, not `appCode[i]` (the first byte of `appCode` is 0xA9). -/
theorem rom_init_dropped :
    mainBoard.isSome = true ∧
    mainBoard.bind (fun mb => mb.readFromBus 0xFFFC) = some 0x00 ∧
    mainBoard.bind (fun mb => mb.readFromBus 0xFFFD) = some 0x00 ∧
    (∀ i : Nat, i < appCode.length →
      mainBoard.bind (fun mb => mb.readFromBus (0xE000 + (i : Int))) = some 0x00) ∧
    appCode[0]? = some 0xA9 :=
  ⟨mainBoard_isSome, mainBoard_read 0xFFFC (by decide) (by decide),
   mainBoard_read 0xFFFD (by decide) (by decide),
   fun i hi => mainBoard_read (0xE000 + (i : Int)) (by omega)
     (by have hi' : i < 11 := hi; omega),
   rfl⟩

/-- C12. On a board with the memories `New` gives it, for every address `a` from 0
to 0xFFFF: `readFromBus(a)` returns (no index out of range) RAM cell `a` when
`a < 0x2000`, ROM cell `a - 0xE000` when `a >= 0xE000` and 0x00 in between; and
`writeToBus(a, v)` returns, stores `v` in RAM cell `a` when `a < 0x2000` with the ROM
and the other RAM cells as they were, and otherwise changes nothing. -/
theorem bus_memory_map (mb : Motherboard) (a : Int) (v : Nat) (h : mb.Valid)
    (ha : 0 ≤ a ∧ a ≤ 0xFFFF) :
    (∃ r, mb.readFromBus a = some r ∧
      (a < 0x2000 → mb.ram.memory[a.toNat]? = some r) ∧
      (0xE000 ≤ a → mb.rom.memory[(a - 0xE000).toNat]? = some r) ∧
      (0x2000 ≤ a → a < 0xE000 → r = 0x00)) ∧
    (∃ mb', mb.writeToBus a v = some mb' ∧ mb'.rom = mb.rom ∧
      (a < 0x2000 → mb'.ram.memory = mb.ram.memory.set a.toNat v ∧
        mb'.ram.memory[a.toNat]? = some v) ∧
      (0x2000 ≤ a → mb' = mb)) := by
  obtain ⟨r1, r2, r3⟩ := readFromBus_valid mb a h ha
  constructor
  · by_cases h1 : a < 0x2000
    · obtain ⟨hb, hr⟩ := r1 h1
      refine ⟨mb.ram.memory[a.toNat], ?_, ?_, ?_, ?_⟩
      · rw [hr]; exact List.getElem?_eq_getElem hb
      · intro _; exact List.getElem?_eq_getElem hb
      · intro h2; omega
      · intro h2; omega
    · by_cases h2 : 0xE000 ≤ a
      · obtain ⟨hb, hr⟩ := r2 h2
        refine ⟨mb.rom.memory[(a - 0xE000).toNat], ?_, ?_, ?_, ?_⟩
        · rw [hr]; exact List.getElem?_eq_getElem hb
        · intro h3; omega
        · intro _; exact List.getElem?_eq_getElem hb
        · intro _ h3; omega
      · refine ⟨0, r3 (by omega) (by omega), ?_, ?_, ?_⟩
        · intro h3; omega
        · intro h3; omega
        · intro _ _; rfl
  · obtain ⟨h1, h2, h3, _, _⟩ := h
    unfold Memory.Valid at h1
    unfold Motherboard.writeToBus Memory.Write
    simp only [RamSize, RamBaseAddr] at *
    by_cases hlt : a < 0x2000
    · have hb : a.toNat < mb.ram.memory.length := by omega
      rw [if_pos (by omega), if_pos h3, if_pos ⟨ha.1, hb⟩]
      refine ⟨_, rfl, rfl, ?_, ?_⟩
      · intro _
        refine ⟨rfl, ?_⟩
        simp [List.getElem?_set, hb]
      · intro h4; omega
    · rw [if_neg (by omega)]
      exact ⟨mb, rfl, rfl, fun h4 => absurd h4 hlt, fun _ => rfl⟩

/-- Witness of `bus_memory_map`: the board `New` returns, read and written at 0x1234. -/
theorem bus_memory_map_witness :
    freshBoard.Valid ∧
    ((∃ r, freshBoard.readFromBus 0x1234 = some r ∧
      ((0x1234 : Int) < 0x2000 → freshBoard.ram.memory[(0x1234 : Int).toNat]? = some r) ∧
      ((0xE000 : Int) ≤ 0x1234 →
        freshBoard.rom.memory[((0x1234 : Int) - 0xE000).toNat]? = some r) ∧
      ((0x2000 : Int) ≤ 0x1234 → (0x1234 : Int) < 0xE000 → r = 0x00)) ∧
    (∃ mb', freshBoard.writeToBus 0x1234 7 = some mb' ∧ mb'.rom = freshBoard.rom ∧
      ((0x1234 : Int) < 0x2000 →
        mb'.ram.memory = freshBoard.ram.memory.set (0x1234 : Int).toNat 7 ∧
        mb'.ram.memory[(0x1234 : Int).toNat]? = some 7) ∧
      ((0x2000 : Int) ≤ 0x1234 → mb' = freshBoard))) :=
  ⟨(board_new_valid freshBoard_eq).1,
   bus_memory_map freshBoard 0x1234 7 (board_new_valid freshBoard_eq).1 (by decide)⟩

/-- C13. For a memory with the slice `New` gave it and addresses `a` and `b` within
its size: `Write(a, v)` returns, and `Read(b)` afterwards is `v` when the memory is
writable and `b = a`, and the value `Read(b)` had before in every other case. -/
theorem write_read_frame (m : Memory) (a b : Int) (v : Nat) (hv : m.Valid)
    (ha : 0 ≤ a ∧ a < m.size) (hb : 0 ≤ b ∧ b < m.size) :
    ∃ m' old, m.Write a v = some m' ∧ m.Read b = some old ∧
      m'.Read b = some (if m.isReadOnly = false ∧ b = a then v else old) := by
  unfold Memory.Valid at hv
  have hal : a.toNat < m.memory.length := by omega
  have hbl : b.toNat < m.memory.length := by omega
  unfold Memory.Write Memory.Read
  by_cases hro : m.isReadOnly = false
  · rw [if_pos hro, if_pos ⟨ha.1, hal⟩, if_pos hb.1]
    refine ⟨_, m.memory[b.toNat], rfl, List.getElem?_eq_getElem hbl, ?_⟩
    simp only [List.getElem?_set]
    by_cases hab : b = a
    · subst hab
      simp [hro, hal, hb.1]
    · have hne : a.toNat ≠ b.toNat := by omega
      simp [hab, hne, List.getElem?_eq_getElem hbl, hb.1]
  · rw [if_neg hro, if_pos hb.1]
    refine ⟨m, m.memory[b.toNat], rfl, List.getElem?_eq_getElem hbl, ?_⟩
    simp [hro, List.getElem?_eq_getElem hbl, hb.1]

/-- Witness of `write_read_frame`: a write of 9 to cell 1 of a writable memory of
four cells, read back at cell 1. -/
theorem write_read_frame_witness :
    (smallMemory false).Valid ∧
    ∃ m' old, (smallMemory false).Write 1 9 = some m' ∧ (smallMemory false).Read 1 = some old ∧
      m'.Read 1 =
        some (if (smallMemory false).isReadOnly = false ∧ (1 : Int) = 1 then 9 else old) :=
  ⟨rfl, write_read_frame (smallMemory false) 1 1 9 rfl (by decide) (by decide)⟩

/-- C14. When the node `gndNode` points to carries the mark `InNodeGroup`,
`getNodeValue` returns false, whatever the other members of the group are: VCC may be
marked too, and members may have a pull-up or `State` true. -/
theorem gnd_in_group_resolves_false (c : CPU)
    (hm : (c.gndNode.bind c.getNode).map Node.InNodeGroup = some true) :
    getNodeValue c = some false := by
  unfold getNodeValue
  cases hg : c.gndNode.bind c.getNode with
  | none => simp [hg] at hm
  | some gnd =>
    simp only [hg, Option.map_some', Option.some.injEq] at hm
    simp only [hm, if_true]

set_option maxRecDepth 1000000 in
/-- Witness of `gnd_in_group_resolves_false` at the group of node 1 in `shortGrouped`:
GND and VCC are both marked, node 1 is marked and has a pull-up, VCC has `State`
true, and the value is false. -/
theorem gnd_in_group_resolves_false_witness :
    shortGrouped.recalcNodeGroup = [1, NodeGND, NodePWR] ∧
    (shortGrouped.getNode NodePWR).map Node.InNodeGroup = some true ∧
    (shortGrouped.getNode NodePWR).map Node.State = some true ∧
    (shortGrouped.getNode 1).map Node.PullUp = some true ∧
    (shortGrouped.getNode 1).map Node.InNodeGroup = some true ∧
    getNodeValue shortGrouped = some false :=
  ⟨by decide, by decide, by decide, by decide, by decide,
   gnd_in_group_resolves_false shortGrouped (by decide)⟩

/-! ### C15: the bus registers -/

/-- The loop of `readAddressBus` and `readDataBus` returns when every line node
exists, and bit `j` of the result is set exactly when a line of the table has bit
number `j` and a node with `State` true. -/
theorem readLines_bits (c : CPU) : ∀ (lines : List (Nat × Nat)),
    (∀ p ∈ lines, (c.getNode p.2).isSome = true) →
    ∃ v, readLines c lines = some v ∧
      ∀ j, v.testBit j = lines.any (fun p => decide (p.1 = j) && stateOf c p.2) := by
  intro lines
  induction lines with
  | nil =>
    intro _
    exact ⟨0, rfl, fun j => by simp⟩
  | cons p rest ih =>
    intro hex
    obtain ⟨bit, nodeID⟩ := p
    obtain ⟨v, hv, hbits⟩ := ih (fun q hq => hex q (List.mem_cons_of_mem _ hq))
    have hp := hex (bit, nodeID) (List.mem_cons_self _ _)
    cases hn : c.getNode nodeID with
    | none => simp [hn] at hp
    | some node =>
      refine ⟨if node.State then v ||| (1 <<< bit) else v, ?_, ?_⟩
      · simp only [readLines, hn, hv, Option.map_some']
      · intro j
        have hhead : stateOf c nodeID = node.State := by simp [stateOf, hn]
        simp only [List.any_cons, hhead]
        rw [← hbits j]
        by_cases hs : node.State = true
        · simp only [hs, if_true, Nat.testBit_or, Nat.one_shiftLeft, Nat.testBit_two_pow,
            Bool.and_true]
          rw [Bool.or_comm]
        · have hs' : node.State = false := by simpa using hs
          simp [hs']

theorem any_perm {α : Type} (f : α → Bool) {l1 l2 : List α} (h : l1.Perm l2) :
    l1.any f = l2.any f := by
  rw [Bool.eq_iff_iff, List.any_eq_true, List.any_eq_true]
  constructor
  · rintro ⟨x, hx, hf⟩; exact ⟨x, h.mem_iff.1 hx, hf⟩
  · rintro ⟨x, hx, hf⟩; exact ⟨x, h.mem_iff.2 hx, hf⟩

/-- The value the loop leaves for a table `table` whose bit numbers are distinct and
below `w`: it fits `w` bits, bit `i` follows the node of line `i`, and every order of
the lines gives the same value. -/
theorem readLines_table (c : CPU) (table : List (Nat × Nat)) (w : Nat)
    (hnd : (table.map Prod.fst).Nodup) (hw : ∀ p ∈ table, p.1 < w)
    (hex : ∀ p ∈ table, (c.getNode p.2).isSome = true) :
    ∃ v, readLines c table = some v ∧ v < 2 ^ w ∧
      (∀ p ∈ table, v.testBit p.1 = stateOf c p.2) ∧
      (∀ l, l.Perm table → readLines c l = some v) := by
  obtain ⟨v, hv, hbits⟩ := readLines_bits c table hex
  refine ⟨v, hv, ?_, ?_, ?_⟩
  · apply Nat.lt_pow_two_of_testBit
    intro i hi
    rw [hbits i, Bool.eq_false_iff]
    intro hany
    rw [List.any_eq_true] at hany
    obtain ⟨p, hp, h1⟩ := hany
    simp only [Bool.and_eq_true, decide_eq_true_eq] at h1
    have := hw p hp
    omega
  · intro p hp
    rw [hbits p.1]
    by_cases hs : stateOf c p.2 = true
    · rw [hs, List.any_eq_true]
      exact ⟨p, hp, by simp [hs]⟩
    · have hs' : stateOf c p.2 = false := by simpa using hs
      rw [hs', Bool.eq_false_iff]
      intro hany
      rw [List.any_eq_true] at hany
      obtain ⟨q, hq, h1⟩ := hany
      simp only [Bool.and_eq_true, decide_eq_true_eq] at h1
      have hqp : q = p := by
        have hinj := List.inj_on_of_nodup_map hnd hq hp h1.1
        exact hinj
      rw [hqp, hs'] at h1
      exact absurd h1.2 (by simp)
  · intro l hl
    obtain ⟨v', hv', hbits'⟩ := readLines_bits c l (fun p hp => hex p (hl.mem_iff.1 hp))
    rw [hv']
    congr 1
    apply Nat.eq_of_testBit_eq
    intro j
    rw [hbits' j, hbits j]
    exact any_perm _ hl

/-- C15. When the line nodes exist, `readAddressBus` returns a value below 2^16
whose bit `i` is the `State` of the node of address line `i`, for the lines 0 to 15,
and `readDataBus` returns a value below 2^8 whose bit `i` is the `State` of the node
of data line `i`, for the lines 0 to 7. Every order of the visit of the table gives
the same value, and the state returned is the old one with `addressBits`
(`dataBits`) set to the value: no node and no transistor changes. -/
theorem bus_registers_read_states (c : CPU)
    (hex : ∀ p ∈ AddressLineVals ++ DataLineVals, (c.getNode p.2).isSome = true) :
    AddressLineVals.map Prod.fst = List.range 16 ∧
    DataLineVals.map Prod.fst = List.range 8 ∧
    (∃ a, readAddressBus c = some ({ c with addressBits := a }, a) ∧ a < 2 ^ 16 ∧
      (∀ p ∈ AddressLineVals, a.testBit p.1 = stateOf c p.2) ∧
      (∀ l, l.Perm AddressLineVals → readLines c l = some a)) ∧
    (∃ d, readDataBus c = some ({ c with dataBits := d }, d) ∧ d < 2 ^ 8 ∧
      (∀ p ∈ DataLineVals, d.testBit p.1 = stateOf c p.2) ∧
      (∀ l, l.Perm DataLineVals → readLines c l = some d)) := by
  refine ⟨by decide, by decide, ?_, ?_⟩
  · obtain ⟨a, ha, hlt, hb, hp⟩ := readLines_table c AddressLineVals 16 (by decide) (by decide)
      (fun p hp => hex p (List.mem_append_left _ hp))
    refine ⟨a, ?_, hlt, hb, hp⟩
    unfold readAddressBus
    rw [ha]; rfl
  · obtain ⟨d, hd, hlt, hb, hp⟩ := readLines_table c DataLineVals 8 (by decide) (by decide)
      (fun p hp => hex p (List.mem_append_right _ hp))
    refine ⟨d, ?_, hlt, hb, hp⟩
    unfold readDataBus
    rw [hd]; rfl

set_option maxRecDepth 1000000 in
/-- Witness of `bus_registers_read_states` at `clkGateStep`, the state after one
`HalfStep` on a netlist with the address and data nodes. -/
theorem bus_registers_read_states_witness :
    (∀ p ∈ AddressLineVals ++ DataLineVals, (clkGateStep.getNode p.2).isSome = true) ∧
    AddressLineVals.map Prod.fst = List.range 16 ∧
    DataLineVals.map Prod.fst = List.range 8 ∧
    (∃ a, readAddressBus clkGateStep = some ({ clkGateStep with addressBits := a }, a) ∧
      a < 2 ^ 16 ∧
      (∀ p ∈ AddressLineVals, a.testBit p.1 = stateOf clkGateStep p.2) ∧
      (∀ l, l.Perm AddressLineVals → readLines clkGateStep l = some a)) ∧
    (∃ d, readDataBus clkGateStep = some ({ clkGateStep with dataBits := d }, d) ∧
      d < 2 ^ 8 ∧
      (∀ p ∈ DataLineVals, d.testBit p.1 = stateOf clkGateStep p.2) ∧
      (∀ l, l.Perm DataLineVals → readLines clkGateStep l = some d)) :=
  ⟨by decide, bus_registers_read_states clkGateStep (by decide)⟩

/-! ### C17: the mark `InNodeGroup` -/

/-- That no node is marked is a property of the engine. -/
theorem noMarks_engineInv : EngineInv NoMarks := by
  refine ⟨?_, ?_, ?_⟩
  · intro c id l c' l' h0 h
    exact recalcNode_noMarks h0 h
  · intro c i n pu pd h0 hn
    have hi : i < NodeDefCount := (getNode_eq_some.1 hn).1
    intro j m hm
    rw [getNode_setNode _ _ _ _ hi] at hm
    by_cases hj : j = i
    · rw [if_pos hj] at hm
      simp only [Option.some.injEq] at hm
      subst hm
      exact h0 i n hn
    · rw [if_neg hj] at hm
      exact h0 j m hm
  · intro c a d lg h0
    exact h0

/-- The first statements of `Reset` clear every mark. -/
theorem resetInit_noMarks {c c0 : CPU} (h : resetInit c = some c0) : NoMarks c0 := by
  obtain ⟨hn, _⟩ := resetInit_spec h
  intro i n' hn'
  rw [hn] at hn'
  cases h0 : c.getNode i with
  | none => simp [h0] at hn'
  | some n =>
    simp only [h0, Option.map_some', Option.some.injEq] at hn'
    subst hn'
    rfl

/-- C17. If no node is marked `InNodeGroup` (GND and VCC included) when `recalcNode`
is called, none is marked when it returns; the same holds for `recalcNodeList`,
`setLow`, `setHigh` and `HalfStep`, and `Reset` returns with no node marked from
every state. -/
theorem marks_are_transient (c : CPU) (h : NoMarks c) :
    (∀ id l r, recalcNode c id l = some r → NoMarks r.1) ∧
    (∀ order rounds l c', recalcNodeList order rounds c l = some c' → NoMarks c') ∧
    (∀ order rounds id c', setLow order rounds c id = some c' → NoMarks c') ∧
    (∀ order rounds id c', setHigh order rounds c id = some c' → NoMarks c') ∧
    (∀ order rounds c', HalfStep order rounds c = some c' → NoMarks c') ∧
    (∀ d order rounds d', Reset order rounds d = some d' → NoMarks d') := by
  refine ⟨?_, ?_, ?_, ?_, ?_, ?_⟩
  · intro id l r hr
    obtain ⟨c1, l1⟩ := r
    exact recalcNode_noMarks h hr
  · intro order rounds l c' hr
    exact recalcNodeList_keeps_all NoMarks order noMarks_engineInv.step rounds c l c' h hr
  · intro order rounds id c' hr
    exact noMarks_engineInv.setLow h hr
  · intro order rounds id c' hr
    exact noMarks_engineInv.setHigh h hr
  · intro order rounds c' hr
    exact noMarks_engineInv.halfStep h hr
  · intro d order rounds d' hr
    exact noMarks_engineInv.reset (fun _ h0 => resetInit_noMarks h0) hr

set_option maxRecDepth 1000000 in
/-- Witness of `marks_are_transient` at `conflictState`, where `recalcNode` on CLK0
builds a group of two nodes and returns. -/
theorem marks_are_transient_witness :
    NoMarks conflictState ∧
    (recalcNode conflictState NodeCLK0 []).isSome = true ∧
    conflictGroup.recalcNodeGroup = [NodeCLK0, NodeRDY] ∧
    ((∀ id l r, recalcNode conflictState id l = some r → NoMarks r.1) ∧
    (∀ order rounds l c', recalcNodeList order rounds conflictState l = some c' →
      NoMarks c') ∧
    (∀ order rounds id c', setLow order rounds conflictState id = some c' → NoMarks c') ∧
    (∀ order rounds id c', setHigh order rounds conflictState id = some c' → NoMarks c') ∧
    (∀ order rounds c', HalfStep order rounds conflictState = some c' → NoMarks c') ∧
    (∀ d order rounds d', Reset order rounds d = some d' → NoMarks d')) :=
  ⟨conflictState_between.2.1, by decide, by decide,
   marks_are_transient conflictState conflictState_between.2.1⟩

/-! ### The swap of `setupTransistors` -/

/-- The two `if` statements of `setupTransistors` keep the pair or swap it, leave a
supply in the second place when there is one, and leave a supply in the first place
only when both are supplies. -/
theorem canonicalise_spec (c1 c2 : Int) :
    (canonicalise c1 c2 = (c1, c2) ∨ canonicalise c1 c2 = (c2, c1)) ∧
    (isSupply c1 ∨ isSupply c2 → isSupply (canonicalise c1 c2).2) ∧
    (isSupply (canonicalise c1 c2).1 → isSupply c1 ∧ isSupply c2) := by
  unfold canonicalise isSupply
  simp only [NodeGND, NodePWR]
  by_cases h1 : c1 = 558
  · subst h1
    by_cases h2 : c2 = 657
    · subst h2; simp
    · simp [h2]
  · by_cases h3 : c1 = 657
    · subst h3; simp
    · simp [h1, h3]

/-- Every transistor that `setupTransistors` stores comes from a line with four
fields, or from the map it started with, and holds the gate and the canonicalised
channel ids of that line. -/
theorem setupTransistors_mem : ∀ (lines : List (List Int)) (m : List TransDef) (t : TransDef),
    t ∈ setupTransistors lines m →
    t ∈ m ∨ ∃ id gate c1 c2 more, (id :: gate :: c1 :: c2 :: more) ∈ lines ∧
      t = { ID := id, GateNodeID := gate, C1NodeID := (canonicalise c1 c2).1,
            C2NodeID := (canonicalise c1 c2).2 } := by
  intro lines
  induction lines with
  | nil => intro m t ht; exact Or.inl (by simpa [setupTransistors] using ht)
  | cons line rest ih =>
    intro m t ht
    have hskip : t ∈ setupTransistors rest m →
        t ∈ m ∨ ∃ id gate c1 c2 more, (id :: gate :: c1 :: c2 :: more) ∈ line :: rest ∧
          t = { ID := id, GateNodeID := gate, C1NodeID := (canonicalise c1 c2).1,
                C2NodeID := (canonicalise c1 c2).2 } := by
      intro h
      rcases ih m t h with h1 | ⟨id, gate, c1, c2, more, hmem, heq⟩
      · exact Or.inl h1
      · exact Or.inr ⟨id, gate, c1, c2, more, List.mem_cons_of_mem _ hmem, heq⟩
    match line, ht with
    | [], ht => exact hskip (by simpa [setupTransistors] using ht)
    | [_], ht => exact hskip (by simpa [setupTransistors] using ht)
    | [_, _], ht => exact hskip (by simpa [setupTransistors] using ht)
    | [_, _, _], ht => exact hskip (by simpa [setupTransistors] using ht)
    | id :: gate :: c1 :: c2 :: more, ht =>
      simp only [setupTransistors] at ht
      rcases ih _ t ht with h1 | ⟨id', gate', c1', c2', more', hmem, heq⟩
      · rcases List.mem_append.1 h1 with h2 | h2
        · exact Or.inl (List.mem_of_mem_filter h2)
        · rw [List.mem_singleton] at h2
          exact Or.inr ⟨id, gate, c1, c2, more, List.mem_cons_self _ _, h2⟩
      · exact Or.inr ⟨id', gate', c1', c2', more', List.mem_cons_of_mem _ hmem, heq⟩

theorem ensureNode_total (ns : Nat → Option Node) (id : Int)
    (h : 0 ≤ id ∧ id < (NodeDefCount : Int)) : ∃ ns', ensureNode ns id = some ns' := by
  unfold ensureNode
  rw [if_pos h]
  exact ⟨_, rfl⟩

theorem connectOne_total (ns : Nat → Option Node) (t : TransDef) (h : InRange t) :
    ∃ ns', connectOne ns t = some ns' := by
  obtain ⟨hg, h1, h2⟩ := h
  obtain ⟨ns1, e1⟩ := ensureNode_total ns _ hg
  obtain ⟨ns2, e2⟩ := ensureNode_total ns1 _ h1
  obtain ⟨ns3, e3⟩ := ensureNode_total ns2 _ h2
  unfold connectOne
  rw [e1, Option.some_bind, e2, Option.some_bind, e3, Option.some_bind]
  exact ⟨_, rfl⟩

/-- The loop of `connectTransistors` returns when the ids are indices of the array. -/
theorem connectTransistors_total : ∀ (ts : List TransDef) (ns : Nat → Option Node),
    (∀ t ∈ ts, InRange t) → ∃ ns', connectTransistors ns ts = some ns' := by
  intro ts
  induction ts with
  | nil => intro ns _; exact ⟨ns, rfl⟩
  | cons t ts ih =>
    intro ns h
    obtain ⟨ns1, e1⟩ := connectOne_total ns t (h t (List.mem_cons_self _ _))
    obtain ⟨ns2, e2⟩ := ih ns1 (fun x hx => h x (List.mem_cons_of_mem _ hx))
    refine ⟨ns2, ?_⟩
    simp only [connectTransistors, e1, Option.some_bind, e2]

theorem chansAt_append (ns : Nat → Option Node) (x : Nat) (k : Int)
    (hs : (ns x).isSome = true) (i : Nat) :
    chansAt (fun j =>
      if j = x then
        (ns j).map (fun n => { n with C1C2Transistors := n.C1C2Transistors ++ [k] })
      else ns j) i = chansAt ns i ++ (if x = i then [k] else []) := by
  unfold chansAt
  dsimp only
  by_cases d : i = x
  · subst d
    rw [if_pos rfl, if_pos rfl]
    cases hn : ns i with
    | none => simp [hn] at hs
    | some n => simp
  · have d' : ¬ x = i := fun e => d e.symm
    rw [if_neg d, if_neg d']
    simp

theorem chansAt_gates (ns : Nat → Option Node) (x : Nat) (k : Int) (i : Nat) :
    chansAt (fun j =>
      if j = x then
        (ns j).map (fun n => { n with GateTransistors := n.GateTransistors ++ [k] })
      else ns j) i = chansAt ns i := by
  unfold chansAt
  dsimp only
  by_cases d : i = x
  · rw [if_pos d]
    cases hn : ns i <;> simp
  · rw [if_neg d]

/-- The channel lists after the loop body of `connectTransistors` for `t`. -/
theorem connectOne_chansEq {ns ns' : Nat → Option Node} {t : TransDef}
    (h : connectOne ns t = some ns') :
    ∀ i, chansAt ns' i = chansAt ns i ++ chanEntries i t := by
  unfold connectOne at h
  simp only [Option.bind_eq_some] at h
  obtain ⟨ns1, h1, ns2, h2, ns3, h3, h4⟩ := h
  simp only [Option.some.injEq] at h4
  have g1 := ensureNode_chans h1
  have g2 := ensureNode_chans h2
  have g3 := ensureNode_chans h3
  obtain ⟨_, _, _, _, _⟩ := ensureNode_spec h1
  obtain ⟨_, s2, _, _, _⟩ := ensureNode_spec h2
  obtain ⟨_, s3, _, k3, _⟩ := ensureNode_spec h3
  have c1some : (ns3 t.C1NodeID.toNat).isSome = true := k3 _ s2
  intro i
  rw [← h4]
  have e4 : ∀ j, ((fun j =>
      if j = t.GateNodeID.toNat then
        (ns3 j).map (fun n => { n with GateTransistors := n.GateTransistors ++ [t.ID] })
      else ns3 j) j).isSome = (ns3 j).isSome := by
    intro j
    dsimp only
    split_ifs <;> simp
  have e5 : ∀ j, ((fun j =>
      if j = t.C1NodeID.toNat then
        ((fun j =>
          if j = t.GateNodeID.toNat then
            (ns3 j).map (fun n => { n with GateTransistors := n.GateTransistors ++ [t.ID] })
          else ns3 j) j).map
          (fun n => { n with C1C2Transistors := n.C1C2Transistors ++ [t.ID] })
      else (fun j =>
          if j = t.GateNodeID.toNat then
            (ns3 j).map (fun n => { n with GateTransistors := n.GateTransistors ++ [t.ID] })
          else ns3 j) j) j).isSome = (ns3 j).isSome := by
    intro j
    dsimp only
    split_ifs <;> simp
  rw [chansAt_append _ t.C2NodeID.toNat t.ID (by rw [e5]; exact s3) i,
    chansAt_append _ t.C1NodeID.toNat t.ID (by rw [e4]; exact c1some) i,
    chansAt_gates, g3, g2, g1]
  unfold chanEntries
  rw [List.append_assoc]

/-- The channel lists after `connectTransistors`: the entries of the transistors in
the order of the visit. -/
theorem connectTransistors_chansEq : ∀ (ts : List TransDef) (ns ns' : Nat → Option Node),
    connectTransistors ns ts = some ns' →
    ∀ i, chansAt ns' i = chansAt ns i ++ ts.flatMap (chanEntries i) := by
  intro ts
  induction ts with
  | nil =>
    intro ns ns' h i
    simp only [connectTransistors, Option.some.injEq] at h
    subst h
    simp
  | cons t ts ih =>
    intro ns ns' h i
    simp only [connectTransistors, Option.bind_eq_some] at h
    obtain ⟨ns1, h1, h2⟩ := h
    rw [ih ns1 ns' h2 i, connectOne_chansEq h1 i, List.flatMap_cons, List.append_assoc]

/-- The channel terminals of every visited transistor exist after
`connectTransistors`. -/
theorem connectTransistors_terminals : ∀ (ts : List TransDef) (ns ns' : Nat → Option Node),
    connectTransistors ns ts = some ns' →
    ∀ t ∈ ts, InRange t ∧ (ns' t.GateNodeID.toNat).isSome = true ∧
      (ns' t.C1NodeID.toNat).isSome = true ∧ (ns' t.C2NodeID.toNat).isSome = true := by
  intro ts
  induction ts with
  | nil => intro ns ns' _ t ht; simp at ht
  | cons t ts ih =>
    intro ns ns' h x hx
    simp only [connectTransistors, Option.bind_eq_some] at h
    obtain ⟨ns1, h1, h2⟩ := h
    obtain ⟨_, _, k2, _⟩ := connectTransistors_spec ts ns1 ns' h2
    rcases List.mem_cons.1 hx with hx | hx
    · subst hx
      have hone := h1
      unfold connectOne at h1
      simp only [Option.bind_eq_some] at h1
      obtain ⟨m1, e1, m2, e2, m3, e3, e4⟩ := h1
      simp only [Option.some.injEq] at e4
      obtain ⟨r1, s1, _, _, _⟩ := ensureNode_spec e1
      obtain ⟨r2, s2, _, q2, _⟩ := ensureNode_spec e2
      obtain ⟨r3, s3, _, q3, _⟩ := ensureNode_spec e3
      have hsome : ∀ i, (ns1 i).isSome = (m3 i).isSome := by
        intro i
        rw [← e4]
        dsimp only
        split_ifs <;> simp
      refine ⟨⟨r1, r2, r3⟩, k2 _ ?_, k2 _ ?_, k2 _ ?_⟩
      · rw [hsome]; exact q3 _ (q2 _ s1)
      · rw [hsome]; exact q3 _ s2
      · rw [hsome]; exact s3
    · exact ih ns1 ns' h2 x hx

/-- In a list of transistors with distinct keys, the key of a transistor occurs in
the entries of the whole list as often as in its own entries. -/
theorem count_flatMap_unique (f : TransDef → List Int) (hf : ∀ t x, x ∈ f t → x = t.ID) :
    ∀ (ts : List TransDef), (ts.map TransDef.ID).Nodup → ∀ td ∈ ts,
      (ts.flatMap f).count td.ID = (f td).count td.ID := by
  intro ts
  induction ts with
  | nil => intro _ td h; simp at h
  | cons t rest ih =>
    intro hnd td htd
    rw [List.map_cons, List.nodup_cons] at hnd
    obtain ⟨hnot, hrest⟩ := hnd
    rw [List.flatMap_cons, List.count_append]
    rcases List.mem_cons.1 htd with h | h
    · subst h
      have hz : (rest.flatMap f).count td.ID = 0 := by
        rw [List.count_eq_zero]
        intro hmem
        rw [List.mem_flatMap] at hmem
        obtain ⟨t', ht', hx⟩ := hmem
        exact hnot (List.mem_map.2 ⟨t', ht', (hf t' _ hx).symm⟩)
      rw [hz, Nat.add_zero]
    · have hz : (f t).count td.ID = 0 := by
        rw [List.count_eq_zero]
        intro hmem
        have := hf t _ hmem
        exact hnot (List.mem_map.2 ⟨td, h, this⟩)
      rw [hz, Nat.zero_add]
      exact ih hrest td h

theorem chanEntries_id (i : Nat) (t : TransDef) (x : Int) (h : x ∈ chanEntries i t) :
    x = t.ID := by
  unfold chanEntries at h
  rcases List.mem_append.1 h with h | h
  · by_cases d : t.C1NodeID.toNat = i
    · rw [if_pos d] at h; simpa using h
    · rw [if_neg d] at h; simp at h
  · by_cases d : t.C2NodeID.toNat = i
    · rw [if_pos d] at h; simpa using h
    · rw [if_neg d] at h; simp at h

theorem chanEntries_count (i : Nat) (t : TransDef) :
    (chanEntries i t).count t.ID =
      (if t.C1NodeID.toNat = i then 1 else 0) + (if t.C2NodeID.toNat = i then 1 else 0) := by
  unfold chanEntries
  rw [List.count_append]
  by_cases d1 : t.C1NodeID.toNat = i <;> by_cases d2 : t.C2NodeID.toNat = i <;> simp [d1, d2]

/-- Function `New` returns when the segment file is accepted and the ids of the stored
transistors are indices of the array. -/
theorem New_total (rd : List BusCall → Nat → Nat)
    (transDefs segDefs : List (List Int)) (visit : List TransDef → List TransDef)
    (ns : Nat → Option Node) (hvisit : ∀ l, (visit l).Perm l)
    (hns : setupNodes segDefs (fun _ => none) = some ns)
    (hr : ∀ t ∈ setupTransistors transDefs [], InRange t) :
    ∃ c, New rd transDefs segDefs visit = some c := by
  have hperm := hvisit (setupTransistors transDefs [])
  obtain ⟨ns1, hns1⟩ := connectTransistors_total (visit (setupTransistors transDefs [])) ns
    (fun t ht => hr t (hperm.mem_iff.1 ht))
  unfold New
  simp only [hns, Option.some_bind, hns1, Option.map_some']
  exact ⟨_, rfl⟩

/-- The lists of a state that `New` returns, counted. -/
theorem New_counts {rd : List BusCall → Nat → Nat} {transDefs segDefs : List (List Int)}
    {visit : List TransDef → List TransDef} {c : CPU}
    (hvisit : ∀ l, (visit l).Perm l)
    (h : New rd transDefs segDefs visit = some c) :
    ∀ k t, c.transistors k = some t →
      (∃ g, c.getNode t.GateNodeID = some g ∧ g.GateTransistors.count k = 1) ∧
      (∃ n1, c.getNode t.C1NodeID = some n1) ∧ (∃ n2, c.getNode t.C2NodeID = some n2) ∧
      ∀ i n, c.getNode i = some n →
        n.C1C2Transistors.count k =
          (if t.C1NodeID = i then 1 else 0) + (if t.C2NodeID = i then 1 else 0) := by
  have hnodup := setupTransistors_nodup transDefs [] (by simp)
  have hperm := hvisit (setupTransistors transDefs [])
  unfold New at h
  simp only [Option.bind_eq_some, Option.map_eq_some'] at h
  obtain ⟨ns, hns, ns1, hns1, hc⟩ := h
  have h0 := setupNodes_spec segDefs _ ns (by intro i n hn; simp at hn) hns
  have hc0 := setupNodes_chans segDefs _ ns (by intro i; rfl) hns
  obtain ⟨_, g1, _, b1⟩ := connectTransistors_spec _ ns ns1 hns1
  have hch := connectTransistors_chansEq _ ns ns1 hns1
  have hterm := connectTransistors_terminals _ ns ns1 hns1
  have hg0 : ∀ i, gatesAt ns i = [] := by
    intro i
    unfold gatesAt
    cases hn : ns i with
    | none => rfl
    | some n => simp [(h0 i n hn).2]
  have hrange : ∀ i, (ns1 i).isSome = true → i < NodeDefCount := by
    intro i hi
    rcases b1 i hi with h | h
    · exact h
    · cases hn : ns i with
      | none => simp [hn] at h
      | some n => exact (h0 i n hn).1
  have hnodes : c.nodes = ns1 := by rw [← hc]
  have hget : ∀ i, (ns1 i).isSome = true → ∃ n, ns1 i = some n ∧ c.getNode i = some n := by
    intro i hi
    cases hn : ns1 i with
    | none => simp [hn] at hi
    | some n => exact ⟨n, rfl, getNode_eq_some.2 ⟨hrange i hi, by rw [hnodes]; exact hn⟩⟩
  intro k t ht
  rw [← hc] at ht
  simp only [Option.map_eq_some'] at ht
  obtain ⟨td, hfind, rfl⟩ := ht
  have hmem : td ∈ setupTransistors transDefs [] := List.mem_of_find?_eq_some hfind
  have hid : td.ID = k := by simpa using List.find?_some hfind
  have hvis : td ∈ visit (setupTransistors transDefs []) := hperm.mem_iff.2 hmem
  obtain ⟨_, sg, s1, s2⟩ := hterm td hvis
  dsimp only
  refine ⟨?_, ?_, ?_, ?_⟩
  · obtain ⟨g, hg, hgn⟩ := hget _ sg
    refine ⟨g, hgn, ?_⟩
    have hga := g1 td.GateNodeID.toNat
    rw [hg0] at hga
    simp only [gatesAt, hg, Option.map_some', Option.getD_some, List.nil_append] at hga
    rw [hga]
    apply List.count_eq_one_of_mem
    · have hsub : (((visit (setupTransistors transDefs [])).filter
          (fun t => decide (t.GateNodeID.toNat = td.GateNodeID.toNat))).map TransDef.ID).Sublist
          ((visit (setupTransistors transDefs [])).map TransDef.ID) :=
        (List.filter_sublist _).map _
      exact ((hperm.map TransDef.ID).nodup_iff.2 hnodup).sublist hsub
    · rw [List.mem_map]
      exact ⟨td, List.mem_filter.2 ⟨hvis, by simp⟩, hid⟩
  · obtain ⟨n, _, hn⟩ := hget _ s1
    exact ⟨n, hn⟩
  · obtain ⟨n, _, hn⟩ := hget _ s2
    exact ⟨n, hn⟩
  · intro i n hn
    have hni : ns1 i = some n := by rw [← hnodes]; exact (getNode_eq_some.1 hn).2
    have hl := hch i
    rw [hc0] at hl
    simp only [chansAt, hni, Option.map_some', Option.getD_some, List.nil_append] at hl
    rw [hl, (hperm.flatMap_right (chanEntries i)).count_eq, ← hid,
      count_flatMap_unique (chanEntries i) (chanEntries_id i) _ hnodup td hmem,
      chanEntries_count]

/-- C19, amended. For transistor lines whose stored gate, c1 and c2 ids lie in
`[0, NodeDefCount)` and a segment file that `setupNodes` accepts, `New` returns, and
in the state it returns every transistor has its three nodes; its key occurs exactly
once in the `GateTransistors` list of its gate node; it occurs in the
`C1C2Transistors` list of every node as often as the node is one of its two channel
terminals: once in the list of each channel node when `C1NodeID` and `C2NodeID`
differ, twice in the list of the node when they are equal, never in another list. -/
theorem channel_list_counts (rd : List BusCall → Nat → Nat)
    (transDefs segDefs : List (List Int)) (visit : List TransDef → List TransDef)
    (ns : Nat → Option Node) (hvisit : ∀ l, (visit l).Perm l)
    (hns : setupNodes segDefs (fun _ => none) = some ns)
    (hr : ∀ t ∈ setupTransistors transDefs [], InRange t) :
    ∃ c, New rd transDefs segDefs visit = some c ∧
      ∀ k t, c.transistors k = some t →
        (∃ g, c.getNode t.GateNodeID = some g ∧ g.GateTransistors.count k = 1) ∧
        (∃ n1, c.getNode t.C1NodeID = some n1) ∧ (∃ n2, c.getNode t.C2NodeID = some n2) ∧
        ∀ i n, c.getNode i = some n →
          n.C1C2Transistors.count k =
            (if t.C1NodeID = i then 1 else 0) + (if t.C2NodeID = i then 1 else 0) := by
  obtain ⟨c, hc⟩ := New_total rd transDefs segDefs visit ns hvisit hns hr
  exact ⟨c, hc, New_counts hvisit hc⟩

set_option maxRecDepth 1000000 in
/-- C19, counterexample. A transistor line `0, 1, 7, 7` has both channel ids on node
7: after `New` the key 0 stands twice on the `C1C2Transistors` list of node 7. -/
theorem self_loop_listed_twice :
    selfLoopNet.isSome = true ∧
    selfLoopNet.bind (fun c => (c.transistors 0).map
      (fun t => (t.GateNodeID, t.C1NodeID, t.C2NodeID))) = some (1, 7, 7) ∧
    selfLoopNet.bind (fun c => (c.getNode 7).map Node.C1C2Transistors) = some [0, 0] ∧
    selfLoopNet.bind (fun c => (c.getNode 7).map
      (fun n => n.C1C2Transistors.count 0)) = some 2 := by
  decide

set_option maxRecDepth 1000000 in
/-- Witness of `channel_list_counts` on the lines `0, 1, 7, 8` and `1, 1, 7, 7`. -/
theorem channel_list_counts_witness :
    twoChanNet.bind (fun c => (c.getNode 7).map Node.C1C2Transistors) = some [0, 1, 1] ∧
    twoChanNet.bind (fun c => (c.getNode 8).map Node.C1C2Transistors) = some [0] ∧
    ∃ c, New zeroHost [[0, 1, 7, 8], [1, 1, 7, 7]] [] id = some c ∧
      ∀ k t, c.transistors k = some t →
        (∃ g, c.getNode t.GateNodeID = some g ∧ g.GateTransistors.count k = 1) ∧
        (∃ n1, c.getNode t.C1NodeID = some n1) ∧ (∃ n2, c.getNode t.C2NodeID = some n2) ∧
        ∀ i n, c.getNode i = some n →
          n.C1C2Transistors.count k =
            (if t.C1NodeID = i then 1 else 0) + (if t.C2NodeID = i then 1 else 0) :=
  ⟨by decide, by decide,
   channel_list_counts zeroHost [[0, 1, 7, 8], [1, 1, 7, 7]] [] id (fun _ => none)
    (fun _ => List.Perm.refl _) rfl (by decide)⟩

theorem walks_markAll {c : CPU} {a : List Nat} {x y : Nat} :
    Walks (markAll c a) x y ↔ Walks c x y := by
  unfold Walks
  constructor
  · rintro ⟨hs, n', k, t, hn', hk, ht, hon, hy⟩
    rw [markAll_getNode] at hn'
    cases h0 : c.getNode x with
    | none => simp [h0] at hn'
    | some n =>
      simp only [h0, Option.map_some', Option.some.injEq] at hn'
      subst hn'
      exact ⟨hs, n, k, t, rfl, hk, ht, hon, hy⟩
  · rintro ⟨hs, n, k, t, hn, hk, ht, hon, hy⟩
    refine ⟨hs, { n with InNodeGroup := n.InNodeGroup || decide (x ∈ a) }, k, t, ?_, hk, ht,
      hon, hy⟩
    rw [markAll_getNode, hn]
    rfl

theorem marked_markAll {c : CPU} {a : List Nat} {y : Nat} (h : Marked (markAll c a) y) :
    Marked c y ∨ y ∈ a := by
  obtain ⟨n', hn', hm⟩ := h
  rw [markAll_getNode] at hn'
  cases h0 : c.getNode y with
  | none => simp [h0] at hn'
  | some n =>
    simp only [h0, Option.map_some', Option.some.injEq] at hn'
    subst hn'
    simp only [Bool.or_eq_true, decide_eq_true_eq] at hm
    rcases hm with hm | hm
    · exact Or.inl ⟨n, h0, hm⟩
    · exact Or.inr hm

/-- What `addSubNodesToGroup` adds is closed under the steps of the traversal: the
seed is marked afterwards, every target of a step from an added node is marked
afterwards, and every added node is reached from the seed by steps. -/
theorem addSub_closed : ∀ (fuel : Nat) (c : CPU) (id : Nat) (c' : CPU),
    addSubNodesToGroup fuel c id = some c' →
    ∃ added, c' = markAll c added ∧ Added c id added ∧
      (Marked c id ∨ id ∈ added) ∧
      (∀ x ∈ added, ∀ y, Walks c x y → Marked c y ∨ y ∈ added) ∧
      (∀ x ∈ added, Relation.ReflTransGen (Walks c) id x) := by
  intro fuel
  induction fuel with
  | zero => intro c id c' h; simp [addSubNodesToGroup] at h
  | succ fuel ih =>
    intro c id c' h
    rw [addSubNodesToGroup] at h
    cases hn : c.getNode id with
    | none => simp [hn] at h
    | some node =>
      simp only [hn] at h
      by_cases hm : node.InNodeGroup = true
      · simp only [hm, if_true, Option.some.injEq] at h
        refine ⟨[], by rw [markAll_nil]; exact h.symm, Added.nil c id, Or.inl ⟨node, hn, hm⟩,
          ?_, ?_⟩
        · intro x hx; simp at hx
        · intro x hx; simp at hx
      · have hm' : node.InNodeGroup = false := by simpa using hm
        have hnodes : c.nodes id = some node := (getNode_eq_some.1 hn).2
        simp only [hm', Bool.false_eq_true, if_false] at h
        rw [markAll_one c id node hnodes] at h
        have hone : Added c id [id] := by
          refine ⟨List.nodup_singleton id, ?_⟩
          intro i hi
          rw [List.mem_singleton] at hi
          subst hi
          exact ⟨⟨node, hn, hm'⟩, Or.inl rfl⟩
        by_cases hs : id = NodeGND ∨ id = NodePWR
        · simp only [hs, if_true, Option.some.injEq] at h
          refine ⟨[id], h.symm, hone, Or.inr (List.mem_singleton.2 rfl), ?_, ?_⟩
          · intro x hx y hw
            rw [List.mem_singleton] at hx
            subst hx
            exact absurd hs hw.1
          · intro x hx
            rw [List.mem_singleton] at hx
            subst hx
            exact Relation.ReflTransGen.refl
        · simp only [hs, if_false] at h
          -- the loop over the channel transistors
          have loop : ∀ (ks : List Int) (a : List Nat) (d : CPU),
              (∀ k ∈ ks, k ∈ node.C1C2Transistors) → Added c id a → id ∈ a →
              (∀ x ∈ a, x ≠ id → ∀ y, Walks c x y → Marked c y ∨ y ∈ a) →
              (∀ x ∈ a, Relation.ReflTransGen (Walks c) id x) →
              ks.foldlM
                (fun (acc : CPU) (k : Int) =>
                  match acc.transistors k with
                  | none => none
                  | some tr =>
                    if tr.On = false then some acc
                    else
                      addSubNodesToGroup fuel acc
                        (if tr.C1NodeID = id then tr.C2NodeID else tr.C1NodeID))
                (markAll c a) = some d →
              ∃ added, d = markAll c added ∧ Added c id added ∧ id ∈ added ∧
                (∀ x ∈ added, x ≠ id → ∀ y, Walks c x y → Marked c y ∨ y ∈ added) ∧
                (∀ k ∈ ks, ∀ t, c.transistors k = some t → t.On = true →
                  Marked c (if t.C1NodeID = id then t.C2NodeID else t.C1NodeID) ∨
                  (if t.C1NodeID = id then t.C2NodeID else t.C1NodeID) ∈ added) ∧
                (∀ x ∈ added, Relation.ReflTransGen (Walks c) id x) ∧
                (∀ x ∈ a, x ∈ added) := by
            intro ks
            induction ks with
            | nil =>
              intro a d _ ha hid hcl hre hd
              simp only [List.foldlM_nil, pure, Option.some.injEq] at hd
              exact ⟨a, hd.symm, ha, hid, hcl, by intro k hk; simp at hk, hre, fun _ hx => hx⟩
            | cons k ks ihk =>
              intro a d hks ha hid hcl hre hd
              simp only [List.foldlM_cons, bind, Option.bind_eq_some] at hd
              obtain ⟨e, he, hd⟩ := hd
              have hks' : ∀ k' ∈ ks, k' ∈ node.C1C2Transistors :=
                fun k' hk' => hks k' (List.mem_cons_of_mem _ hk')
              cases ht : c.transistors k with
              | none => simp [ht] at he
              | some tr =>
                simp only [markAll_transistors, ht] at he
                by_cases hon : tr.On = false
                · simp only [hon, if_true, Option.some.injEq] at he
                  subst he
                  obtain ⟨A, hA, hAdd, hidA, hclA, hksA, hreA, hsub⟩ :=
                    ihk a d hks' ha hid hcl hre hd
                  refine ⟨A, hA, hAdd, hidA, hclA, ?_, hreA, hsub⟩
                  intro k' hk' t ht' hton
                  rcases List.mem_cons.1 hk' with hk' | hk'
                  · subst hk'
                    rw [ht] at ht'
                    simp only [Option.some.injEq] at ht'
                    subst ht'
                    rw [hon] at hton
                    exact absurd hton (by simp)
                  · exact hksA k' hk' t ht' hton
                · simp only [hon, if_false] at he
                  have hon' : tr.On = true := by simpa using hon
                  obtain ⟨b, hb, hab, hseed, hclb, hreb⟩ := ih _ _ _ he
                  rw [hb, markAll_append] at hd
                  have hwalk : Walks c id (if tr.C1NodeID = id then tr.C2NodeID else tr.C1NodeID) :=
                    ⟨hs, node, k, tr, hn, hks k (List.mem_cons_self _ _), ht, hon', rfl⟩
                  have hAddab : Added c id (a ++ b) := by
                    refine Added.append ha hab ?_
                    right
                    refine ⟨k, tr, ht, ?_⟩
                    by_cases h1 : tr.C1NodeID = id <;> simp [h1]
                  have hclab : ∀ x ∈ a ++ b, x ≠ id → ∀ y, Walks c x y →
                      Marked c y ∨ y ∈ a ++ b := by
                    intro x hx hxid y hw
                    rcases List.mem_append.1 hx with hx | hx
                    · rcases hcl x hx hxid y hw with h1 | h1
                      · exact Or.inl h1
                      · exact Or.inr (List.mem_append_left _ h1)
                    · rcases hclb x hx y (walks_markAll.2 hw) with h1 | h1
                      · rcases marked_markAll h1 with h2 | h2
                        · exact Or.inl h2
                        · exact Or.inr (List.mem_append_left _ h2)
                      · exact Or.inr (List.mem_append_right _ h1)
                  have hreab : ∀ x ∈ a ++ b, Relation.ReflTransGen (Walks c) id x := by
                    intro x hx
                    rcases List.mem_append.1 hx with hx | hx
                    · exact hre x hx
                    · have h1 : Relation.ReflTransGen (Walks c)
                          (if tr.C1NodeID = id then tr.C2NodeID else tr.C1NodeID) x :=
                        (hreb x hx).mono (fun _ _ hw => walks_markAll.1 hw)
                      exact Relation.ReflTransGen.head hwalk h1
                  obtain ⟨A, hA, hAdd, hidA, hclA, hksA, hreA, hsub⟩ :=
                    ihk (a ++ b) d hks' hAddab (List.mem_append_left _ hid) hclab hreab hd
                  refine ⟨A, hA, hAdd, hidA, hclA, ?_, hreA,
                    fun x hx => hsub x (List.mem_append_left _ hx)⟩
                  intro k' hk' t ht' hton
                  rcases List.mem_cons.1 hk' with hk' | hk'
                  · subst hk'
                    rw [ht] at ht'
                    simp only [Option.some.injEq] at ht'
                    subst ht'
                    rcases hseed with hmk | hmb
                    · rcases marked_markAll hmk with h1 | h1
                      · exact Or.inl h1
                      · exact Or.inr (hsub _ (List.mem_append_left _ h1))
                    · exact Or.inr (hsub _ (List.mem_append_right _ hmb))
                  · exact hksA k' hk' t ht' hton
          obtain ⟨A, hA, hAdd, hidA, hclA, hksA, hreA, _⟩ :=
            loop node.C1C2Transistors [id] c' (fun _ hk => hk) hone (List.mem_singleton.2 rfl)
              (by intro x hx hxid; rw [List.mem_singleton] at hx; exact absurd hx hxid)
              (by
                intro x hx
                rw [List.mem_singleton] at hx
                subst hx
                exact Relation.ReflTransGen.refl)
              h
          refine ⟨A, hA, hAdd, Or.inr hidA, ?_, hreA⟩
          intro x hx y hw
          by_cases hxid : x = id
          · subst hxid
            obtain ⟨_, n, k, t, hn', hk, ht, hon, hy⟩ := hw
            rw [hn] at hn'
            simp only [Option.some.injEq] at hn'
            subst hn'
            rw [hy]
            exact hksA k hk t ht hon
          · exact hclA x hx hxid y hw

/-- With sound and complete channel lists the steps of the traversal are the
conducting transistors. -/
theorem walks_iff_conducts {c : CPU} (hl : ChanLists c) (hc : ChanComplete c) (x y : Nat) :
    Walks c x y ↔ Conducts c x y := by
  unfold Walks Conducts
  constructor
  · rintro ⟨hs, n, k, t, hn, hk, ht, hon, hy⟩
    refine ⟨hs, k, t, ht, hon, ?_⟩
    obtain ⟨t', ht', hterm⟩ := hl x n hn k hk
    rw [ht] at ht'
    simp only [Option.some.injEq] at ht'
    subst ht'
    by_cases h1 : t.C1NodeID = x
    · rw [if_pos h1] at hy
      exact Or.inl ⟨h1, hy.symm⟩
    · rw [if_neg h1] at hy
      rcases hterm with h2 | h2
      · exact absurd h2 h1
      · exact Or.inr ⟨h2, hy.symm⟩
  · rintro ⟨hs, k, t, ht, hon, hterm⟩
    obtain ⟨⟨n1, hn1, hk1⟩, ⟨n2, hn2, hk2⟩⟩ := hc k t ht
    rcases hterm with ⟨h1, h2⟩ | ⟨h1, h2⟩
    · rw [h1] at hn1
      refine ⟨hs, n1, k, t, hn1, hk1, ht, hon, ?_⟩
      rw [if_pos h1, h2]
    · rw [h1] at hn2
      refine ⟨hs, n2, k, t, hn2, hk2, ht, hon, ?_⟩
      by_cases h3 : t.C1NodeID = x
      · rw [if_pos h3, h1, ← h2, h3]
      · rw [if_neg h3, h2]

theorem markAll_chanLists {c : CPU} {a : List Nat} (h : ChanLists c) :
    ChanLists (markAll c a) := by
  intro i n' hn' k hk
  rw [markAll_getNode] at hn'
  cases h0 : c.getNode i with
  | none => simp [h0] at hn'
  | some n =>
    simp only [h0, Option.map_some', Option.some.injEq] at hn'
    subst hn'
    exact h i n h0 k hk

theorem markAll_chanComplete {c : CPU} {a : List Nat} (h : ChanComplete c) :
    ChanComplete (markAll c a) := by
  intro k t ht
  obtain ⟨⟨n1, hn1, hk1⟩, ⟨n2, hn2, hk2⟩⟩ := h k t ht
  refine ⟨⟨{ n1 with InNodeGroup := n1.InNodeGroup || decide (t.C1NodeID ∈ a) }, ?_, hk1⟩,
    ⟨{ n2 with InNodeGroup := n2.InNodeGroup || decide (t.C2NodeID ∈ a) }, ?_, hk2⟩⟩
  · rw [markAll_getNode, hn1]; rfl
  · rw [markAll_getNode, hn2]; rfl

/-- With sound and complete channel lists the traversal dereferences no nil pointer:
`addSubNodesToGroup` returns when the depth bound exceeds the number of unmarked
nodes. -/
theorem addSub_total : ∀ (fuel : Nat) (c : CPU) (id : Nat), freeCount c < fuel →
    ChanLists c → ChanComplete c → (c.getNode id).isSome = true →
    ∃ c', addSubNodesToGroup fuel c id = some c' := by
  intro fuel
  induction fuel with
  | zero => intro c id h; exact absurd h (Nat.not_lt_zero _)
  | succ fuel ih =>
    intro c id hfree hl hc hex
    rw [addSubNodesToGroup]
    cases hn : c.getNode id with
    | none => simp [hn] at hex
    | some node =>
      dsimp only
      by_cases hmark : node.InNodeGroup = true
      · simp only [hmark, if_true]
        exact ⟨c, rfl⟩
      · have hmark' : node.InNodeGroup = false := by simpa using hmark
        simp only [hmark', Bool.false_eq_true, if_false]
        by_cases hs : id = NodeGND ∨ id = NodePWR
        · rw [if_pos hs]
          exact ⟨_, rfl⟩
        · rw [if_neg hs]
          rw [markAll_one c id node (getNode_eq_some.1 hn).2]
          have h1 : freeCount (markAll c [id]) < fuel := by
            have := freeCount_markAll_one_lt c id node hn hmark'
            omega
          have hks : ∀ k ∈ node.C1C2Transistors, ∃ t, c.transistors k = some t ∧
              (c.getNode t.C1NodeID).isSome = true ∧ (c.getNode t.C2NodeID).isSome = true := by
            intro k hk
            obtain ⟨t, ht, _⟩ := hl id node hn k hk
            obtain ⟨⟨n1, hn1, _⟩, ⟨n2, hn2, _⟩⟩ := hc k t ht
            exact ⟨t, ht, by simp [hn1], by simp [hn2]⟩
          have hloop : ∀ (ks : List Int) (a : List Nat),
              (∀ k ∈ ks, ∃ t, c.transistors k = some t ∧
                (c.getNode t.C1NodeID).isSome = true ∧ (c.getNode t.C2NodeID).isSome = true) →
              freeCount (markAll c a) < fuel →
              ∃ d, ks.foldlM
                (fun (acc : CPU) (k : Int) =>
                  match acc.transistors k with
                  | none => none
                  | some tr =>
                    if tr.On = false then some acc
                    else
                      addSubNodesToGroup fuel acc
                        (if tr.C1NodeID = id then tr.C2NodeID else tr.C1NodeID))
                (markAll c a) = some d := by
            intro ks
            induction ks with
            | nil => intro a _ _; exact ⟨_, rfl⟩
            | cons k ks ihk =>
              intro a hks ha
              obtain ⟨t, ht, e1, e2⟩ := hks k (List.mem_cons_self _ _)
              have hks' : ∀ k' ∈ ks, ∃ t, c.transistors k' = some t ∧
                  (c.getNode t.C1NodeID).isSome = true ∧
                  (c.getNode t.C2NodeID).isSome = true :=
                fun k' hk' => hks k' (List.mem_cons_of_mem _ hk')
              simp only [List.foldlM_cons, markAll_transistors, ht]
              by_cases hon : t.On = false
              · simp only [hon, if_true]
                exact ihk a hks' ha
              · simp only [hon, if_false]
                have hex' : ((markAll c a).getNode
                    (if t.C1NodeID = id then t.C2NodeID else t.C1NodeID)).isSome = true := by
                  rw [markAll_getNode]
                  by_cases h3 : t.C1NodeID = id
                  · rw [if_pos h3]
                    cases h4 : c.getNode t.C2NodeID with
                    | none => simp [h4] at e2
                    | some _ => rfl
                  · rw [if_neg h3]
                    cases h4 : c.getNode t.C1NodeID with
                    | none => simp [h4] at e1
                    | some _ => rfl
                obtain ⟨e, he⟩ := ih (markAll c a) _ ha (markAll_chanLists hl)
                  (markAll_chanComplete hc) hex'
                rw [he]
                obtain ⟨b, hb, _⟩ := addSub_spec fuel _ _ e he
                simp only [Option.bind_eq_bind, Option.some_bind]
                rw [hb, markAll_append]
                apply ihk (a ++ b) hks'
                rw [← markAll_append]
                exact lt_of_le_of_lt (freeCount_markAll_le _ b) ha
          exact hloop node.C1C2Transistors [id] hks h1

theorem marked_iff_of_noMarks {c : CPU} (hm : NoMarks c) (a : List Nat) (x : Nat) (n : Node)
    (hn : (markAll c a).getNode x = some n) : n.InNodeGroup = true ↔ x ∈ a := by
  rw [markAll_getNode] at hn
  cases h0 : c.getNode x with
  | none => simp [h0] at hn
  | some n0 =>
    simp only [h0, Option.map_some', Option.some.injEq] at hn
    subst hn
    simp [hm x n0 h0]

/-- C16. In a state with sound and complete channel lists where no node is marked
and `recalcNodeGroup` is empty, `addSubNodesToGroup` on an existing seed returns,
with every depth bound from `groupFuel` on. It leaves in `recalcNodeGroup`, each
once, exactly the nodes reachable from the seed along conducting transistors,
through their channel terminals in either direction, on paths that do not continue
through a supply; exactly those nodes are marked afterwards, and nothing else of the
state changes. -/
theorem group_is_reachable_set (c : CPU) (seed : Nat) (hm : NoMarks c)
    (hg : c.recalcNodeGroup = []) (hl : ChanLists c) (hc : ChanComplete c)
    (hs : (c.getNode seed).isSome = true) :
    ∃ g, (∀ m, groupFuel ≤ m → addSubNodesToGroup m c seed = some g) ∧
      g = markAll c g.recalcNodeGroup ∧
      g.recalcNodeGroup.Nodup ∧
      (∀ x, x ∈ g.recalcNodeGroup ↔ Reachable c seed x) ∧
      (∀ x n, g.getNode x = some n → (n.InNodeGroup = true ↔ x ∈ g.recalcNodeGroup)) := by
  obtain ⟨g, hgr⟩ := addSub_total groupFuel c seed (Nat.lt_succ_of_le (freeCount_le c)) hl hc hs
  obtain ⟨A, hA, hAdd, hseed, hcl, hre⟩ := addSub_closed _ _ _ _ hgr
  have hgrp : g.recalcNodeGroup = A := by rw [hA, markAll_recalcNodeGroup, hg]; rfl
  have hnot : ∀ y, ¬ Marked c y := by
    rintro y ⟨n, hn, hmk⟩
    rw [hm y n hn] at hmk
    exact absurd hmk (by simp)
  have hseedA : seed ∈ A := by
    rcases hseed with h | h
    · exact absurd h (hnot seed)
    · exact h
  refine ⟨g, ?_, ?_, ?_, ?_, ?_⟩
  · intro m hmge
    rw [groupFuel_enough c seed m hmge]
    exact hgr
  · rw [hgrp]; exact hA
  · rw [hgrp]; exact hAdd.1
  · intro x
    rw [hgrp]
    constructor
    · intro hx
      exact (hre x hx).mono (fun _ _ hw => (walks_iff_conducts hl hc _ _).1 hw)
    · intro hx
      induction hx with
      | refl => exact hseedA
      | tail _ hstep ihx =>
        rcases hcl _ ihx _ ((walks_iff_conducts hl hc _ _).2 hstep) with h | h
        · exact absurd h (hnot _)
        · exact h
  · intro x n hn
    rw [hgrp]
    rw [hA] at hn
    exact marked_iff_of_noMarks hm A x n hn

/-! ### The channel lists stay complete -/

theorem settled_chanComplete {c : CPU} {a : List Nat} {v : Bool} (h : ChanComplete c) :
    ChanComplete (settled c a v) := by
  intro k t' ht'
  obtain ⟨t, ht, rfl⟩ := settled_transistor_some ht'
  obtain ⟨⟨n1, hn1, hk1⟩, ⟨n2, hn2, hk2⟩⟩ := h k t ht
  have e1 : (if chg c a v k = true then { t with On := v } else t).C1NodeID = t.C1NodeID := by
    split_ifs <;> rfl
  have e2 : (if chg c a v k = true then { t with On := v } else t).C2NodeID = t.C2NodeID := by
    split_ifs <;> rfl
  rw [e1, e2]
  refine ⟨⟨if t.C1NodeID ∈ a then { n1 with State := v, InNodeGroup := false } else n1, ?_, ?_⟩,
    ⟨if t.C2NodeID ∈ a then { n2 with State := v, InNodeGroup := false } else n2, ?_, ?_⟩⟩
  · rw [settled_getNode, hn1]; rfl
  · split_ifs <;> exact hk1
  · rw [settled_getNode, hn2]; rfl
  · split_ifs <;> exact hk2

/-- That the channel lists are complete is a property of the engine. -/
theorem chanComplete_engineInv : EngineInv ChanComplete := by
  refine ⟨?_, ?_, ?_⟩
  · intro c id l c' l' h0 h
    rcases recalcNode_spec h with ⟨_, hc, _⟩ | ⟨_, a, v, _, _, _, hc, _⟩
    · rw [hc]; exact h0
    · rw [hc]; exact settled_chanComplete h0
  · intro c i n pu pd h0 hn
    have hi : i < NodeDefCount := (getNode_eq_some.1 hn).1
    intro k t ht
    obtain ⟨⟨n1, hn1, hk1⟩, ⟨n2, hn2, hk2⟩⟩ := h0 k t ht
    constructor
    · by_cases hj : t.C1NodeID = i
      · refine ⟨{ n with PullUp := pu, PullDown := pd }, ?_, ?_⟩
        · rw [getNode_setNode _ _ _ _ hi, if_pos hj]
        · rw [hj, hn] at hn1
          simp only [Option.some.injEq] at hn1
          subst hn1
          exact hk1
      · refine ⟨n1, ?_, hk1⟩
        rw [getNode_setNode _ _ _ _ hi, if_neg hj]
        exact hn1
    · by_cases hj : t.C2NodeID = i
      · refine ⟨{ n with PullUp := pu, PullDown := pd }, ?_, ?_⟩
        · rw [getNode_setNode _ _ _ _ hi, if_pos hj]
        · rw [hj, hn] at hn2
          simp only [Option.some.injEq] at hn2
          subst hn2
          exact hk2
      · refine ⟨n2, ?_, hk2⟩
        rw [getNode_setNode _ _ _ _ hi, if_neg hj]
        exact hn2
  · intro c a d lg h0
    exact h0

theorem resetInit_chanComplete {c c0 : CPU} (hc : ChanComplete c)
    (h : resetInit c = some c0) : ChanComplete c0 := by
  obtain ⟨hn, ht, _⟩ := resetInit_spec h
  intro k t' ht'
  rw [ht] at ht'
  cases h0 : c.transistors k with
  | none => simp [h0] at ht'
  | some t =>
    simp only [h0, Option.map_some', Option.some.injEq] at ht'
    subst ht'
    obtain ⟨⟨n1, hn1, hk1⟩, ⟨n2, hn2, hk2⟩⟩ := hc k t h0
    refine ⟨⟨{ n1 with State := decide (t.C1NodeID = NodePWR), InNodeGroup := false }, ?_, hk1⟩,
      ⟨{ n2 with State := decide (t.C2NodeID = NodePWR), InNodeGroup := false }, ?_, hk2⟩⟩
    · show c0.getNode t.C1NodeID = _
      rw [hn, hn1]; rfl
    · show c0.getNode t.C2NodeID = _
      rw [hn, hn2]; rfl

/-- A netlist loaded by `New` has complete channel lists, when `connectTransistors`
visits every transistor of the map once. -/
theorem New_chanComplete {rd : List BusCall → Nat → Nat} {transDefs segDefs : List (List Int)}
    {visit : List TransDef → List TransDef} {c : CPU}
    (hvisit : ∀ l, (visit l).Perm l)
    (h : New rd transDefs segDefs visit = some c) : ChanComplete c := by
  intro k t ht
  obtain ⟨_, ⟨n1, hn1⟩, ⟨n2, hn2⟩, hcount⟩ := New_counts hvisit h k t ht
  refine ⟨⟨n1, hn1, ?_⟩, ⟨n2, hn2, ?_⟩⟩
  · have := hcount _ n1 hn1
    rw [if_pos rfl] at this
    exact List.count_pos_iff.1 (by omega)
  · have := hcount _ n2 hn2
    rw [if_pos rfl] at this
    exact List.count_pos_iff.1 (by omega)

theorem id_perm (l : List TransDef) : (id l).Perm l := List.Perm.refl l

/-- The channel lists of `conflictState` are complete. -/
theorem conflictState_chanComplete : ChanComplete conflictState := by
  have h := conflictRun_eq
  unfold conflictRun at h
  simp only [Option.bind_eq_some] at h
  obtain ⟨c3, ⟨c2, ⟨c1, ⟨c0, h0, h1⟩, h2⟩, h3⟩, h4⟩ := h
  have b1 : ChanComplete c1 := resetInit_chanComplete (New_chanComplete id_perm h0) h1
  exact chanComplete_engineInv.setHigh
    (chanComplete_engineInv.setHigh (chanComplete_engineInv.setLow b1 h2) h3) h4

theorem noMarks_clearGroup {c : CPU} (h : NoMarks c) :
    NoMarks { c with recalcNodeGroup := [] } :=
  fun i n hn => h i n hn

theorem chanLists_clearGroup {c : CPU} (h : ChanLists c) :
    ChanLists { c with recalcNodeGroup := [] } :=
  fun i n hn k hk => h i n hn k hk

theorem chanComplete_clearGroup {c : CPU} (h : ChanComplete c) :
    ChanComplete { c with recalcNodeGroup := [] } :=
  fun k t ht => h k t ht

set_option maxRecDepth 1000000 in
/-- Witness of `group_is_reachable_set` at `conflictSeed` and the seed CLK0: the
transistor from CLK0 to RDY conducts, and the group is CLK0, RDY. -/
theorem group_is_reachable_set_witness :
    addSubNodesToGroup groupFuel conflictSeed NodeCLK0 = some conflictGroup ∧
    conflictGroup.recalcNodeGroup = [NodeCLK0, NodeRDY] ∧
    ∃ g, (∀ m, groupFuel ≤ m → addSubNodesToGroup m conflictSeed NodeCLK0 = some g) ∧
      g = markAll conflictSeed g.recalcNodeGroup ∧
      g.recalcNodeGroup.Nodup ∧
      (∀ x, x ∈ g.recalcNodeGroup ↔ Reachable conflictSeed NodeCLK0 x) ∧
      (∀ x n, g.getNode x = some n → (n.InNodeGroup = true ↔ x ∈ g.recalcNodeGroup)) :=
  ⟨conflictGroup_eq, by decide,
   group_is_reachable_set conflictSeed NodeCLK0 (noMarks_clearGroup conflictState_between.2.1)
    rfl (chanLists_clearGroup conflictState_between.2.2)
    (chanComplete_clearGroup conflictState_chanComplete) (by decide)⟩

theorem enqueue_mem {l l2 : List Nat} {x : Nat} (h : enqueue l x = some l2) :
    x ∈ l2 ∧ ∀ y ∈ l, y ∈ l2 := by
  unfold enqueue at h
  by_cases hb : x < NodeDefCount
  · rw [if_pos hb] at h
    simp only [Option.some.injEq] at h
    subst h
    by_cases hm : x ∈ l
    · rw [if_pos hm]; exact ⟨hm, fun _ hy => hy⟩
    · rw [if_neg hm]
      exact ⟨List.mem_append_right _ (List.mem_singleton.2 rfl),
        fun _ hy => List.mem_append_left _ hy⟩
  · rw [if_neg hb] at h
    simp at h

/-- A transistor that `turnTransistorOn` turns on has its C1 node on the worklist
afterwards, unless that node is a supply. -/
theorem turnOn_enqueues {c c' : CPU} {k : Int} {l l' : List Nat} {t : Transistor}
    (h : turnTransistorOn c k l = some (c', l')) (ht : c.transistors k = some t)
    (hoff : t.On = false) (hs : ¬ (t.C1NodeID = NodeGND ∨ t.C1NodeID = NodePWR)) :
    t.C1NodeID ∈ l' := by
  unfold turnTransistorOn at h
  simp only [ht, hoff, Bool.false_eq_true, if_false] at h
  have hs' : t.C1NodeID ≠ NodeGND ∧ t.C1NodeID ≠ NodePWR :=
    ⟨fun e => hs (Or.inl e), fun e => hs (Or.inr e)⟩
  rw [if_pos hs'] at h
  simp only [Option.map_eq_some', Prod.mk.injEq] at h
  obtain ⟨l2, hl2, _, rfl⟩ := h
  exact (enqueue_mem hl2).1

theorem toggleOn_enqueues : ∀ (gates : List Int) (c c' : CPU) (l l' : List Nat),
    toggleGates true (c, l) gates = some (c', l') →
    ∀ k ∈ gates, ∀ t, c.transistors k = some t → t.On = false →
      ¬ (t.C1NodeID = NodeGND ∨ t.C1NodeID = NodePWR) → t.C1NodeID ∈ l' := by
  intro gates
  induction gates with
  | nil => intro c c' l l' _ k hk; simp at hk
  | cons g gs ih =>
    intro c c' l l' h k hk t ht hoff hs
    have h' := h
    simp only [toggleGates, List.foldlM_cons, bind, Option.bind_eq_some, if_true] at h'
    obtain ⟨⟨c1, l1⟩, h1, h2⟩ := h'
    have h2' : toggleGates true (c1, l1) gs = some (c', l') := h2
    obtain ⟨hc1, _⟩ := turnOn_spec h1
    obtain ⟨_, hq⟩ := toggleGates_spec true gs c1 c' l1 l' h2'
    by_cases hkg : k = g
    · subst hkg
      exact hq.1 _ (turnOn_enqueues h1 ht hoff hs)
    · have hk' : k ∈ gs := by
        rcases List.mem_cons.1 hk with e | e
        · exact absurd e hkg
        · exact e
      refine ih c1 c' l1 l' h2' k hk' t ?_ hoff hs
      rw [hc1, written_transistors, ht]
      simp [hkg]

theorem writeBack_enqueues {c c' : CPU} {l l' : List Nat} {x : Nat} {n : Node}
    (h : writeBack true (c, l) x = some (c', l')) (hn : c.getNode x = some n)
    (hst : n.State = false) :
    ∀ k ∈ n.GateTransistors, ∀ t, c.transistors k = some t → t.On = false →
      ¬ (t.C1NodeID = NodeGND ∨ t.C1NodeID = NodePWR) → t.C1NodeID ∈ l' := by
  unfold writeBack at h
  simp only [hn, hst, Bool.false_eq_true, if_false] at h
  intro k hk t ht hoff hs
  exact toggleOn_enqueues _ _ _ _ _ h k hk t (by rw [setNode_transistors]; exact ht) hoff hs

/-- Every transistor that the write-back loop of `recalcNode` turns on has its C1
node on the worklist afterwards, unless that node is a supply. -/
theorem writeBackAll_enqueues : ∀ (xs : List Nat) (c c' : CPU) (l l' : List Nat),
    xs.foldlM (writeBack true) (c, l) = some (c', l') →
    ∀ k t, c.transistors k = some t → t.On = false → chg c xs true k = true →
      ¬ (t.C1NodeID = NodeGND ∨ t.C1NodeID = NodePWR) → t.C1NodeID ∈ l' := by
  intro xs
  induction xs with
  | nil => intro c c' l l' _ k t _ _ hchg; simp [chg] at hchg
  | cons x xs ih =>
    intro c c' l l' h k t ht hoff hchg hs
    simp only [List.foldlM_cons, bind, Option.bind_eq_some] at h
    obtain ⟨⟨c1, l1⟩, h1, h2⟩ := h
    obtain ⟨n, hn, hc1, _⟩ := writeBack_spec h1
    have hnodes : c.nodes x = some n := (getNode_eq_some.1 hn).2
    obtain ⟨_, hq, _⟩ := writeBackAll_spec true xs c1 c' l1 l' h2
    rw [chg_cons, hnodes] at hchg
    by_cases hA : ((n.State != true) && n.GateTransistors.contains k) = true
    · simp only [Bool.and_eq_true, bne_iff_ne, ne_eq, Bool.not_eq_true,
        List.contains_eq_any_beq, List.any_eq_true, beq_iff_eq] at hA
      obtain ⟨hst, y, hy, hyk⟩ := hA
      rw [← hyk] at hy
      exact hq.1 _ (writeBack_enqueues h1 hn hst k hy t ht hoff hs)
    · have hA' : ((n.State != true) && n.GateTransistors.contains k) = false := by
        simpa using hA
      have hrest : chg c xs true k = true := by
        simp only [hA', Bool.false_or] at hchg
        exact hchg
      have hone := chg_written_one c x n hnodes true
        (fun k => (n.State != true) && n.GateTransistors.contains k) k xs
      rw [hA', Bool.false_or, Bool.false_or] at hone
      refine ih c1 c' l1 l' h2 k t ?_ hoff ?_ hs
      · rw [hc1, written_transistors, ht]
        simp only [Option.map_some', hA', Bool.false_eq_true, if_false]
      · rw [hc1, hone]; exact hrest

/-- A transistor that is off before `recalcNode` and on afterwards has its C1 node on
the worklist, unless that node is a supply. -/
theorem recalcNode_turnedOn {c c' : CPU} {id : Nat} {l l' : List Nat}
    (h : recalcNode c id l = some (c', l')) {k : Int} {t t' : Transistor}
    (ht : c.transistors k = some t) (ht' : c'.transistors k = some t')
    (hoff : t.On = false) (hon : t'.On = true)
    (hs : ¬ (t.C1NodeID = NodeGND ∨ t.C1NodeID = NodePWR)) : t.C1NodeID ∈ l' := by
  unfold recalcNode at h
  cases hn : c.getNode id with
  | none => simp [hn] at h
  | some n =>
    simp only [hn] at h
    by_cases hsup : id = NodeGND ∨ id = NodePWR
    · rw [if_pos hsup] at h
      simp only [Option.some.injEq, Prod.mk.injEq] at h
      obtain ⟨h1, _⟩ := h
      subst h1
      rw [ht] at ht'
      simp only [Option.some.injEq] at ht'
      subst ht'
      rw [hoff] at hon
      exact absurd hon (by simp)
    · rw [if_neg hsup] at h
      cases hg : addSubNodesToGroup groupFuel { c with recalcNodeGroup := [] } id with
      | none => simp [hg] at h
      | some c1 =>
        simp only [hg] at h
        obtain ⟨added, hc1, _⟩ := addSub_spec _ _ _ _ hg
        cases hv : getNodeValue c1 with
        | none => simp [hv] at h
        | some v =>
          simp only [hv] at h
          have hrg : c1.recalcNodeGroup = added := by rw [hc1]; simp
          rw [hrg] at h
          obtain ⟨hc', _, _⟩ := writeBackAll_spec v added c1 c' l l' h
          have ht1 : c1.transistors k = some t := by rw [hc1, markAll_transistors]; exact ht
          rw [hc', written_transistors, ht1] at ht'
          simp only [Option.map_some', Option.some.injEq] at ht'
          by_cases hchg : chg c1 added v k = true
          · rw [if_pos hchg] at ht'
            subst ht'
            have hv' : v = true := hon
            subst hv'
            exact writeBackAll_enqueues added c1 c' l l' h k t ht1 hoff hchg hs
          · rw [if_neg hchg] at ht'
            subst ht'
            rw [hoff] at hon
            exact absurd hon (by simp)

theorem stateOf_settled (c : CPU) (a : List Nat) (v : Bool) (x : Nat) :
    stateOf (settled c a v) x =
      if x ∈ a then ((c.getNode x).isSome && v) else stateOf c x := by
  unfold stateOf
  rw [settled_getNode]
  cases c.getNode x with
  | none => by_cases hx : x ∈ a <;> simp [hx]
  | some n => by_cases hx : x ∈ a <;> simp [hx]

/-- What `recalcNode` does to the uneven transistors: one that is uneven afterwards
has its C1 node on the worklist, or was uneven before with a C1 node other than the
seed. -/
theorem recalcNode_uneven {c c' : CPU} {id : Nat} {l l' : List Nat} (hm : NoMarks c)
    (hl : ChanLists c) (hc : ChanComplete c) (h : recalcNode c id l = some (c', l'))
    {k : Int} {t' : Transistor} (ht' : c'.transistors k = some t') (hu : Uneven c' t') :
    t'.C1NodeID ∈ l' ∨
      (t'.C1NodeID ≠ id ∧ ∃ t, c.transistors k = some t ∧ Uneven c t ∧
        t.C1NodeID = t'.C1NodeID) := by
  rcases recalcNode_spec h with ⟨hs, hcc, _⟩ | ⟨hs, added, v, hgrp, _, _, hc', _, _⟩
  · subst hcc
    right
    refine ⟨?_, t', ht', hu, rfl⟩
    intro e
    exact hu.2.1 (by rw [e]; exact hs)
  · obtain ⟨A, hA, _, hseed, hcl, _⟩ := addSub_closed _ _ _ _ hgrp
    have hAeq : A = added := by
      have := congrArg CPU.recalcNodeGroup hA
      simpa [grouped] using this.symm
    subst hAeq
    have hnot : ∀ y, ¬ Marked { c with recalcNodeGroup := [] } y := by
      rintro y ⟨n, hn, hmk⟩
      rw [hm y n hn] at hmk
      exact absurd hmk (by simp)
    have hid : id ∈ A := by
      rcases hseed with e | e
      · exact absurd e (hnot id)
      · exact e
    have hclosed : ∀ x ∈ A, ∀ y, Conducts c x y → y ∈ A := by
      intro x hx y hxy
      have hw : Walks { c with recalcNodeGroup := [] } x y :=
        (walks_iff_conducts (chanLists_clearGroup hl) (chanComplete_clearGroup hc) x y).2 hxy
      rcases hcl x hx y hw with e | e
      · exact absurd e (hnot y)
      · exact e
    have ht'0 := ht'
    rw [hc'] at ht' hu
    obtain ⟨t, ht, rfl⟩ := settled_transistor_some ht'
    have e1 : (if chg c A v k = true then { t with On := v } else t).C1NodeID = t.C1NodeID := by
      split_ifs <;> rfl
    have e2 : (if chg c A v k = true then { t with On := v } else t).C2NodeID = t.C2NodeID := by
      split_ifs <;> rfl
    obtain ⟨hon', hs1, hs2, hdiff⟩ := hu
    rw [e1] at hs1
    rw [e2] at hs2
    rw [e1, e2] at hdiff
    rw [e1]
    by_cases hon : t.On = true
    · have hiff : t.C1NodeID ∈ A ↔ t.C2NodeID ∈ A :=
        ⟨fun h1 => hclosed _ h1 _ ⟨hs1, k, t, ht, hon, Or.inl ⟨rfl, rfl⟩⟩,
         fun h2 => hclosed _ h2 _ ⟨hs2, k, t, ht, hon, Or.inr ⟨rfl, rfl⟩⟩⟩
      obtain ⟨⟨n1, hn1, _⟩, ⟨n2, hn2, _⟩⟩ := hc k t ht
      by_cases h1 : t.C1NodeID ∈ A
      · have h2 := hiff.1 h1
        rw [stateOf_settled, stateOf_settled, if_pos h1, if_pos h2, hn1, hn2] at hdiff
        exact absurd rfl hdiff
      · have h2 : ¬ t.C2NodeID ∈ A := fun e => h1 (hiff.2 e)
        rw [stateOf_settled, stateOf_settled, if_neg h1, if_neg h2] at hdiff
        right
        refine ⟨fun e => h1 (e ▸ hid), t, ht, ⟨hon, hs1, hs2, hdiff⟩, rfl⟩
    · have hoff : t.On = false := by simpa using hon
      left
      exact recalcNode_turnedOn h ht ht'0 hoff hon' hs1

theorem recalcNode_wired {c c' : CPU} {id : Nat} {l l' : List Nat}
    (hw : NoMarks c ∧ ChanLists c ∧ ChanComplete c) (h : recalcNode c id l = some (c', l')) :
    (NoMarks c' ∧ ChanLists c' ∧ ChanComplete c') ∧ ∀ x ∈ l, x ∈ l' := by
  refine ⟨⟨recalcNode_noMarks hw.1 h, ?_, chanComplete_engineInv.step c id l c' l' hw.2.2 h⟩, ?_⟩
  · rcases recalcNode_spec h with ⟨_, hc, _⟩ | ⟨_, a, v, _, _, _, hc, _⟩
    · rw [hc]; exact hw.2.1
    · rw [hc]; exact settled_chanLists hw.2.1
  · rcases recalcNode_spec h with ⟨_, _, hl⟩ | ⟨_, a, v, _, _, _, _, hq, _⟩
    · rw [hl]; exact fun _ hx => hx
    · exact hq.1

/-- One round of the loop of `recalcNodeList`: when every uneven transistor has its
C1 node among the nodes still to visit or on the next worklist, every uneven
transistor has its C1 node on the next worklist after the round. -/
theorem recalcRound_uneven : ∀ (visit : List Nat) (c : CPU) (l : List Nat) (c' : CPU)
    (l' : List Nat), (NoMarks c ∧ ChanLists c ∧ ChanComplete c) →
    (∀ k t, c.transistors k = some t → Uneven c t → t.C1NodeID ∈ visit ∨ t.C1NodeID ∈ l) →
    visit.foldlM (fun (acc : CPU × List Nat) (id : Nat) => recalcNode acc.1 id acc.2) (c, l)
      = some (c', l') →
    (NoMarks c' ∧ ChanLists c' ∧ ChanComplete c') ∧
      ∀ k t, c'.transistors k = some t → Uneven c' t → t.C1NodeID ∈ l' := by
  intro visit
  induction visit with
  | nil =>
    intro c l c' l' hw h0 h
    simp only [List.foldlM_nil, pure, Option.some.injEq, Prod.mk.injEq] at h
    obtain ⟨h1, h2⟩ := h
    subst h1; subst h2
    refine ⟨hw, ?_⟩
    intro k t ht hu
    rcases h0 k t ht hu with e | e
    · simp at e
    · exact e
  | cons id rest ih =>
    intro c l c' l' hw h0 h
    simp only [List.foldlM_cons, bind, Option.bind_eq_some] at h
    obtain ⟨⟨c1, l1⟩, h1, h2⟩ := h
    obtain ⟨hw1, hsub⟩ := recalcNode_wired hw h1
    refine ih c1 l1 c' l' hw1 ?_ h2
    intro k t' ht' hu
    rcases recalcNode_uneven hw.1 hw.2.1 hw.2.2 h1 ht' hu with e | ⟨hne, t, ht, hut, heq⟩
    · exact Or.inr e
    · rcases h0 k t ht hut with e | e
      · rw [heq] at e
        rcases List.mem_cons.1 e with e | e
        · exact absurd e hne
        · exact Or.inl e
      · rw [heq] at e
        exact Or.inr (hsub _ e)

theorem recalcNodeList_uneven (order : List Nat → List Nat) (hord : ∀ l, (order l).Perm l) :
    ∀ (rounds : Nat) (c : CPU) (l : List Nat) (c' : CPU),
    (NoMarks c ∧ ChanLists c ∧ ChanComplete c) →
    (∀ k t, c.transistors k = some t → Uneven c t → t.C1NodeID ∈ l) →
    recalcNodeList order rounds c l = some c' →
    ∀ k t, c'.transistors k = some t → ¬ Uneven c' t := by
  intro rounds
  induction rounds with
  | zero =>
    intro c l c' hw h0 h
    cases l with
    | nil =>
      simp only [recalcNodeList, Option.some.injEq] at h
      subst h
      intro k t ht hu
      exact absurd (h0 k t ht hu) (by simp)
    | cons a l => simp [recalcNodeList] at h
  | succ rounds ih =>
    intro c l c' hw h0 h
    cases l with
    | nil =>
      simp only [recalcNodeList, Option.some.injEq] at h
      subst h
      intro k t ht hu
      exact absurd (h0 k t ht hu) (by simp)
    | cons a l =>
      simp only [recalcNodeList] at h
      cases hr : recalcRound c (order (a :: l)) with
      | none => simp [hr] at h
      | some r =>
        obtain ⟨c1, next⟩ := r
        simp only [hr] at h
        obtain ⟨hw1, h1⟩ := recalcRound_uneven (order (a :: l)) c [] c1 next hw
          (fun k t ht hu => Or.inl ((hord (a :: l)).mem_iff.2 (h0 k t ht hu))) hr
        exact ih c1 next c' hw1 h1 h

/-- C20. In a state with sound and complete channel lists where no node is marked:
if every transistor that is on, has two non-supply channel nodes and joins nodes of
different `State` has its C1 node on the initial worklist, then whenever
`recalcNodeList` returns, in every order of the visits, every transistor that is on
and has two non-supply channel nodes has C1 and C2 nodes with equal `State`. -/
theorem conducting_joins_equal (order : List Nat → List Nat) (rounds : Nat) (c c' : CPU)
    (l : List Nat) (hord : ∀ l, (order l).Perm l) (hm : NoMarks c) (hl : ChanLists c)
    (hc : ChanComplete c)
    (h0 : ∀ k t, c.transistors k = some t → Uneven c t → t.C1NodeID ∈ l)
    (h : recalcNodeList order rounds c l = some c') :
    ∀ k t, c'.transistors k = some t → t.On = true →
      ¬ (t.C1NodeID = NodeGND ∨ t.C1NodeID = NodePWR) →
      ¬ (t.C2NodeID = NodeGND ∨ t.C2NodeID = NodePWR) →
      stateOf c' t.C1NodeID = stateOf c' t.C2NodeID := by
  intro k t ht hon hs1 hs2
  by_contra hne
  exact recalcNodeList_uneven order hord rounds c l c' ⟨hm, hl, hc⟩ h0 h k t ht
    ⟨hon, hs1, hs2, hne⟩

/-- The C1 node of every transistor is among the nodes `Reset` recalculates. -/
theorem allNodes_has_c1 {c : CPU} (hc : ChanComplete c) (k : Int) (t : Transistor)
    (ht : c.transistors k = some t) : t.C1NodeID ∈ allNodes c := by
  obtain ⟨⟨n1, hn1, _⟩, _⟩ := hc k t ht
  obtain ⟨hlt, hn⟩ := getNode_eq_some.1 hn1
  unfold allNodes
  rw [List.mem_filter, List.mem_range]
  exact ⟨hlt, by simp [hn]⟩

set_option maxRecDepth 1000000 in
theorem conflictSettledAll_eq :
    recalcNodeList id 100 conflictState (allNodes conflictState) = some conflictSettledAll :=
  some_getD _ _ (by decide)

set_option maxRecDepth 1000000 in
/-- Witness of `conducting_joins_equal` at `conflictState` and the worklist of all
nodes: the run returns, and transistor 0 conducts between CLK0 and RDY afterwards. -/
theorem conducting_joins_equal_witness :
    (conflictSettledAll.transistors 0).map (fun t => (t.On, t.C1NodeID, t.C2NodeID)) =
      some (true, NodeCLK0, NodeRDY) ∧
    ∀ k t, conflictSettledAll.transistors k = some t → t.On = true →
      ¬ (t.C1NodeID = NodeGND ∨ t.C1NodeID = NodePWR) →
      ¬ (t.C2NodeID = NodeGND ∨ t.C2NodeID = NodePWR) →
      stateOf conflictSettledAll t.C1NodeID = stateOf conflictSettledAll t.C2NodeID :=
  ⟨by decide,
   conducting_joins_equal id 100 conflictState conflictSettledAll (allNodes conflictState)
    (fun _ => List.Perm.refl _) conflictState_between.2.1 conflictState_between.2.2
    conflictState_chanComplete
    (fun k t ht _ => allNodes_has_c1 conflictState_chanComplete k t ht)
    conflictSettledAll_eq⟩

/-- The loop of `setupTransistors` over two lists of lines run one after the other. -/
theorem setupTransistors_append : ∀ (a b : List (List Int)) (m : List TransDef),
    setupTransistors (a ++ b) m = setupTransistors b (setupTransistors a m) := by
  intro a
  induction a with
  | nil => intro b m; rfl
  | cons line rest ih =>
    intro b m
    match line with
    | [] => simp only [List.cons_append, setupTransistors]; exact ih b m
    | [_] => simp only [List.cons_append, setupTransistors]; exact ih b m
    | [_, _] => simp only [List.cons_append, setupTransistors]; exact ih b m
    | [_, _, _] => simp only [List.cons_append, setupTransistors]; exact ih b m
    | id :: gate :: c1 :: c2 :: more =>
      simp only [List.cons_append, setupTransistors]; exact ih b _

/-- An entry of the map stays in it while no later line assigns its id. -/
theorem setupTransistors_keeps : ∀ (lines : List (List Int)) (m : List TransDef) (t : TransDef),
    t ∈ m → (∀ l ∈ lines, definesId t.ID l = false) → t ∈ setupTransistors lines m := by
  intro lines
  induction lines with
  | nil => intro m t ht _; exact ht
  | cons line rest ih =>
    intro m t ht hl
    have hrest : ∀ l ∈ rest, definesId t.ID l = false :=
      fun l h => hl l (List.mem_cons_of_mem _ h)
    have hline := hl line (List.mem_cons_self _ _)
    match line, hline with
    | [], _ => simp only [setupTransistors]; exact ih m t ht hrest
    | [_], _ => simp only [setupTransistors]; exact ih m t ht hrest
    | [_, _], _ => simp only [setupTransistors]; exact ih m t ht hrest
    | [_, _, _], _ => simp only [setupTransistors]; exact ih m t ht hrest
    | id :: gate :: c1 :: c2 :: more, hline =>
      simp only [setupTransistors]
      refine ih _ t ?_ hrest
      have hne : t.ID ≠ id := by
        intro h
        simp [definesId, h] at hline
      exact List.mem_append_left _ (List.mem_filter.2 ⟨ht, by simpa using hne⟩)

/-- Two entries of the map with the same id are the same entry. -/
theorem setupTransistors_unique (lines : List (List Int)) (t t' : TransDef)
    (ht : t ∈ setupTransistors lines []) (ht' : t' ∈ setupTransistors lines [])
    (hid : t'.ID = t.ID) : t' = t :=
  List.inj_on_of_nodup_map (setupTransistors_nodup lines [] (by simp)) ht' ht hid

/-- C18. Every line of the transistor file with the fields `id, gate, c1, c2` is
stored when it is parsed, under the key `id` and with the gate `gate`: the entry is
in the map after the line, and in the map `setupTransistors` returns when no later
line assigns the same id, where it is the only entry with that id. The stored pair
`(C1NodeID, C2NodeID)` is `(c1, c2)` or `(c2, c1)`; if `c1` or `c2` is GND or VCC then
the stored `C2NodeID` is GND or VCC; and the stored `C1NodeID` is a supply only when
both `c1` and `c2` are supplies. Conversely every entry of the map is the entry of
such a line. -/
theorem every_line_stored_canonical (pre post : List (List Int)) (id gate c1 c2 : Int)
    (more : List Int) :
    (∃ t : TransDef,
      t.ID = id ∧ t.GateNodeID = gate ∧
      ((t.C1NodeID, t.C2NodeID) = (c1, c2) ∨ (t.C1NodeID, t.C2NodeID) = (c2, c1)) ∧
      (isSupply c1 ∨ isSupply c2 → isSupply t.C2NodeID) ∧
      (isSupply t.C1NodeID → isSupply c1 ∧ isSupply c2) ∧
      t ∈ setupTransistors (pre ++ [id :: gate :: c1 :: c2 :: more]) [] ∧
      ((∀ l ∈ post, definesId id l = false) →
        t ∈ setupTransistors (pre ++ (id :: gate :: c1 :: c2 :: more) :: post) [] ∧
        ∀ t' ∈ setupTransistors (pre ++ (id :: gate :: c1 :: c2 :: more) :: post) [],
          t'.ID = id → t' = t)) ∧
    (∀ t' ∈ setupTransistors (pre ++ (id :: gate :: c1 :: c2 :: more) :: post) [],
      ∃ id' gate' a b more', (id' :: gate' :: a :: b :: more') ∈
          pre ++ (id :: gate :: c1 :: c2 :: more) :: post ∧
        t'.ID = id' ∧ t'.GateNodeID = gate' ∧
        ((t'.C1NodeID, t'.C2NodeID) = (a, b) ∨ (t'.C1NodeID, t'.C2NodeID) = (b, a)) ∧
        (isSupply a ∨ isSupply b → isSupply t'.C2NodeID) ∧
        (isSupply t'.C1NodeID → isSupply a ∧ isSupply b)) := by
  refine ⟨⟨{ ID := id, GateNodeID := gate, C1NodeID := (canonicalise c1 c2).1,
             C2NodeID := (canonicalise c1 c2).2 }, rfl, rfl, ?_, ?_, ?_, ?_, ?_⟩, ?_⟩
  · exact (canonicalise_spec c1 c2).1
  · exact (canonicalise_spec c1 c2).2.1
  · exact (canonicalise_spec c1 c2).2.2
  · rw [setupTransistors_append]
    simp [setupTransistors]
  · intro hlast
    have hmem : TransDef.mk id gate (canonicalise c1 c2).1 (canonicalise c1 c2).2 ∈
        setupTransistors (pre ++ (id :: gate :: c1 :: c2 :: more) :: post) [] := by
      rw [setupTransistors_append]
      simp only [setupTransistors]
      exact setupTransistors_keeps post _ _ (by simp) hlast
    exact ⟨hmem, fun t' ht' hid => setupTransistors_unique _ _ t' hmem ht' hid⟩
  · intro t' ht'
    rcases setupTransistors_mem _ [] t' ht' with h | ⟨id', gate', a, b, more', hmem, heq⟩
    · simp at h
    · subst heq
      exact ⟨id', gate', a, b, more', hmem, rfl, rfl, canonicalise_spec a b⟩

/-- Witness of `every_line_stored_canonical` on `overwriteLines`, at its second line
`1, 5, 7, 657`, which no later line overwrites: the entry is in the map returned. The
first line `0, 5, 558, 7` is stored with the channel ids 7 and 558 when it is parsed,
and the map returned holds the third line for the id 0, stored with the channel ids
9 and 657. -/
theorem every_line_stored_canonical_witness :
    setupTransistors [[0, 5, 558, 7]] [] =
      [{ ID := 0, GateNodeID := 5, C1NodeID := 7, C2NodeID := 558 }] ∧
    setupTransistors overwriteLines [] =
      [{ ID := 1, GateNodeID := 5, C1NodeID := 7, C2NodeID := 657 },
       { ID := 0, GateNodeID := 6, C1NodeID := 9, C2NodeID := 657 }] ∧
    (∀ l ∈ [[(0 : Int), 6, 657, 9]], definesId 1 l = false) ∧
    ∃ t : TransDef,
      t.ID = 1 ∧ t.GateNodeID = 5 ∧
      ((t.C1NodeID, t.C2NodeID) = (7, 657) ∨ (t.C1NodeID, t.C2NodeID) = (657, 7)) ∧
      (isSupply 7 ∨ isSupply 657 → isSupply t.C2NodeID) ∧
      (isSupply t.C1NodeID → isSupply 7 ∧ isSupply 657) ∧
      t ∈ setupTransistors ([[0, 5, 558, 7]] ++ [[1, 5, 7, 657]]) [] ∧
      t ∈ setupTransistors ([[0, 5, 558, 7]] ++ [1, 5, 7, 657] :: [[0, 6, 657, 9]]) [] ∧
      ∀ t' ∈ setupTransistors ([[0, 5, 558, 7]] ++ [1, 5, 7, 657] :: [[0, 6, 657, 9]]) [],
        t'.ID = 1 → t' = t := by
  refine ⟨by decide, by decide, by decide, ?_⟩
  obtain ⟨⟨t, h1, h2, h3, h4, h5, h6, h7⟩, _⟩ :=
    every_line_stored_canonical [[0, 5, 558, 7]] [[0, 6, 657, 9]] 1 5 7 657 []
  exact ⟨t, h1, h2, h3, h4, h5, h6, h7 (by decide)⟩

theorem settled_onHigh {c : CPU} {a : List Nat} {v : Bool} (hl : GateLists c) (h : OnHigh c)
    (hb : ∀ i ∈ a, i < NodeDefCount) : OnHigh (settled c a v) := by
  intro k t' ht' hon n' hn'
  obtain ⟨t, ht, rfl⟩ := settled_transistor_some ht'
  have hg : (if chg c a v k then { t with On := v } else t).GateNodeID = t.GateNodeID := by
    by_cases hc : chg c a v k = true <;> simp [hc]
  rw [hg] at hn'
  obtain ⟨n, hn, rfl⟩ := settled_getNode_some hn'
  by_cases hc : chg c a v k = true
  · obtain ⟨i, hi, ni, hni, _, hki⟩ := chg_eq_true.1 hc
    have hgi : c.getNode i = some ni := getNode_eq_some.2 ⟨hb i hi, hni⟩
    obtain ⟨t2, ht2, hg2⟩ := hl.2 i ni hgi k hki
    rw [ht] at ht2
    simp only [Option.some.injEq] at ht2
    subst ht2
    rw [hg2]
    simp only [hc, if_true] at hon
    simp [hi, hon]
  · simp only [hc, Bool.false_eq_true, if_false] at hon
    by_cases hi : t.GateNodeID ∈ a
    · simp only [hi, if_true]
      have hst := h k t ht hon n hn
      by_contra hsv
      apply hc
      obtain ⟨n2, hn2, hk2⟩ := hl.1 k t ht
      rw [hn] at hn2
      simp only [Option.some.injEq] at hn2
      subst hn2
      refine chg_eq_true.2 ⟨_, hi, n, (getNode_eq_some.1 hn).2, ?_, hk2⟩
      intro hv
      apply hsv
      rw [← hv]; exact hst
    · simp only [hi, if_false]
      exact h k t ht hon n hn

/-- The relation `OnHigh` is a property of the engine. -/
theorem onHigh_engineInv : EngineInv (fun c => (GateLists c ∧ GateInv c) ∧ OnHigh c) := by
  refine ⟨?_, ?_, ?_⟩
  · intro c id l c' l' h0 h
    refine ⟨gate_engineInv.step c id l c' l' h0.1 h, ?_⟩
    rcases recalcNode_spec h with ⟨_, hc, _⟩ | ⟨_, a, v, _, _, _, hc, _, hb⟩
    · rw [hc]; exact h0.2
    · rw [hc]; exact settled_onHigh h0.1.1 h0.2 hb
  · intro c i n pu pd h0 hn
    refine ⟨gate_engineInv.pulls c i n pu pd h0.1 hn, ?_⟩
    have hi : i < NodeDefCount := (getNode_eq_some.1 hn).1
    intro k t ht hon m hm
    rw [getNode_setNode _ _ _ _ hi] at hm
    by_cases hj : t.GateNodeID = i
    · rw [if_pos hj] at hm
      simp only [Option.some.injEq] at hm
      subst hm
      exact h0.2 k t ht hon n (by rw [hj]; exact hn)
    · rw [if_neg hj] at hm
      exact h0.2 k t ht hon m hm
  · intro c a d lg h0
    exact h0

theorem resetInit_onHigh {c c0 : CPU} (h : resetInit c = some c0) : OnHigh c0 := by
  obtain ⟨_, ht, _⟩ := resetInit_spec h
  intro k t' ht' hon
  rw [ht] at ht'
  cases h0 : c.transistors k with
  | none => simp [h0] at ht'
  | some t =>
    simp only [h0, Option.map_some', Option.some.injEq] at ht'
    subst ht'
    simp at hon

theorem followsGate_of {c : CPU} (h : (GateLists c ∧ GateInv c) ∧ OnHigh c) : FollowsGate c := by
  intro k t ht
  obtain ⟨g, hg, _⟩ := h.1.1.1 k t ht
  exact ⟨g, hg, fun hne => h.1.2 k t ht hne g hg, fun hon => h.2 k t ht hon g hg⟩

/-- C4, amended. For every netlist loaded by `New` (with `connectTransistors` visiting
every transistor of the map), after `Reset` returns and after every later `HalfStep`
returns, every transistor has a gate node, every transistor whose gate node is not
VCC has `On` equal to the `State` of its gate node, the transistors gated by GND
included, and every transistor gated by VCC that has `On` true finds `VCC.State`
true. -/
theorem on_follows_gate (rd : List BusCall → Nat → Nat)
    (transDefs segDefs : List (List Int)) (visit : List TransDef → List TransDef)
    (order : List Nat → List Nat) (rounds : Nat) (c c1 : CPU)
    (hvisit : ∀ l t, t ∈ visit l ↔ t ∈ l)
    (hnew : New rd transDefs segDefs visit = some c)
    (hr : Reset order rounds c = some c1) :
    FollowsGate c1 ∧ ∀ n c2, halfSteps order rounds n c1 = some c2 → FollowsGate c2 := by
  have hl : GateLists c := New_gateLists hvisit hnew
  have h1 : (GateLists c1 ∧ GateInv c1) ∧ OnHigh c1 :=
    onHigh_engineInv.reset (fun c0 h0 => ⟨resetInit_gate hl h0, resetInit_onHigh h0⟩) hr
  exact ⟨followsGate_of h1,
    fun n c2 h2 => followsGate_of (halfSteps_keeps onHigh_engineInv n c1 c2 h1 h2)⟩

set_option maxRecDepth 1000000 in
/-- On `vccOnNet`, `New`, `Reset` and one `HalfStep` return. The transistor gated by
VCC conducts after `Reset`, with `VCC.State` true, and is off after the `HalfStep`,
which leaves `VCC.State` false. -/
theorem vccOn_run :
    vccOnNet.isSome = true ∧ (Reset id 100 vccOnLoaded).isSome = true ∧
    (halfSteps id 100 1 vccOnReset).isSome = true ∧
    (vccOnReset.transistors 2).map (fun t => (t.GateNodeID, t.On)) = some (NodePWR, true) ∧
    stateOf vccOnReset NodePWR = true ∧
    (vccOnStep.transistors 2).map (fun t => (t.GateNodeID, t.On)) = some (NodePWR, false) ∧
    stateOf vccOnStep NodePWR = false := by
  decide!

theorem vccOnNet_eq : vccOnNet = some vccOnLoaded :=
  some_getD _ _ vccOn_run.1

theorem vccOnReset_eq : Reset id 100 vccOnLoaded = some vccOnReset :=
  some_getD _ _ vccOn_run.2.1

theorem vccOnStep_eq : halfSteps id 100 1 vccOnReset = some vccOnStep :=
  some_getD _ _ vccOn_run.2.2.1

/-- Witness of `on_follows_gate` at the netlist `vccOnNet`: `Reset` returns, one
`HalfStep` returns, and the relation holds in both states. -/
theorem on_follows_gate_witness :
    New zeroHost [[0, 1171, 1, 558], [1, 89, 1, 657], [2, 657, 2, 3]] busSegs id =
      some vccOnLoaded ∧
    Reset id 100 vccOnLoaded = some vccOnReset ∧
    halfSteps id 100 1 vccOnReset = some vccOnStep ∧
    FollowsGate vccOnReset ∧ FollowsGate vccOnStep :=
  ⟨vccOnNet_eq, vccOnReset_eq, vccOnStep_eq,
   (on_follows_gate zeroHost [[0, 1171, 1, 558], [1, 89, 1, 657], [2, 657, 2, 3]] busSegs id id
      100 vccOnLoaded vccOnReset id_visits vccOnNet_eq vccOnReset_eq).1,
   (on_follows_gate zeroHost [[0, 1171, 1, 558], [1, 89, 1, 657], [2, 657, 2, 3]] busSegs id id
      100 vccOnLoaded vccOnReset id_visits vccOnNet_eq vccOnReset_eq).2 1 vccOnStep vccOnStep_eq⟩

theorem enqueue_from {l l2 : List Nat} {x : Nat} (h : enqueue l x = some l2) :
    ∀ y ∈ l2, y ∈ l ∨ y = x := by
  unfold enqueue at h
  by_cases hb : x < NodeDefCount
  · rw [if_pos hb] at h
    simp only [Option.some.injEq] at h
    subst h
    intro y hy
    by_cases hm : x ∈ l
    · rw [if_pos hm] at hy; exact Or.inl hy
    · rw [if_neg hm] at hy
      rcases List.mem_append.1 hy with hy | hy
      · exact Or.inl hy
      · exact Or.inr (List.mem_singleton.1 hy)
  · rw [if_neg hb] at h
    simp at h

/-- The fields of a transistor that a write-back leaves as they are. -/
theorem written_transistor_some {c : CPU} {g : List Nat} {v : Bool} {tog : Int → Bool} {k : Int}
    {t' : Transistor} (h : (written c g v tog).transistors k = some t') :
    ∃ t, c.transistors k = some t ∧ t'.GateNodeID = t.GateNodeID ∧
      t'.C1NodeID = t.C1NodeID ∧ t'.C2NodeID = t.C2NodeID ∧
      t'.On = (if tog k then v else t.On) := by
  rw [written_transistors] at h
  cases h0 : c.transistors k with
  | none => simp [h0] at h
  | some t =>
    simp only [h0, Option.map_some', Option.some.injEq] at h
    subst h
    refine ⟨t, rfl, ?_⟩
    by_cases ht : tog k = true <;> simp [ht]

theorem written_transistor_of {c : CPU} {g : List Nat} {v : Bool} {tog : Int → Bool} {k : Int}
    {t : Transistor} (h : c.transistors k = some t) :
    ∃ t', (written c g v tog).transistors k = some t' ∧ t'.GateNodeID = t.GateNodeID ∧
      t'.C1NodeID = t.C1NodeID ∧ t'.C2NodeID = t.C2NodeID ∧
      t'.On = (if tog k then v else t.On) := by
  rw [written_transistors, h]
  refine ⟨_, rfl, ?_⟩
  by_cases ht : tog k = true <;> simp [ht]

theorem written_getNode (c : CPU) (g : List Nat) (v : Bool) (tog : Int → Bool) (i : Nat) :
    (written c g v tog).getNode i =
      (c.getNode i).map (fun n =>
        if i ∈ g then { n with State := v, InNodeGroup := false } else n) := by
  unfold CPU.getNode
  by_cases h : i < NodeDefCount <;> simp [h, written_nodes]

theorem written_getNode_some {c : CPU} {g : List Nat} {v : Bool} {tog : Int → Bool} {i : Nat}
    {n' : Node} (h : (written c g v tog).getNode i = some n') :
    ∃ n, c.getNode i = some n ∧ n'.GateTransistors = n.GateTransistors ∧
      n'.C1C2Transistors = n.C1C2Transistors ∧ n'.PullUp = n.PullUp ∧
      n'.PullDown = n.PullDown := by
  rw [written_getNode] at h
  cases h0 : c.getNode i with
  | none => simp [h0] at h
  | some n =>
    simp only [h0, Option.map_some', Option.some.injEq] at h
    subst h
    refine ⟨n, rfl, ?_⟩
    by_cases hi : i ∈ g <;> simp [hi]

theorem written_getNode_isSome (c : CPU) (g : List Nat) (v : Bool) (tog : Int → Bool) (i : Nat) :
    ((written c g v tog).getNode i).isSome = (c.getNode i).isSome := by
  rw [written_getNode]
  cases c.getNode i <;> rfl

/-- One call of `turnTransistorOn` or `turnTransistorOff` enqueues channel terminals
of that transistor only. -/
theorem turn_from {v : Bool} {c c' : CPU} {k : Int} {l l' : List Nat}
    (h : (if v then turnTransistorOn c k l else turnTransistorOff c k l) = some (c', l')) :
    EnqBy c (fun j => j = k) l l' := by
  intro x hx
  cases v with
  | true =>
    simp only [if_true] at h
    unfold turnTransistorOn at h
    cases ht : c.transistors k with
    | none => simp [ht] at h
    | some tr =>
      simp only [ht] at h
      by_cases hon : tr.On = true
      · simp only [hon, if_true, Option.some.injEq, Prod.mk.injEq] at h
        rw [← h.2] at hx
        exact Or.inl hx
      · have hon' : tr.On = false := by simpa using hon
        simp only [hon', Bool.false_eq_true, if_false] at h
        by_cases hs : tr.C1NodeID ≠ NodeGND ∧ tr.C1NodeID ≠ NodePWR
        · rw [if_pos hs] at h
          simp only [Option.map_eq_some', Prod.mk.injEq] at h
          obtain ⟨l2, hl2, _, h2⟩ := h
          subst h2
          rcases enqueue_from hl2 x hx with h1 | h1
          · exact Or.inl h1
          · refine Or.inr ⟨k, tr, rfl, ht, Or.inl h1, ?_⟩
            rw [h1]
            exact fun e => e.elim hs.1 hs.2
        · rw [if_neg hs] at h
          simp only [Option.some.injEq, Prod.mk.injEq] at h
          rw [← h.2] at hx
          exact Or.inl hx
  | false =>
    simp only [Bool.false_eq_true, if_false] at h
    unfold turnTransistorOff at h
    cases ht : c.transistors k with
    | none => simp [ht] at h
    | some tr =>
      simp only [ht] at h
      by_cases hon : tr.On = false
      · simp only [hon, if_true, Option.some.injEq, Prod.mk.injEq] at h
        rw [← h.2] at hx
        exact Or.inl hx
      · have hon' : tr.On = true := by simpa using hon
        simp only [hon', Bool.true_eq_false, if_false] at h
        have e1 : ∀ l1, (if tr.C1NodeID ≠ NodeGND ∧ tr.C1NodeID ≠ NodePWR then
              enqueue l tr.C1NodeID else some l) = some l1 →
            ∀ y ∈ l1, y ∈ l ∨ (y = tr.C1NodeID ∧ ¬ (y = NodeGND ∨ y = NodePWR)) := by
          intro l1 hl1 y hy
          by_cases hs : tr.C1NodeID ≠ NodeGND ∧ tr.C1NodeID ≠ NodePWR
          · rw [if_pos hs] at hl1
            rcases enqueue_from hl1 y hy with h1 | h1
            · exact Or.inl h1
            · refine Or.inr ⟨h1, ?_⟩
              rw [h1]
              exact fun e => e.elim hs.1 hs.2
          · rw [if_neg hs] at hl1
            simp only [Option.some.injEq] at hl1
            subst hl1
            exact Or.inl hy
        cases hl1 : (if tr.C1NodeID ≠ NodeGND ∧ tr.C1NodeID ≠ NodePWR then
              enqueue l tr.C1NodeID else some l) with
        | none => rw [hl1] at h; simp at h
        | some l1 =>
          rw [hl1] at h
          simp only at h
          have hq1 := e1 l1 hl1
          have fin : ∀ y ∈ l1, y ∈ l ∨ ∃ k' t, k' = k ∧ c.transistors k' = some t ∧
              (y = t.C1NodeID ∨ y = t.C2NodeID) ∧ ¬ (y = NodeGND ∨ y = NodePWR) := by
            intro y hy
            rcases hq1 y hy with h1 | ⟨h1, h2⟩
            · exact Or.inl h1
            · exact Or.inr ⟨k, tr, rfl, ht, Or.inl h1, h2⟩
          by_cases hs : tr.C2NodeID ≠ NodeGND ∧ tr.C2NodeID ≠ NodePWR
          · rw [if_pos hs] at h
            simp only [Option.map_eq_some', Prod.mk.injEq] at h
            obtain ⟨l2, hl2, _, h2⟩ := h
            subst h2
            rcases enqueue_from hl2 x hx with h1 | h1
            · exact fin x h1
            · refine Or.inr ⟨k, tr, rfl, ht, Or.inr h1, ?_⟩
              rw [h1]
              exact fun e => e.elim hs.1 hs.2
          · rw [if_neg hs] at h
            simp only [Option.some.injEq, Prod.mk.injEq] at h
            rw [← h.2] at hx
            exact fin x hx

/-- One call of `turnTransistorOn` or `turnTransistorOff` in closed form. -/
theorem turn_spec {v : Bool} {c c' : CPU} {k : Int} {l l' : List Nat}
    (h : (if v then turnTransistorOn c k l else turnTransistorOff c k l) = some (c', l')) :
    c' = written c [] v (fun j => decide (j = k)) ∧ Enq c l l' := by
  cases v with
  | true => simp only [if_true] at h; exact turnOn_spec h
  | false => simp only [Bool.false_eq_true, if_false] at h; exact turnOff_spec h

/-- A transistor that changes `On` in `turnTransistorOn` or `turnTransistorOff` has
its C1 node on the worklist afterwards, unless that node is a supply. -/
theorem turn_enqueues {v : Bool} {c c' : CPU} {k : Int} {l l' : List Nat} {t : Transistor}
    (h : (if v then turnTransistorOn c k l else turnTransistorOff c k l) = some (c', l'))
    (ht : c.transistors k = some t) (hch : t.On = !v)
    (hs : ¬ (t.C1NodeID = NodeGND ∨ t.C1NodeID = NodePWR)) : t.C1NodeID ∈ l' := by
  cases v with
  | true =>
    simp only [if_true] at h
    exact turnOn_enqueues h ht (by simpa using hch) hs
  | false =>
    simp only [Bool.false_eq_true, if_false] at h
    have hon : t.On = true := by simpa using hch
    unfold turnTransistorOff at h
    simp only [ht, hon, Bool.true_eq_false, if_false] at h
    have hs' : t.C1NodeID ≠ NodeGND ∧ t.C1NodeID ≠ NodePWR :=
      ⟨fun e => hs (Or.inl e), fun e => hs (Or.inr e)⟩
    rw [if_pos hs'] at h
    cases hl1 : enqueue l t.C1NodeID with
    | none => rw [hl1] at h; simp at h
    | some l1 =>
      rw [hl1] at h
      simp only at h
      have hm := (enqueue_mem hl1).1
      by_cases hs2 : t.C2NodeID ≠ NodeGND ∧ t.C2NodeID ≠ NodePWR
      · rw [if_pos hs2] at h
        simp only [Option.map_eq_some', Prod.mk.injEq] at h
        obtain ⟨l2, hl2, _, h2⟩ := h
        subst h2
        exact (enqueue_mem hl2).2 _ hm
      · rw [if_neg hs2] at h
        simp only [Option.some.injEq, Prod.mk.injEq] at h
        rw [← h.2]
        exact hm

theorem toggleGates_cons {v : Bool} {c c' : CPU} {l l' : List Nat} {k : Int} {ks : List Int}
    (h : toggleGates v (c, l) (k :: ks) = some (c', l')) :
    ∃ c1 l1, (if v then turnTransistorOn c k l else turnTransistorOff c k l) = some (c1, l1) ∧
      toggleGates v (c1, l1) ks = some (c', l') := by
  simp only [toggleGates, List.foldlM_cons, bind, Option.bind_eq_some] at h
  obtain ⟨⟨c1, l1⟩, h1, h2⟩ := h
  exact ⟨c1, l1, h1, h2⟩

/-- The loop over a gate list enqueues channel terminals of the transistors on the
list only. -/
theorem toggle_from (v : Bool) : ∀ (gates : List Int) (c c' : CPU) (l l' : List Nat),
    toggleGates v (c, l) gates = some (c', l') → EnqBy c (fun j => j ∈ gates) l l' := by
  intro gates
  induction gates with
  | nil =>
    intro c c' l l' h
    simp only [toggleGates, List.foldlM_nil, pure, Option.some.injEq, Prod.mk.injEq] at h
    intro x hx
    rw [← h.2] at hx
    exact Or.inl hx
  | cons k ks ih =>
    intro c c' l l' h
    obtain ⟨c1, l1, h1, h2⟩ := toggleGates_cons h
    obtain ⟨hc1, _⟩ := turn_spec h1
    intro x hx
    rcases ih c1 c' l1 l' h2 x hx with hx1 | ⟨k', t1, hk', ht1, hxt, hxs⟩
    · rcases turn_from h1 x hx1 with hx0 | ⟨k', t, hk', ht, hxt, hxs⟩
      · exact Or.inl hx0
      · exact Or.inr ⟨k', t, by rw [hk']; exact List.mem_cons_self _ _, ht, hxt, hxs⟩
    · rw [hc1] at ht1
      obtain ⟨t, ht, _, e1, e2, _⟩ := written_transistor_some ht1
      refine Or.inr ⟨k', t, List.mem_cons_of_mem _ hk', ht, ?_, hxs⟩
      rw [← e1, ← e2]; exact hxt

/-- Every transistor on the gate list that changes `On` has its C1 node on the
worklist afterwards, unless that node is a supply. -/
theorem toggle_enqueues (v : Bool) : ∀ (gates : List Int) (c c' : CPU) (l l' : List Nat),
    toggleGates v (c, l) gates = some (c', l') →
    ∀ k ∈ gates, ∀ t, c.transistors k = some t → t.On = !v →
      ¬ (t.C1NodeID = NodeGND ∨ t.C1NodeID = NodePWR) → t.C1NodeID ∈ l' := by
  intro gates
  induction gates with
  | nil => intro c c' l l' _ k hk; simp at hk
  | cons g gs ih =>
    intro c c' l l' h k hk t ht hch hs
    obtain ⟨c1, l1, h1, h2⟩ := toggleGates_cons h
    obtain ⟨hc1, _⟩ := turn_spec h1
    obtain ⟨_, hq⟩ := toggleGates_spec v gs c1 c' l1 l' h2
    by_cases hkg : k = g
    · subst hkg
      exact hq.1 _ (turn_enqueues h1 ht hch hs)
    · have hk' : k ∈ gs := by
        rcases List.mem_cons.1 hk with e | e
        · exact absurd e hkg
        · exact e
      refine ih c1 c' l1 l' h2 k hk' t ?_ hch hs
      rw [hc1, written_transistors, ht]
      simp [hkg]

/-- One iteration of the write-back loop enqueues channel terminals of transistors
gated by the node only, and only when the node changes `State`. -/
theorem writeBack_from {v : Bool} {c c' : CPU} {l l' : List Nat} {x : Nat} {n : Node}
    (h : writeBack v (c, l) x = some (c', l')) (hn : c.getNode x = some n) :
    EnqBy c (fun k => n.State ≠ v ∧ k ∈ n.GateTransistors) l l' := by
  unfold writeBack at h
  simp only [hn] at h
  by_cases hs : n.State = v
  · rw [if_pos hs] at h
    simp only [Option.some.injEq, Prod.mk.injEq] at h
    intro y hy
    rw [← h.2] at hy
    exact Or.inl hy
  · rw [if_neg hs] at h
    intro y hy
    rcases toggle_from v _ _ _ _ _ h y hy with h1 | ⟨k, t, hk, ht, hyt, hys⟩
    · exact Or.inl h1
    · exact Or.inr ⟨k, t, ⟨hs, hk⟩, ht, hyt, hys⟩

theorem writeBack_enq {v : Bool} {c c' : CPU} {l l' : List Nat} {x : Nat} {n : Node}
    (h : writeBack v (c, l) x = some (c', l')) (hn : c.getNode x = some n)
    (hst : n.State ≠ v) :
    ∀ k ∈ n.GateTransistors, ∀ t, c.transistors k = some t → t.On = !v →
      ¬ (t.C1NodeID = NodeGND ∨ t.C1NodeID = NodePWR) → t.C1NodeID ∈ l' := by
  unfold writeBack at h
  simp only [hn] at h
  rw [if_neg hst] at h
  intro k hk t ht hch hs
  exact toggle_enqueues v _ _ _ _ _ h k hk t (by rw [setNode_transistors]; exact ht) hch hs

theorem chg_step {c : CPU} {x : Nat} {n : Node} (hnodes : c.nodes x = some n) (v : Bool)
    (k : Int) (xs : List Nat) (c1 : CPU)
    (hc1 : c1 = written c [x] v (fun k => (n.State != v) && n.GateTransistors.contains k))
    (h : chg c1 xs v k = true) : chg c (x :: xs) v k = true := by
  rw [chg_cons, hnodes]
  have hone := chg_written_one c x n hnodes v
    (fun k => (n.State != v) && n.GateTransistors.contains k) k xs
  rw [← hc1, h, Bool.or_true] at hone
  exact hone.symm

/-- The write-back loop enqueues channel terminals of the transistors that `chg`
selects only. -/
theorem writeBackAll_from (v : Bool) : ∀ (xs : List Nat) (c c' : CPU) (l l' : List Nat),
    xs.foldlM (writeBack v) (c, l) = some (c', l') →
    EnqBy c (fun k => chg c xs v k = true) l l' := by
  intro xs
  induction xs with
  | nil =>
    intro c c' l l' h
    simp only [List.foldlM_nil, pure, Option.some.injEq, Prod.mk.injEq] at h
    intro y hy
    rw [← h.2] at hy
    exact Or.inl hy
  | cons x xs ih =>
    intro c c' l l' h
    simp only [List.foldlM_cons, bind, Option.bind_eq_some] at h
    obtain ⟨⟨c1, l1⟩, h1, h2⟩ := h
    obtain ⟨n, hn, hc1, _⟩ := writeBack_spec h1
    have hnodes : c.nodes x = some n := (getNode_eq_some.1 hn).2
    intro y hy
    rcases ih c1 c' l1 l' h2 y hy with hy1 | ⟨k, t1, hk, ht1, hyt, hys⟩
    · rcases writeBack_from h1 hn y hy1 with hy0 | ⟨k, t, ⟨hst, hk⟩, ht, hyt, hys⟩
      · exact Or.inl hy0
      · refine Or.inr ⟨k, t, ?_, ht, hyt, hys⟩
        show chg c (x :: xs) v k = true
        rw [chg_cons, hnodes]
        have h1 : (n.State != v) = true := by simpa using hst
        have h2 : n.GateTransistors.contains k = true := by simpa using hk
        simp only [h1, h2, Bool.and_self, Bool.true_or]
    · have hk' : chg c (x :: xs) v k = true := chg_step hnodes v k xs c1 hc1 hk
      rw [hc1] at ht1
      obtain ⟨t, ht, _, e1, e2, _⟩ := written_transistor_some ht1
      refine Or.inr ⟨k, t, hk', ht, ?_, hys⟩
      rw [← e1, ← e2]; exact hyt

/-- Every transistor that the write-back loop of `recalcNode` toggles has its C1 node
on the worklist afterwards, unless that node is a supply. -/
theorem writeBackAll_enq (v : Bool) : ∀ (xs : List Nat) (c c' : CPU) (l l' : List Nat),
    xs.foldlM (writeBack v) (c, l) = some (c', l') →
    ∀ k t, c.transistors k = some t → t.On = !v → chg c xs v k = true →
      ¬ (t.C1NodeID = NodeGND ∨ t.C1NodeID = NodePWR) → t.C1NodeID ∈ l' := by
  intro xs
  induction xs with
  | nil => intro c c' l l' _ k t _ _ hchg; simp [chg] at hchg
  | cons x xs ih =>
    intro c c' l l' h k t ht hch hchg hs
    simp only [List.foldlM_cons, bind, Option.bind_eq_some] at h
    obtain ⟨⟨c1, l1⟩, h1, h2⟩ := h
    obtain ⟨n, hn, hc1, _⟩ := writeBack_spec h1
    have hnodes : c.nodes x = some n := (getNode_eq_some.1 hn).2
    obtain ⟨_, hq, _⟩ := writeBackAll_spec v xs c1 c' l1 l' h2
    rw [chg_cons, hnodes] at hchg
    by_cases hA : ((n.State != v) && n.GateTransistors.contains k) = true
    · simp only [Bool.and_eq_true, bne_iff_ne, ne_eq,
        List.contains_eq_any_beq, List.any_eq_true, beq_iff_eq] at hA
      obtain ⟨hst, y, hy, hyk⟩ := hA
      rw [← hyk] at hy
      exact hq.1 _ (writeBack_enq h1 hn hst k hy t ht hch hs)
    · have hA' : ((n.State != v) && n.GateTransistors.contains k) = false := by
        simpa using hA
      have hrest : chg c xs v k = true := by
        simp only [hA', Bool.false_or] at hchg
        exact hchg
      have hone := chg_written_one c x n hnodes v
        (fun k => (n.State != v) && n.GateTransistors.contains k) k xs
      rw [hA', Bool.false_or, Bool.false_or] at hone
      refine ih c1 c' l1 l' h2 k t ?_ hch ?_ hs
      · rw [hc1, written_transistors, ht]
        simp only [Option.map_some', hA', Bool.false_eq_true, if_false]
      · rw [hc1, hone]; exact hrest

/-- Function `recalcNode` on a node that is no supply, in closed form, with the
nodes it enqueues: the group `added` resolves to `v`; the nodes added to the worklist
are channel terminals of transistors gated by a member that changes `State`; and
every transistor that changes `On` has its C1 node on the worklist, unless that node
is a supply. -/
theorem recalcNode_full {c c' : CPU} {id : Nat} {l l' : List Nat}
    (hid : ¬ (id = NodeGND ∨ id = NodePWR)) (h : recalcNode c id l = some (c', l')) :
    ∃ added v,
      addSubNodesToGroup groupFuel { c with recalcNodeGroup := [] } id = some (grouped c added) ∧
      getNodeValue (grouped c added) = some v ∧
      c' = settled c added v ∧ (∀ x ∈ l, x ∈ l') ∧ (∀ i ∈ added, i < NodeDefCount) ∧
      EnqBy c (fun k => chg c added v k = true) l l' ∧
      (∀ k t, c.transistors k = some t → t.On = !v → chg c added v k = true →
        ¬ (t.C1NodeID = NodeGND ∨ t.C1NodeID = NodePWR) → t.C1NodeID ∈ l') := by
  unfold recalcNode at h
  cases hn : c.getNode id with
  | none => simp [hn] at h
  | some n =>
    simp only [hn] at h
    rw [if_neg hid] at h
    cases hg : addSubNodesToGroup groupFuel { c with recalcNodeGroup := [] } id with
    | none => simp [hg] at h
    | some c1 =>
      simp only [hg] at h
      obtain ⟨added, hc1, _⟩ := addSub_spec _ _ _ _ hg
      cases hv : getNodeValue c1 with
      | none => simp [hv] at h
      | some v =>
        simp only [hv] at h
        have hrg : c1.recalcNodeGroup = added := by rw [hc1]; simp
        rw [hrg] at h
        obtain ⟨hc', hq, hb⟩ := writeBackAll_spec v added c1 c' l l' h
        have hfrom := writeBackAll_from v added c1 c' l l' h
        have henq := writeBackAll_enq v added c1 c' l l' h
        have hc1g : c1 = grouped c added := by rw [hc1]; rfl
        have hchg : ∀ k, chg c1 added v k = chg c added v k := by
          intro k; rw [hc1g]; exact chg_markAll c added v k added
        have htr : c1.transistors = c.transistors := by rw [hc1]; rfl
        refine ⟨added, v, ?_, ?_, ?_, hq.1, hb, ?_, ?_⟩
        · rw [hc1g]
        · rw [← hv, hc1g]
        · rw [hc', hc1g]; exact written_grouped c added v
        · intro x hx
          rcases hfrom x hx with h1 | ⟨k, t, hk, ht, hxt, hxs⟩
          · exact Or.inl h1
          · have hk' : chg c1 added v k = true := hk
            rw [hchg] at hk'
            exact Or.inr ⟨k, t, hk', by rw [← htr]; exact ht, hxt, hxs⟩
        · intro k t ht hch hk hs
          exact henq k t (by rw [htr]; exact ht) hch (by rw [hchg]; exact hk) hs

theorem gateLists_engineInv : EngineInv GateLists := by
  refine ⟨?_, ?_, ?_⟩
  · intro c id l c' l' h0 h
    rcases recalcNode_spec h with ⟨_, hc, _⟩ | ⟨_, a, v, _, _, _, hc, _, hb⟩
    · rw [hc]; exact h0
    · rw [hc]; exact settled_gateLists h0
  · intro c i n pu pd h0 hn
    have hi : i < NodeDefCount := (getNode_eq_some.1 hn).1
    constructor
    · intro k t ht
      obtain ⟨m, hm, hk⟩ := h0.1 k t ht
      rw [getNode_setNode _ _ _ _ hi]
      by_cases hj : t.GateNodeID = i
      · rw [if_pos hj]
        rw [hj, hn] at hm
        simp only [Option.some.injEq] at hm
        subst hm
        exact ⟨_, rfl, hk⟩
      · rw [if_neg hj]; exact ⟨m, hm, hk⟩
    · intro j m hm k hk
      rw [getNode_setNode _ _ _ _ hi] at hm
      by_cases hj : j = i
      · rw [if_pos hj] at hm
        simp only [Option.some.injEq] at hm
        subst hm
        subst hj
        exact h0.2 j n hn k hk
      · rw [if_neg hj] at hm
        exact h0.2 j m hm k hk
  · intro c a d lg h0
    exact h0

theorem exists_engineInv (x : Nat) : EngineInv (fun c => (c.getNode x).isSome = true) := by
  refine ⟨?_, ?_, ?_⟩
  · intro c id l c' l' h0 h
    rcases recalcNode_spec h with ⟨_, hc, _⟩ | ⟨_, a, v, _, _, _, hc, _, hb⟩
    · rw [hc]; exact h0
    · rw [hc, settled_getNode]
      cases hx : c.getNode x with
      | none => rw [hx] at h0; simp at h0
      | some n => simp
  · intro c i n pu pd h0 hn
    have hi : i < NodeDefCount := (getNode_eq_some.1 hn).1
    show ((c.setNode i _).getNode x).isSome = true
    rw [getNode_setNode _ _ _ _ hi]
    by_cases hj : x = i
    · rw [if_pos hj]; rfl
    · rw [if_neg hj]; exact h0
  · intro c a d lg h0
    exact h0

/-- The wiring is a property of the engine. -/
theorem wired_engineInv : EngineInv Wired :=
  between_only.and (chanComplete_engineInv.and
    (gateLists_engineInv.and ((exists_engineInv NodeGND).and (exists_engineInv NodePWR))))

theorem enqueue_total (l : List Nat) (x : Nat) (h : x < NodeDefCount) :
    ∃ l2, enqueue l x = some l2 := by
  unfold enqueue
  rw [if_pos h]
  exact ⟨_, rfl⟩

theorem turn_total (v : Bool) (c : CPU) (k : Int) (l : List Nat)
    (h : ∃ t, c.transistors k = some t ∧ t.C1NodeID < NodeDefCount ∧
      t.C2NodeID < NodeDefCount) :
    ∃ r, (if v then turnTransistorOn c k l else turnTransistorOff c k l) = some r := by
  obtain ⟨t, ht, h1, h2⟩ := h
  cases v with
  | true =>
    simp only [if_true]
    unfold turnTransistorOn
    simp only [ht]
    by_cases hon : t.On = true
    · rw [if_pos hon]; exact ⟨_, rfl⟩
    · rw [if_neg hon]
      by_cases hs : t.C1NodeID ≠ NodeGND ∧ t.C1NodeID ≠ NodePWR
      · rw [if_pos hs]
        obtain ⟨l2, hl2⟩ := enqueue_total l _ h1
        rw [hl2]; exact ⟨_, rfl⟩
      · rw [if_neg hs]; exact ⟨_, rfl⟩
  | false =>
    simp only [Bool.false_eq_true, if_false]
    unfold turnTransistorOff
    simp only [ht]
    by_cases hon : t.On = false
    · rw [if_pos hon]; exact ⟨_, rfl⟩
    · rw [if_neg hon]
      have e1 : ∃ l1, (if t.C1NodeID ≠ NodeGND ∧ t.C1NodeID ≠ NodePWR then
            enqueue l t.C1NodeID else some l) = some l1 := by
        by_cases hs : t.C1NodeID ≠ NodeGND ∧ t.C1NodeID ≠ NodePWR
        · rw [if_pos hs]; exact enqueue_total l _ h1
        · rw [if_neg hs]; exact ⟨_, rfl⟩
      obtain ⟨l1, hl1⟩ := e1
      rw [hl1]
      simp only
      by_cases hs : t.C2NodeID ≠ NodeGND ∧ t.C2NodeID ≠ NodePWR
      · rw [if_pos hs]
        obtain ⟨l2, hl2⟩ := enqueue_total l1 _ h2
        rw [hl2]; exact ⟨_, rfl⟩
      · rw [if_neg hs]; exact ⟨_, rfl⟩

theorem gatesSound_written {c : CPU} {gates : List Int} (g : List Nat) (v : Bool)
    (tog : Int → Bool) (h : GatesSound c gates) : GatesSound (written c g v tog) gates := by
  intro k hk
  obtain ⟨t, ht, h1, h2⟩ := h k hk
  obtain ⟨t', ht', _, e1, e2, _⟩ := @written_transistor_of c g v tog k t ht
  exact ⟨t', ht', by rw [e1]; exact h1, by rw [e2]; exact h2⟩

theorem toggle_total (v : Bool) : ∀ (gates : List Int) (c : CPU) (l : List Nat),
    GatesSound c gates → ∃ r, toggleGates v (c, l) gates = some r := by
  intro gates
  induction gates with
  | nil => intro c l _; exact ⟨(c, l), rfl⟩
  | cons k ks ih =>
    intro c l hs
    obtain ⟨⟨c1, l1⟩, h1⟩ := turn_total v c k l (hs k (List.mem_cons_self _ _))
    obtain ⟨hc1, _⟩ := turn_spec h1
    have hs1 : GatesSound c1 ks := by
      rw [hc1]
      exact gatesSound_written _ _ _ (fun j hj => hs j (List.mem_cons_of_mem _ hj))
    obtain ⟨r, hr⟩ := ih c1 l1 hs1
    refine ⟨r, ?_⟩
    simp only [toggleGates, List.foldlM_cons, bind, Option.bind_eq_some]
    exact ⟨(c1, l1), h1, hr⟩

theorem writeBack_total (v : Bool) (c : CPU) (l : List Nat) (x : Nat) (n : Node)
    (hn : c.getNode x = some n) (hs : GatesSound c n.GateTransistors) :
    ∃ r, writeBack v (c, l) x = some r := by
  unfold writeBack
  simp only [hn]
  by_cases hst : n.State = v
  · rw [if_pos hst]; exact ⟨_, rfl⟩
  · rw [if_neg hst]
    exact toggle_total v _ _ _ hs

/-- The write-back loop of `recalcNode` returns when the members of the group exist
and the gate lists hold existing transistors with channel ids inside the node
array. -/
theorem writeBackAll_total (v : Bool) : ∀ (xs : List Nat) (c : CPU) (l : List Nat),
    (∀ x ∈ xs, (c.getNode x).isSome = true) →
    (∀ i n, c.getNode i = some n → GatesSound c n.GateTransistors) →
    ∃ r, xs.foldlM (writeBack v) (c, l) = some r := by
  intro xs
  induction xs with
  | nil => intro c l _ _; exact ⟨(c, l), rfl⟩
  | cons x xs ih =>
    intro c l hex hs
    have hx := hex x (List.mem_cons_self _ _)
    cases hn : c.getNode x with
    | none => rw [hn] at hx; simp at hx
    | some n =>
      obtain ⟨⟨c1, l1⟩, h1⟩ := writeBack_total v c l x n hn (hs x n hn)
      obtain ⟨n', hn', hc1, _⟩ := writeBack_spec h1
      have hex1 : ∀ y ∈ xs, (c1.getNode y).isSome = true := by
        intro y hy
        rw [hc1, written_getNode_isSome]
        exact hex y (List.mem_cons_of_mem _ hy)
      have hs1 : ∀ i m, c1.getNode i = some m → GatesSound c1 m.GateTransistors := by
        intro i m hm
        rw [hc1] at hm ⊢
        obtain ⟨m0, hm0, e, _⟩ := written_getNode_some hm
        rw [e]
        exact gatesSound_written _ _ _ (hs i m0 hm0)
      obtain ⟨r, hr⟩ := ih c1 l1 hex1 hs1
      refine ⟨r, ?_⟩
      simp only [List.foldlM_cons, bind, Option.bind_eq_some]
      exact ⟨(c1, l1), h1, hr⟩

theorem getNodeValueLoop_total (c : CPU) : ∀ xs : List Nat,
    (∀ i ∈ xs, (c.getNode i).isSome = true) → ∃ v, getNodeValueLoop c xs = some v := by
  intro xs
  induction xs with
  | nil => intro _; exact ⟨false, rfl⟩
  | cons x xs ih =>
    intro h
    have hx := h x (List.mem_cons_self _ _)
    cases hn : c.getNode x with
    | none => rw [hn] at hx; simp at hx
    | some n =>
      unfold getNodeValueLoop
      simp only [hn]
      by_cases h1 : n.PullUp = true
      · rw [if_pos h1]; exact ⟨_, rfl⟩
      · rw [if_neg h1]
        by_cases h2 : n.PullDown = 1
        · rw [if_pos h2]; exact ⟨_, rfl⟩
        · rw [if_neg h2]
          by_cases h3 : n.State = true
          · rw [if_pos h3]; exact ⟨_, rfl⟩
          · rw [if_neg h3]
            exact ih (fun i hi => h i (List.mem_cons_of_mem _ hi))

theorem getNodeValue_total (c : CPU) (hs : Supplied c)
    (hg : (c.getNode NodeGND).isSome = true) (hp : (c.getNode NodePWR).isSome = true)
    (hall : ∀ i ∈ c.recalcNodeGroup, (c.getNode i).isSome = true) :
    ∃ v, getNodeValue c = some v := by
  unfold getNodeValue
  rw [hs.1, hs.2]
  simp only [Option.some_bind]
  cases h1 : c.getNode NodeGND with
  | none => rw [h1] at hg; simp at hg
  | some gnd =>
    simp only
    by_cases hm : gnd.InNodeGroup = true
    · rw [if_pos hm]; exact ⟨_, rfl⟩
    · rw [if_neg hm]
      cases h2 : c.getNode NodePWR with
      | none => rw [h2] at hp; simp at hp
      | some pwr =>
        simp only
        by_cases hm2 : pwr.InNodeGroup = true
        · rw [if_pos hm2]; exact ⟨_, rfl⟩
        · rw [if_neg hm2]
          exact getNodeValueLoop_total c _ hall

theorem wired_gatesSound {c : CPU} (hw : Wired c) :
    ∀ i n, c.getNode i = some n → GatesSound c n.GateTransistors := by
  intro i n hn k hk
  obtain ⟨t, ht, _⟩ := hw.2.2.1.2 i n hn k hk
  obtain ⟨⟨n1, h1, _⟩, ⟨n2, h2, _⟩⟩ := hw.2.1 k t ht
  exact ⟨t, ht, (getNode_eq_some.1 h1).1, (getNode_eq_some.1 h2).1⟩

/-- Function `recalcNode` returns on every existing node of a wired state. -/
theorem recalcNode_total {c : CPU} (hw : Wired c) (id : Nat) (l : List Nat)
    (hid : (c.getNode id).isSome = true) : ∃ r, recalcNode c id l = some r := by
  unfold recalcNode
  cases hn : c.getNode id with
  | none => rw [hn] at hid; simp at hid
  | some n =>
    simp only
    by_cases hs : id = NodeGND ∨ id = NodePWR
    · rw [if_pos hs]; exact ⟨_, rfl⟩
    · rw [if_neg hs]
      obtain ⟨⟨hsup, hm, hl⟩, hc, hgl, hgnd, hpwr⟩ := hw
      have hfuel : freeCount { c with recalcNodeGroup := [] } < groupFuel :=
        Nat.lt_succ_of_le (freeCount_le _)
      obtain ⟨c1, hc1⟩ := addSub_total groupFuel { c with recalcNodeGroup := [] } id hfuel
        (chanLists_clearGroup hl) (chanComplete_clearGroup hc) hid
      obtain ⟨added, he, hadd⟩ := addSub_spec _ _ _ _ hc1
      have hg1 : ∀ i, (c1.getNode i).isSome = (c.getNode i).isSome := by
        intro i
        rw [he, markAll_getNode]
        show (Option.map _ (c.getNode i)).isSome = _
        cases c.getNode i <;> rfl
      have hgroup : c1.recalcNodeGroup = added := by rw [he]; simp
      obtain ⟨v, hv⟩ := getNodeValue_total c1 (by rw [he]; exact hsup)
        (by rw [hg1]; exact hgnd) (by rw [hg1]; exact hpwr)
        (by
          intro i hi
          rw [hgroup] at hi
          rw [hg1]
          obtain ⟨⟨m, hm1, _⟩, _⟩ := hadd.2 i hi
          have hm1' : c.getNode i = some m := hm1
          rw [hm1']; rfl)
      have hsound : ∀ i m, c1.getNode i = some m → GatesSound c1 m.GateTransistors := by
        intro i m hmi
        rw [he, markAll_getNode] at hmi
        have hmi' : (c.getNode i).map
            (fun n => { n with InNodeGroup := n.InNodeGroup || decide (i ∈ added) }) = some m :=
          hmi
        cases h0 : c.getNode i with
        | none => rw [h0] at hmi'; simp at hmi'
        | some m0 =>
          rw [h0] at hmi'
          simp only [Option.map_some', Option.some.injEq] at hmi'
          subst hmi'
          intro k hk
          obtain ⟨t, ht, _⟩ := hgl.2 i m0 h0 k hk
          obtain ⟨⟨n1, h1, _⟩, ⟨n2, h2, _⟩⟩ := hc k t ht
          refine ⟨t, ?_, (getNode_eq_some.1 h1).1, (getNode_eq_some.1 h2).1⟩
          rw [he]; exact ht
      obtain ⟨r, hr⟩ := writeBackAll_total v c1.recalcNodeGroup c1 l
        (by
          intro i hi
          rw [hgroup] at hi
          rw [hg1]
          obtain ⟨⟨m, hm1, _⟩, _⟩ := hadd.2 i hi
          have hm1' : c.getNode i = some m := hm1
          rw [hm1']; rfl)
        hsound
      refine ⟨r, ?_⟩
      rw [hc1]
      simp only
      rw [hv]
      exact hr

/-- A netlist loaded by `New` is wired after the first statements of `Reset`. -/
theorem wired_of_new {rd : List BusCall → Nat → Nat} {transDefs segDefs : List (List Int)}
    {visit : List TransDef → List TransDef} {c c0 : CPU} (hvisit : ∀ l, (visit l).Perm l)
    (hnew : New rd transDefs segDefs visit = some c) (h0 : resetInit c = some c0) :
    Wired c0 := by
  have hv : ∀ l t, t ∈ visit l ↔ t ∈ l := fun l t => (hvisit l).mem_iff
  obtain ⟨hn, _, _, _, _, ⟨g, hg⟩, ⟨p, hp⟩⟩ := resetInit_spec h0
  refine ⟨resetInit_between (New_chanLists hv hnew) h0,
    resetInit_chanComplete (New_chanComplete hvisit hnew) h0,
    (resetInit_gate (New_gateLists hv hnew) h0).1, ?_, ?_⟩
  · rw [hn, hg]; rfl
  · rw [hn, hp]; rfl

theorem levelled_settled {c : CPU} {r : Nat → Nat} {N : Nat} (a : List Nat) (v : Bool)
    (h : Levelled c r N) : Levelled (settled c a v) r N := by
  intro k t' ht'
  obtain ⟨t, ht, rfl⟩ := settled_transistor_some ht'
  have := h k t ht
  by_cases hc : chg c a v k = true
  · simpa [hc] using this
  · simpa [hc] using this

/-- The members of a group that are no supplies have the level of the seed. -/
theorem group_level {c : CPU} {r : Nat → Nat} {N : Nat} (hl : ChanLists c)
    (hlev : Levelled c r N) {id : Nat} {added : List Nat}
    (h : addSubNodesToGroup groupFuel { c with recalcNodeGroup := [] } id =
      some (grouped c added)) :
    ∀ x ∈ added, ¬ (x = NodeGND ∨ x = NodePWR) → r x = r id := by
  obtain ⟨a, ha, _, _, _, hreach⟩ := addSub_closed _ _ _ _ h
  have heq : a = added := by
    have := congrArg CPU.recalcNodeGroup ha
    simpa [grouped] using this.symm
  subst heq
  have key : ∀ x, Relation.ReflTransGen (Walks { c with recalcNodeGroup := [] }) id x →
      ¬ (x = NodeGND ∨ x = NodePWR) → r x = r id := by
    intro x hx
    induction hx with
    | refl => intro _; rfl
    | @tail y z _ hstep ih =>
      intro hz
      obtain ⟨hy, n, k, t, hn, hk, ht, _, hzt⟩ := hstep
      have hn' : c.getNode y = some n := hn
      have ht' : c.transistors k = some t := ht
      obtain ⟨t2, ht2, hends⟩ := hl y n hn' k hk
      rw [ht'] at ht2
      simp only [Option.some.injEq] at ht2
      subst ht2
      obtain ⟨_, _, _, hsame⟩ := hlev k t ht'
      rw [← ih hy]
      by_cases h1 : t.C1NodeID = y
      · rw [if_pos h1] at hzt
        rw [hzt, ← h1]
        rw [hzt] at hz
        exact (hsame (by rw [h1]; exact hy) hz).symm
      · rw [if_neg h1] at hzt
        have h2 : t.C2NodeID = y := by
          rcases hends with e | e
          · exact absurd e h1
          · exact e
        rw [hzt, ← h2]
        rw [hzt] at hz
        exact hsame hz (by rw [h2]; exact hy)
  intro x hx hxs
  exact key x (hreach x hx) hxs

/-- One call of `recalcNode` on a levelled netlist returns, and the nodes it enqueues
lie above the level of the seed. -/
theorem recalcNode_levelled {c : CPU} {r : Nat → Nat} {N : Nat} (hw : Wired c)
    (hlev : Levelled c r N) (id : Nat) (l : List Nat) (hid : (c.getNode id).isSome = true) :
    ∃ c' l', recalcNode c id l = some (c', l') ∧ Wired c' ∧ Levelled c' r N ∧
      (∀ x, (c'.getNode x).isSome = (c.getNode x).isSome) ∧
      (∀ x ∈ l', x ∈ l ∨ (r id < r x ∧ r x < N ∧ (c.getNode x).isSome = true)) := by
  obtain ⟨⟨c', l'⟩, h⟩ := recalcNode_total hw id l hid
  refine ⟨c', l', h, wired_engineInv.step c id l c' l' hw h, ?_⟩
  by_cases hs : id = NodeGND ∨ id = NodePWR
  · rcases recalcNode_spec h with ⟨_, hc, hl'⟩ | ⟨hns, _⟩
    · subst hc; subst hl'
      exact ⟨hlev, fun _ => rfl, fun x hx => Or.inl hx⟩
    · exact absurd hs hns
  · obtain ⟨added, v, hg, _, hc, _, hb, hfrom, _⟩ := recalcNode_full hs h
    subst hc
    refine ⟨levelled_settled _ _ hlev, ?_, ?_⟩
    · intro x
      rw [settled_getNode]
      cases c.getNode x <;> rfl
    · intro x hx
      rcases hfrom x hx with h1 | ⟨k, t, hk, ht, hxt, hxs⟩
      · exact Or.inl h1
      · right
        obtain ⟨i, hi, ni, hni, _, hki⟩ := chg_eq_true.1 hk
        have hgi : c.getNode i = some ni := getNode_eq_some.2 ⟨hb i hi, hni⟩
        obtain ⟨t2, ht2, hgate⟩ := hw.2.2.1.2 i ni hgi k hki
        rw [ht] at ht2
        simp only [Option.some.injEq] at ht2
        subst ht2
        obtain ⟨hgs, h1, h2, _⟩ := hlev k t ht
        have hri : r i = r id := group_level hw.1.2.2 hlev hg i hi (by rw [← hgate]; exact hgs)
        obtain ⟨⟨n1, hn1, _⟩, ⟨n2, hn2, _⟩⟩ := hw.2.1 k t ht
        rcases hxt with e | e
        · rw [e] at hxs ⊢
          obtain ⟨a, b⟩ := h1 hxs
          rw [← hri, ← hgate]
          exact ⟨a, b, by rw [hn1]; rfl⟩
        · rw [e] at hxs ⊢
          obtain ⟨a, b⟩ := h2 hxs
          rw [← hri, ← hgate]
          exact ⟨a, b, by rw [hn2]; rfl⟩

/-- One round on a levelled netlist returns; when the nodes visited have level `j` or
more, the next worklist holds existing nodes of a level above `j` and below `N`. -/
theorem recalcRound_levelled {r : Nat → Nat} {N : Nat} (j : Nat) :
    ∀ (visit : List Nat) (c : CPU) (l : List Nat), Wired c → Levelled c r N →
    (∀ x ∈ visit, (c.getNode x).isSome = true ∧ j ≤ r x) →
    (∀ x ∈ l, (c.getNode x).isSome = true ∧ j < r x ∧ r x < N) →
    ∃ c' l', visit.foldlM (fun (acc : CPU × List Nat) (id : Nat) =>
        recalcNode acc.1 id acc.2) (c, l) = some (c', l') ∧
      Wired c' ∧ Levelled c' r N ∧
      (∀ x ∈ l', (c'.getNode x).isSome = true ∧ j < r x ∧ r x < N) := by
  intro visit
  induction visit with
  | nil =>
    intro c l hw hlev _ hl
    exact ⟨c, l, rfl, hw, hlev, hl⟩
  | cons id rest ih =>
    intro c l hw hlev hv hl
    obtain ⟨hid, hj⟩ := hv id (List.mem_cons_self _ _)
    obtain ⟨c1, l1, h1, hw1, hlev1, hex, hq⟩ := recalcNode_levelled hw hlev id l hid
    have hv1 : ∀ x ∈ rest, (c1.getNode x).isSome = true ∧ j ≤ r x := by
      intro x hx
      rw [hex]
      exact hv x (List.mem_cons_of_mem _ hx)
    have hl1 : ∀ x ∈ l1, (c1.getNode x).isSome = true ∧ j < r x ∧ r x < N := by
      intro x hx
      rw [hex]
      rcases hq x hx with h0 | ⟨a, b, e⟩
      · exact hl x h0
      · exact ⟨e, Nat.lt_of_le_of_lt hj a, b⟩
    obtain ⟨c', l', h2, hw', hlev', hl'⟩ := ih c1 l1 hw1 hlev1 hv1 hl1
    refine ⟨c', l', ?_, hw', hlev', hl'⟩
    simp only [List.foldlM_cons, bind, Option.bind_eq_some]
    exact ⟨(c1, l1), h1, h2⟩

/-- The loop of `recalcNodeList` on a levelled netlist returns once the rounds allowed
exceed the levels left above the worklist. -/
theorem recalcNodeList_levelled {r : Nat → Nat} {N : Nat} (order : List Nat → List Nat)
    (hord : ∀ w, (order w).Perm w) :
    ∀ (rounds : Nat) (c : CPU) (l : List Nat) (j : Nat), Wired c → Levelled c r N →
    (∀ x ∈ l, (c.getNode x).isSome = true ∧ j ≤ r x ∧ (0 < j → r x < N)) →
    N < rounds + j → ∃ c', recalcNodeList order rounds c l = some c' := by
  intro rounds
  induction rounds with
  | zero =>
    intro c l j hw hlev hl hN
    cases l with
    | nil => exact ⟨c, rfl⟩
    | cons x rest =>
      obtain ⟨_, h1, h2⟩ := hl x (List.mem_cons_self _ _)
      have hj : 0 < j := by omega
      have := h2 hj
      omega
  | succ rounds ih =>
    intro c l j hw hlev hl hN
    cases l with
    | nil => exact ⟨c, rfl⟩
    | cons x rest =>
      obtain ⟨c1, l1, h1, hw1, hlev1, hl1⟩ := recalcRound_levelled j (order (x :: rest)) c []
        hw hlev
        (fun y hy => ⟨(hl y ((hord _).mem_iff.1 hy)).1, (hl y ((hord _).mem_iff.1 hy)).2.1⟩)
        (by intro y hy; simp at hy)
      obtain ⟨c', hc'⟩ := ih c1 l1 (j + 1) hw1 hlev1
        (fun y hy => ⟨(hl1 y hy).1, (hl1 y hy).2.1, fun _ => (hl1 y hy).2.2⟩) (by omega)
      refine ⟨c', ?_⟩
      have h1' : recalcRound c (order (x :: rest)) = some (c1, l1) := h1
      show (match recalcRound c (order (x :: rest)) with
        | none => none
        | some (c1, next) => recalcNodeList order rounds c1 next) = some c'
      rw [h1']
      exact hc'

/-- C2, amended. On a levelled netlist (no transistor gated by a supply, every
channel node above its gate node in a levelling with `N` levels, the two channel
nodes of a transistor on one level), `recalcNodeList` terminates from every wired
state, whatever the `State`, `PullUp` and `PullDown` of the nodes and the `On` flags
of the transistors, on every worklist of existing nodes and in every order of visit:
with more than `N` rounds allowed it returns, and the state it returns does not
depend on the number of rounds allowed. -/
theorem levelled_recalc_terminates (order : List Nat → List Nat) (c : CPU) (l : List Nat)
    (r : Nat → Nat) (N : Nat) (hord : ∀ w, (order w).Perm w) (hw : Wired c)
    (hlev : Levelled c r N) (hl : ∀ x ∈ l, (c.getNode x).isSome = true) :
    ∃ c', ∀ rounds, N < rounds → recalcNodeList order rounds c l = some c' := by
  have hex : ∀ rounds, N < rounds → ∃ c', recalcNodeList order rounds c l = some c' :=
    fun rounds hr => recalcNodeList_levelled order hord rounds c l 0 hw hlev
      (fun x hx => ⟨hl x hx, Nat.zero_le _, fun h => absurd h (Nat.lt_irrefl 0)⟩) (by omega)
  obtain ⟨c', hc'⟩ := hex (N + 1) (Nat.lt_succ_self N)
  refine ⟨c', fun rounds hr => ?_⟩
  obtain ⟨c2, hc2⟩ := hex rounds hr
  rw [hc2, recalcNodeList_rounds_irrelevant order rounds (N + 1) c l c2 c' hc2 hc']

/-! ### Wired and levelled states from `New` -/

theorem levelled_of_new {rd : List BusCall → Nat → Nat} {transDefs segDefs : List (List Int)}
    {visit : List TransDef → List TransDef} {c c0 : CPU} {r : Nat → Nat} {N : Nat}
    (hnew : New rd transDefs segDefs visit = some c) (h0 : resetInit c = some c0)
    (hdefs : ∀ td ∈ setupTransistors transDefs [], levelledDef r N td = true) :
    Levelled c0 r N := by
  obtain ⟨_, ht, _⟩ := resetInit_spec h0
  intro k t' ht'
  rw [ht] at ht'
  cases hc : c.transistors k with
  | none => simp [hc] at ht'
  | some t =>
    simp only [hc, Option.map_some', Option.some.injEq] at ht'
    subst ht'
    obtain ⟨td, hmem, _, e1, e2, e3⟩ := New_transistor hnew hc
    have := hdefs td hmem
    simp only [levelledDef, Bool.and_eq_true, decide_eq_true_eq] at this
    simp only [e1, e2, e3]
    exact ⟨this.1.1.1, this.1.1.2, this.1.2, this.2⟩

theorem chainNet_run :
    chainNet.isSome = true ∧ (resetInit chainLoaded).isSome = true ∧
    (recalcNodeList id 5 chainState [NodeCLK0, 4, 3, 2, 1]).isSome = true ∧
    (∀ td ∈ setupTransistors [[0, 1171, 1, 558], [1, 1, 2, 558], [2, 1, 2, 3], [3, 2, 4, 558]] [],
      levelledDef chainLevel 4 td = true) ∧
    (∀ x ∈ [NodeCLK0, 4, 3, 2, 1], (chainState.getNode x).isSome = true) ∧
    (recalcRounds id 2 chainState [NodeCLK0, 4, 3, 2, 1]).map Prod.snd = some [4] ∧
    [stateOf chainSettled NodeCLK0, stateOf chainSettled 1, stateOf chainSettled 2,
      stateOf chainSettled 3, stateOf chainSettled 4] = [false, true, false, false, true] := by
  decide!

theorem chainNet_eq : chainNet = some chainLoaded :=
  some_getD _ _ chainNet_run.1

theorem chainState_eq : resetInit chainLoaded = some chainState :=
  some_getD _ _ chainNet_run.2.1

theorem chainSettled_eq :
    recalcNodeList id 5 chainState [NodeCLK0, 4, 3, 2, 1] = some chainSettled :=
  some_getD _ _ chainNet_run.2.2.1

/-- Witness of `levelled_recalc_terminates` at the inverter chain `chainNet`, in the
state the first statements of `Reset` leave, with four levels, on the worklist of the
nodes CLK0, 4, 3, 2 and 1: the second round still enqueues node 4, and with five
rounds the loop returns. -/
theorem levelled_recalc_terminates_witness :
    (∀ w : List Nat, (id w).Perm w) ∧ Wired chainState ∧ Levelled chainState chainLevel 4 ∧
    (∀ x ∈ [NodeCLK0, 4, 3, 2, 1], (chainState.getNode x).isSome = true) ∧
    (recalcRounds id 2 chainState [NodeCLK0, 4, 3, 2, 1]).map Prod.snd = some [4] ∧
    recalcNodeList id 5 chainState [NodeCLK0, 4, 3, 2, 1] = some chainSettled ∧
    ∃ c', ∀ rounds, 4 < rounds →
      recalcNodeList id rounds chainState [NodeCLK0, 4, 3, 2, 1] = some c' :=
  ⟨fun w => List.Perm.refl w,
   wired_of_new id_perm chainNet_eq chainState_eq,
   levelled_of_new chainNet_eq chainState_eq chainNet_run.2.2.2.1,
   chainNet_run.2.2.2.2.1, chainNet_run.2.2.2.2.2.1, chainSettled_eq,
   levelled_recalc_terminates id chainState [NodeCLK0, 4, 3, 2, 1] chainLevel 4
     (fun w => List.Perm.refl w) (wired_of_new id_perm chainNet_eq chainState_eq)
     (levelled_of_new chainNet_eq chainState_eq chainNet_run.2.2.2.1)
     chainNet_run.2.2.2.2.1⟩

theorem pullDownState_engineInv : EngineInv PullDownState := by
  refine ⟨?_, ?_, ?_⟩
  · intro c id l c' l' h0 h
    refine ⟨wired_engineInv.step c id l c' l' h0.1 h, ?_, ?_⟩
    · exact (recalcNode_gndLow h0.1.1.1.1 h0.2.1 h).2
    · rcases recalcNode_spec h with ⟨_, hc, _⟩ | ⟨_, a, v, _, _, _, hc, _, hb⟩
      · rw [hc]; exact h0.2.2
      · rw [hc]
        intro k t' ht'
        obtain ⟨t, ht, rfl⟩ := settled_transistor_some ht'
        have := h0.2.2 k t ht
        by_cases hc : chg c a v k = true
        · simpa [hc] using this
        · simpa [hc] using this
  · intro c i n pu pd h0 hn
    refine ⟨wired_engineInv.pulls c i n pu pd h0.1 hn, ?_, h0.2.2⟩
    have hi : i < NodeDefCount := (getNode_eq_some.1 hn).1
    intro m hm
    rw [getNode_setNode _ _ _ _ hi] at hm
    by_cases hj : NodeGND = i
    · rw [if_pos hj] at hm
      simp only [Option.some.injEq] at hm
      subst hm
      exact h0.2.1 n (by rw [hj]; exact hn)
    · rw [if_neg hj] at hm
      exact h0.2.1 m hm
  · intro c a d lg h0
    exact ⟨wired_engineInv.regs c a d lg h0.1, h0.2.1, h0.2.2⟩

/-- The group of a node in a pull-down netlist: the node alone, or the node and GND;
and the value it resolves to. -/
theorem pullDown_group {c c' : CPU} {id : Nat} {l l' : List Nat} {n : Node}
    (hw : PullDownState c) (hid : ¬ (id = NodeGND ∨ id = NodePWR))
    (hn : c.getNode id = some n) (h : recalcNode c id l = some (c', l')) :
    ∃ added v, c' = settled c added v ∧ id ∈ added ∧
      (∀ x ∈ added, x = id ∨ x = NodeGND) ∧ (NodeGND ∈ added → v = false) ∧
      (Linked c id → v = false) ∧ (¬ Linked c id → v = aloneValue n) ∧
      (∀ x ∈ l, x ∈ l') ∧ (∀ i ∈ added, i < NodeDefCount) ∧
      EnqBy c (fun k => chg c added v k = true) l l' ∧
      (∀ k t, c.transistors k = some t → t.On = !v → chg c added v k = true →
        t.C1NodeID ∈ l') := by
  obtain ⟨⟨⟨hsup, hm, hl⟩, hcc, hgates, hgnd, hpwr⟩, hgl, hpd⟩ := hw
  obtain ⟨added, v, hg, hv, hc, hsub, hb, hfrom, henq⟩ := recalcNode_full hid h
  obtain ⟨a, ha, hadd, hseed, hclosed, hreach⟩ := addSub_closed _ _ _ _ hg
  have heq : a = added := by
    have := congrArg CPU.recalcNodeGroup ha
    simpa [grouped] using this.symm
  subst heq
  have hunmarked : ∀ y, ¬ Marked { c with recalcNodeGroup := [] } y := by
    intro y ⟨m, hm1, hm2⟩
    have hm1' : c.getNode y = some m := hm1
    rw [hm y m hm1'] at hm2
    exact absurd hm2 (by simp)
  -- a step of the traversal from `id` ends at GND and shows that `id` is linked
  have hwalk : ∀ y z, y = id → Walks { c with recalcNodeGroup := [] } y z →
      z = NodeGND ∧ Linked c id := by
    intro y z hy hstep
    obtain ⟨_, m, k, t, hm1, hk, ht, hon, hz⟩ := hstep
    have hm1' : c.getNode y = some m := hm1
    have ht' : c.transistors k = some t := ht
    obtain ⟨t2, ht2, hends⟩ := hl y m hm1' k hk
    rw [ht'] at ht2
    simp only [Option.some.injEq] at ht2
    subst ht2
    obtain ⟨h2, h1⟩ := hpd k t ht'
    have hc1 : t.C1NodeID = y := by
      rcases hends with e | e
      · exact e
      · rw [h2] at e
        exact absurd (Or.inl (hy ▸ e.symm)) hid
    rw [if_pos hc1, h2] at hz
    exact ⟨hz, k, t, ht', hon, hy ▸ hc1⟩
  have hmem : id ∈ a := by
    rcases hseed with h1 | h1
    · exact absurd h1 (hunmarked id)
    · exact h1
  have hshape : ∀ x, Relation.ReflTransGen (Walks { c with recalcNodeGroup := [] }) id x →
      x = id ∨ x = NodeGND := by
    intro x hx
    induction hx with
    | refl => exact Or.inl rfl
    | @tail y z _ hstep ih =>
      have hy : y = id := by
        rcases ih with e | e
        · exact e
        · exact absurd (Or.inl e) hstep.1
      exact Or.inr (hwalk y z hy hstep).1
  have hgndv : NodeGND ∈ a → v = false := fun hmg => getNodeValue_gnd hsup.1 hv hmg
  have hlinked : Linked c id → NodeGND ∈ a := by
    intro ⟨k, t, ht, hon, hc1⟩
    obtain ⟨⟨n1, hn1, hk1⟩, _⟩ := hcc k t ht
    obtain ⟨h2, _⟩ := hpd k t ht
    have hstep : Walks { c with recalcNodeGroup := [] } id NodeGND := by
      refine ⟨hid, n1, k, t, ?_, hk1, ht, hon, ?_⟩
      · rw [← hc1]; exact hn1
      · rw [if_pos hc1, h2]
    rcases hclosed id hmem NodeGND hstep with m1 | m1
    · exact absurd m1 (hunmarked NodeGND)
    · exact m1
  refine ⟨a, v, hc, hmem, fun x hx => hshape x (hreach x hx), hgndv,
    fun hlk => hgndv (hlinked hlk), ?_, hsub, hb, hfrom, ?_⟩
  · intro hnl
    have hnog : NodeGND ∉ a := by
      intro hmg
      rcases Relation.ReflTransGen.cases_head (hreach NodeGND hmg) with e | ⟨w, hw1, _⟩
      · exact hid (Or.inl e)
      · exact hnl (hwalk id w rfl hw1).2
    have hall : ∀ x ∈ a, x = id := by
      intro x hx
      rcases hshape x (hreach x hx) with e | e
      · exact e
      · rw [e] at hx; exact absurd hx hnog
    have hone : a = [id] := by
      cases ha' : a with
      | nil => rw [ha'] at hmem; simp at hmem
      | cons x rest =>
        have hnd := hadd.1
        rw [ha'] at hnd hall
        have hx : x = id := hall x (List.mem_cons_self _ _)
        have hrest : rest = [] := by
          rw [List.eq_nil_iff_forall_not_mem]
          intro y hy
          have hyid : y = id := hall y (List.mem_cons_of_mem _ hy)
          rw [List.nodup_cons] at hnd
          apply hnd.1
          rw [hx, ← hyid]; exact hy
        rw [hx, hrest]
    subst hone
    have hxg : NodeGND ≠ id := fun e => hid (Or.inl e.symm)
    have hxp : NodePWR ≠ id := fun e => hid (Or.inr e.symm)
    unfold getNodeValue at hv
    have h1 : (grouped c [id]).gndNode = some NodeGND := hsup.1
    have h2 : (grouped c [id]).pwrNode = some NodePWR := hsup.2
    have h3 : (grouped c [id]).recalcNodeGroup = [id] := by simp [grouped]
    rw [h1, h2, h3] at hv
    simp only [Option.some_bind, grouped_getNode] at hv
    cases hg0 : c.getNode NodeGND with
    | none => simp [hg0] at hv
    | some g =>
      simp only [hg0, Option.map_some', hm _ g hg0, List.mem_singleton, hxg, decide_False,
        Bool.or_false, Bool.false_eq_true, if_false] at hv
      cases hp0 : c.getNode NodePWR with
      | none => simp [hp0] at hv
      | some p =>
        simp only [hp0, Option.map_some', hm _ p hp0, hxp, decide_False,
          Bool.or_false, Bool.false_eq_true, if_false, getNodeValueLoop, grouped_getNode, hn]
          at hv
        unfold aloneValue
        split_ifs at hv ⊢ <;> simp_all
  · intro k t ht hch hk
    exact henq k t ht hch hk (hpd k t ht).2

/-- One call of `recalcNode` on a node of a pull-down netlist, in terms of the nodes
and the transistors: the node takes the value `v` of its group, every other node is
left as it is, and the transistors gated by the node take `On` equal to `v` when the
node changes `State`; a transistor that changes `On` has its C1 node enqueued, and no
node is enqueued when the node keeps its `State`. -/
theorem pullDown_step {c c' : CPU} {id : Nat} {l l' : List Nat} {n : Node}
    (hw : PullDownState c) (hid : ¬ (id = NodeGND ∨ id = NodePWR))
    (hn : c.getNode id = some n) (h : recalcNode c id l = some (c', l')) :
    ∃ v, (Linked c id → v = false) ∧ (¬ Linked c id → v = aloneValue n) ∧
      c'.getNode id = some { n with State := v } ∧
      (∀ x, x ≠ id → c'.getNode x = c.getNode x) ∧
      (∀ k, c.transistors k = none → c'.transistors k = none) ∧
      (∀ k t, c.transistors k = some t →
        c'.transistors k = some t ∨
        (n.State ≠ v ∧ t.GateNodeID = id ∧ c'.transistors k = some { t with On := v } ∧
          (t.On = !v → t.C1NodeID ∈ l'))) ∧
      (∀ x ∈ l, x ∈ l') ∧ (∀ x ∈ l', x ∈ l ∨ n.State ≠ v) := by
  obtain ⟨added, v, hc, hmem, hshape, hgndv, hlk, hnl, hsub, hb, hfrom, henq⟩ :=
    pullDown_group hw hid hn h
  obtain ⟨⟨⟨hsup, hm, hl⟩, hcc, hgates, hgnd, hpwr⟩, hgl, hpd⟩ := hw
  have hchg : ∀ k, chg c added v k = true →
      n.State ≠ v ∧ ∀ t, c.transistors k = some t → t.GateNodeID = id := by
    intro k hk
    obtain ⟨i, hi, ni, hni, hst, hki⟩ := chg_eq_true.1 hk
    have hgi : c.getNode i = some ni := getNode_eq_some.2 ⟨hb i hi, hni⟩
    rcases hshape i hi with e | e
    · obtain ⟨t2, ht2, hg2⟩ := hgates.2 i ni hgi k hki
      rw [e, hn] at hgi
      simp only [Option.some.injEq] at hgi
      refine ⟨by rw [hgi]; exact hst, fun t ht => ?_⟩
      rw [ht] at ht2
      simp only [Option.some.injEq] at ht2
      rw [ht2, hg2, e]
    · rw [e] at hgi hi
      rw [hgndv hi] at hst
      exact absurd (hgl ni hgi) hst
  subst hc
  refine ⟨v, hlk, hnl, ?_, ?_, ?_, ?_, hsub, ?_⟩
  · rw [settled_getNode, hn]
    simp only [Option.map_some', hmem, if_true, Option.some.injEq]
    have := hm id n hn
    cases n
    simp_all
  · intro x hx
    rw [settled_getNode]
    by_cases hxa : x ∈ added
    · have hxg : x = NodeGND := by
        rcases hshape x hxa with e | e
        · exact absurd e hx
        · exact e
      cases hg0 : c.getNode x with
      | none => rfl
      | some g =>
        simp only [Option.map_some', hxa, if_true, Option.some.injEq]
        have h1 := hm x g hg0
        have h2 : g.State = false := hgl g (by rw [← hxg]; exact hg0)
        have h3 : v = false := hgndv (by rw [← hxg]; exact hxa)
        cases g
        simp_all
    · cases hg0 : c.getNode x with
      | none => rfl
      | some g => simp [hxa]
  · intro k hk
    rw [settled_transistors, hk]; rfl
  · intro k t ht
    rw [settled_transistors, ht]
    by_cases hk : chg c added v k = true
    · right
      refine ⟨(hchg k hk).1, (hchg k hk).2 t ht, ?_, fun hch => henq k t ht hch hk⟩
      simp [hk]
    · left
      simp [hk]
  · intro x hx
    rcases hfrom x hx with h1 | ⟨k, t, hk, _⟩
    · exact Or.inl h1
    · exact Or.inr (hchg k hk).1

/-- The value of a node alone does not depend on the `State` it was given. -/
theorem aloneValue_set (n : Node) :
    aloneValue { n with State := aloneValue n } = aloneValue n := by
  unfold aloneValue
  by_cases h1 : n.PullUp = true
  · simp [h1]
  · by_cases h2 : n.PullDown = 1
    · simp [h1, h2]
    · simp [h1, h2]

/-- One call of `recalcNode` in a state of a pull-down netlist: the state stays one;
a stable node stays stable or is enqueued, as is the node recalculated; and when
the node recalculated is stable, or a supply, no node and no transistor changes and
no node is enqueued. -/
theorem pullDown_recalc {c c' : CPU} {id : Nat} {l l' : List Nat}
    (hw : PullDownState c) (h : recalcNode c id l = some (c', l')) :
    PullDownState c' ∧
    (∀ x, ¬ (x = NodeGND ∨ x = NodePWR) → (x = id ∨ Stable c x) → x ∈ l' ∨ Stable c' x) ∧
    (∀ x ∈ l, x ∈ l') ∧
    ((id = NodeGND ∨ id = NodePWR) ∨ Stable c id →
      (∀ x, c'.getNode x = c.getNode x) ∧ (∀ k, c'.transistors k = c.transistors k) ∧
      ∀ x ∈ l', x ∈ l) := by
  refine ⟨pullDownState_engineInv.step c id l c' l' hw h, ?_⟩
  by_cases hid : id = NodeGND ∨ id = NodePWR
  · rcases recalcNode_spec h with ⟨_, hc, hl'⟩ | ⟨hns, _⟩
    · subst hc; subst hl'
      refine ⟨?_, fun x hx => hx, fun _ => ⟨fun _ => rfl, fun _ => rfl, fun x hx => hx⟩⟩
      intro x hx hor
      rcases hor with e | e
      · rw [e] at hx; exact absurd hid hx
      · exact Or.inr e
    · exact absurd hid hns
  · have hsome : ∃ n, c.getNode id = some n := by
      cases hn : c.getNode id with
      | none => unfold recalcNode at h; simp [hn] at h
      | some n => exact ⟨n, rfl⟩
    obtain ⟨n, hn⟩ := hsome
    obtain ⟨v, hlk, hnl, hself, hother, hnone, htr, hsub, hfrom⟩ := pullDown_step hw hid hn h
    -- a transistor that conducts in one state and not in the other has its C1 node
    -- on the worklist
    have hlinked : ∀ x, x ∉ l' → (Linked c' x ↔ Linked c x) := by
      intro x hx
      constructor
      · intro ⟨k, t', ht', hon, hc1⟩
        cases h0 : c.transistors k with
        | none => rw [hnone k h0] at ht'; simp at ht'
        | some t =>
          rcases htr k t h0 with e | ⟨_, _, e, henq⟩
          · rw [e] at ht'
            simp only [Option.some.injEq] at ht'
            subst ht'
            exact ⟨k, t, h0, hon, hc1⟩
          · rw [e] at ht'
            simp only [Option.some.injEq] at ht'
            subst ht'
            have hv : v = true := hon
            by_cases hton : t.On = true
            · exact ⟨k, t, h0, hton, hc1⟩
            · have : t.On = !v := by rw [hv]; simpa using hton
              exact absurd (by rw [← hc1]; exact henq this) hx
      · intro ⟨k, t, ht, hon, hc1⟩
        rcases htr k t ht with e | ⟨_, _, e, henq⟩
        · exact ⟨k, t, e, hon, hc1⟩
        · by_cases hv : v = true
          · exact ⟨k, _, e, hv, hc1⟩
          · have : t.On = !v := by
              have hv' : v = false := by simpa using hv
              rw [hv', hon]; rfl
            exact absurd (by rw [← hc1]; exact henq this) hx
    refine ⟨?_, hsub, ?_⟩
    · intro x hx hor
      by_cases hxl : x ∈ l'
      · exact Or.inl hxl
      · right
        have hiff := hlinked x hxl
        by_cases hxid : x = id
        · subst hxid
          intro m hm
          rw [hself] at hm
          simp only [Option.some.injEq] at hm
          subst hm
          constructor
          · intro hl1
            exact hlk (hiff.1 hl1)
          · intro hl1
            have hv := hnl (fun hl0 => hl1 (hiff.2 hl0))
            show v = aloneValue { n with State := v }
            rw [hv, aloneValue_set]
        · have hst : Stable c x := by
            rcases hor with e | e
            · exact absurd e hxid
            · exact e
          intro m hm
          rw [hother x hxid] at hm
          obtain ⟨h1, h2⟩ := hst m hm
          exact ⟨fun hl1 => h1 (hiff.1 hl1), fun hl1 => h2 (fun hl0 => hl1 (hiff.2 hl0))⟩
    · intro hor
      have hst : Stable c id := by
        rcases hor with e | e
        · exact absurd e hid
        · exact e
      have hv : n.State = v := by
        obtain ⟨h1, h2⟩ := hst n hn
        by_cases hl0 : Linked c id
        · rw [h1 hl0, hlk hl0]
        · rw [hnl hl0]; exact h2 hl0
      refine ⟨?_, ?_, ?_⟩
      · intro x
        by_cases hxid : x = id
        · subst hxid
          rw [hself, hn, ← hv]
        · exact hother x hxid
      · intro k
        cases h0 : c.transistors k with
        | none => exact hnone k h0
        | some t =>
          rcases htr k t h0 with e | ⟨hne, _, _, _⟩
          · exact e
          · exact absurd hv hne
      · intro x hx
        rcases hfrom x hx with e | e
        · exact e
        · exact absurd hv e

/-! ## The engine leaves every node stable -/

/-- One round of the engine on a pull-down netlist: every node that is neither
stable nor still to be visited is on the next worklist. -/
theorem recalcRound_stable : ∀ (visit : List Nat) (c : CPU) (l : List Nat) (c' : CPU)
    (l' : List Nat), PullDownState c →
    (∀ x, ¬ (x = NodeGND ∨ x = NodePWR) → x ∈ visit ∨ x ∈ l ∨ Stable c x) →
    visit.foldlM (fun (acc : CPU × List Nat) (id : Nat) => recalcNode acc.1 id acc.2) (c, l)
      = some (c', l') →
    PullDownState c' ∧ ∀ x, ¬ (x = NodeGND ∨ x = NodePWR) → x ∈ l' ∨ Stable c' x := by
  intro visit
  induction visit with
  | nil =>
    intro c l c' l' hw hst h
    simp only [List.foldlM_nil, pure, Option.some.injEq, Prod.mk.injEq] at h
    obtain ⟨h1, h2⟩ := h
    subst h1; subst h2
    refine ⟨hw, fun x hx => ?_⟩
    rcases hst x hx with e | e | e
    · simp at e
    · exact Or.inl e
    · exact Or.inr e
  | cons id rest ih =>
    intro c l c' l' hw hst h
    simp only [List.foldlM_cons, bind, Option.bind_eq_some] at h
    obtain ⟨⟨c1, l1⟩, h1, h2⟩ := h
    obtain ⟨hw1, hB, hC, _⟩ := pullDown_recalc hw h1
    refine ih c1 l1 c' l' hw1 ?_ h2
    intro x hx
    rcases hst x hx with e | e | e
    · rcases List.mem_cons.1 e with e1 | e1
      · rcases hB x hx (Or.inl e1) with e2 | e2
        · exact Or.inr (Or.inl e2)
        · exact Or.inr (Or.inr e2)
      · exact Or.inl e1
    · exact Or.inr (Or.inl (hC x e))
    · rcases hB x hx (Or.inr e) with e2 | e2
      · exact Or.inr (Or.inl e2)
      · exact Or.inr (Or.inr e2)

/-- When `recalcNodeList` returns on a pull-down netlist from a worklist that holds
every node that is not stable, every node is stable. -/
theorem recalcNodeList_stable (order : List Nat → List Nat) (hord : ∀ w, (order w).Perm w) :
    ∀ (rounds : Nat) (c : CPU) (l : List Nat) (c' : CPU), PullDownState c →
    (∀ x, ¬ (x = NodeGND ∨ x = NodePWR) → x ∈ l ∨ Stable c x) →
    recalcNodeList order rounds c l = some c' → PullDownState c' ∧ AllStable c' := by
  intro rounds
  induction rounds with
  | zero =>
    intro c l c' hw hst h
    cases l with
    | nil =>
      simp only [recalcNodeList, Option.some.injEq] at h
      subst h
      exact ⟨hw, fun x hx => (hst x hx).resolve_left (by simp)⟩
    | cons a l => simp [recalcNodeList] at h
  | succ rounds ih =>
    intro c l c' hw hst h
    cases l with
    | nil =>
      simp only [recalcNodeList, Option.some.injEq] at h
      subst h
      exact ⟨hw, fun x hx => (hst x hx).resolve_left (by simp)⟩
    | cons a l =>
      simp only [recalcNodeList] at h
      cases hr : recalcRound c (order (a :: l)) with
      | none => simp [hr] at h
      | some r =>
        obtain ⟨c1, next⟩ := r
        simp only [hr] at h
        obtain ⟨hw1, hst1⟩ := recalcRound_stable (order (a :: l)) c [] c1 next hw
          (fun x hx => by
            rcases hst x hx with e | e
            · exact Or.inl ((hord _).mem_iff.2 e)
            · exact Or.inr (Or.inr e)) hr
        exact ih c1 next c' hw1 hst1 h

/-- Stability reads the nodes and the transistors only. -/
theorem stable_congr {c d : CPU} (hn : ∀ x, d.getNode x = c.getNode x)
    (ht : ∀ k, d.transistors k = c.transistors k) {x : Nat} (h : Stable c x) : Stable d x := by
  have hl : Linked d x ↔ Linked c x := by
    constructor
    · intro ⟨k, t, h1, h2, h3⟩
      exact ⟨k, t, by rw [← ht]; exact h1, h2, h3⟩
    · intro ⟨k, t, h1, h2, h3⟩
      exact ⟨k, t, by rw [ht]; exact h1, h2, h3⟩
  intro n hnx
  rw [hn] at hnx
  obtain ⟨h1, h2⟩ := h n hnx
  exact ⟨fun hl1 => h1 (hl.1 hl1), fun hl1 => h2 (fun hl0 => hl1 (hl.2 hl0))⟩

/-- A write to the node `i` leaves the other nodes stable. -/
theorem stable_setNode {c : CPU} {i x : Nat} (m : Node) (hi : i < NodeDefCount) (hx : x ≠ i)
    (h : Stable c x) : Stable (c.setNode i m) x := by
  have hl : Linked (c.setNode i m) x ↔ Linked c x := Iff.rfl
  intro n hnx
  rw [getNode_setNode _ _ _ _ hi, if_neg hx] at hnx
  obtain ⟨h1, h2⟩ := h n hnx
  exact ⟨fun hl1 => h1 (hl.1 hl1), fun hl1 => h2 (fun hl0 => hl1 (hl.2 hl0))⟩

theorem settled_setPulls {order : List Nat → List Nat} (hord : ∀ w, (order w).Perm w)
    {rounds : Nat} {c c' : CPU} {i : Nat} {n : Node} (pu : Bool) (pd : Int) (h0 : Settled c)
    (hn : c.getNode i = some n)
    (h : recalcNodeList order rounds (c.setNode i { n with PullUp := pu, PullDown := pd }) [i]
      = some c') : Settled c' := by
  have hi : i < NodeDefCount := (getNode_eq_some.1 hn).1
  refine recalcNodeList_stable order hord rounds _ [i] c'
    (pullDownState_engineInv.pulls c i n pu pd h0.1 hn) ?_ h
  intro x hx
  by_cases hxi : x = i
  · exact Or.inl (by rw [hxi]; exact List.mem_singleton.2 rfl)
  · exact Or.inr (stable_setNode _ hi hxi (h0.2 x hx))

theorem settled_setLow {order : List Nat → List Nat} (hord : ∀ w, (order w).Perm w)
    {rounds : Nat} {c c' : CPU} {id : Nat} (h0 : Settled c)
    (h : setLow order rounds c id = some c') : Settled c' := by
  unfold Netsim.setLow at h
  cases hn : c.getNode id with
  | none => simp [hn] at h
  | some n =>
    simp only [hn] at h
    exact settled_setPulls hord false 1 h0 hn h

theorem settled_setHigh {order : List Nat → List Nat} (hord : ∀ w, (order w).Perm w)
    {rounds : Nat} {c c' : CPU} {id : Nat} (h0 : Settled c)
    (h : setHigh order rounds c id = some c') : Settled c' := by
  unfold Netsim.setHigh at h
  cases hn : c.getNode id with
  | none => simp [hn] at h
  | some n =>
    simp only [hn] at h
    exact settled_setPulls hord true 0 h0 hn h

theorem settled_clockCycles {order : List Nat → List Nat} (hord : ∀ w, (order w).Perm w)
    {rounds : Nat} : ∀ (n : Nat) (c c' : CPU), Settled c →
    clockCycles order rounds n c = some c' → Settled c' := by
  intro n
  induction n with
  | zero =>
    intro c c' h0 h
    simp only [Netsim.clockCycles, Option.some.injEq] at h
    subst h; exact h0
  | succ n ih =>
    intro c c' h0 h
    simp only [Netsim.clockCycles, Option.bind_eq_some] at h
    obtain ⟨c1, h1, c2, h2, h3⟩ := h
    exact ih c2 c' (settled_setLow hord (settled_setHigh hord h0 h1) h2) h3

/-- The loop of `handleBusRead` over the data lines leaves stable every node that was
stable and is no data line. -/
theorem driveData_stable (data : Nat) : ∀ (lines : List (Nat × Nat)) (done : List Nat)
    (c c' : CPU), PullDownState c →
    (∀ x, ¬ (x = NodeGND ∨ x = NodePWR) → x ∈ done ∨ Stable c x) →
    driveData data c lines = some c' →
    PullDownState c' ∧
      ∀ x, ¬ (x = NodeGND ∨ x = NodePWR) → x ∈ done ++ lines.map Prod.snd ∨ Stable c' x := by
  intro lines
  induction lines with
  | nil =>
    intro done c c' hw hst h
    simp only [Netsim.driveData, Option.some.injEq] at h
    subst h
    refine ⟨hw, fun x hx => ?_⟩
    rcases hst x hx with e | e
    · exact Or.inl (List.mem_append_left _ e)
    · exact Or.inr e
  | cons ln lines ih =>
    intro done c c' hw hst h
    obtain ⟨bit, nodeID⟩ := ln
    simp only [Netsim.driveData] at h
    cases hn : c.getNode nodeID with
    | none => simp [hn] at h
    | some n =>
      simp only [hn] at h
      have hi : nodeID < NodeDefCount := (getNode_eq_some.1 hn).1
      obtain ⟨hw', hst'⟩ := ih (done ++ [nodeID]) _ c' (by
          by_cases hb : data &&& (1 <<< bit) ≠ 0
          · rw [if_pos hb]; exact pullDownState_engineInv.pulls c nodeID n true 0 hw hn
          · rw [if_neg hb]; exact pullDownState_engineInv.pulls c nodeID n false 1 hw hn)
        (by
          intro x hx
          by_cases hxi : x = nodeID
          · exact Or.inl (List.mem_append_right _ (by rw [hxi]; exact List.mem_singleton.2 rfl))
          · rcases hst x hx with e | e
            · exact Or.inl (List.mem_append_left _ e)
            · exact Or.inr (stable_setNode _ hi hxi e)) h
      refine ⟨hw', fun x hx => ?_⟩
      rcases hst' x hx with e | e
      · left
        simp only [List.map_cons, List.mem_append, List.mem_cons, List.mem_singleton,
          List.not_mem_nil, or_false] at e ⊢
        tauto
      · exact Or.inr e

theorem settled_handleBusRead {order : List Nat → List Nat} (hord : ∀ w, (order w).Perm w)
    {rounds : Nat} {c c' : CPU} (h0 : Settled c)
    (h : handleBusRead order rounds c = some c') : Settled c' := by
  unfold Netsim.handleBusRead at h
  cases hn : c.getNode NodeRW with
  | none => simp [hn] at h
  | some rw =>
    simp only [hn] at h
    by_cases hs : rw.State = true
    · rw [if_pos hs] at h
      simp only [readAddressBus, Option.bind_eq_some, Option.map_eq_some'] at h
      obtain ⟨⟨c1, address⟩, ⟨a, _, ha⟩, c3, h3, h4⟩ := h
      simp only [Prod.mk.injEq] at ha
      obtain ⟨hc1, haddr⟩ := ha
      subst hc1
      obtain ⟨hw3, hst3⟩ := driveData_stable _ _ [] _ c3
        (pullDownState_engineInv.regs c a c.dataBits _ h0.1)
        (fun x hx => Or.inr (stable_congr (fun _ => rfl) (fun _ => rfl) (h0.2 x hx))) h3
      exact recalcNodeList_stable order hord rounds c3 _ c' hw3
        (fun x hx => by simpa using hst3 x hx) h4
    · rw [if_neg hs] at h
      simp only [Option.some.injEq] at h
      subst h; exact h0

theorem settled_handleBusWrite {c c' : CPU} (h0 : Settled c)
    (h : handleBusWrite c = some c') : Settled c' := by
  refine ⟨pullDownState_engineInv.handleBusWrite h0.1 h, fun x hx => ?_⟩
  have hnodes := handleBusWrite_nodes h
  have htr : c'.transistors = c.transistors := by
    unfold Netsim.handleBusWrite at h
    cases hn : c.getNode NodeRW with
    | none => simp [hn] at h
    | some rw =>
      simp only [hn] at h
      by_cases hs : rw.State = false
      · rw [if_pos hs] at h
        simp only [readAddressBus, readDataBus, Option.bind_eq_some, Option.map_eq_some'] at h
        obtain ⟨⟨c1, address⟩, ⟨a, _, ha⟩, ⟨c2, data⟩, ⟨d, _, hd⟩, h4⟩ := h
        simp only [Prod.mk.injEq] at ha hd
        obtain ⟨hc1, _⟩ := ha
        obtain ⟨hc2, _⟩ := hd
        subst hc1; subst hc2
        simp only [Option.some.injEq] at h4
        subst h4
        rfl
      · rw [if_neg hs] at h
        simp only [Option.some.injEq] at h
        subst h; rfl
  exact stable_congr (fun y => getNode_of_nodes c c' y (by rw [hnodes]))
    (fun k => by rw [htr]) (h0.2 x hx)

theorem settled_halfStep {order : List Nat → List Nat} (hord : ∀ w, (order w).Perm w)
    {rounds : Nat} {c c' : CPU} (h0 : Settled c) (h : HalfStep order rounds c = some c') :
    Settled c' := by
  unfold HalfStep at h
  cases hn : c.getNode NodeCLK0 with
  | none => simp [hn] at h
  | some clk0 =>
    simp only [hn] at h
    by_cases hs : clk0.State = true
    · rw [if_pos hs] at h
      simp only [Option.bind_eq_some] at h
      obtain ⟨c1, h1, h2⟩ := h
      exact settled_handleBusRead hord (settled_setLow hord h0 h1) h2
    · rw [if_neg hs] at h
      simp only [Option.bind_eq_some] at h
      obtain ⟨c1, h1, h2⟩ := h
      exact settled_handleBusWrite (settled_setHigh hord h0 h1) h2

theorem settled_halfSteps {order : List Nat → List Nat} (hord : ∀ w, (order w).Perm w)
    {rounds : Nat} : ∀ (n : Nat) (c c' : CPU), Settled c →
    halfSteps order rounds n c = some c' → Settled c' := by
  intro n
  induction n with
  | zero =>
    intro c c' h0 h
    simp only [halfSteps, Option.some.injEq] at h
    subst h; exact h0
  | succ n ih =>
    intro c c' h0 h
    simp only [halfSteps, Option.bind_eq_some] at h
    obtain ⟨c1, h1, h2⟩ := h
    exact ih c1 c' (settled_halfStep hord h0 h1) h2

theorem mem_allNodes {c : CPU} {x : Nat} : x ∈ allNodes c ↔ (c.getNode x).isSome = true := by
  unfold allNodes CPU.getNode
  simp only [List.mem_filter, List.mem_range]
  by_cases h : x < NodeDefCount <;> simp [h]

/-- After `Reset` on a pull-down netlist every node is stable. -/
theorem settled_reset {order : List Nat → List Nat} (hord : ∀ w, (order w).Perm w)
    {rounds : Nat} {c c' : CPU} (h0 : ∀ c0, resetInit c = some c0 → PullDownState c0)
    (h : Reset order rounds c = some c') : Settled c' := by
  unfold Reset at h
  simp only [Option.bind_eq_some] at h
  obtain ⟨c0, e0, c1, e1, c2, e2, c3, e3, c4, e4, c5, e5, c6, e6, c7, e7, c8, e8, c9, e9, e10⟩ := h
  have hP := pullDownState_engineInv
  have p6 : PullDownState c6 :=
    hP.setHigh (hP.setHigh (hP.setLow (hP.setHigh (hP.setLow (hP.setLow (h0 c0 e0) e1) e2) e3) e4)
      e5) e6
  have p7 : Settled c7 := recalcNodeList_stable order hord rounds c6 _ c7 p6 (by
    intro x hx
    by_cases hex : (c6.getNode x).isSome = true
    · exact Or.inl (mem_allNodes.2 hex)
    · right
      intro n hn
      rw [hn] at hex
      exact absurd rfl hex) e7
  exact settled_clockCycles hord 6 c9 c'
    (settled_setHigh hord (settled_clockCycles hord 8 c7 c8 p7 e8) e9) e10

theorem fixed_recalcNode {c : CPU} (h0 : Settled c) (id : Nat) (l : List Nat)
    (hid : (c.getNode id).isSome = true) :
    ∃ r, recalcNode c id l = some r ∧ (∀ x, r.1.getNode x = c.getNode x) ∧
      (∀ k, r.1.transistors k = c.transistors k) ∧ ∀ x ∈ r.2, x ∈ l := by
  obtain ⟨⟨c', l'⟩, h⟩ := recalcNode_total h0.1.1 id l hid
  obtain ⟨_, _, _, hD⟩ := pullDown_recalc h0.1 h
  refine ⟨(c', l'), h, hD ?_⟩
  by_cases hs : id = NodeGND ∨ id = NodePWR
  · exact Or.inl hs
  · exact Or.inr (h0.2 id hs)

theorem fixed_round : ∀ (visit : List Nat) (c : CPU) (l : List Nat), Settled c →
    (∀ x ∈ visit, (c.getNode x).isSome = true) →
    ∃ c' l', visit.foldlM (fun (acc : CPU × List Nat) (id : Nat) =>
        recalcNode acc.1 id acc.2) (c, l) = some (c', l') ∧
      (∀ x, c'.getNode x = c.getNode x) ∧ (∀ k, c'.transistors k = c.transistors k) ∧
      ∀ x ∈ l', x ∈ l := by
  intro visit
  induction visit with
  | nil =>
    intro c l _ _
    exact ⟨c, l, rfl, fun _ => rfl, fun _ => rfl, fun _ hx => hx⟩
  | cons id rest ih =>
    intro c l h0 hex
    obtain ⟨⟨c1, l1⟩, h1, hn1, ht1, hl1⟩ :=
      fixed_recalcNode h0 id l (hex id (List.mem_cons_self _ _))
    have hs1 : Settled c1 :=
      ⟨pullDownState_engineInv.step c id l c1 l1 h0.1 h1,
        fun x hx => stable_congr hn1 ht1 (h0.2 x hx)⟩
    obtain ⟨c', l', h2, hn2, ht2, hl2⟩ := ih c1 l1 hs1
      (fun x hx => by rw [hn1]; exact hex x (List.mem_cons_of_mem _ hx))
    refine ⟨c', l', ?_, fun x => by rw [hn2, hn1], fun k => by rw [ht2, ht1],
      fun x hx => hl1 x (hl2 x hx)⟩
    simp only [List.foldlM_cons, bind, Option.bind_eq_some]
    exact ⟨(c1, l1), h1, h2⟩

/-- A settled state is a fixed point of the engine. -/
theorem settled_fixedPoint {c : CPU} (h0 : Settled c) : FixedPoint c := by
  refine ⟨fun id l hid => fixed_recalcNode h0 id l hid, ?_⟩
  intro order rounds hord hr
  cases hl : allNodes c with
  | nil =>
    refine ⟨c, ?_, fun _ => rfl, fun _ => rfl⟩
    cases rounds <;> rfl
  | cons a rest =>
    obtain ⟨rounds, rfl⟩ : ∃ m, rounds = m + 1 := ⟨rounds - 1, by omega⟩
    obtain ⟨c', l', h1, hn, ht, hl'⟩ := fixed_round (order (a :: rest)) c [] h0
      (fun x hx => mem_allNodes.1 (by rw [hl]; exact (hord _).mem_iff.1 hx))
    have hnil : l' = [] := by
      rw [List.eq_nil_iff_forall_not_mem]
      intro x hx
      exact absurd (hl' x hx) (by simp)
    subst hnil
    refine ⟨c', ?_, hn, ht⟩
    have h1' : recalcRound c (order (a :: rest)) = some (c', []) := h1
    show (match recalcRound c (order (a :: rest)) with
      | none => none
      | some (c1, next) => recalcNodeList order rounds c1 next) = some c'
    rw [h1']
    cases rounds <;> rfl

theorem pullDownState_of_new {rd : List BusCall → Nat → Nat}
    {transDefs segDefs : List (List Int)} {visit : List TransDef → List TransDef} {c c0 : CPU}
    (hvisit : ∀ l, (visit l).Perm l) (hnew : New rd transDefs segDefs visit = some c)
    (hnet : PullDownNet c) (h0 : resetInit c = some c0) : PullDownState c0 := by
  obtain ⟨hn, ht, _⟩ := resetInit_spec h0
  refine ⟨wired_of_new hvisit hnew h0, ?_, ?_⟩
  · intro n hg
    rw [hn] at hg
    cases hc : c.getNode NodeGND with
    | none => simp [hc] at hg
    | some g =>
      simp only [hc, Option.map_some', Option.some.injEq] at hg
      subst hg
      show decide (NodeGND = NodePWR) = false
      decide
  · intro k t' ht'
    rw [ht] at ht'
    cases hc : c.transistors k with
    | none => simp [hc] at ht'
    | some t =>
      simp only [hc, Option.map_some', Option.some.injEq] at ht'
      subst ht'
      exact hnet k t hc

/-- C3, amended. For every pull-down netlist loaded by `New` (every transistor joins
a node that is no supply to GND), after `Reset` returns and after every later
`HalfStep` returns, the state is a fixed point of the engine: `recalcNode` on any
existing node returns, changes no `State` and no `On` flag and enqueues no node, and
`recalcNodeList` on the set of all nodes returns and changes no `State` and no `On`
flag. -/
theorem pulldown_state_is_fixed_point (rd : List BusCall → Nat → Nat)
    (transDefs segDefs : List (List Int)) (visit : List TransDef → List TransDef)
    (order : List Nat → List Nat) (rounds : Nat) (c c1 : CPU)
    (hvisit : ∀ l, (visit l).Perm l) (hord : ∀ w, (order w).Perm w)
    (hnew : New rd transDefs segDefs visit = some c) (hnet : PullDownNet c)
    (hr : Reset order rounds c = some c1) :
    FixedPoint c1 ∧ ∀ n c2, halfSteps order rounds n c1 = some c2 → FixedPoint c2 := by
  have h1 : Settled c1 :=
    settled_reset hord (fun c0 h0 => pullDownState_of_new hvisit hnew hnet h0) hr
  exact ⟨settled_fixedPoint h1,
    fun n c2 h2 => settled_fixedPoint (settled_halfSteps hord n c1 c2 h1 h2)⟩

theorem pullDownNet_of_new {rd : List BusCall → Nat → Nat}
    {transDefs segDefs : List (List Int)} {visit : List TransDef → List TransDef} {c : CPU}
    (hnew : New rd transDefs segDefs visit = some c)
    (hdefs : ∀ td ∈ setupTransistors transDefs [], pullDownDef td = true) : PullDownNet c := by
  intro k t ht
  obtain ⟨td, hmem, _, _, e2, e3⟩ := New_transistor hnew ht
  have := hdefs td hmem
  simp only [pullDownDef, Bool.and_eq_true, decide_eq_true_eq] at this
  rw [e2, e3]
  exact ⟨this.1, this.2⟩

/-- On `pullNet`, `New`, `Reset` and two calls of `HalfStep` return, and the two
calls change the `State` of the nodes D0, 1 and 2. -/
theorem pullNet_run :
    pullNet.isSome = true ∧ (Reset id 100 pullLoaded).isSome = true ∧
    (halfSteps id 100 2 pullReset).isSome = true ∧
    (∀ td ∈ setupTransistors [[0, 1171, 1005, 558], [1, 1005, 1, 558], [2, 1, 2, 558]] [],
      pullDownDef td = true) ∧
    [stateOf pullReset NodeCLK0, stateOf pullReset 1005, stateOf pullReset 1,
      stateOf pullReset 2] = [false, false, true, false] ∧
    [stateOf pullStep NodeCLK0, stateOf pullStep 1005, stateOf pullStep 1,
      stateOf pullStep 2] = [false, true, false, true] := by
  decide!

theorem pullNet_eq : pullNet = some pullLoaded :=
  some_getD _ _ pullNet_run.1

theorem pullReset_eq : Reset id 100 pullLoaded = some pullReset :=
  some_getD _ _ pullNet_run.2.1

theorem pullStep_eq : halfSteps id 100 2 pullReset = some pullStep :=
  some_getD _ _ pullNet_run.2.2.1

/-- Witness of `pulldown_state_is_fixed_point` at the netlist `pullNet`: `Reset`
returns, two calls of `HalfStep` return, and both states are fixed points. -/
theorem pulldown_state_is_fixed_point_witness :
    (∀ l : List TransDef, (id l).Perm l) ∧ (∀ w : List Nat, (id w).Perm w) ∧
    New oneHost [[0, 1171, 1005, 558], [1, 1005, 1, 558], [2, 1, 2, 558]]
      ([[1, 1], [2, 1]] ++ busSegs) id = some pullLoaded ∧
    PullDownNet pullLoaded ∧
    Reset id 100 pullLoaded = some pullReset ∧
    halfSteps id 100 2 pullReset = some pullStep ∧
    FixedPoint pullReset ∧ FixedPoint pullStep :=
  ⟨id_perm, fun w => List.Perm.refl w, pullNet_eq,
   pullDownNet_of_new pullNet_eq pullNet_run.2.2.2.1, pullReset_eq, pullStep_eq,
   (pulldown_state_is_fixed_point oneHost
      [[0, 1171, 1005, 558], [1, 1005, 1, 558], [2, 1, 2, 558]] ([[1, 1], [2, 1]] ++ busSegs)
      id id 100 pullLoaded pullReset id_perm (fun w => List.Perm.refl w) pullNet_eq
      (pullDownNet_of_new pullNet_eq pullNet_run.2.2.2.1) pullReset_eq).1,
   (pulldown_state_is_fixed_point oneHost
      [[0, 1171, 1005, 558], [1, 1005, 1, 558], [2, 1, 2, 558]] ([[1, 1], [2, 1]] ++ busSegs)
      id id 100 pullLoaded pullReset id_perm (fun w => List.Perm.refl w) pullNet_eq
      (pullDownNet_of_new pullNet_eq pullNet_run.2.2.2.1) pullReset_eq).2 2 pullStep
      pullStep_eq⟩

theorem map_some_of {α β : Type} {f : α → β} {o1 o2 : Option α} {a : α}
    (h : o1.map f = o2.map f) (h1 : o1 = some a) : ∃ b, o2 = some b ∧ f b = f a := by
  subst h1
  cases o2 with
  | none => simp at h
  | some b =>
    simp only [Option.map_some', Option.some.injEq] at h
    exact ⟨b, rfl, h.symm⟩

theorem frame_refl (c : CPU) : Frame c c :=
  ⟨fun _ => rfl, fun _ => rfl, rfl, fun _ _ h _ => h, fun _ _ h _ _ _ => by rw [h]; rfl⟩

/-- One call of `recalcNode` on a pull-down netlist keeps the frame. -/
theorem frame_step {c d d' : CPU} {id : Nat} {l l' : List Nat} (hw : PullDownState d)
    (hf : Frame c d) (h : recalcNode d id l = some (d', l')) : Frame c d' := by
  by_cases hid : id = NodeGND ∨ id = NodePWR
  · rcases recalcNode_spec h with ⟨_, hc, _⟩ | ⟨hns, _⟩
    · rw [hc]; exact hf
    · exact absurd hid hns
  · have hsome : ∃ n, d.getNode id = some n := by
      cases hn : d.getNode id with
      | none => unfold recalcNode at h; simp [hn] at h
      | some n => exact ⟨n, rfl⟩
    obtain ⟨n, hn⟩ := hsome
    obtain ⟨v, hlk, hnl, hself, hother, hnone, htr, _, _⟩ := pullDown_step hw hid hn h
    obtain ⟨f1, f2, f3, f4, f5⟩ := hf
    refine ⟨?_, ?_, ?_, ?_, ?_⟩
    · intro x
      by_cases hx : x = id
      · subst hx
        rw [hself, ← f1, hn]; rfl
      · rw [hother x hx]; exact f1 x
    · intro k
      cases h0 : d.transistors k with
      | none => rw [hnone k h0, ← f2, h0]
      | some t =>
        rcases htr k t h0 with e | ⟨_, _, e, _⟩
        · rw [e, ← f2, h0]
        · rw [e, ← f2, h0]; rfl
    · rw [hother NodePWR (fun e => hid (Or.inr e.symm))]; exact f3
    · intro k t ht hg
      have hd := f4 k t ht hg
      rcases htr k t hd with e | ⟨_, e, _, _⟩
      · exact e
      · rw [hg] at e
        exact absurd (Or.inr e.symm) hid
    · intro x m hm hnc hpu hpd
      by_cases hx : x = id
      · subst hx
        have hst := f5 x m hm hnc hpu hpd
        rw [hn] at hst
        simp only [Option.map_some', Option.some.injEq] at hst
        have hp := f1 x
        rw [hn, hm] at hp
        simp only [Option.map_some', Option.some.injEq, Prod.mk.injEq] at hp
        have hnl' : ¬ Linked d x := by
          intro ⟨k, t, ht, _, hc1⟩
          obtain ⟨tc, htc, e⟩ := map_some_of (f2 k) ht
          simp only [Prod.mk.injEq] at e
          exact hnc k tc htc (by rw [e.2]; exact hc1)
        have hv : v = n.State := by
          rw [hnl hnl']
          unfold aloneValue
          rw [hp.1, hpu]
          simp only [Bool.false_eq_true, if_false]
          rw [if_neg (by rw [hp.2]; exact hpd)]
        rw [hself]
        simp only [Option.map_some', Option.some.injEq]
        rw [hv]; exact hst
      · rw [hother x hx]; exact f5 x m hm hnc hpu hpd

/-- The engine keeps the frame of the state it starts from. -/
theorem recalcNodeList_frame (order : List Nat → List Nat) (rounds : Nat) (c c' : CPU)
    (l : List Nat) (hw : PullDownState c) (h : recalcNodeList order rounds c l = some c') :
    Frame c c' :=
  (recalcNodeList_keeps_all (fun d => PullDownState d ∧ Frame c d) order
    (fun d id l d' l' hd hh =>
      ⟨pullDownState_engineInv.step d id l d' l' hd.1 hh, frame_step hd.1 hd.2 hh⟩)
    rounds c l c' ⟨hw, frame_refl c⟩ h).2

/-- Two stable states of a levelled pull-down netlist with driven channel nodes that
keep the frame of one state agree on the `State` of every node. -/
theorem stable_unique {c d1 d2 : CPU} {r : Nat → Nat} (hdr : Driven c) (hlev : GateBelow c r)
    (hw1 : PullDownState d1) (hw2 : PullDownState d2) (hs1 : AllStable d1) (hs2 : AllStable d2)
    (hg1 : GateInv d1) (hg2 : GateInv d2) (hf1 : Frame c d1) (hf2 : Frame c d2) :
    ∀ m x, r x = m → (d1.getNode x).map Node.State = (d2.getNode x).map Node.State := by
  intro m
  induction m using Nat.strong_induction_on with
  | _ m ih =>
    intro x hrx
    obtain ⟨a1, a2, a3, a4, a5⟩ := hf1
    obtain ⟨b1, b2, b3, b4, b5⟩ := hf2
    cases hc : c.getNode x with
    | none =>
      have e1 := a1 x
      have e2 := b1 x
      rw [hc] at e1 e2
      simp only [Option.map_none', Option.map_eq_none'] at e1 e2
      rw [e1, e2]
    | some n =>
      cases hn1 : d1.getNode x with
      | none =>
        have e1 := a1 x
        rw [hc, hn1] at e1
        simp at e1
      | some n1 =>
        cases hn2 : d2.getNode x with
        | none =>
          have e2 := b1 x
          rw [hc, hn2] at e2
          simp at e2
        | some n2 =>
          simp only [Option.map_some', Option.some.injEq]
          have p1 := a1 x
          have p2 := b1 x
          rw [hc, hn1] at p1
          rw [hc, hn2] at p2
          simp only [Option.map_some', Option.some.injEq, Prod.mk.injEq] at p1 p2
          by_cases hg : x = NodeGND
          · rw [hw1.2.1 n1 (by rw [← hg]; exact hn1), hw2.2.1 n2 (by rw [← hg]; exact hn2)]
          · by_cases hp : x = NodePWR
            · rw [hp] at hn1 hn2
              rw [a3] at hn1
              rw [b3] at hn2
              rw [hn1] at hn2
              simp only [Option.some.injEq] at hn2
              rw [hn2]
            · have hx : ¬ (x = NodeGND ∨ x = NodePWR) := fun e => e.elim hg hp
              obtain ⟨s1a, s1b⟩ := hs1 x hx n1 hn1
              obtain ⟨s2a, s2b⟩ := hs2 x hx n2 hn2
              -- transistors on `x` conduct in both states or in neither
              have hon : ∀ (e1 e2 : CPU), GateInv e1 → GateInv e2 → Wired e1 → Wired e2 →
                  (∀ k, (e1.transistors k).map (fun t => (t.GateNodeID, t.C1NodeID)) =
                    (c.transistors k).map (fun t => (t.GateNodeID, t.C1NodeID))) →
                  (∀ k, (e2.transistors k).map (fun t => (t.GateNodeID, t.C1NodeID)) =
                    (c.transistors k).map (fun t => (t.GateNodeID, t.C1NodeID))) →
                  (∀ k t, c.transistors k = some t → t.GateNodeID = NodePWR →
                    e1.transistors k = some t) →
                  (∀ k t, c.transistors k = some t → t.GateNodeID = NodePWR →
                    e2.transistors k = some t) →
                  (∀ y, r y < m →
                    (e1.getNode y).map Node.State = (e2.getNode y).map Node.State) →
                  Linked e1 x → Linked e2 x := by
                intro e1 e2 g1 g2 w1 w2 t1 t2 v1 v2 hih ⟨k, t, ht, hon, hc1⟩
                obtain ⟨tc, htc, e⟩ := map_some_of (t1 k) ht
                simp only [Prod.mk.injEq] at e
                obtain ⟨t', ht', e'⟩ := map_some_of (t2 k).symm htc
                simp only [Prod.mk.injEq] at e'
                refine ⟨k, t', ht', ?_, by rw [e'.2, e.2]; exact hc1⟩
                by_cases hgp : tc.GateNodeID = NodePWR
                · have q1 := v1 k tc htc hgp
                  have q2 := v2 k tc htc hgp
                  rw [ht] at q1
                  rw [ht'] at q2
                  simp only [Option.some.injEq] at q1 q2
                  rw [q2, ← q1]; exact hon
                · obtain ⟨m1, hm1, _⟩ := w1.2.2.1.1 k t ht
                  obtain ⟨m2, hm2, _⟩ := w2.2.2.1.1 k t' ht'
                  have o1 := g1 k t ht (by rw [← e.1]; exact hgp) m1 hm1
                  have o2 := g2 k t' ht' (by rw [e'.1]; exact hgp) m2 hm2
                  have hlt : r t.GateNodeID < m := by
                    have := hlev k tc htc
                    rw [e.1, e.2, hc1, hrx] at this
                    exact this
                  have hsame := hih t.GateNodeID hlt
                  have hgg : t'.GateNodeID = t.GateNodeID := by rw [e'.1, e.1]
                  rw [hgg] at hm2
                  rw [hm1, hm2] at hsame
                  simp only [Option.map_some', Option.some.injEq] at hsame
                  rw [o2, ← hsame, ← o1]; exact hon
              have hih : ∀ y, r y < m →
                  (d1.getNode y).map Node.State = (d2.getNode y).map Node.State :=
                fun y hy => ih (r y) hy y rfl
              have hl12 : Linked d1 x → Linked d2 x :=
                hon d1 d2 hg1 hg2 hw1.1 hw2.1 a2 b2 a4 b4 hih
              have hl21 : Linked d2 x → Linked d1 x :=
                hon d2 d1 hg2 hg1 hw2.1 hw1.1 b2 a2 b4 a4 (fun y hy => (hih y hy).symm)
              by_cases hl1 : Linked d1 x
              · rw [s1a hl1, s2a (hl12 hl1)]
              · have hl2 : ¬ Linked d2 x := fun e => hl1 (hl21 e)
                rw [s1b hl1, s2b hl2]
                by_cases hdrv : n.PullUp = true ∨ n.PullDown = 1
                · unfold aloneValue
                  rw [p1.1, p1.2, p2.1, p2.2]
                  rcases hdrv with e | e
                  · simp [e]
                  · simp [e]
                · have hpu : n.PullUp = false := by
                    cases hq : n.PullUp with
                    | true => exact absurd (Or.inl hq) hdrv
                    | false => rfl
                  have hpd : n.PullDown ≠ 1 := fun e => hdrv (Or.inr e)
                  have hnc : ∀ k t, c.transistors k = some t → t.C1NodeID ≠ x := by
                    intro k t ht e
                    exact hdrv (hdr k t ht n (by rw [e]; exact hc))
                  have q1 := a5 x n hc hnc hpu hpd
                  have q2 := b5 x n hc hnc hpu hpd
                  rw [hn1] at q1
                  rw [hn2] at q2
                  simp only [Option.map_some', Option.some.injEq] at q1 q2
                  unfold aloneValue
                  rw [p1.1, p1.2, p2.1, p2.2, hpu]
                  simp only [Bool.false_eq_true, if_false, if_neg hpd]
                  rw [q1, q2]

/-- C10, amended. On a levelled pull-down netlist whose channel nodes all have a
pull-up or a pull-down (every transistor joins a node that is no supply to GND, and
its gate node lies below that node in a levelling), from a wired state in which
every transistor not gated by VCC has `On` equal to the `State` of its gate node and
the worklist holds every node that is not stable, any two runs of `recalcNodeList`
that visit each worklist in any two orders and both return end with the same `State`
on every node and the same `On` flag on every transistor. -/
theorem levelled_pulldown_order_independent (o1 o2 : List Nat → List Nat) (r1 r2 : Nat)
    (c c1 c2 : CPU) (l : List Nat) (r : Nat → Nat)
    (ho1 : ∀ w, (o1 w).Perm w) (ho2 : ∀ w, (o2 w).Perm w)
    (hw : PullDownState c) (hgi : GateInv c) (hdr : Driven c) (hlev : GateBelow c r)
    (hl : ∀ x, ¬ (x = NodeGND ∨ x = NodePWR) → x ∈ l ∨ Stable c x)
    (h1 : recalcNodeList o1 r1 c l = some c1) (h2 : recalcNodeList o2 r2 c l = some c2) :
    (∀ i, (c1.getNode i).map Node.State = (c2.getNode i).map Node.State) ∧
    (∀ k, (c1.transistors k).map Transistor.On = (c2.transistors k).map Transistor.On) := by
  obtain ⟨hw1, hs1⟩ := recalcNodeList_stable o1 ho1 r1 c l c1 hw hl h1
  obtain ⟨hw2, hs2⟩ := recalcNodeList_stable o2 ho2 r2 c l c2 hw hl h2
  have hg1 : GateLists c1 ∧ GateInv c1 :=
    recalcNodeList_keeps_all _ o1 gate_engineInv.step r1 c l c1 ⟨hw.1.2.2.1, hgi⟩ h1
  have hg2 : GateLists c2 ∧ GateInv c2 :=
    recalcNodeList_keeps_all _ o2 gate_engineInv.step r2 c l c2 ⟨hw.1.2.2.1, hgi⟩ h2
  have hf1 := recalcNodeList_frame o1 r1 c c1 l hw h1
  have hf2 := recalcNodeList_frame o2 r2 c c2 l hw h2
  have hst : ∀ x, (c1.getNode x).map Node.State = (c2.getNode x).map Node.State :=
    fun x => stable_unique hdr hlev hw1 hw2 hs1 hs2 hg1.2 hg2.2 hf1 hf2 (r x) x rfl
  refine ⟨hst, fun k => ?_⟩
  obtain ⟨_, a2, _, a4, _⟩ := hf1
  obtain ⟨_, b2, _, b4, _⟩ := hf2
  cases hc : c.transistors k with
  | none =>
    have e1 := a2 k
    have e2 := b2 k
    rw [hc] at e1 e2
    simp only [Option.map_none', Option.map_eq_none'] at e1 e2
    rw [e1, e2]
  | some tc =>
    obtain ⟨t1, ht1, e1⟩ := map_some_of (a2 k).symm hc
    obtain ⟨t2, ht2, e2⟩ := map_some_of (b2 k).symm hc
    simp only [Prod.mk.injEq] at e1 e2
    rw [ht1, ht2]
    simp only [Option.map_some', Option.some.injEq]
    by_cases hgp : tc.GateNodeID = NodePWR
    · have q1 := a4 k tc hc hgp
      have q2 := b4 k tc hc hgp
      rw [ht1] at q1
      rw [ht2] at q2
      simp only [Option.some.injEq] at q1 q2
      rw [q1, q2]
    · obtain ⟨m1, hm1, _⟩ := hg1.1.1 k t1 ht1
      obtain ⟨m2, hm2, _⟩ := hg2.1.1 k t2 ht2
      have o1' := hg1.2 k t1 ht1 (by rw [e1.1]; exact hgp) m1 hm1
      have o2' := hg2.2 k t2 ht2 (by rw [e2.1]; exact hgp) m2 hm2
      have hsame := hst t1.GateNodeID
      have hgg : t2.GateNodeID = t1.GateNodeID := by rw [e2.1, e1.1]
      rw [hgg] at hm2
      rw [hm1, hm2] at hsame
      simp only [Option.map_some', Option.some.injEq] at hsame
      rw [o1', o2', hsame]

/-! ### The hypotheses on a netlist loaded by `New` -/

theorem gateBelow_of_new {rd : List BusCall → Nat → Nat} {transDefs segDefs : List (List Int)}
    {visit : List TransDef → List TransDef} {c c0 : CPU} {r : Nat → Nat}
    (hnew : New rd transDefs segDefs visit = some c) (h0 : resetInit c = some c0)
    (hdefs : ∀ td ∈ setupTransistors transDefs [], gateBelowDef r td = true) :
    GateBelow c0 r := by
  obtain ⟨_, ht, _⟩ := resetInit_spec h0
  intro k t' ht'
  rw [ht] at ht'
  cases hc : c.transistors k with
  | none => simp [hc] at ht'
  | some t =>
    simp only [hc, Option.map_some', Option.some.injEq] at ht'
    subst ht'
    obtain ⟨td, hmem, _, e1, e2, _⟩ := New_transistor hnew hc
    have := hdefs td hmem
    simp only [gateBelowDef, decide_eq_true_eq] at this
    simp only [e1, e2]
    exact this

theorem driven_of_new {rd : List BusCall → Nat → Nat} {transDefs segDefs : List (List Int)}
    {visit : List TransDef → List TransDef} {c c0 : CPU}
    (hnew : New rd transDefs segDefs visit = some c) (h0 : resetInit c = some c0)
    (hdefs : ∀ td ∈ setupTransistors transDefs [], drivenDef c0 td = true) : Driven c0 := by
  obtain ⟨_, ht, _⟩ := resetInit_spec h0
  intro k t' ht' n hn
  rw [ht] at ht'
  cases hc : c.transistors k with
  | none => simp [hc] at ht'
  | some t =>
    simp only [hc, Option.map_some', Option.some.injEq] at ht'
    subst ht'
    obtain ⟨td, hmem, _, _, e2, _⟩ := New_transistor hnew hc
    have := hdefs td hmem
    have hn' : c0.getNode td.C1NodeID.toNat = some n := by rw [← e2]; exact hn
    simp only [drivenDef, hn', Option.all_some, Bool.or_eq_true, decide_eq_true_eq] at this
    exact this

/-- The worklist of all nodes holds every node that is not stable. -/
theorem allNodes_covers (c : CPU) (x : Nat) : x ∈ allNodes c ∨ Stable c x := by
  by_cases hex : (c.getNode x).isSome = true
  · exact Or.inl (mem_allNodes.2 hex)
  · right
    intro n hn
    rw [hn] at hex
    exact absurd rfl hex

/-- On `forkNet`, `New` and the first statements of `Reset` return, and so do the two
runs of `recalcNodeList`, which differ after the first round and end in the same
view. -/
theorem forkNet_run :
    forkNet.isSome = true ∧ (resetInit forkLoaded).isSome = true ∧
    (recalcNodeList id 10 forkState (allNodes forkState)).isSome = true ∧
    (recalcNodeList List.reverse 10 forkState (allNodes forkState)).isSome = true ∧
    (∀ td ∈ setupTransistors [[0, 1171, 1, 558], [1, 1, 2, 558], [2, 1171, 2, 558]] [],
      pullDownDef td = true ∧ gateBelowDef forkLevel td = true ∧
      drivenDef forkState td = true) ∧
    (recalcRounds id 1 forkState (allNodes forkState)).map (fun p => (forkView p.1, p.2)) =
      some (([true, true, false], [some true, some true, some true]), [2, 1]) ∧
    (recalcRounds List.reverse 1 forkState (allNodes forkState)).map
        (fun p => (forkView p.1, p.2)) =
      some (([true, false, false], [some true, some false, some true]), [1, 2]) ∧
    forkView forkFirst = ([true, false, false], [some true, some false, some true]) ∧
    forkView forkSecond = ([true, false, false], [some true, some false, some true]) := by
  decide!

theorem forkNet_eq : forkNet = some forkLoaded :=
  some_getD _ _ forkNet_run.1

theorem forkState_eq : resetInit forkLoaded = some forkState :=
  some_getD _ _ forkNet_run.2.1

theorem forkFirst_eq : recalcNodeList id 10 forkState (allNodes forkState) = some forkFirst :=
  some_getD _ _ forkNet_run.2.2.1

theorem forkSecond_eq :
    recalcNodeList List.reverse 10 forkState (allNodes forkState) = some forkSecond :=
  some_getD _ _ forkNet_run.2.2.2.1

theorem forkState_pullDown : PullDownState forkState :=
  pullDownState_of_new id_perm forkNet_eq
    (pullDownNet_of_new forkNet_eq (fun td h => (forkNet_run.2.2.2.2.1 td h).1)) forkState_eq

/-- Witness of `levelled_pulldown_order_independent` at the netlist `forkNet`, in the
state the first statements of `Reset` leave, on the worklist of all nodes, visited in
the order of the list and in the reverse order: after the first round node 1 is high
in one run and low in the other, and both runs end in the same state. -/
theorem levelled_pulldown_order_independent_witness :
    (∀ w : List Nat, (id w).Perm w) ∧ (∀ w : List Nat, (List.reverse w).Perm w) ∧
    PullDownState forkState ∧ GateInv forkState ∧ Driven forkState ∧
    GateBelow forkState forkLevel ∧
    (recalcRounds id 1 forkState (allNodes forkState)).map (fun p => (forkView p.1, p.2)) =
      some (([true, true, false], [some true, some true, some true]), [2, 1]) ∧
    (recalcRounds List.reverse 1 forkState (allNodes forkState)).map
        (fun p => (forkView p.1, p.2)) =
      some (([true, false, false], [some true, some false, some true]), [1, 2]) ∧
    recalcNodeList id 10 forkState (allNodes forkState) = some forkFirst ∧
    recalcNodeList List.reverse 10 forkState (allNodes forkState) = some forkSecond ∧
    (∀ i, (forkFirst.getNode i).map Node.State = (forkSecond.getNode i).map Node.State) ∧
    (∀ k, (forkFirst.transistors k).map Transistor.On =
      (forkSecond.transistors k).map Transistor.On) :=
  ⟨fun w => List.Perm.refl w, fun w => List.reverse_perm w, forkState_pullDown,
   (resetInit_gate (New_gateLists id_visits forkNet_eq) forkState_eq).2,
   driven_of_new forkNet_eq forkState_eq (fun td h => (forkNet_run.2.2.2.2.1 td h).2.2),
   gateBelow_of_new forkNet_eq forkState_eq (fun td h => (forkNet_run.2.2.2.2.1 td h).2.1),
   forkNet_run.2.2.2.2.2.1, forkNet_run.2.2.2.2.2.2.1, forkFirst_eq, forkSecond_eq,
   levelled_pulldown_order_independent id List.reverse 10 10 forkState forkFirst forkSecond
     (allNodes forkState) forkLevel (fun w => List.Perm.refl w)
     (fun w => List.reverse_perm w) forkState_pullDown
     (resetInit_gate (New_gateLists id_visits forkNet_eq) forkState_eq).2
     (driven_of_new forkNet_eq forkState_eq (fun td h => (forkNet_run.2.2.2.2.1 td h).2.2))
     (gateBelow_of_new forkNet_eq forkState_eq (fun td h => (forkNet_run.2.2.2.2.1 td h).2.1))
     (fun x _ => allNodes_covers forkState x) forkFirst_eq forkSecond_eq⟩

end Netsim
